import Mathlib
set_option linter.unusedSectionVars false
set_option linter.unnecessarySeqFocus false

/-!
# laproque: partitioned convolution engine, filters and delays

A shallow embedding of `Convolver`, `TimeVarConvolver`, `FFThelper`, `complexmath`,
`Filter`, `Filterbank`, `Delay`, `MultiDelay`, `CrossFader` and `FadingMultiDelay` of
laproque, over an arbitrary field `R` standing for the sample type (`float` with exact
arithmetic).

* A raw buffer (`float*`, `fftwf_complex*`) is a map from indices to values.
* `fftwf_complex` (`float[2]`) is `Cpx R`, a pair of a real and an imaginary part.
* The FFTW plans are the exact discrete Fourier transform with kernel `w`
  (`e^{-2 pi i / n}` over the reals, see `isDFTKernel_real`); `w` is a parameter of
  the embedding.
* `memcpy` moves a block as a whole. The one call whose source and destination
  overlap, the shift of the spectrum buffer at the end of `process`, is thereby a
  shift by one spectrum.
* Freshly allocated blocks have indeterminate contents, given by `Fresh` and
  `FreshTV`.
* The `unsigned` dimensions are natural numbers (they are taken to fit their
  machine word, as the buffers they size must be allocated). The partition count
  of the `Convolver` constructor is computed as in the source, in single
  precision (`float`, `Convolver.partCount`); for sizes up to `2^24` it is the
  exact ceiling of `n_samples / block_size` (`Convolver.partCount_eq_ceil`). The
  one difference of two `unsigned` values that can be negative, the shift length
  at the end of `process`, wraps around (`Convolver.shiftLength`). Frame counts
  and loop counters are natural numbers as well.
* `complex_multiply` is given twice: on three arrays, for a result block that
  overlaps neither factor block (its call in `_fast_conv`), and on one memory
  with three offsets (`complex_multiply_mem`), where the blocks may overlap.
* A quotient is that of the field `R`; where the source divides by zero, its
  infinities and NaN have no counterpart in `R`, and what is stated on such a
  quotient is stated for a divisor that is not zero.
* The pointers of `Delay`, `MultiDelay` and `FadingMultiDelay` into their ring
  buffer are integer offsets from the start of the buffer; `long` and `ptrdiff_t`
  values are integers.
* A `FadingMultiDelay` allocates `max_delay` samples and sets `_buffer_end` to
  `_buffer + _buffer_size + 1`: the last position of the ring its cores and its
  writer walk through is outside the allocated block, and an access there returns
  `none`. The two tables `fade_in` and `fade_out` of 128 constants are parameters.
* A function that would read or write outside the block it was given, or index a
  vector outside its range, returns `none`; so does a loop that has not ended
  when its fuel is used up.
* `cosf`, `tanf`, `atan2f`, `floorf` and `M_PI` of `math.h` are parameters of the
  embedding; `fabsf` is the absolute value.
* The two threads of a `TimeVarConvolver` are modelled by `Handoff`: each thread
  steps through its function, the steps of the two interleave in any order, and
  the atomic flag is read and written in one step.
-/

/-! # Definitions -/

namespace laproque

/-! ## Complex samples -/

/-- One `fftwf_complex` sample: index 0 is the real part, index 1 the imaginary part. -/
@[ext]
structure Cpx (R : Type) where
  re : R
  im : R
deriving DecidableEq, Repr

namespace Cpx

variable {R : Type} [CommRing R]

instance : Zero (Cpx R) := ⟨⟨0, 0⟩⟩

instance : One (Cpx R) := ⟨⟨1, 0⟩⟩

instance : Add (Cpx R) := ⟨fun a b => ⟨a.re + b.re, a.im + b.im⟩⟩

instance : Neg (Cpx R) := ⟨fun a => ⟨-a.re, -a.im⟩⟩

instance : Sub (Cpx R) := ⟨fun a b => ⟨a.re - b.re, a.im - b.im⟩⟩

instance : Mul (Cpx R) :=
  ⟨fun a b => ⟨a.re * b.re - a.im * b.im, a.re * b.im + a.im * b.re⟩⟩

instance : CommRing (Cpx R) where
  add_assoc a b c := Cpx.ext (add_assoc a.re b.re c.re) (add_assoc a.im b.im c.im)
  zero_add a := Cpx.ext (zero_add a.re) (zero_add a.im)
  add_zero a := Cpx.ext (add_zero a.re) (add_zero a.im)
  add_comm a b := Cpx.ext (add_comm a.re b.re) (add_comm a.im b.im)
  neg_add_cancel a := Cpx.ext (neg_add_cancel a.re) (neg_add_cancel a.im)
  sub_eq_add_neg a b := Cpx.ext (sub_eq_add_neg a.re b.re) (sub_eq_add_neg a.im b.im)
  mul_assoc a b c := Cpx.ext
    (by
      show (a.re * b.re - a.im * b.im) * c.re - (a.re * b.im + a.im * b.re) * c.im
        = a.re * (b.re * c.re - b.im * c.im) - a.im * (b.re * c.im + b.im * c.re)
      ring)
    (by
      show (a.re * b.re - a.im * b.im) * c.im + (a.re * b.im + a.im * b.re) * c.re
        = a.re * (b.re * c.im + b.im * c.re) + a.im * (b.re * c.re - b.im * c.im)
      ring)
  one_mul a := Cpx.ext
    (by show 1 * a.re - 0 * a.im = a.re; ring) (by show 1 * a.im + 0 * a.re = a.im; ring)
  mul_one a := Cpx.ext
    (by show a.re * 1 - a.im * 0 = a.re; ring) (by show a.re * 0 + a.im * 1 = a.im; ring)
  left_distrib a b c := Cpx.ext
    (by
      show a.re * (b.re + c.re) - a.im * (b.im + c.im)
        = a.re * b.re - a.im * b.im + (a.re * c.re - a.im * c.im)
      ring)
    (by
      show a.re * (b.im + c.im) + a.im * (b.re + c.re)
        = a.re * b.im + a.im * b.re + (a.re * c.im + a.im * c.re)
      ring)
  right_distrib a b c := Cpx.ext
    (by
      show (a.re + b.re) * c.re - (a.im + b.im) * c.im
        = a.re * c.re - a.im * c.im + (b.re * c.re - b.im * c.im)
      ring)
    (by
      show (a.re + b.re) * c.im + (a.im + b.im) * c.re
        = a.re * c.im + a.im * c.re + (b.re * c.im + b.im * c.re)
      ring)
  zero_mul a := Cpx.ext
    (by show 0 * a.re - 0 * a.im = 0; ring) (by show 0 * a.im + 0 * a.re = 0; ring)
  mul_zero a := Cpx.ext
    (by show a.re * 0 - a.im * 0 = 0; ring) (by show a.re * 0 + a.im * 0 = 0; ring)
  mul_comm a b := Cpx.ext
    (by show a.re * b.re - a.im * b.im = b.re * a.re - b.im * a.im; ring)
    (by show a.re * b.im + a.im * b.re = b.re * a.im + b.im * a.re; ring)
  nsmul := nsmulRec
  zsmul := zsmulRec

/-- A real sample seen as a complex one. -/
def ofReal (r : R) : Cpx R := ⟨r, 0⟩

/-- Complex conjugate. -/
def conj (a : Cpx R) : Cpx R := ⟨a.re, -a.im⟩

/-- Both parts of a complex sample multiplied by a real factor (`z[0] *= f; z[1] *= f`). -/
def scale (a : Cpx R) (f : R) : Cpx R := ⟨a.re * f, a.im * f⟩

end Cpx

/-! ## Raw memory -/

/-- `memcpy(dst + d, src + s, n * sizeof(elem))`: `n` elements starting at `src + s` are
copied to `dst + d`; the rest of `dst` is kept. The source block is read as it is before
the call (`src` may be the buffer `dst` itself, as in the shift of the spectrum buffer). -/
def memcpy {α : Type} (dst : ℕ → α) (d : ℕ) (src : ℕ → α) (s : ℕ) (n : ℕ) : ℕ → α :=
  fun i => if d ≤ i ∧ i < d + n then src (s + (i - d)) else dst i

section Transforms

variable {R : Type} [CommRing R]

/-! ## FFTW plans (external library), as the exact discrete Fourier transform -/

/-- The spectrum FFTW's real-input plans work with: bins `0 .. n/2` are stored, the bins
above are the conjugates of the stored ones (`X[k] = conj X[n-k]`). -/
def hermitian (n : ℕ) (X : ℕ → Cpx R) (k : ℕ) : Cpx R :=
  if 2 * k ≤ n then X k else Cpx.conj (X (n - k))

/-- Executing a plan of `fftwf_plan_dft_r2c_1d(n, x, out, 0)`: the unnormalised forward DFT
`out[k] = sum_j x[j] * w^(j*k)` of the `n` real samples, bins `0 .. n/2` written. -/
def fftw_r2c (w : Cpx R) (n : ℕ) (x : ℕ → R) (out : ℕ → Cpx R) : ℕ → Cpx R :=
  fun k => if k ≤ n / 2 then ∑ j ∈ Finset.range n, Cpx.ofReal (x j) * w ^ (j * k) else out k

/-- Executing a plan of `fftwf_plan_dft_c2r_1d(n, X, out, 0)`: the unnormalised inverse DFT
`out[m] = sum_k X[k] * conj(w)^(m*k)` of the Hermitian spectrum given by bins `0 .. n/2`;
`n` real samples written. -/
def fftw_c2r (w : Cpx R) (n : ℕ) (X : ℕ → Cpx R) (out : ℕ → R) : ℕ → R :=
  fun m => if m < n then ∑ k ∈ Finset.range n, (hermitian n X k * Cpx.conj w ^ (m * k)).re
    else out m

end Transforms

/-! ## FFThelper -/

/-- State of an `FFThelper`; `w` is the kernel of its two FFTW plans. -/
structure FFThelper (R : Type) where
  _fft_size : ℕ
  _spectrum_size : ℕ
  _norm_fact : R
  _time_domain : ℕ → R
  _freq_domain : ℕ → Cpx R
  w : Cpx R

namespace FFThelper

variable {R : Type} [Field R]

/-- `FFThelper::FFThelper(size)`; `time_domain` and `freq_domain` are the contents of the two
freshly allocated blocks. -/
def new (w : Cpx R) (time_domain : ℕ → R) (freq_domain : ℕ → Cpx R) (size : ℕ) :
    FFThelper R :=
  { _fft_size := size + size % 2
    _spectrum_size := size / 2 + 1
    _norm_fact := (1 / 2) / (((size / 2 + 1 - 1 : ℕ) : R))
    _time_domain := time_domain
    _freq_domain := freq_domain
    w := w }

/-- `FFThelper::real2complex(input, output + o, normalize)`. -/
def real2complex (f : FFThelper R) (input : ℕ → R) (output : ℕ → Cpx R) (o : ℕ)
    (normalize : Bool) : FFThelper R × (ℕ → Cpx R) :=
  let td := memcpy f._time_domain 0 input 0 f._fft_size
  let fd := fftw_r2c f.w f._fft_size td f._freq_domain
  let fd1 : ℕ → Cpx R :=
    if normalize then
      fun idx => if idx < f._spectrum_size then (fd idx).scale f._norm_fact else fd idx
    else fd
  ({ f with _time_domain := td, _freq_domain := fd1 }, memcpy output o fd1 0 f._spectrum_size)

/-- `FFThelper::complex2real(input, output)`. -/
def complex2real (f : FFThelper R) (input : ℕ → Cpx R) (output : ℕ → R) :
    FFThelper R × (ℕ → R) :=
  let fd := memcpy f._freq_domain 0 input 0 f._spectrum_size
  let td := fftw_c2r f.w f._fft_size fd f._time_domain
  ({ f with _time_domain := td, _freq_domain := fd }, memcpy output 0 td 0 f._fft_size)

end FFThelper

/-! ## complexmath -/

/-- `complex_multiply(factor1 + o1, factor2 + o2, result, N)` for a `result` block that
overlaps neither factor block, as in its one call, in `_fast_conv`, where the three blocks
are three allocations: both factors are read as they are before the call. The call on
pointers that may overlap is `complex_multiply_mem`; `complex_multiply_of_disjoint` relates
the two. -/
def complex_multiply {R : Type} [CommRing R] (factor1 : ℕ → Cpx R) (o1 : ℕ)
    (factor2 : ℕ → Cpx R) (o2 : ℕ) (result : ℕ → Cpx R) (N : ℕ) : ℕ → Cpx R :=
  fun idx =>
    if idx < N then
      ⟨(factor1 (o1 + idx)).re * (factor2 (o2 + idx)).re
          - (factor1 (o1 + idx)).im * (factor2 (o2 + idx)).im,
        (factor1 (o1 + idx)).re * (factor2 (o2 + idx)).im
          + (factor1 (o1 + idx)).im * (factor2 (o2 + idx)).re⟩
    else result idx

/-- The body of the loop of `complex_multiply` for the index `idx`, on one memory of
`float`s into which `factor1`, `factor2` and `result` are offsets: sample `idx` of the array
at `p` has its real part at `p + 2 * idx` and its imaginary part at `p + 2 * idx + 1`. The
two assignments are done one after the other, so the second one reads what the first one
has written where `result` overlaps a factor. -/
def complex_multiply_body {R : Type} [CommRing R] (factor1 factor2 result : ℕ) (m : ℕ → R)
    (idx : ℕ) : ℕ → R :=
  let m1 : ℕ → R := fun a =>
    if a = result + 2 * idx then
      m (factor1 + 2 * idx) * m (factor2 + 2 * idx)
        - m (factor1 + 2 * idx + 1) * m (factor2 + 2 * idx + 1)
    else m a
  fun a =>
    if a = result + 2 * idx + 1 then
      m1 (factor1 + 2 * idx) * m1 (factor2 + 2 * idx + 1)
        + m1 (factor1 + 2 * idx + 1) * m1 (factor2 + 2 * idx)
    else m1 a

/-- `complex_multiply(factor1, factor2, result, N)` for three pointers into one memory. -/
def complex_multiply_mem {R : Type} [CommRing R] (m : ℕ → R) (factor1 factor2 result N : ℕ) :
    ℕ → R :=
  (List.range N).foldl (complex_multiply_body factor1 factor2 result) m

/-- A memory of four `float`s: the sample `1 + 2i` at offset 0 and `5 + 6i` at offset 2. -/
def exMem : ℕ → ℚ := fun a => if a = 0 then 1 else if a = 1 then 2 else if a = 2 then 5 else 6

/-- The array of complex samples at the offset `p` of a memory of `float`s. -/
def samplesAt {R : Type} (m : ℕ → R) (p : ℕ) : ℕ → Cpx R :=
  fun i => ⟨m (p + 2 * i), m (p + 2 * i + 1)⟩

/-! ## Single-precision rounding -/

/-- The binary32 value nearest to a positive rational `x`, ties to even: `x` rounded to 24
significant bits. The exponent range of binary32 is not modelled; `x <= 0` gives 0. It is
used for the one place where the rounding of `float` decides an integer, the partition
count of the `Convolver` constructor. -/
def float (x : ℚ) : ℚ :=
  if x ≤ 0 then 0
  else if x / 2 ^ (Int.log 2 x - 23) - ⌊x / 2 ^ (Int.log 2 x - 23)⌋ < 1 / 2
      ∨ (x / 2 ^ (Int.log 2 x - 23) - ⌊x / 2 ^ (Int.log 2 x - 23)⌋ = 1 / 2
        ∧ ⌊x / 2 ^ (Int.log 2 x - 23)⌋ % 2 = 0) then
    ⌊x / 2 ^ (Int.log 2 x - 23)⌋ * 2 ^ (Int.log 2 x - 23)
  else (⌊x / 2 ^ (Int.log 2 x - 23)⌋ + 1) * 2 ^ (Int.log 2 x - 23)

/-! ## Convolver -/

/-- State of a `Convolver`. -/
structure Convolver (R : Type) where
  _fft_size : ℕ
  _block_size : ℕ
  _spectrum_size : ℕ
  _spectra_size : ℕ
  _n_parts : ℕ
  _input : ℕ → R
  _result : ℕ → R
  _input_spectra : ℕ → Cpx R
  _freq_resp_parts : ℕ → Cpx R
  _multiply_buffer : ℕ → Cpx R
  _output_spectr : ℕ → Cpx R
  _fft : FFThelper R

/-- Contents of the blocks handed out by the allocator during construction. They are
indeterminate: nothing may be assumed about them. -/
structure Fresh (R : Type) where
  input_spectra : ℕ → Cpx R
  freq_resp_parts : ℕ → Cpx R
  input : ℕ → R
  output_spectr : ℕ → Cpx R
  multiply_buffer : ℕ → Cpx R
  result : ℕ → R
  padded_imp_resp : ℕ → R
  time_domain : ℕ → R
  freq_domain : ℕ → Cpx R

namespace Convolver

variable {R : Type} [Field R]

/-- `Convolver::_make_allocations()`. -/
def _make_allocations (c : Convolver R) (mem : Fresh R) : Convolver R :=
  { c with
    _input_spectra := mem.input_spectra
    _freq_resp_parts := mem.freq_resp_parts
    _input := mem.input
    _output_spectr := mem.output_spectr
    _multiply_buffer := mem.multiply_buffer
    _result := mem.result }

/-- `Convolver::_compute_freq_resp(imp_resp)`. -/
def _compute_freq_resp (c : Convolver R) (imp_resp : ℕ → R) : Convolver R :=
  let zero_padded_block : ℕ → R := fun _ => 0
  let st := (List.range c._n_parts).foldl
    (fun (st : (ℕ → R) × FFThelper R × (ℕ → Cpx R)) part =>
      let block := memcpy st.1 0 imp_resp (part * c._block_size) c._block_size
      let r := st.2.1.real2complex block st.2.2 (part * c._spectrum_size) false
      (block, r.1, r.2))
    (zero_padded_block, c._fft, c._freq_resp_parts)
  { c with _fft := st.2.1, _freq_resp_parts := st.2.2 }

/-- The partition count `unsigned( ceilf( float(n_samples) / float(_block_size) ) )` of the
constructor: both sizes are converted to `float`, the quotient is a `float` division, and
`ceilf` of a `float` is exact. For `block_size = 0` the quotient of the source is infinite
or not a number and its conversion to `unsigned` is undefined; the value 0 here stands for
nothing then; so does a value here of `2^32` or more. -/
def partCount (n_samples block_size : ℕ) : ℕ :=
  ⌈float (float (n_samples : ℚ) / float (block_size : ℚ))⌉₊

/-- `Convolver::Convolver(imp_resp, n_samples, block_size)`. The block `padded_imp_resp` has
`_block_size * _n_parts` samples; the `memcpy` of `n_samples` samples into it runs past its
end when the partition count is too small for `n_samples`, which the function `memcpy` on
unbounded buffers does not show: `_compute_freq_resp` reads the samples below
`_block_size * _n_parts` only. -/
def new (w : Cpx R) (mem : Fresh R) (imp_resp : ℕ → R) (n_samples block_size : ℕ) :
    Convolver R :=
  let n_parts := partCount n_samples block_size
  let c0 : Convolver R :=
    { _fft_size := block_size * 2
      _block_size := block_size
      _spectrum_size := block_size + 1
      _n_parts := n_parts
      _spectra_size := (block_size + 1) * n_parts
      _input := fun _ => 0
      _result := fun _ => 0
      _input_spectra := fun _ => 0
      _freq_resp_parts := fun _ => 0
      _multiply_buffer := fun _ => 0
      _output_spectr := fun _ => 0
      _fft := FFThelper.new w mem.time_domain mem.freq_domain (block_size * 2) }
  let c1 := c0._make_allocations mem
  let c2 := { c1 with _input := fun idx => if idx < c1._fft_size then 0 else c1._input idx }
  let padded0 : ℕ → R := fun idx =>
    if block_size * (n_parts - 1) ≤ idx ∧ idx < block_size * n_parts then 0
    else mem.padded_imp_resp idx
  let padded_imp_resp := memcpy padded0 0 imp_resp 0 n_samples
  c2._compute_freq_resp padded_imp_resp

/-- `Convolver::Convolver(Convolver& conv)`: the dimensions are copied, the buffers are
freshly allocated and left as the allocator hands them out. The plans of the new
`FFThelper` have the size, hence the kernel, of those of `conv`. -/
def copy (mem : Fresh R) (conv : Convolver R) : Convolver R :=
  let c0 : Convolver R :=
    { _fft_size := conv._fft_size
      _block_size := conv._block_size
      _spectrum_size := conv._spectrum_size
      _n_parts := conv._n_parts
      _spectra_size := conv._spectra_size
      _input := fun _ => 0
      _result := fun _ => 0
      _input_spectra := fun _ => 0
      _freq_resp_parts := fun _ => 0
      _multiply_buffer := fun _ => 0
      _output_spectr := fun _ => 0
      _fft := FFThelper.new conv._fft.w mem.time_domain mem.freq_domain conv._fft_size }
  c0._make_allocations mem

/-- `Convolver::_fast_conv()`. -/
def _fast_conv (c : Convolver R) : Convolver R :=
  let os0 : ℕ → Cpx R := fun bin => if bin < c._spectrum_size then ⟨0, 0⟩ else c._output_spectr bin
  let r := c._fft.real2complex c._input c._input_spectra 0 true
  let acc := (List.range c._n_parts).foldl
    (fun (st : (ℕ → Cpx R) × (ℕ → Cpx R)) part =>
      let mb := complex_multiply r.2 (part * c._spectrum_size) c._freq_resp_parts
        (part * c._spectrum_size) st.1 c._spectrum_size
      (mb, fun bin =>
        if bin < c._spectrum_size then
          ⟨(st.2 bin).re + (mb bin).re, (st.2 bin).im + (mb bin).im⟩
        else st.2 bin))
    (c._multiply_buffer, os0)
  let q := r.1.complex2real acc.2 c._result
  { c with
    _input_spectra := r.2
    _multiply_buffer := acc.1
    _output_spectr := acc.2
    _fft := q.1
    _result := q.2 }

/-- The element count `_spectra_size - _spectrum_size` of the `memcpy` that shifts the
spectrum buffer at the end of `process`: a subtraction of two `unsigned` values, which
wraps around when the engine has no partition (`_spectra_size = 0`). -/
def shiftLength (c : Convolver R) : ℕ :=
  if c._spectrum_size ≤ c._spectra_size then c._spectra_size - c._spectrum_size
  else 2 ^ 32 - (c._spectrum_size - c._spectra_size)

/-- The shift at the end of `process` stays within the spectrum buffer: it writes
`shiftLength` elements from index `_spectrum_size` on, into a block of `_spectra_size`
elements. -/
def shiftInBounds (c : Convolver R) : Prop :=
  c._spectrum_size + c.shiftLength ≤ c._spectra_size

instance (c : Convolver R) : Decidable c.shiftInBounds := by
  unfold shiftInBounds
  infer_instance

/-- `Convolver::process(in_buffer, out_buffer)`; returns the new state and the contents of
`out_buffer`. With no partition the shift at the end is not within the spectrum buffer
(`shiftInBounds`) and the call of the source does not return; the buffers here are
unbounded, so that case shows in the hypothesis `0 < _n_parts` only. -/
def process (c : Convolver R) (in_buffer out_buffer : ℕ → R) : Convolver R × (ℕ → R) :=
  let c1 := { c with _input := memcpy c._input c._block_size in_buffer 0 c._block_size }
  let c2 := c1._fast_conv
  let out := memcpy out_buffer 0 c2._result c2._block_size c2._block_size
  let c3 := { c2 with _input := memcpy c2._input 0 in_buffer 0 c2._block_size }
  ({ c3 with
      _input_spectra := memcpy c3._input_spectra c3._spectrum_size c3._input_spectra 0
        c3.shiftLength },
    out)

/-- `Convolver::reset_input_buffer()`. -/
def reset_input_buffer (c : Convolver R) : Convolver R :=
  { c with
    _input_spectra := fun idx => if idx < c._spectra_size then ⟨0, 0⟩ else c._input_spectra idx
    _input := fun idx => if idx < c._fft_size then 0 else c._input idx }

/-- `Convolver::set_freq_response(new_response)`. -/
def set_freq_response (c : Convolver R) (new_response : ℕ → Cpx R) : Convolver R :=
  { c with _freq_resp_parts := memcpy c._freq_resp_parts 0 new_response 0 c._spectra_size }

end Convolver

/-! ## TimeVarConvolver -/

/-- State of a `TimeVarConvolver`. The two partition blocks are allocated separately and the
pointers `_freq_resp_parts` and `_other_freq_resp` are only ever exchanged, so each pointer
is given by the address of the block it designates (`..._addr`) together with the contents
of that block. -/
structure TimeVarConvolver (R : Type) extends Convolver R where
  _freq_resp_parts_addr : ℕ
  _other_freq_resp : ℕ → Cpx R
  _other_freq_resp_addr : ℕ
  _pointer_backup : ℕ
  _has_changed : Bool
  _up_ramp : ℕ → R
  _down_ramp : ℕ → R
  _fade_buffer : ℕ → R

/-- Blocks handed out by the allocator to the `TimeVarConvolver` constructor: indeterminate
contents, and the addresses of the two partition blocks, which are distinct as the blocks
are live at the same time. -/
structure FreshTV (R : Type) where
  up_ramp : ℕ → R
  down_ramp : ℕ → R
  fade_buffer : ℕ → R
  other_freq_resp : ℕ → Cpx R
  freq_resp_parts_addr : ℕ
  other_freq_resp_addr : ℕ
  pointer_backup : ℕ
  live_distinct : freq_resp_parts_addr ≠ other_freq_resp_addr

namespace TimeVarConvolver

variable {R : Type} [Field R]

/-- `TimeVarConvolver::_setup_ramps()`, run on freshly allocated ramps `up` and `down`;
returns `(_up_ramp, _down_ramp)`. `cosf` and `M_PI` are those of `math.h`. -/
def _setup_ramps (cosf : R → R) (M_PI : R) (block_size : ℕ) (up down : ℕ → R) :
    (ℕ → R) × (ℕ → R) :=
  let phase_increment : R := (M_PI / 2) / (block_size : R)
  let st := (List.range block_size).foldl
    (fun (st : R × (ℕ → R) × (ℕ → R)) idx =>
      let d0 := Function.update st.2.2 idx (cosf st.1)
      let d1 := Function.update d0 idx (d0 idx * d0 idx)
      let u1 := Function.update st.2.1 idx (1 - d1 idx)
      (st.1 + phase_increment, u1, d1))
    ((0 : R), up, down)
  (st.2.1, st.2.2)

/-- `TimeVarConvolver::TimeVarConvolver(imp_resp, n_samples, block_size)`. -/
def new (w : Cpx R) (cosf : R → R) (M_PI : R) (mem : Fresh R) (memTV : FreshTV R)
    (imp_resp : ℕ → R) (n_samples block_size : ℕ) : TimeVarConvolver R :=
  let c := { Convolver.new w mem imp_resp n_samples block_size with _block_size := block_size }
  let ramps := _setup_ramps cosf M_PI c._block_size memTV.up_ramp memTV.down_ramp
  { toConvolver := c
    _freq_resp_parts_addr := memTV.freq_resp_parts_addr
    _other_freq_resp := memTV.other_freq_resp
    _other_freq_resp_addr := memTV.other_freq_resp_addr
    _pointer_backup := memTV.pointer_backup
    _has_changed := false
    _up_ramp := ramps.1
    _down_ramp := ramps.2
    _fade_buffer := memTV.fade_buffer }

/-- `TimeVarConvolver::TimeVarConvolver(TimeVarConvolver& tvconv)`. -/
def copy (cosf : R → R) (M_PI : R) (mem : Fresh R) (memTV : FreshTV R)
    (tvconv : TimeVarConvolver R) : TimeVarConvolver R :=
  let c := Convolver.copy mem tvconv.toConvolver
  let ramps := _setup_ramps cosf M_PI c._block_size memTV.up_ramp memTV.down_ramp
  { toConvolver := c
    _freq_resp_parts_addr := memTV.freq_resp_parts_addr
    _other_freq_resp := memTV.other_freq_resp
    _other_freq_resp_addr := memTV.other_freq_resp_addr
    _pointer_backup := memTV.pointer_backup
    _has_changed := false
    _up_ramp := ramps.1
    _down_ramp := ramps.2
    _fade_buffer := memTV.fade_buffer }

/-- `TimeVarConvolver::process(in_buffer, out_buffer)`; returns the new state and the
contents of `out_buffer`. -/
def process (s : TimeVarConvolver R) (in_buffer out_buffer : ℕ → R) :
    TimeVarConvolver R × (ℕ → R) :=
  let s1 : TimeVarConvolver R :=
    { s with _input := memcpy s._input s._block_size in_buffer 0 s._block_size }
  let s2 : TimeVarConvolver R := { s1 with toConvolver := s1.toConvolver._fast_conv }
  let s3 : TimeVarConvolver R :=
    if s2._has_changed then
      let fade := memcpy s2._fade_buffer 0 s2._result s2._block_size s2._block_size
      let swapped : TimeVarConvolver R :=
        { s2 with
          _fade_buffer := fade
          _pointer_backup := s2._freq_resp_parts_addr
          _freq_resp_parts := s2._other_freq_resp
          _freq_resp_parts_addr := s2._other_freq_resp_addr
          _other_freq_resp := s2._freq_resp_parts
          _other_freq_resp_addr := s2._freq_resp_parts_addr }
      let t : TimeVarConvolver R :=
        { swapped with toConvolver := swapped.toConvolver._fast_conv }
      { t with
        _result := fun i =>
          if t._block_size ≤ i ∧ i < t._block_size + t._block_size then
            t._fade_buffer (i - t._block_size) * t._down_ramp (i - t._block_size)
              + t._result i * t._up_ramp (i - t._block_size)
          else t._result i
        _has_changed := false }
    else s2
  let out := memcpy out_buffer 0 s3._result s3._block_size s3._block_size
  let s4 : TimeVarConvolver R :=
    { s3 with _input := memcpy s3._input 0 in_buffer 0 s3._block_size }
  ({ s4 with
      _input_spectra := memcpy s4._input_spectra s4._spectrum_size s4._input_spectra 0
        s4.shiftLength },
    out)

/-- `TimeVarConvolver::set_partitions(new_partitions)`. -/
def set_partitions (s : TimeVarConvolver R) (new_partitions : ℕ → Cpx R) :
    TimeVarConvolver R :=
  { s with
    _other_freq_resp := memcpy s._other_freq_resp 0 new_partitions 0 s._spectra_size
    _has_changed := true }

end TimeVarConvolver

section DFT

variable {R : Type} [CommRing R]

/-! ## The discrete Fourier transform -/

/-- The analysis sum of the forward transform of size `n` with kernel `w`. -/
def dft (w : Cpx R) (n : ℕ) (u : ℕ → R) (k : ℕ) : Cpx R :=
  ∑ j ∈ Finset.range n, Cpx.ofReal (u j) * w ^ (j * k)

/-- The complex number `w` is a kernel of the exact DFT of size `n`: a primitive `n`-th root
of unity of modulus one, as `e^{-2 pi i / n}` is. Primitivity is given by the orthogonality
of the powers. -/
structure IsDFTKernel (w : Cpx R) (n : ℕ) : Prop where
  pow_eq_one : w ^ n = 1
  mul_conj : w * Cpx.conj w = 1
  orth : ∀ d, 0 < d → d < n → ∑ k ∈ Finset.range n, w ^ (d * k) = 0

end DFT

namespace Convolver

variable {R : Type} [Field R]

/-! ## The convolution step -/

/-- The dimensions of an engine are those set by its constructor. -/
structure DimsOk (c : Convolver R) : Prop where
  fft_size : c._fft_size = c._block_size * 2
  spectrum_size : c._spectrum_size = c._block_size + 1
  spectra_size : c._spectra_size = c._spectrum_size * c._n_parts
  fft_fft_size : c._fft._fft_size = c._block_size * 2
  fft_spectrum_size : c._fft._spectrum_size = c._block_size + 1

/-- The multiply-and-accumulate loop of `_fast_conv`. -/
def accumulate (S : ℕ) (isp frp : ℕ → Cpx R) (P : ℕ) (init : (ℕ → Cpx R) × (ℕ → Cpx R)) :
    (ℕ → Cpx R) × (ℕ → Cpx R) :=
  (List.range P).foldl
    (fun (st : (ℕ → Cpx R) × (ℕ → Cpx R)) part =>
      let mb := complex_multiply isp (part * S) frp (part * S) st.1 S
      (mb, fun bin =>
        if bin < S then ⟨(st.2 bin).re + (mb bin).re, (st.2 bin).im + (mb bin).im⟩
        else st.2 bin))
    init

/-- The engine after the first statement of `process`: the input block is in the second
half of the time window. -/
def load (c : Convolver R) (in_buffer : ℕ → R) : Convolver R :=
  { c with _input := memcpy c._input c._block_size in_buffer 0 c._block_size }

/-! ## Construction -/

/-- The loop of `_compute_freq_resp` over the partitions. -/
def freqRespLoop (B S : ℕ) (imp_resp : ℕ → R) (P : ℕ)
    (init : (ℕ → R) × FFThelper R × (ℕ → Cpx R)) : (ℕ → R) × FFThelper R × (ℕ → Cpx R) :=
  (List.range P).foldl
    (fun (st : (ℕ → R) × FFThelper R × (ℕ → Cpx R)) part =>
      let block := memcpy st.1 0 imp_resp (part * B) B
      let r := st.2.1.real2complex block st.2.2 (part * S) false
      (block, r.1, r.2))
    init

/-- Block `p` of an impulse response, zero-padded to twice the block size. -/
def zeroPaddedBlock (B : ℕ) (imp_resp : ℕ → R) (p : ℕ) (j : ℕ) : R :=
  if j < B then imp_resp (p * B + j) else 0

/-- What the loop of `_compute_freq_resp` has established after `P` partitions. -/
structure FreqRespInv (B : ℕ) (imp_resp : ℕ → R) (f0 : FFThelper R) (P : ℕ)
    (st : (ℕ → R) × FFThelper R × (ℕ → Cpx R)) : Prop where
  fft_size : st.2.1._fft_size = f0._fft_size
  spectrum_size : st.2.1._spectrum_size = f0._spectrum_size
  norm_fact : st.2.1._norm_fact = f0._norm_fact
  kernel : st.2.1.w = f0.w
  upper_zero : ∀ j, B ≤ j → st.1 j = 0
  parts : ∀ p, p < P → ∀ bin, bin < B + 1 →
    st.2.2 (p * (B + 1) + bin) = dft f0.w (B * 2) (zeroPaddedBlock B imp_resp p) bin

/-- The zero-padded copy of the impulse response the constructor builds. -/
def paddedImpResp (mem : Fresh R) (imp_resp : ℕ → R) (n_samples block_size : ℕ) : ℕ → R :=
  memcpy
    (fun idx =>
      if block_size * (partCount n_samples block_size - 1) ≤ idx
          ∧ idx < block_size * partCount n_samples block_size then 0
      else mem.padded_imp_resp idx)
    0 imp_resp 0 n_samples

end Convolver

section Streams

variable {R : Type} [Field R]

/-! ## Streams of blocks -/

/-- Block `t` of a sample stream cut into blocks of `B` samples. -/
def blockOf (B : ℕ) (x : ℕ → R) (t : ℕ) : ℕ → R := fun i => x (t * B + i)

/-- The linear convolution of the spec: `y[n] = sum_{j<N} h[j] * x[n-j]`, with `x[m] = 0`
for `m < 0`. -/
def linearConvolution (h : ℕ → R) (N : ℕ) (x : ℕ → R) (n : ℕ) : R :=
  ∑ j ∈ Finset.range N, if j ≤ n then h j * x (n - j) else 0

/-- The engine after `t` successive `process` calls, call `s` on block `xs s` with output
buffer `outs s`. -/
def Convolver.run (c : Convolver R) (xs outs : ℕ → ℕ → R) : ℕ → Convolver R
  | 0 => c
  | t + 1 => ((Convolver.run c xs outs t).process (xs t) (outs t)).1

/-- The output block of call `t` in a run of successive `process` calls. -/
def Convolver.outputs (c : Convolver R) (xs outs : ℕ → ℕ → R) (t : ℕ) : ℕ → R :=
  ((c.run xs outs t).process (xs t) (outs t)).2

/-- The concatenation of the output blocks of successive `process` calls on the blocks of
the stream `x`. -/
def Convolver.outputStream (c : Convolver R) (B : ℕ) (x : ℕ → R) (outs : ℕ → ℕ → R) (n : ℕ) :
    R :=
  c.outputs (blockOf B x) outs (n / B) (n % B)

/-- The `2 B` samples of the stream that were in the time window `p` calls before call `t`
(zero before the start of the stream). -/
def pastWindow (B : ℕ) (x : ℕ → R) (t p j : ℕ) : R :=
  if (p + 1) * B ≤ t * B + j then x (t * B + j - (p + 1) * B) else 0

/-- The state of an engine with `P` partitions of the impulse response `h` that has consumed
the first `t` blocks of the stream `x`. -/
structure StreamInv (w : Cpx R) (B P : ℕ) (h x : ℕ → R) (c : Convolver R) (t : ℕ) : Prop where
  dims : c.DimsOk
  block_size : c._block_size = B
  n_parts : c._n_parts = P
  kernel : c._fft.w = w
  norm_fact : c._fft._norm_fact = (1 / 2) / (B : R)
  parts : ∀ p, p < P → ∀ bin, bin < B + 1 →
    c._freq_resp_parts (p * (B + 1) + bin) = dft w (B * 2) (Convolver.zeroPaddedBlock B h p) bin
  input : ∀ j, j < B → c._input j = pastWindow B x t 0 j
  spectra : ∀ p, 1 ≤ p → p < P → ∀ bin, bin < B + 1 →
    c._input_spectra (p * (B + 1) + bin)
      = Cpx.ofReal ((1 / 2) / (B : R)) * dft w (B * 2) (pastWindow B x t p) bin

end Streams

section RealKernel

/-! ## The kernel of the DFT over the reals -/

/-- A complex sample over the reals as a complex number. -/
def Cpx.toComplex (z : Cpx ℝ) : ℂ := ⟨z.re, z.im⟩

end RealKernel

section Examples

/-! ## Concrete engines over the rationals -/

/-- Arbitrary non-zero contents for freshly allocated blocks. -/
def exFresh : Fresh ℚ :=
  { input_spectra := fun _ => ⟨7, 5⟩
    freq_resp_parts := fun _ => ⟨3, 2⟩
    input := fun _ => 9
    output_spectr := fun _ => ⟨4, 1⟩
    multiply_buffer := fun _ => ⟨6, 8⟩
    result := fun _ => 11
    padded_imp_resp := fun _ => 13
    time_domain := fun _ => 15
    freq_domain := fun _ => ⟨17, 19⟩ }

/-- An impulse response of three samples. -/
def exImp : ℕ → ℚ := fun j => if j = 0 then 1 else if j = 1 then 1 / 2 else 3

/-- An input stream. -/
def exStream : ℕ → ℚ := fun n => (n : ℚ) + 1

/-- Output buffers holding arbitrary contents before each call. -/
def exOuts : ℕ → ℕ → ℚ := fun _ _ => 21

/-- The kernel `e^{-2 pi i / 4} = -i` of the DFT of size 4. -/
def kernel4 : Cpx ℚ := ⟨0, -1⟩

/-- The kernel `e^{-2 pi i / 2} = -1` of the DFT of size 2. -/
def kernel2 : Cpx ℚ := ⟨-1, 0⟩

end Examples

section Rest

variable {R : Type} [Field R]

/-- The engine holds no trace of earlier input: the first half of the time window and the
stored spectra of earlier blocks are zero. -/
structure Convolver.AtRest (c : Convolver R) : Prop where
  input : ∀ j, j < c._block_size → c._input j = 0
  spectra : ∀ i, c._spectrum_size ≤ i → i < c._spectra_size → c._input_spectra i = 0

end Rest

section ExamplesState

/-- A two-partition engine (impulse response `[1, 1]`, block size 1) that has been reset and
has then processed the block `[1]`. -/
def exState : Convolver ℚ :=
  ((Convolver.new kernel2 exFresh (fun _ => 1) 2 1).reset_input_buffer.process
    (fun i => if i = 0 then 1 else 0) (exOuts 0)).1

/-- The all-zero block. -/
def exZero : ℕ → ℚ := fun _ => 0

end ExamplesState

section Agree

variable {R : Type} [Field R]

/-! ## Engines that agree on the live part of their buffers -/

/-- Two engines have the same dimensions and transforms and agree on the parts of their
buffers that `process` reads: the first half of the time window, the stored spectra of
earlier blocks and the partitions. -/
structure Convolver.Agree (c d : Convolver R) : Prop where
  block_size : c._block_size = d._block_size
  n_parts : c._n_parts = d._n_parts
  kernel : c._fft.w = d._fft.w
  norm_fact : c._fft._norm_fact = d._fft._norm_fact
  input : ∀ j, j < c._block_size → c._input j = d._input j
  spectra : ∀ i, c._spectrum_size ≤ i → i < c._spectra_size →
    c._input_spectra i = d._input_spectra i
  parts : ∀ i, i < c._spectra_size → c._freq_resp_parts i = d._freq_resp_parts i

end Agree

namespace TimeVarConvolver

variable {R : Type} [Field R]

/-- The base engine at the second `_fast_conv` of a swap block: the spectra of the first
`_fast_conv`, the standby partitions. -/
def swapped (s : TimeVarConvolver R) (x : ℕ → R) : Convolver R :=
  { (s.toConvolver.load x)._fast_conv with _freq_resp_parts := s._other_freq_resp }

end TimeVarConvolver

/-- The engine `c` with the partition set `X` in place of its own. -/
def Convolver.withParts {R : Type} (c : Convolver R) (X : ℕ → Cpx R) : Convolver R :=
  { c with _freq_resp_parts := X }

namespace TimeVarConvolver

variable {R : Type} [Field R]

/-- The loop of `_setup_ramps`. -/
def rampLoop (cosf : R → R) (phase_increment : R) (n : ℕ) (init : R × (ℕ → R) × (ℕ → R)) :
    R × (ℕ → R) × (ℕ → R) :=
  (List.range n).foldl
    (fun (st : R × (ℕ → R) × (ℕ → R)) idx =>
      let d0 := Function.update st.2.2 idx (cosf st.1)
      let d1 := Function.update d0 idx (d0 idx * d0 idx)
      let u1 := Function.update st.2.1 idx (1 - d1 idx)
      (st.1 + phase_increment, u1, d1))
    init

/-- The states a `TimeVarConvolver` can be in: those left by a constructor and by any
sequence of calls of its public functions. -/
inductive Reachable : TimeVarConvolver R → Prop
  | new (w : Cpx R) (cosf : R → R) (M_PI : R) (mem : Fresh R) (memTV : FreshTV R)
      (imp_resp : ℕ → R) (n_samples block_size : ℕ) (hN : 1 ≤ n_samples)
      (hB : 1 ≤ block_size) :
      Reachable (TimeVarConvolver.new w cosf M_PI mem memTV imp_resp n_samples block_size)
  | copy (cosf : R → R) (M_PI : R) (mem : Fresh R) (memTV : FreshTV R)
      (s : TimeVarConvolver R) (hs : Reachable s) :
      Reachable (TimeVarConvolver.copy cosf M_PI mem memTV s)
  | process (s : TimeVarConvolver R) (x o : ℕ → R) (hs : Reachable s) :
      Reachable (s.process x o).1
  | set_partitions (s : TimeVarConvolver R) (X : ℕ → Cpx R) (hs : Reachable s) :
      Reachable (s.set_partitions X)
  | reset_input_buffer (s : TimeVarConvolver R) (hs : Reachable s) :
      Reachable { s with toConvolver := s.toConvolver.reset_input_buffer }
  | set_freq_response (s : TimeVarConvolver R) (X : ℕ → Cpx R) (hs : Reachable s) :
      Reachable { s with toConvolver := s.toConvolver.set_freq_response X }

/-- What holds in every state of a `TimeVarConvolver`. -/
structure Inv (s : TimeVarConvolver R) : Prop where
  dims : s.DimsOk
  distinct : s._freq_resp_parts_addr ≠ s._other_freq_resp_addr
  ramps : ∀ i, i < s._block_size → s._up_ramp i = 1 - s._down_ramp i

end TimeVarConvolver

section ExamplesTV

/-! ## Concrete time-varying engines -/

/-- A rational stand-in for `cosf`, exact at phase 0. -/
def exCos : ℚ → ℚ := fun t => 1 - t * t / 2

/-- A rational stand-in for `M_PI`. -/
def exPi : ℚ := 22 / 7

/-- Arbitrary contents and two distinct addresses for the blocks of a `TimeVarConvolver`. -/
def exFreshTV : FreshTV ℚ :=
  { up_ramp := fun _ => 23
    down_ramp := fun _ => 25
    fade_buffer := fun _ => 27
    other_freq_resp := fun _ => ⟨29, 31⟩
    freq_resp_parts_addr := 4096
    other_freq_resp_addr := 8192
    pointer_backup := 0
    live_distinct := by decide }

/-- A time-varying engine with impulse response `[1]` and block size 1. -/
def exTV : TimeVarConvolver ℚ :=
  TimeVarConvolver.new kernel2 exCos exPi exFresh exFreshTV (fun _ => 1) 1 1

/-- The partition set of the impulse response `[2]` for block size 1. -/
def exParts2 : ℕ → Cpx ℚ := fun _ => ⟨2, 0⟩

/-- The block `[1]`. -/
def exOne : ℕ → ℚ := fun _ => 1

end ExamplesTV

namespace TimeVarConvolver

variable {R : Type} [Field R]

/-- The engine after `t` successive `process` calls, call `s` on block `xs s` with output
buffer `outs s`. -/
def run (s : TimeVarConvolver R) (xs outs : ℕ → ℕ → R) : ℕ → TimeVarConvolver R
  | 0 => s
  | t + 1 => ((run s xs outs t).process (xs t) (outs t)).1

/-- The output block of call `t` in a run of successive `process` calls. -/
def outputs (s : TimeVarConvolver R) (xs outs : ℕ → ℕ → R) (t : ℕ) : ℕ → R :=
  ((s.run xs outs t).process (xs t) (outs t)).2

/-- The engine `a` gives the outputs of the engine `b`, which has no swap pending: they agree
on the live part of their buffers, and if `a` has a swap pending its standby set is a copy of
its active set. -/
structure Follows (a b : TimeVarConvolver R) : Prop where
  agree : a.toConvolver.Agree b.toConvolver
  dimsA : a.DimsOk
  dimsB : b.DimsOk
  idle : b._has_changed = false
  ramps : ∀ i, i < a._block_size → a._up_ramp i = 1 - a._down_ramp i
  standby : a._has_changed = true →
    ∀ i, i < a._spectra_size → a._other_freq_resp i = a._freq_resp_parts i

end TimeVarConvolver

namespace FFThelper

variable {R : Type} [Field R]

/-- `FFThelper::get_spetrum_size()`. -/
def get_spetrum_size (f : FFThelper R) : ℕ := f._spectrum_size

/-- `FFThelper::get_norm_fact()`. -/
def get_norm_fact (f : FFThelper R) : R := f._norm_fact

/-- `FFThelper::set_norm_fact(norm_fact)`. -/
def set_norm_fact (f : FFThelper R) (norm_fact : R) : FFThelper R :=
  { f with _norm_fact := norm_fact }

/-- `FFThelper::reset_norm_fact()`. -/
def reset_norm_fact (f : FFThelper R) : FFThelper R :=
  { f with _norm_fact := (1 / 2) / (((f._spectrum_size - 1 : ℕ) : R)) }

end FFThelper

namespace Convolver

variable {R : Type} [Field R]

/-- `Convolver::get_fft_size()`. -/
def get_fft_size (c : Convolver R) : ℕ := c._fft_size

/-- `Convolver::get_block_size()`. -/
def get_block_size (c : Convolver R) : ℕ := c._block_size

/-- `Convolver::get_spectrum_size()`. -/
def get_spectrum_size (c : Convolver R) : ℕ := c._spectrum_size

/-- `Convolver::get_spectra_size()`. -/
def get_spectra_size (c : Convolver R) : ℕ := c._spectra_size

/-- `Convolver::get_n_parts()`. -/
def get_n_parts (c : Convolver R) : ℕ := c._n_parts

end Convolver

section ExamplesTV4

/-- A time-varying engine with impulse response `[1]` and block size 2. -/
def exTV4 : TimeVarConvolver ℚ :=
  TimeVarConvolver.new kernel4 exCos exPi exFresh exFreshTV (fun _ => 1) 1 2

end ExamplesTV4

section ExamplesHelper

/-- A two-partition engine (impulse response `[1, 1]`, block size 1) as constructed. -/
def exNew : Convolver ℚ := Convolver.new kernel2 exFresh (fun _ => 1) 2 1

/-- An `FFThelper` of size 4 over the rationals. -/
def exFFT : FFThelper ℚ := FFThelper.new kernel4 exFresh.time_domain exFresh.freq_domain 4

/-- An `FFThelper` built with the odd size 3. -/
def exFFT3 : FFThelper ℚ := FFThelper.new kernel4 exFresh.time_domain exFresh.freq_domain 3

/-- The unit impulse. -/
def exDelta : ℕ → ℚ := fun j => if j = 0 then 1 else 0

/-- A buffer of complex bins, followed in memory by `beyond`. -/
def bufferOf {R : Type} (l : List (Cpx R)) (beyond : ℕ → Cpx R) : ℕ → Cpx R :=
  fun i => l.getD i (beyond i)

/-- Three bins: one more than the two bins of the partition set of `exTV`. -/
def exLong : List (Cpx ℚ) := [⟨2, 0⟩, ⟨2, 0⟩, ⟨2, 0⟩]

end ExamplesHelper

/-! ## complexmath: interpolation -/

section ComplexInterp

variable {R : Type} [CommRing R]

/-- `complex_interp(base, neighbour, result, base_fract, N)`. -/
def complex_interp (base neighbour result : ℕ → Cpx R) (base_fract : R) (N : ℕ) :
    ℕ → Cpx R :=
  let inv_fract := 1 - base_fract
  fun idx =>
    if idx < N then
      ⟨(base idx).re * base_fract + (neighbour idx).re * inv_fract,
        (base idx).im * base_fract + (neighbour idx).im * inv_fract⟩
    else result idx

/-- `complex_bilin_interp(base, x_neighbour, y_neigbour, diag_neighbour, result, x_fract,
y_fract, N)`; the loop runs over the indices `N-1` down to `0`, each written once. -/
def complex_bilin_interp (base x_neighbour y_neigbour diag_neighbour result : ℕ → Cpx R)
    (x_fract y_fract : R) (N : ℕ) : ℕ → Cpx R :=
  let next_x_fract := 1 - x_fract
  let next_y_fract := 1 - y_fract
  fun idx =>
    if idx < N then
      ⟨((base idx).re * next_x_fract + (x_neighbour idx).re * x_fract) * next_y_fract
          + ((y_neigbour idx).re * next_x_fract + (diag_neighbour idx).re * x_fract) * y_fract,
        ((base idx).im * next_x_fract + (x_neighbour idx).im * x_fract) * next_y_fract
          + ((y_neigbour idx).im * next_x_fract + (diag_neighbour idx).im * x_fract) * y_fract⟩
    else result idx

end ComplexInterp

/-! ## Filter -/

/-- The `enum filter_type` of `Filter.hpp`. -/
inductive filter_type where
  | HIGH
  | LOW
deriving DecidableEq, Repr

/-- State of a `Filter`; the two coefficient arrays `float[2]` are pairs. -/
structure Filter (R : Type) where
  _f_type : filter_type
  _cutoff_freq : R
  _sample_rate : ℕ
  _a_coeffs : R × R
  _b_coeffs : R × R
  _in_dlyline : R
  _out_dlyline : R
  _in_dlyline_backup : R
  _out_dlyline_backup : R

namespace Filter

variable {R : Type} [Field R]

/-- `Filter::_compute_coeffs()`; `tanf` and `M_PI` are those of `math.h`. The three
quotients are those of the field `R`, which are the `float` ones where the divisor is not
zero. Where `tanf(..)` is 0 (a cutoff frequency of 0), the sample rate is 0 or `1 + c` is 0
the source computes with infinities and NaN, which `R` does not have; so what is stated
on the values of the coefficients is stated for divisors that are not zero. -/
def _compute_coeffs (tanf : R → R) (M_PI : R) (f : Filter R) : Filter R :=
  let c : R := 1 / tanf (M_PI * (f._cutoff_freq / (f._sample_rate : R)))
  let b0 : R := 1 / (1 + c)
  let b1 : R := b0
  let a0 : R := 1
  let a1 : R := (1 - c) / (1 + c)
  if f._f_type = filter_type.HIGH then
    { f with
      _a_coeffs := (a0, a1)
      _b_coeffs := (1 - b0, -(1 - b0)) }
  else
    { f with
      _a_coeffs := (a0, a1)
      _b_coeffs := (b0, b1) }

/-- `Filter::Filter(type, cutoff_freq, sample_rate)`: the delay lines and their backups are
zero by their member initialisers; both coefficient arrays are written by
`_compute_coeffs`. -/
def new (tanf : R → R) (M_PI : R) (f_type : filter_type) (cutoff_freq : R)
    (sample_rate : ℕ) : Filter R :=
  _compute_coeffs tanf M_PI
    { _f_type := f_type
      _cutoff_freq := cutoff_freq
      _sample_rate := sample_rate
      _a_coeffs := (0, 0)
      _b_coeffs := (0, 0)
      _in_dlyline := 0
      _out_dlyline := 0
      _in_dlyline_backup := 0
      _out_dlyline_backup := 0 }

/-- `Filter::set_sample_rate(sample_rate)`. -/
def set_sample_rate (tanf : R → R) (M_PI : R) (f : Filter R) (sample_rate : ℕ) : Filter R :=
  _compute_coeffs tanf M_PI { f with _sample_rate := sample_rate }

/-- `Filter::get_cutoff_freq()`. -/
def get_cutoff_freq (f : Filter R) : R := f._cutoff_freq

/-- `Filter::set_cutoff_freq(co_freq)`. -/
def set_cutoff_freq (tanf : R → R) (M_PI : R) (f : Filter R) (co_freq : R) : Filter R :=
  _compute_coeffs tanf M_PI { f with _cutoff_freq := co_freq }

/-- `Filter::operator()(in_sample)`: the new state and the returned sample. -/
def operator_call (f : Filter R) (in_sample : R) : Filter R × R :=
  let non_recursive : R := in_sample * f._b_coeffs.1
  let recursive : R := 0
  let non_recursive : R := non_recursive + f._b_coeffs.2 * f._in_dlyline
  let recursive : R := recursive + f._a_coeffs.2 * f._out_dlyline
  let out_sample : R := non_recursive - recursive
  ({ f with
      _in_dlyline := in_sample
      _out_dlyline := out_sample },
    out_sample * f._a_coeffs.1)

/-- The output buffer of `Filter::process(input, output + o, n_frames)` after the
assignment of `output[0]` and the loop iterations `idx = 1 .. k`. -/
def processLoop (f : Filter R) (input output : ℕ → R) (o : ℕ) : ℕ → (ℕ → R)
  | 0 =>
    Function.update output o
      (input 0 * f._b_coeffs.1 + f._in_dlyline * f._b_coeffs.2
        - f._out_dlyline * f._a_coeffs.2)
  | idx + 1 =>
    Function.update (processLoop f input output o idx) (o + (idx + 1))
      (input (idx + 1) * f._b_coeffs.1 + input idx * f._b_coeffs.2
        - processLoop f input output o idx (o + idx) * f._a_coeffs.2)

/-- `Filter::process(input, output + o, n_frames)`, for `input` and `output` that do not
overlap: the new state and the output buffer. With `n_frames = 0` the function reads
`input[n_frames - 1]`, outside the block it was given: there is no result. -/
def process (f : Filter R) (input output : ℕ → R) (o : ℕ) (n_frames : ℕ) :
    Option (Filter R × (ℕ → R)) :=
  if n_frames = 0 then none
  else
    let out := processLoop f input output o (n_frames - 1)
    some ({ f with
        _in_dlyline_backup := f._in_dlyline
        _out_dlyline_backup := f._out_dlyline
        _in_dlyline := input (n_frames - 1)
        _out_dlyline := out (o + (n_frames - 1)) },
      out)

/-- The state in which `Filter::process(input, output + o, n_frames)` leaves the filter. -/
def processed (f : Filter R) (input output : ℕ → R) (o : ℕ) (n_frames : ℕ) : Filter R :=
  { f with
    _in_dlyline_backup := f._in_dlyline
    _out_dlyline_backup := f._out_dlyline
    _in_dlyline := input (n_frames - 1)
    _out_dlyline := processLoop f input output o (n_frames - 1) (o + (n_frames - 1)) }

/-- `Filter::reset()`. -/
def reset (f : Filter R) : Filter R :=
  { f with
    _in_dlyline := 0
    _out_dlyline := 0 }

/-- `Filter::reverse()`. -/
def reverse (f : Filter R) : Filter R :=
  { f with
    _in_dlyline := f._in_dlyline_backup
    _out_dlyline := f._out_dlyline_backup }

end Filter

/-! ## Filterbank -/

/-- The internal buffer that the pointer `_low_band` of a `Filterbank` points to. -/
inductive LowBand where
  | buffer1
  | buffer2
deriving DecidableEq, Repr

/-- State of a `Filterbank`; `_low_band` is either `_buffer1` or `_buffer2`. -/
structure Filterbank (R : Type) where
  _filters : List (Filter R)
  _crossover_freqs : List R
  _sample_rate : ℕ
  _n_bands : ℕ
  _n_filters : ℕ
  _buffer1 : ℕ → R
  _buffer2 : ℕ → R
  _low_band : LowBand
  _n_remaining : ℕ
  _n_ready : ℕ

/-- Contents of what the `Filterbank` constructor allocates or leaves uninitialised. -/
structure FreshBank (R : Type) where
  buffer1 : ℕ → R
  buffer2 : ℕ → R
  n_remaining : ℕ
  n_ready : ℕ

/-- Apply `g` to the elements `0 .. n-1` of a vector (a loop `for idx < n` over a vector
with at least `n` elements). -/
def mapFirst {α : Type} (g : α → α) : ℕ → List α → List α
  | 0, l => l
  | _ + 1, [] => []
  | n + 1, a :: l => g a :: mapFirst g n l

namespace Filterbank

variable {R : Type} [Field R]

/-- `Filterbank::_intern_buff_size`. -/
def _intern_buff_size : ℕ := 1024

/-- `Filterbank::renew(new_co_freqs)`: filter `idx` is the low pass (even `idx`) or the high
pass (odd `idx`) at crossover frequency `idx/2`. -/
def renew (tanf : R → R) (M_PI : R) (fb : Filterbank R) (new_co_freqs : List R) :
    Filterbank R :=
  let n_bands := new_co_freqs.length + 1
  let n_filters := (n_bands - 1) * 2
  { fb with
    _crossover_freqs := new_co_freqs
    _n_bands := n_bands
    _n_filters := n_filters
    _filters := (List.range n_filters).map fun idx =>
      if idx % 2 = 0 then
        Filter.new tanf M_PI filter_type.LOW (new_co_freqs.getD (idx / 2) 0) fb._sample_rate
      else
        Filter.new tanf M_PI filter_type.HIGH (new_co_freqs.getD (idx / 2) 0) fb._sample_rate }

/-- `Filterbank::Filterbank(co_freqs, sample_rate)`. -/
def new (tanf : R → R) (M_PI : R) (mem : FreshBank R) (co_freqs : List R)
    (sample_rate : ℕ) : Filterbank R :=
  renew tanf M_PI
    { _filters := []
      _crossover_freqs := []
      _sample_rate := sample_rate
      _n_bands := 0
      _n_filters := 0
      _buffer1 := mem.buffer1
      _buffer2 := mem.buffer2
      _low_band := LowBand.buffer1
      _n_remaining := mem.n_remaining
      _n_ready := mem.n_ready }
    co_freqs

/-- `Filterbank::get_n_bands()`. -/
def get_n_bands (fb : Filterbank R) : ℕ := fb._n_bands

/-- The loop of `Filterbank::operator()` for `band` down to 1: the filters, the low band
sample and the band buffer. An index outside the vector gives no result. -/
def callLoop : ℕ → List (Filter R) → R → (ℕ → R) → Option (List (Filter R) × R × (ℕ → R))
  | 0, fs, low_band, bands => some (fs, low_band, bands)
  | band + 1, fs, low_band, bands =>
    match fs[(band + 1) * 2 - 1]? with
    | none => none
    | some hp =>
      let fs1 := fs.set ((band + 1) * 2 - 1) (hp.operator_call low_band).1
      match fs1[(band + 1) * 2 - 2]? with
      | none => none
      | some lp =>
        callLoop band (fs1.set ((band + 1) * 2 - 2) (lp.operator_call low_band).1)
          (lp.operator_call low_band).2
          (Function.update bands (band + 1) (hp.operator_call low_band).2)

/-- `Filterbank::operator()(in_sample, bands)`. -/
def operator_call (fb : Filterbank R) (in_sample : R) (bands : ℕ → R) :
    Option (Filterbank R × (ℕ → R)) :=
  match callLoop (fb._n_bands - 1) fb._filters in_sample bands with
  | none => none
  | some (fs, low_band, bands1) =>
    some ({ fb with _filters := fs }, Function.update bands1 0 low_band)

/-- The buffer `_low_band` points to. -/
def lowBand (fb : Filterbank R) : ℕ → R :=
  match fb._low_band with
  | LowBand.buffer1 => fb._buffer1
  | LowBand.buffer2 => fb._buffer2

/-- Write through `_low_band`. -/
def setLowBand (fb : Filterbank R) (b : ℕ → R) : Filterbank R :=
  match fb._low_band with
  | LowBand.buffer1 => { fb with _buffer1 := b }
  | LowBand.buffer2 => { fb with _buffer2 := b }

/-- The filter loop of one chunk of `Filterbank::process`, for `band` down to 1; `output`
maps a band to its buffer and `off` is the running offset of the output pointers. -/
def bandLoop (n_ready off : ℕ) :
    ℕ → Filterbank R → (ℕ → ℕ → R) → Option (Filterbank R × (ℕ → ℕ → R))
  | 0, fb, output => some (fb, output)
  | band + 1, fb, output =>
    match fb._filters[(band + 1) * 2 - 1]? with
    | none => none
    | some hp =>
      match hp.process fb.lowBand (output (band + 1)) off n_ready with
      | none => none
      | some (hp1, out) =>
        let fs1 := fb._filters.set ((band + 1) * 2 - 1) hp1
        match fs1[(band + 1) * 2 - 2]? with
        | none => none
        | some lp =>
          match fb._low_band with
          | LowBand.buffer1 =>
            match lp.process fb._buffer1 fb._buffer2 0 n_ready with
            | none => none
            | some (lp1, b2) =>
              bandLoop n_ready off band
                { fb with
                  _filters := fs1.set ((band + 1) * 2 - 2) lp1
                  _buffer2 := b2
                  _low_band := LowBand.buffer2 }
                (Function.update output (band + 1) out)
          | LowBand.buffer2 =>
            match lp.process fb._buffer2 fb._buffer1 0 n_ready with
            | none => none
            | some (lp1, b1) =>
              bandLoop n_ready off band
                { fb with
                  _filters := fs1.set ((band + 1) * 2 - 2) lp1
                  _buffer1 := b1
                  _low_band := LowBand.buffer1 }
                (Function.update output (band + 1) out)

/-- One pass of the `while` loop of `Filterbank::process`: `done` frames were handled
before, `output + o` are the band buffers of the call. -/
def chunk (fb : Filterbank R) (input : ℕ → R) (output : ℕ → ℕ → R) (o done : ℕ) :
    Option (Filterbank R × (ℕ → ℕ → R)) :=
  let n_ready := if fb._n_remaining < _intern_buff_size then fb._n_remaining
    else _intern_buff_size
  let fb1 := { fb with _n_ready := n_ready }
  let fb2 := fb1.setLowBand (memcpy fb1.lowBand 0 input done n_ready)
  match bandLoop n_ready (o + done) (fb2._n_bands - 1) fb2 output with
  | none => none
  | some (fb3, output3) =>
    some ({ fb3 with _n_remaining := fb3._n_remaining - n_ready },
      Function.update output3 0 (memcpy (output3 0) (o + done) fb3.lowBand 0 n_ready))

/-- The `while ( _n_remaining )` loop of `Filterbank::process`, at most `fuel` passes. -/
def processLoop (input : ℕ → R) (o : ℕ) :
    ℕ → ℕ → Filterbank R → (ℕ → ℕ → R) → Option (Filterbank R × (ℕ → ℕ → R))
  | 0, _, fb, output => if fb._n_remaining = 0 then some (fb, output) else none
  | fuel + 1, done, fb, output =>
    if fb._n_remaining = 0 then some (fb, output)
    else
      match chunk fb input output o done with
      | none => none
      | some (fb1, output1) =>
        processLoop input o fuel (done + fb1._n_ready) fb1 output1

/-- `Filterbank::process(input, output + o, n_frames)`: every pass of the loop handles at
least one frame, so `n_frames` passes are enough. -/
def process (fb : Filterbank R) (input : ℕ → R) (output : ℕ → ℕ → R) (o n_frames : ℕ) :
    Option (Filterbank R × (ℕ → ℕ → R)) :=
  processLoop input o n_frames 0 { fb with _n_remaining := n_frames } output

/-- `Filterbank::reverse()`. -/
def reverse (fb : Filterbank R) : Filterbank R :=
  { fb with _filters := mapFirst Filter.reverse fb._n_filters fb._filters }

/-- `Filterbank::reset()`. -/
def reset (fb : Filterbank R) : Filterbank R :=
  { fb with _filters := mapFirst Filter.reset fb._n_filters fb._filters }

end Filterbank
/-! ## Filter pairs of a Filterbank -/

namespace Filter

variable {R : Type} [Field R]

/-- The coefficients of a low pass `l` and a high pass `h` built for the same crossover
frequency: with `b = 1/(1+c)`, `l` has `b = (b, b)`, `h` has `b = (1-b, -(1-b))`, and both
have `a = (1, 2b - 1)`. -/
def Coupled (l h : Filter R) : Prop :=
  l._b_coeffs.2 = l._b_coeffs.1 ∧ h._b_coeffs.1 = 1 - l._b_coeffs.1
    ∧ h._b_coeffs.2 = -(1 - l._b_coeffs.1) ∧ l._a_coeffs.2 = 2 * l._b_coeffs.1 - 1
    ∧ h._a_coeffs.2 = 2 * l._b_coeffs.1 - 1 ∧ l._a_coeffs.1 = 1 ∧ h._a_coeffs.1 = 1

/-- A coupled pair that has been fed the same samples since its reset: the input delay
lines are equal and the two output delay lines add up to the input delay line. -/
def Balanced (l h : Filter R) : Prop :=
  Coupled l h ∧ h._in_dlyline = l._in_dlyline
    ∧ l._out_dlyline + h._out_dlyline = l._in_dlyline

end Filter

namespace Filterbank

variable {R : Type} [Field R]

/-- The internal buffer `_low_band` does not point to. -/
def otherBand (fb : Filterbank R) : ℕ → R :=
  match fb._low_band with
  | LowBand.buffer1 => fb._buffer2
  | LowBand.buffer2 => fb._buffer1

/-- The state after the pass `band` of the filter loop of `Filterbank::process`, for the
high pass `hp` and the low pass `lp` of that band. -/
def bandStep (n_ready off band : ℕ) (fb : Filterbank R) (output : ℕ → ℕ → R)
    (hp lp : Filter R) : Filterbank R × (ℕ → ℕ → R) :=
  let fs := (fb._filters.set (band * 2 - 1)
    (hp.processed fb.lowBand (output band) off n_ready)).set (band * 2 - 2)
    (lp.processed fb.lowBand fb.otherBand 0 n_ready)
  let b := Filter.processLoop lp fb.lowBand fb.otherBand 0 (n_ready - 1)
  (match fb._low_band with
    | LowBand.buffer1 =>
      { fb with
        _filters := fs
        _buffer2 := b
        _low_band := LowBand.buffer2 }
    | LowBand.buffer2 =>
      { fb with
        _filters := fs
        _buffer1 := b
        _low_band := LowBand.buffer1 },
    Function.update output band
      (Filter.processLoop hp fb.lowBand (output band) off (n_ready - 1)))

/-- The class invariant of a `Filterbank` whose pairs are balanced: `_n_bands - 1` pairs of
filters, the low pass of pair `k` at index `2k` and its high pass at index `2k + 1`. -/
def Balanced (fb : Filterbank R) : Prop :=
  1 ≤ fb._n_bands ∧ fb._filters.length = (fb._n_bands - 1) * 2
    ∧ fb._n_filters = (fb._n_bands - 1) * 2
    ∧ ∀ k, k + 1 < fb._n_bands →
      ∃ l h, fb._filters[2 * k]? = some l ∧ fb._filters[2 * k + 1]? = some h
        ∧ Filter.Balanced l h

/-- The states of a `Filterbank` built for the crossover frequencies `co_freqs` that are
reached from the constructed one by feeding samples and blocks and by `reset`. -/
inductive Fed (tanf : R → R) (M_PI : R) (co_freqs : List R) (sample_rate : ℕ) :
    Filterbank R → Prop
  | new (mem : FreshBank R) : Fed tanf M_PI co_freqs sample_rate
      (Filterbank.new tanf M_PI mem co_freqs sample_rate)
  | operator_call {fb fb1 : Filterbank R} (in_sample : R) (bands bands1 : ℕ → R) :
      Fed tanf M_PI co_freqs sample_rate fb →
      fb.operator_call in_sample bands = some (fb1, bands1) →
      Fed tanf M_PI co_freqs sample_rate fb1
  | process {fb fb1 : Filterbank R} (input : ℕ → R) (output output1 : ℕ → ℕ → R)
      (o n_frames : ℕ) :
      Fed tanf M_PI co_freqs sample_rate fb →
      fb.process input output o n_frames = some (fb1, output1) →
      Fed tanf M_PI co_freqs sample_rate fb1
  | reset {fb : Filterbank R} :
      Fed tanf M_PI co_freqs sample_rate fb → Fed tanf M_PI co_freqs sample_rate fb.reset

end Filterbank

namespace Filterbank

variable {R : Type} [Field R]

/-- The class invariant of a `Filterbank`, set up by `renew`: at least one band, and two
filters for every band but the lowest. -/
def WellFormed (fb : Filterbank R) : Prop :=
  1 ≤ fb._n_bands ∧ fb._filters.length = (fb._n_bands - 1) * 2
    ∧ fb._n_filters = (fb._n_bands - 1) * 2

end Filterbank
section ExamplesBank

/-- A rational stand-in for `tanf`. -/
def exTan : ℚ → ℚ := fun t => t

/-- Arbitrary contents of what a `Filterbank` allocates. -/
def exFreshBank : FreshBank ℚ :=
  { buffer1 := fun _ => 33
    buffer2 := fun _ => 35
    n_remaining := 37
    n_ready := 39 }

/-- A low pass over the rationals. -/
def exFilter : Filter ℚ := Filter.new exTan exPi filter_type.LOW 1000 44100

/-- A two-band `Filterbank` over the rationals. -/
def exBank : Filterbank ℚ := Filterbank.new exTan exPi exFreshBank [1000] 44100

end ExamplesBank

/-! ## Delay -/

/-- State of a `Delay`. The pointers `_reader`, `_writer` and `_buffer_end` are offsets
from `_buffer`, counted in samples; `long` and `ptrdiff_t` values are integers. -/
structure Delay (R : Type) where
  _reader : ℤ
  _buffer_end : ℤ
  _buffer_size : ℤ
  _n_remaining : ℤ
  _n_delay : ℤ
  _buffer : ℕ → R
  _n_ready : ℤ
  _writer : ℤ

/-- Contents of what the `Delay` constructor allocates or leaves uninitialised. -/
structure FreshDelay (R : Type) where
  buffer : ℕ → R
  n_remaining : ℤ
  n_ready : ℤ

namespace Delay

variable {R : Type} [Field R]

/-- `Delay::reset()`. -/
def reset (s : Delay R) : Delay R :=
  { s with
    _buffer := fun idx => if (idx : ℤ) < s._buffer_size then 0 else s._buffer idx
    _reader := 0
    _writer := s._n_delay }

/-- `Delay::Delay(n_delay, max_delay)`. -/
def new (mem : FreshDelay R) (n_delay max_delay : ℕ) : Delay R :=
  reset
    { _reader := 0
      _buffer_end := (max_delay : ℤ)
      _buffer_size := (max_delay : ℤ)
      _n_remaining := mem.n_remaining
      _n_delay := (n_delay : ℤ)
      _buffer := mem.buffer
      _n_ready := mem.n_ready
      _writer := 0 }

/-- `Delay::get_delay()`. -/
def get_delay (s : Delay R) : ℤ :=
  if s._writer > s._reader then s._writer - s._reader
  else (s._writer - 0) + (s._buffer_end - s._reader)

/-- `Delay::set_delay(new_delay)`. -/
def set_delay (s : Delay R) (new_delay : ℤ) : Delay R :=
  if new_delay < s._buffer_size then
    let reader := s._writer - new_delay
    { s with
      _reader := if reader < 0 then reader + s._buffer_size else reader
      _n_delay := new_delay }
  else s

/-- `Delay::operator()(input)`: the new state and the returned sample. A write or a read
outside `_buffer` gives no result. -/
def operator_call (s : Delay R) (input : R) : Option (Delay R × R) :=
  let writer := if s._writer = s._buffer_end then 0 else s._writer
  let reader := if s._reader = s._buffer_end then 0 else s._reader
  if 0 ≤ writer ∧ writer < s._buffer_size ∧ 0 ≤ reader ∧ reader < s._buffer_size then
    let buffer := Function.update s._buffer writer.toNat input
    some ({ s with
        _buffer := buffer
        _writer := writer + 1
        _reader := reader + 1 },
      buffer reader.toNat)
  else none

/-- One pass of the `while` loop of `Delay::process`, with `done` samples handled before
and `output + o` the output block of the call. A `memcpy` that leaves `_buffer` or has a
negative count gives no result. -/
def processStep (s : Delay R) (input output : ℕ → R) (o done : ℕ) :
    Option (Delay R × (ℕ → R)) :=
  let n_ready0 :=
    if s._writer > s._reader then min s._n_remaining (s._buffer_end - s._writer)
    else min s._n_remaining (s._buffer_end - s._reader)
  let n_ready := min n_ready0 s._n_delay
  if 0 ≤ n_ready ∧ 0 ≤ s._reader ∧ s._reader + n_ready ≤ s._buffer_size
      ∧ 0 ≤ s._writer ∧ s._writer + n_ready ≤ s._buffer_size then
    let output1 := memcpy output (o + done) s._buffer s._reader.toNat n_ready.toNat
    let reader := s._reader + n_ready
    let buffer := memcpy s._buffer s._writer.toNat input done n_ready.toNat
    let writer := s._writer + n_ready
    some ({ s with
        _n_ready := n_ready
        _buffer := buffer
        _n_remaining := s._n_remaining - n_ready
        _writer := if writer = s._buffer_end then 0 else writer
        _reader := if reader = s._buffer_end then 0 else reader },
      output1)
  else none

/-- The `while ( _n_remaining )` loop of `Delay::process`, at most `fuel` passes; `done`
is the number of samples handled so far. -/
def processLoop (input : ℕ → R) (o : ℕ) :
    ℕ → ℕ → Delay R → (ℕ → R) → Option (Delay R × (ℕ → R))
  | 0, _, s, output => if s._n_remaining = 0 then some (s, output) else none
  | fuel + 1, done, s, output =>
    if s._n_remaining = 0 then some (s, output)
    else
      match processStep s input output o done with
      | none => none
      | some (s1, output1) => processLoop input o fuel (done + s1._n_ready.toNat) s1 output1

/-- `Delay::process(input, output + o, n_samples)`, for `input` and `output` that do not
overlap. Only the first pass of the loop can handle no sample (it then wraps a pointer
that stands at `_buffer_end`), so `n_samples + 1` passes are enough. -/
def process (s : Delay R) (input output : ℕ → R) (o n_samples : ℕ) :
    Option (Delay R × (ℕ → R)) :=
  if s._n_delay = 0 then some (s, memcpy output o input 0 n_samples)
  else processLoop input o (n_samples + 1) 0 { s with _n_remaining := (n_samples : ℤ) } output

/-- Successive calls of `Delay::process` on the consecutive blocks of the stream `x` with
the lengths `ns`, the first block starting at sample `t`; the outputs are written to the
same positions of `output`. -/
def processAll (x : ℕ → R) : List ℕ → ℕ → Delay R → (ℕ → R) → Option (Delay R × (ℕ → R))
  | [], _, s, output => some (s, output)
  | n :: ns, t, s, output =>
    match s.process (fun i => x (t + i)) output t n with
    | none => none
    | some (s1, output1) => processAll x ns (t + n) s1 output1

end Delay

/-- The stream `x` delayed by `d` samples: zero for the first `d` samples. -/
def delayed {R : Type} [Zero R] (d : ℕ) (x : ℕ → R) (n : ℕ) : R :=
  if n < d then 0 else x (n - d)
/-! ## The ring buffer of a Delay -/

/-- A pointer at `_buffer_end` stands for the start of the buffer. -/
def wrapAt (size p : ℕ) : ℕ := if p = size then 0 else p

/-- The position `j` samples after the position `r` of a ring buffer of `size` samples. -/
def posAt (size r j : ℕ) : ℕ := if r + j < size then r + j else r + j - size

namespace Delay

variable {R : Type} [Field R]

/-- The state of a `Delay` of `d` samples with a buffer of `size` samples that has taken in
the first `t` samples of the stream `x`: the writer is `d` positions ahead of the reader,
and the `d` positions from the reader on hold the next `d` samples of the delayed stream. -/
def Tracks (d size : ℕ) (x : ℕ → R) (t : ℕ) (s : Delay R) : Prop :=
  d ≤ size ∧ s._buffer_size = (size : ℤ) ∧ s._buffer_end = (size : ℤ)
    ∧ s._n_delay = (d : ℤ)
    ∧ ∃ r w : ℕ, s._reader = (r : ℤ) ∧ s._writer = (w : ℤ) ∧ r ≤ size ∧ w ≤ size
      ∧ wrapAt size w = posAt size (wrapAt size r) d
      ∧ ∀ j, j < d → s._buffer (posAt size (wrapAt size r) j) = delayed d x (t + j)

end Delay
section ExamplesDelay

/-- Arbitrary contents of what a `Delay` allocates. -/
def exFreshDelay : FreshDelay ℚ :=
  { buffer := fun _ => 41
    n_remaining := 43
    n_ready := 45 }

/-- A `Delay` of one sample with a buffer of two samples. -/
def exDelay : Delay ℚ := Delay.new exFreshDelay 1 2

/-- A `Delay` with a buffer of four samples. -/
def exDelay4 : Delay ℚ := Delay.new exFreshDelay 1 4

end ExamplesDelay
/-! ## MultiDelay -/

/-- State of a `MultiDelay`. The pointers `_writer`, `_buffer_end` and those in `_readers`
are offsets from `_buffer`, counted in samples; `long` and `ptrdiff_t` values are
integers. -/
structure MultiDelay (R : Type) where
  _buffer : ℕ → R
  _buffer_end : ℤ
  _writer : ℤ
  _readers : List ℤ
  _n_samples_delay : List ℤ
  _weights : List R
  _n_delays : ℕ
  _n_remaining : ℤ
  _n_ready_read : ℤ
  _n_ready_write : ℤ
  _buffer_size : ℤ

/-- Contents of what the `MultiDelay` constructor allocates or leaves uninitialised. -/
structure FreshMultiDelay (R : Type) where
  buffer : ℕ → R
  n_remaining : ℤ
  n_ready_read : ℤ

namespace MultiDelay

variable {R : Type} [Field R]

/-- `MultiDelay::reset()`. -/
def reset (s : MultiDelay R) : MultiDelay R :=
  { s with
    _buffer := fun idx => if (idx : ℤ) < s._buffer_size then 0 else s._buffer idx
    _readers := (List.range s._n_delays).foldl
      (fun readers idx => readers.set idx (s._buffer_end - s._n_samples_delay.getD idx 0))
      s._readers
    _writer := 0
    _n_ready_write := s._buffer_size }

/-- `MultiDelay::MultiDelay(max_delay)`: the three vectors are empty and `_n_delays` is 0
by its member initialiser. -/
def new (mem : FreshMultiDelay R) (max_delay : ℕ) : MultiDelay R :=
  reset
    { _buffer := mem.buffer
      _buffer_end := (max_delay : ℤ)
      _writer := 0
      _readers := []
      _n_samples_delay := []
      _weights := []
      _n_delays := 0
      _n_remaining := mem.n_remaining
      _n_ready_read := mem.n_ready_read
      _n_ready_write := 0
      _buffer_size := (max_delay : ℤ) }

/-- `MultiDelay::add_delay(n_samples_delay, weight)`. -/
def add_delay (s : MultiDelay R) (n_samples_delay : ℤ) (weight : R) : MultiDelay R :=
  if n_samples_delay ∈ s._n_samples_delay then s
  else if n_samples_delay < s._buffer_size ∧ n_samples_delay > 0 then
    let new_reader := s._writer - n_samples_delay
    { s with
      _readers := s._readers ++
        [if new_reader < 0 then new_reader + s._buffer_size else new_reader]
      _n_samples_delay := s._n_samples_delay ++ [n_samples_delay]
      _weights := s._weights ++ [weight]
      _n_delays := s._n_delays + 1 }
  else s

/-- `MultiDelay::clear_delays()`. -/
def clear_delays (s : MultiDelay R) : MultiDelay R :=
  { s with
    _n_samples_delay := []
    _readers := []
    _weights := []
    _n_delays := 0 }

/-- The loop of `MultiDelay::operator()` over the readers from index `idx` on: the readers
after it and the accumulated result. A read outside `_buffer` or `_weights` gives no
result. -/
def readLoop (s : MultiDelay R) : List ℤ → ℕ → R → Option (List ℤ × R)
  | [], _, result => some ([], result)
  | reader :: readers, idx, result =>
    let reader1 := if reader ≥ s._buffer_end then reader - s._buffer_size else reader
    match s._weights[idx]? with
    | none => none
    | some weight =>
      if 0 ≤ reader1 ∧ reader1 < s._buffer_size then
        match readLoop s readers (idx + 1) (result + s._buffer reader1.toNat * weight) with
        | none => none
        | some (readers1, result1) => some ((reader1 + 1) :: readers1, result1)
      else none

/-- `MultiDelay::operator()(input)`: the new state and the returned sample. A write outside
`_buffer` gives no result. -/
def operator_call (s : MultiDelay R) (input : R) : Option (MultiDelay R × R) :=
  let writer := if s._writer ≥ s._buffer_end then s._writer - s._buffer_size else s._writer
  match readLoop s s._readers 0 0 with
  | none => none
  | some (readers, result) =>
    if 0 ≤ writer ∧ writer < s._buffer_size then
      some ({ s with
          _writer := writer + 1
          _readers := readers
          _buffer := Function.update s._buffer writer.toNat input },
        result)
    else none

/-- `MultiDelay::process(input, output + o, n_frames)`, for `input` and `output` that do
not overlap: the state and the output buffer after the first `n_frames` passes of the
loop. -/
def process (s : MultiDelay R) (input output : ℕ → R) (o : ℕ) :
    ℕ → Option (MultiDelay R × (ℕ → R))
  | 0 => some (s, output)
  | n_frames + 1 =>
    match process s input output o n_frames with
    | none => none
    | some (s1, output1) =>
      match s1.operator_call (input n_frames) with
      | none => none
      | some (s2, y) => some (s2, Function.update output1 (o + n_frames) y)

/-- Successive calls of `MultiDelay::process` on the consecutive blocks of the stream `x`
with the lengths `ns`, the first block starting at sample `t`; the outputs are written to
the same positions of `output`. -/
def processAll (x : ℕ → R) :
    List ℕ → ℕ → MultiDelay R → (ℕ → R) → Option (MultiDelay R × (ℕ → R))
  | [], _, s, output => some (s, output)
  | n :: ns, t, s, output =>
    match s.process (fun i => x (t + i)) output t n with
    | none => none
    | some (s1, output1) => processAll x ns (t + n) s1 output1

/-- A `MultiDelay` without taps and with a buffer of `size` samples. -/
def Tapless (size : ℕ) (s : MultiDelay R) : Prop :=
  s._readers = [] ∧ s._n_samples_delay = [] ∧ s._weights = [] ∧ s._n_delays = 0
    ∧ s._buffer_size = (size : ℤ) ∧ s._buffer_end = (size : ℤ)

/-- The taps `(delay, weight)` added in turn by `add_delay`. -/
def add_delays (s : MultiDelay R) (taps : List (ℕ × R)) : MultiDelay R :=
  taps.foldl (fun s tap => s.add_delay (tap.1 : ℤ) tap.2) s

end MultiDelay

/-- A reader at position `r` of a ring buffer `b` of `size` samples whose writer is at
position `w`, for a delay of `0 < d < size` samples, after `t` samples of the stream `x`:
the writer is `d` positions ahead of the reader, and the `d` positions from the reader on
hold the next `d` samples of the delayed stream. -/
def RingTracks {R : Type} [Zero R] (size d : ℕ) (x : ℕ → R) (t : ℕ) (b : ℕ → R)
    (r w : ℕ) : Prop :=
  0 < d ∧ d < size ∧ r ≤ size ∧ w ≤ size ∧ wrapAt size w = posAt size (wrapAt size r) d
    ∧ ∀ j, j < d → b (posAt size (wrapAt size r) j) = delayed d x (t + j)

/-- The output of a `MultiDelay` with the taps `taps` at sample `n` of the stream `x`. -/
def tapSum {R : Type} [Field R] (taps : List (ℕ × R)) (x : ℕ → R) (n : ℕ) : R :=
  (taps.map fun tap => tap.2 * (if n < tap.1 then 0 else x (n - tap.1))).sum

namespace MultiDelay

variable {R : Type} [Field R]

/-- The state of a `MultiDelay` with the taps `taps` and a buffer of `size` samples that
has taken in the first `t` samples of the stream `x`. -/
def Tracks (size : ℕ) (taps : List (ℕ × R)) (x : ℕ → R) (t : ℕ) (s : MultiDelay R) : Prop :=
  1 ≤ size ∧ s._buffer_size = (size : ℤ) ∧ s._buffer_end = (size : ℤ)
    ∧ s._weights = taps.map Prod.snd
    ∧ ∃ w : ℕ, s._writer = (w : ℤ) ∧ w ≤ size
      ∧ List.Forall₂ (fun (reader : ℤ) (tap : ℕ × R) =>
          ∃ r : ℕ, reader = (r : ℤ) ∧ RingTracks size tap.1 x t s._buffer r w)
        s._readers taps

end MultiDelay
section ExamplesMultiDelay

/-- Arbitrary contents of what a `MultiDelay` allocates. -/
def exFreshMulti : FreshMultiDelay ℚ :=
  { buffer := fun _ => 47
    n_remaining := 49
    n_ready_read := 51 }

/-- Two taps: delay 1 with weight 2 and delay 2 with weight 3. -/
def exTaps : List (ℕ × ℚ) := [(1, 2), (2, 3)]

end ExamplesMultiDelay

/-! ## The handoff of a partition set from a control thread to the audio thread -/

/-- The two blocks of partition spectra of a `TimeVarConvolver`: the one the base
constructor allocates and the one allocated for `_other_freq_resp`. -/
inductive Block where
  | first
  | second
deriving DecidableEq, Repr

/-- Where the control thread stands in `TimeVarConvolver::set_partitions`: outside a call,
or inside the `memcpy` whose destination `dst` was read from `_other_freq_resp` at the
call, with `done` bins copied. -/
inductive ControlPc where
  | idle
  | copying (dst : Block) (done : ℕ)
deriving DecidableEq, Repr

/-- Where the audio thread stands in `TimeVarConvolver::process`: outside a call, inside
the first `_fast_conv()`, before `_has_changed.load()`, before each of the three
assignments that exchange the pointers, inside the second `_fast_conv()`, before
`_has_changed.store( false )`, and in the copies that end the call. -/
inductive AudioPc where
  | idle
  | conv1
  | check
  | swap1
  | swap2
  | swap3
  | conv2
  | fade
  | finish
deriving DecidableEq, Repr

/-- What the two threads share: the three pointers, the atomic flag, and where each thread
stands. -/
structure Handoff where
  _freq_resp_parts : Block
  _other_freq_resp : Block
  _pointer_backup : Block
  _has_changed : Bool
  control : ControlPc
  audio : AudioPc
deriving DecidableEq, Repr

/-- A thread of the program. -/
inductive Thread where
  | control
  | audio
deriving DecidableEq, Repr

namespace Handoff

/-- The state after construction, with no call in progress. -/
def init (pointer_backup : Block) : Handoff :=
  { _freq_resp_parts := Block.first
    _other_freq_resp := Block.second
    _pointer_backup := pointer_backup
    _has_changed := false
    control := ControlPc.idle
    audio := AudioPc.idle }

/-- The next step of the control thread, which calls `set_partitions` again and again; `n`
is `_spectra_size`. Its steps are: the call, which reads `_other_freq_resp`; the copy of one
bin; and, after the last bin, `_has_changed.store( true )` and the return. -/
def stepControl (n : ℕ) (s : Handoff) : Handoff :=
  match s.control with
  | ControlPc.idle => { s with control := ControlPc.copying s._other_freq_resp 0 }
  | ControlPc.copying dst done =>
    if done < n then { s with control := ControlPc.copying dst (done + 1) }
    else
      { s with
        _has_changed := true
        control := ControlPc.idle }

/-- The next step of the audio thread, which calls `process` again and again. -/
def stepAudio (s : Handoff) : Handoff :=
  match s.audio with
  | AudioPc.idle => { s with audio := AudioPc.conv1 }
  | AudioPc.conv1 => { s with audio := AudioPc.check }
  | AudioPc.check =>
    if s._has_changed then { s with audio := AudioPc.swap1 }
    else { s with audio := AudioPc.finish }
  | AudioPc.swap1 =>
    { s with
      _pointer_backup := s._freq_resp_parts
      audio := AudioPc.swap2 }
  | AudioPc.swap2 =>
    { s with
      _freq_resp_parts := s._other_freq_resp
      audio := AudioPc.swap3 }
  | AudioPc.swap3 =>
    { s with
      _other_freq_resp := s._pointer_backup
      audio := AudioPc.conv2 }
  | AudioPc.conv2 => { s with audio := AudioPc.fade }
  | AudioPc.fade =>
    { s with
      _has_changed := false
      audio := AudioPc.finish }
  | AudioPc.finish => { s with audio := AudioPc.idle }

/-- One step of the thread `th`. -/
def step (n : ℕ) (s : Handoff) (th : Thread) : Handoff :=
  match th with
  | Thread.control => stepControl n s
  | Thread.audio => stepAudio s

/-- An interleaving: the threads step in the order `sched`. -/
def run (n : ℕ) (sched : List Thread) (s : Handoff) : Handoff :=
  sched.foldl (step n) s

/-- One step of the thread `th`, for a control thread that does not call `set_partitions`
while the flag is set. -/
def stepPatient (n : ℕ) (s : Handoff) (th : Thread) : Handoff :=
  match th with
  | Thread.control =>
    if s.control = ControlPc.idle ∧ s._has_changed = true then s else stepControl n s
  | Thread.audio => stepAudio s

/-- An interleaving with a control thread that does not call `set_partitions` while the
flag is set. -/
def runPatient (n : ℕ) (sched : List Thread) (s : Handoff) : Handoff :=
  sched.foldl (stepPatient n) s

/-- The audio thread is inside a `_fast_conv()`, which reads the block `_freq_resp_parts`
points to. -/
def reading (s : Handoff) : Bool :=
  s.audio = AudioPc.conv1 || s.audio = AudioPc.conv2

/-- The control thread is inside the `memcpy` into the block the audio thread is
reading. -/
def racing (s : Handoff) : Bool :=
  match s.control with
  | ControlPc.idle => false
  | ControlPc.copying dst _ => s.reading && dst = s._freq_resp_parts

/-- The audio thread is reading a block of which the control thread has copied some bins
but not all `n`. -/
def torn (n : ℕ) (s : Handoff) : Bool :=
  match s.control with
  | ControlPc.idle => false
  | ControlPc.copying dst done =>
    s.reading && dst = s._freq_resp_parts && 0 < done && done < n

/-- What holds in every state of an interleaving with a patient control thread. -/
def Safe (s : Handoff) : Prop :=
  (s.audio = AudioPc.swap3 → s._freq_resp_parts = s._other_freq_resp
      ∧ s._pointer_backup ≠ s._freq_resp_parts)
    ∧ (s.audio ≠ AudioPc.swap3 → s._freq_resp_parts ≠ s._other_freq_resp)
    ∧ (s.audio = AudioPc.swap2 → s._pointer_backup = s._freq_resp_parts)
    ∧ (∀ dst done, s.control = ControlPc.copying dst done →
        s._has_changed = false ∧ dst = s._other_freq_resp)
    ∧ ((s.audio = AudioPc.swap1 ∨ s.audio = AudioPc.swap2 ∨ s.audio = AudioPc.swap3
        ∨ s.audio = AudioPc.conv2 ∨ s.audio = AudioPc.fade) → s._has_changed = true)

end Handoff

section ExamplesHistory

/-- Contents of freshly allocated blocks in which the bins of the spectrum history differ
from one another. -/
def exFreshRamp : Fresh ℚ :=
  { exFresh with input_spectra := fun i => ⟨(i : ℚ), 0⟩ }

end ExamplesHistory

/-! ## complexmath: phase -/

section ComplexPhase

variable {R : Type} [LinearOrderedField R]

/-- `complex_angle(value)`; `atan2f` is that of `math.h`. -/
def complex_angle (atan2f : R → R → R) (value : Cpx R) : R := atan2f value.im value.re

/-- The three locals of `unwrap_phase`. -/
structure UnwrapLocals (R : Type) where
  angle_diff : R
  current_angle : R
  last_angle : R

/-- The loop of `unwrap_phase(spectrum, n_bins)` after `n` passes (`idx = 1 .. n`): the
spectrum and the locals. `atan2f`, `floorf` and `M_PI` are those of `math.h`; `fabsf` is the
absolute value. -/
def unwrap_phaseLoop (atan2f : R → R → R) (floorf : R → R) (M_PI : R) (n : ℕ)
    (init : (ℕ → Cpx R) × UnwrapLocals R) : (ℕ → Cpx R) × UnwrapLocals R :=
  (List.range n).foldl
    (fun (st : (ℕ → Cpx R) × UnwrapLocals R) k =>
      let idx := k + 1
      let current_angle := complex_angle atan2f (st.1 idx)
      let last_angle := complex_angle atan2f (st.1 idx)
      let angle_diff := |last_angle - current_angle|
      let current_angle :=
        if angle_diff > M_PI then current_angle + (floorf (angle_diff / (2 * M_PI)) + 1)
        else current_angle
      (st.1, { angle_diff := angle_diff, current_angle := current_angle,
               last_angle := last_angle }))
    init

/-- `unwrap_phase(spectrum, n_bins)`: the contents of `spectrum` after the call. The locals
start with indeterminate values `locals`; the function returns nothing. -/
def unwrap_phase (atan2f : R → R → R) (floorf : R → R) (M_PI : R) (locals : UnwrapLocals R)
    (spectrum : ℕ → Cpx R) (n_bins : ℕ) : ℕ → Cpx R :=
  (unwrap_phaseLoop atan2f floorf M_PI (n_bins - 1) (spectrum, locals)).1

end ComplexPhase

namespace Filter

variable {R : Type} [Field R]

end Filter

/-! ## CrossFader -/

/-- State of a `CrossFader`; the vector `_sin_fade` is the list of its elements. -/
structure CrossFader (R : Type) where
  _fade_length : ℕ
  _sin_fade : List R

namespace CrossFader

variable {R : Type} [Field R]

/-- `std::vector<float>::resize(n)`: the first `n` elements are kept, new elements are
zero. -/
def resize (l : List R) (n : ℕ) : List R := l.take n ++ List.replicate (n - l.length) 0

/-- The loop of `_compute_fade_function` after `n` passes: the phase and the vector. -/
def fadeFunctionLoop (cosf : R → R) (phase_increment : R) (n : ℕ) (init : R × List R) :
    R × List R :=
  (List.range n).foldl
    (fun (st : R × List R) idx =>
      let f0 := st.2.set idx (cosf st.1)
      let f1 := f0.set idx (f0.getD idx 0 * f0.getD idx 0)
      (st.1 + phase_increment, f1))
    init

/-- `CrossFader::_compute_fade_function()`; `cosf` and `M_PI` are those of `math.h`. The
loop writes the elements `0 .. _fade_length`; when the vector is shorter it writes beyond
its end and there is no result. -/
def _compute_fade_function (cosf : R → R) (M_PI : R) (s : CrossFader R) :
    Option (CrossFader R) :=
  if s._sin_fade.length ≤ s._fade_length then none
  else
    let phase_increment : R := M_PI * (1 / 2) / (s._fade_length : R)
    some { s with
      _sin_fade :=
        (fadeFunctionLoop cosf phase_increment (s._fade_length + 1) ((0 : R), s._sin_fade)).2 }

/-- `CrossFader::set_fade_length(fade_length)`. With `fade_length = 0` the unsigned
`fade_length - 1` wraps around and the loop of `_compute_fade_function` runs beyond the
empty vector: there is no result. -/
def set_fade_length (cosf : R → R) (M_PI : R) (s : CrossFader R) (fade_length : ℕ) :
    Option (CrossFader R) :=
  if fade_length = 0 then none
  else
    _compute_fade_function cosf M_PI
      { _sin_fade := resize s._sin_fade fade_length
        _fade_length := fade_length - 1 }

/-- `CrossFader::CrossFader(fade_length)`: the vector starts empty. -/
def new (cosf : R → R) (M_PI : R) (fade_length : ℕ) : Option (CrossFader R) :=
  if fade_length = 0 then none
  else
    _compute_fade_function cosf M_PI
      { _sin_fade := resize [] fade_length
        _fade_length := fade_length - 1 }

/-- `CrossFader::get_fade_length()`. -/
def get_fade_length (s : CrossFader R) : ℕ := s._fade_length + 1

/-- `CrossFader::process(fadeout, fadein, output)`, for an `output` that overlaps neither
input: the contents of `output` after the call. -/
def process (s : CrossFader R) (fadeout fadein output : ℕ → R) : Option (ℕ → R) :=
  if s._sin_fade.length ≤ s._fade_length then none
  else
    some (fun idx =>
      if idx ≤ s._fade_length then
        fadeout idx * s._sin_fade.getD idx 0
          + fadein idx * s._sin_fade.getD (s._fade_length - idx) 0
      else output idx)

end CrossFader

/-! ## FadingMultiDelay -/

namespace FadingMultiDelay

/-- The `enum FadeBehavior` of `FadingMultiDelay.hpp`. -/
inductive FadeBehavior where
  | BORN
  | ALIVE
  | CHANGE
  | DYING
  | DEAD
deriving DecidableEq, Repr

/-- `FadingMultiDelay::N_FADE`. -/
def N_FADE : ℕ := 128

/-- `FadingMultiDelay::N_DELAYS_MAX`. -/
def N_DELAYS_MAX : ℕ := 1000

/-- State of a `_DelayCore`. The pointers `_buf`, `_buf_end`, `_rdr` and `_old_rdr` are
offsets, counted in samples, from the start of the block of samples the core reads. The
pointer `_wtr` to the writer of the owner is not stored: the function that follows it takes
the value of `*_wtr`. The counter `processed` is not used by any function. -/
structure _DelayCore (R : Type) where
  _buf : ℤ
  _buf_end : ℤ
  _buf_size : ℤ
  _rdr : ℤ
  _old_rdr : ℤ
  _wgt : R
  _old_wgt : R
  _n_dly : ℕ
  _to_fade : ℕ
  _status : FadeBehavior

/-- The members of a `_DelayCore` its constructor does not initialise: their values are
indeterminate. -/
structure FreshCore (R : Type) where
  rdr : ℤ
  old_rdr : ℤ
  wgt : R
  old_wgt : R
  n_dly : ℕ

namespace _DelayCore

variable {R : Type} [Field R]

/-- `_DelayCore::set_delay(delay, weight)`; `wtr` is the value of `*_wtr`. -/
def set_delay (c : _DelayCore R) (wtr : ℤ) (delay : ℕ) (weight : R) : _DelayCore R :=
  { c with
    _old_wgt := c._wgt
    _wgt := weight
    _old_rdr := c._rdr
    _rdr := if wtr - (delay : ℤ) < c._buf then wtr - (delay : ℤ) + c._buf_size
      else wtr - (delay : ℤ)
    _n_dly := delay
    _to_fade := N_FADE
    _status := if c._status = FadeBehavior.DEAD then FadeBehavior.BORN
      else FadeBehavior.CHANGE }

/-- `_DelayCore::set_status(status)`. -/
def set_status (c : _DelayCore R) (status : FadeBehavior) : _DelayCore R :=
  { c with
    _status := status
    _to_fade := N_FADE }

/-- `_DelayCore::get_delay()`. -/
def get_delay (c : _DelayCore R) : ℕ := c._n_dly

/-- `_DelayCore::get_status()`. -/
def get_status (c : _DelayCore R) : FadeBehavior := c._status

/-- `_DelayCore::_DelayCore(buf, buf_end, n_delay, writer)`; `wtr` is the value of
`*writer`. The member initialisers give `_to_fade = 0` and `_status = BORN` before the body
runs. -/
def new (mem : FreshCore R) (buf buf_end : ℤ) (n_delay : ℕ) (wtr : ℤ) : _DelayCore R :=
  { set_delay
      { _buf := buf
        _buf_end := buf_end
        _buf_size := buf_end - buf
        _rdr := mem.rdr
        _old_rdr := mem.old_rdr
        _wgt := mem.wgt
        _old_wgt := mem.old_wgt
        _n_dly := mem.n_dly
        _to_fade := 0
        _status := FadeBehavior.BORN }
      wtr n_delay 1 with
    _status := FadeBehavior.BORN }

/-- The sample `*p` read through a pointer `p` into a block of `n_alloc` allocated
samples; outside the block there is no result. -/
def readAt (n_alloc : ℕ) (buffer : ℕ → R) (p : ℤ) : Option R :=
  if 0 ≤ p ∧ p < (n_alloc : ℤ) then some (buffer p.toNat) else none

/-- The reader after `if ( ++p == _buf_end ) p = _buf`. -/
def advance (c : _DelayCore R) (p : ℤ) : ℤ := if p + 1 = c._buf_end then c._buf else p + 1

/-- One pass of the fade loop of `process` in the case `_status` of its switch, at index
`idx` of the fade tables: the core with its readers advanced and the sample written to
`*output`. -/
def fadeStep (fade_in fade_out : ℕ → R) (n_alloc : ℕ) (buffer : ℕ → R) (c : _DelayCore R)
    (idx : ℕ) : Option (_DelayCore R × R) :=
  match c._status with
  | FadeBehavior.BORN =>
    match readAt n_alloc buffer c._rdr with
    | some v => some ({ c with _rdr := c.advance c._rdr }, v * fade_in idx * c._wgt)
    | none => none
  | FadeBehavior.CHANGE =>
    match readAt n_alloc buffer c._old_rdr, readAt n_alloc buffer c._rdr with
    | some v_old, some v_new =>
      some ({ c with
              _rdr := c.advance c._rdr
              _old_rdr := c.advance c._old_rdr },
        (v_old * fade_out idx) * c._old_wgt + (v_new * fade_in idx) * c._wgt)
    | _, _ => none
  | FadeBehavior.DYING =>
    match readAt n_alloc buffer c._rdr with
    | some v => some ({ c with _rdr := c.advance c._rdr }, (v * fade_out idx) * c._old_wgt)
    | none => none
  | _ => some (c, 0)

/-- The fade loop of `process`: `k` passes from index `idx` of the fade tables, writing
from position `pos` of `output`. -/
def fadeLoop (fade_in fade_out : ℕ → R) (n_alloc : ℕ) (buffer : ℕ → R) :
    ℕ → ℕ → ℕ → _DelayCore R → (ℕ → R) → Option (_DelayCore R × (ℕ → R))
  | 0, _, _, c, output => some (c, output)
  | k + 1, idx, pos, c, output =>
    match fadeStep fade_in fade_out n_alloc buffer c idx with
    | none => none
    | some r =>
      fadeLoop fade_in fade_out n_alloc buffer k (idx + 1) (pos + 1) r.1
        (Function.update output pos r.2)

/-- The switch of `process`: the core, the output buffer and the number of samples
`output` was advanced by. In the default case nothing is written. -/
def fade (fade_in fade_out : ℕ → R) (n_alloc : ℕ) (buffer : ℕ → R) (c : _DelayCore R)
    (output : ℕ → R) (fade_start fade_now : ℕ) : Option (_DelayCore R × (ℕ → R) × ℕ) :=
  if c._status = FadeBehavior.BORN ∨ c._status = FadeBehavior.CHANGE
      ∨ c._status = FadeBehavior.DYING then
    match fadeLoop fade_in fade_out n_alloc buffer fade_now fade_start 0 c output with
    | none => none
    | some r => some (r.1, r.2, fade_now)
  else some (c, output, 0)

/-- The statements of `process` between the switch and the end of the fade block: the
count is decreased and, when it has reached 0, the status is updated. -/
def faded (c : _DelayCore R) (fade_now : ℕ) : _DelayCore R :=
  if c._to_fade - fade_now = 0 then
    { c with
      _to_fade := c._to_fade - fade_now
      _status :=
        if (if c._status = FadeBehavior.BORN then FadeBehavior.ALIVE else c._status)
            = FadeBehavior.DYING then FadeBehavior.DEAD
        else FadeBehavior.ALIVE }
  else { c with _to_fade := c._to_fade - fade_now }

/-- The last loop of `process`, with `n_rem` samples to go and `output` advanced by `pos`.
A pass with `n_rdy = 0` changes nothing, so that the loop of the source does not end: the
fuel runs out and there is no result. -/
def tailLoop (n_alloc : ℕ) (buffer : ℕ → R) :
    ℕ → ℕ → ℕ → _DelayCore R → (ℕ → R) → Option (_DelayCore R × (ℕ → R))
  | 0, n_rem, _, c, output => if n_rem = 0 then some (c, output) else none
  | fuel + 1, n_rem, pos, c, output =>
    if n_rem = 0 then some (c, output)
    else if 0 ≤ c._rdr
        ∧ c._rdr + ((min n_rem ((c._buf_end - c._rdr) % 2 ^ 64).toNat : ℕ) : ℤ)
          ≤ (n_alloc : ℤ) then
      tailLoop n_alloc buffer fuel (n_rem - min n_rem ((c._buf_end - c._rdr) % 2 ^ 64).toNat)
        (pos + min n_rem ((c._buf_end - c._rdr) % 2 ^ 64).toNat)
        { c with
          _rdr :=
            if c._rdr + ((min n_rem ((c._buf_end - c._rdr) % 2 ^ 64).toNat : ℕ) : ℤ)
                = c._buf_end then c._buf
            else c._rdr + ((min n_rem ((c._buf_end - c._rdr) % 2 ^ 64).toNat : ℕ) : ℤ) }
        (fun i =>
          if pos ≤ i ∧ i < pos + min n_rem ((c._buf_end - c._rdr) % 2 ^ 64).toNat then
            buffer (c._rdr.toNat + (i - pos)) * c._wgt
          else output i)
    else none

/-- The part of `process` after the fade block, with `n_rem` samples to go and `output`
advanced by `pos`. -/
def finish (n_alloc : ℕ) (buffer : ℕ → R) (c : _DelayCore R) (output : ℕ → R)
    (pos n_rem : ℕ) : Option (_DelayCore R × (ℕ → R)) :=
  if c._status = FadeBehavior.DEAD then
    some ({ c with _rdr := c._rdr + (n_rem : ℤ) },
      fun i => if pos ≤ i ∧ i < pos + n_rem then 0 else output i)
  else tailLoop n_alloc buffer n_rem n_rem pos c output

/-- `_DelayCore::process(output, n_frames)`: the new state and the contents of `output`.
The core reads the block of `n_alloc` allocated samples `buffer`; `fade_in` and `fade_out`
are the two tables of `N_FADE` constants. With `_to_fade > N_FADE`, which no function
produces, `N_FADE - _to_fade` wraps around and the loops index the tables beyond their end:
there is no result. -/
def process (fade_in fade_out : ℕ → R) (n_alloc : ℕ) (buffer : ℕ → R) (c : _DelayCore R)
    (output : ℕ → R) (n_frames : ℕ) : Option (_DelayCore R × (ℕ → R)) :=
  if c._to_fade = 0 then c.finish n_alloc buffer output 0 n_frames
  else if N_FADE < c._to_fade then none
  else
    match c.fade fade_in fade_out n_alloc buffer output (N_FADE - c._to_fade)
        (min c._to_fade n_frames) with
    | none => none
    | some r =>
      (r.1.faded (min c._to_fade n_frames)).finish n_alloc buffer r.2.1 r.2.2
        (n_frames - min c._to_fade n_frames)

/-- Successive `process` calls on a core, each with the contents of the block it reads at
that time, its output buffer and its number of frames: the state after the last call. -/
def processAll (fade_in fade_out : ℕ → R) (n_alloc : ℕ) :
    List ((ℕ → R) × (ℕ → R) × ℕ) → _DelayCore R → Option (_DelayCore R)
  | [], c => some c
  | call :: rest, c =>
    match c.process fade_in fade_out n_alloc call.1 call.2.1 call.2.2 with
    | none => none
    | some r => processAll fade_in fade_out n_alloc rest r.1

/-- The status `process` sets when the fade count reaches 0, from the status before. -/
def fadedStatus (status : FadeBehavior) : FadeBehavior :=
  if status = FadeBehavior.DYING then FadeBehavior.DEAD else FadeBehavior.ALIVE

/-- The number of frames of a list of `process` calls. -/
def totalFrames (calls : List ((ℕ → R) × (ℕ → R) × ℕ)) : ℕ :=
  (calls.map (fun call => call.2.2)).sum

/-- The ring `[_buf, _buf_end)` a core reads lies in the block of `n_alloc` allocated
samples and the readers in use are inside the ring. -/
structure Ringed (n_alloc : ℕ) (c : _DelayCore R) : Prop where
  buf_nonneg : 0 ≤ c._buf
  buf_lt : c._buf < c._buf_end
  end_le : c._buf_end ≤ (n_alloc : ℤ)
  size_lt : c._buf_end - c._buf < 2 ^ 64
  rdr : (c._status = FadeBehavior.DEAD ∧ c._to_fade = 0)
    ∨ (c._buf ≤ c._rdr ∧ c._rdr < c._buf_end)
  old_rdr : c._status = FadeBehavior.CHANGE → c._buf ≤ c._old_rdr ∧ c._old_rdr < c._buf_end

end _DelayCore

end FadingMultiDelay

/-- State of a `FadingMultiDelay`. The pointers `_writer` and `_buffer_end` are offsets from
`_buffer`, counted in samples; `_buffer` and `_core_buffer` are blocks of `_buffer_size`
allocated samples; the array `_delays` has `N_DELAYS_MAX` elements, the arrays
`_new_delays` and `_new_weights` as well. -/
structure FadingMultiDelay (R : Type) where
  _buffer_size : ℤ
  _buffer : ℕ → R
  _buffer_end : ℤ
  _core_buffer : ℕ → R
  _writer : ℤ
  _n_delays : ℕ
  _new_n_delays : ℕ
  _new_delays : ℕ → ℕ
  _new_weights : ℕ → R
  _min_delay : ℕ
  _n_remaining : ℕ
  _n_ready : ℕ
  _has_changed : Bool
  _delays : ℕ → FadingMultiDelay._DelayCore R

/-- Contents of what the `FadingMultiDelay` constructor allocates or leaves
uninitialised. -/
structure FreshFading (R : Type) where
  buffer : ℕ → R
  core_buffer : ℕ → R
  core : ℕ → FadingMultiDelay.FreshCore R
  new_delays : ℕ → ℕ
  new_weights : ℕ → R
  n_remaining : ℕ
  n_ready : ℕ

namespace FadingMultiDelay

variable {R : Type} [Field R]

/-- `FadingMultiDelay::reset()`. -/
def reset (s : FadingMultiDelay R) : FadingMultiDelay R :=
  { s with
    _buffer := fun idx => if (idx : ℤ) < s._buffer_size then 0 else s._buffer idx
    _core_buffer := fun idx => if (idx : ℤ) < s._buffer_size then 0 else s._core_buffer idx
    _writer := 0 }

/-- `FadingMultiDelay::FadingMultiDelay(max_delay)`: both blocks are allocated with
`max_delay` samples, `_buffer_end` is `_buffer + _buffer_size + 1`, and every element of
`_delays` is a core on `[_buffer, _buffer_end)` with delay 0 whose status is then set to
`DEAD`. -/
def new (mem : FreshFading R) (max_delay : ℕ) : FadingMultiDelay R :=
  reset
    { _buffer_size := (max_delay : ℤ)
      _buffer := mem.buffer
      _core_buffer := mem.core_buffer
      _buffer_end := (max_delay : ℤ) + 1
      _min_delay := max_delay
      _writer := 0
      _delays := fun dly =>
        (_DelayCore.new (mem.core dly) 0 ((max_delay : ℤ) + 1) 0 0).set_status
          FadeBehavior.DEAD
      _n_delays := 0
      _new_n_delays := 0
      _new_delays := mem.new_delays
      _new_weights := mem.new_weights
      _n_remaining := mem.n_remaining
      _n_ready := mem.n_ready
      _has_changed := false }

/-- `FadingMultiDelay::get_n_delays()`. -/
def get_n_delays (s : FadingMultiDelay R) : ℕ := s._n_delays

/-- `FadingMultiDelay::kill_last()`. An index beyond the array gives no result. -/
def kill_last (s : FadingMultiDelay R) : Option (FadingMultiDelay R) :=
  if s._n_delays ≠ 0 then
    if s._n_delays - 1 < N_DELAYS_MAX then
      some { s with
        _delays := Function.update s._delays (s._n_delays - 1)
          ((s._delays (s._n_delays - 1)).set_status FadeBehavior.DYING) }
    else none
  else some s

/-- `FadingMultiDelay::add_delay(n_samples_delay, weight)`. With `_n_delays = N_DELAYS_MAX`
the core written is beyond the array: there is no result. -/
def add_delay (s : FadingMultiDelay R) (n_samples_delay : ℕ) (weight : R) :
    Option (FadingMultiDelay R) :=
  if (n_samples_delay : ℤ) < s._buffer_size ∧ n_samples_delay > 0 then
    if s._n_delays < N_DELAYS_MAX then
      some { s with
        _delays := Function.update s._delays s._n_delays
          ((s._delays s._n_delays).set_delay s._writer n_samples_delay weight)
        _min_delay := if n_samples_delay < s._min_delay then n_samples_delay else s._min_delay
        _n_delays := s._n_delays + 1 }
    else none
  else some s

/-- `FadingMultiDelay::_update_min_delay()`. -/
def _update_min_delay (s : FadingMultiDelay R) : Option (FadingMultiDelay R) :=
  if N_DELAYS_MAX < s._n_delays then none
  else
    some { s with
      _min_delay := (List.range s._n_delays).foldl
        (fun min_delay dly =>
          if (s._delays dly).get_status = FadeBehavior.DEAD then min_delay
          else if (s._delays dly).get_delay < min_delay then (s._delays dly).get_delay
          else min_delay)
        s._buffer_size.toNat }

/-- `FadingMultiDelay::set_delays(delays, weights, n_values)`. -/
def set_delays (s : FadingMultiDelay R) (delays : ℕ → ℕ) (weights : ℕ → R) (n_values : ℕ) :
    FadingMultiDelay R :=
  if s._has_changed then s
  else
    { s with
      _new_delays := fun dly =>
        if dly < min n_values N_DELAYS_MAX then max (delays dly) 1 else s._new_delays dly
      _new_weights := fun dly =>
        if dly < min n_values N_DELAYS_MAX then weights dly else s._new_weights dly
      _new_n_delays := n_values
      _has_changed := true }

/-- `FadingMultiDelay::_update()`. An index beyond the arrays gives no result. -/
def _update (s : FadingMultiDelay R) : Option (FadingMultiDelay R) :=
  if N_DELAYS_MAX < max s._new_n_delays s._n_delays then none
  else
    let set := (List.range (max s._new_n_delays s._n_delays)).foldl
      (fun (st : (ℕ → _DelayCore R) × ℕ) dly =>
        if (s._new_delays dly : ℤ) ≤ s._buffer_size then
          (Function.update st.1 dly
              ((st.1 dly).set_delay s._writer (s._new_delays dly) (s._new_weights dly)),
            if s._new_delays dly < st.2 then s._new_delays dly else st.2)
        else st)
      (s._delays, s._min_delay)
    let killed :=
      if s._new_n_delays < s._n_delays then
        (List.range' s._new_n_delays (s._n_delays - s._new_n_delays)).foldl
          (fun (ds : ℕ → _DelayCore R) dly =>
            if (ds dly).get_status ≠ FadeBehavior.DEAD then
              Function.update ds dly ((ds dly).set_status FadeBehavior.DYING)
            else ds)
          set.1
      else set.1
    some { s with
      _delays := killed
      _min_delay := set.2
      _n_delays := max s._new_n_delays s._n_delays }

/-- `FadingMultiDelay::clear_delays()`. -/
def clear_delays (s : FadingMultiDelay R) : FadingMultiDelay R :=
  { s with
    _delays := fun dly =>
      if dly < N_DELAYS_MAX ∧ (s._delays dly).get_status ≠ FadeBehavior.DEAD then
        (s._delays dly).set_status FadeBehavior.DYING
      else s._delays dly }

/-- The loop of `process` over the cores `dlys`, for a chunk of `n_ready` frames that
starts `done` frames into the block: the cores, `_core_buffer` and the output buffer. A
chunk longer than `_core_buffer` gives no result. -/
def coresLoop (fade_in fade_out : ℕ → R) (n_alloc : ℕ) (buffer : ℕ → R)
    (n_ready done : ℕ) :
    List ℕ → (ℕ → _DelayCore R) → (ℕ → R) → (ℕ → R) →
      Option ((ℕ → _DelayCore R) × (ℕ → R) × (ℕ → R))
  | [], delays, core_buffer, output => some (delays, core_buffer, output)
  | dly :: rest, delays, core_buffer, output =>
    if (delays dly).get_status = FadeBehavior.DEAD then
      coresLoop fade_in fade_out n_alloc buffer n_ready done rest delays core_buffer output
    else if n_alloc < n_ready then none
    else
      match (delays dly).process fade_in fade_out n_alloc buffer core_buffer n_ready with
      | none => none
      | some r =>
        coresLoop fade_in fade_out n_alloc buffer n_ready done rest
          (Function.update delays dly r.1) r.2
          (fun i => if done ≤ i ∧ i < done + n_ready then output i + r.2 (i - done)
            else output i)

/-- The `while ( _n_remaining )` loop of `process`, `done` frames into the block. A pass
with `_n_ready = 0` changes nothing, so that the loop of the source does not end: the fuel
runs out and there is no result. A copy that leaves the block `_buffer` gives no result. -/
def processLoop (fade_in fade_out : ℕ → R) (input : ℕ → R) :
    ℕ → FadingMultiDelay R → (ℕ → R) → ℕ → Option (FadingMultiDelay R × (ℕ → R))
  | 0, s, output, _ => if s._n_remaining = 0 then some (s, output) else none
  | fuel + 1, s, output, done =>
    if s._n_remaining = 0 then some (s, output)
    else if N_DELAYS_MAX < s._n_delays then none
    else
      match coresLoop fade_in fade_out s._buffer_size.toNat s._buffer
          (min (min s._min_delay s._n_remaining) ((s._buffer_end - s._writer) % 2 ^ 64).toNat)
          done (List.range s._n_delays) s._delays s._core_buffer output with
      | none => none
      | some r =>
        if 0 ≤ s._writer
            ∧ s._writer + ((min (min s._min_delay s._n_remaining)
                ((s._buffer_end - s._writer) % 2 ^ 64).toNat : ℕ) : ℤ) ≤ s._buffer_size then
          processLoop fade_in fade_out input fuel
            { s with
              _n_ready := min (min s._min_delay s._n_remaining)
                ((s._buffer_end - s._writer) % 2 ^ 64).toNat
              _delays := r.1
              _core_buffer := r.2.1
              _buffer := memcpy s._buffer s._writer.toNat input done
                (min (min s._min_delay s._n_remaining)
                  ((s._buffer_end - s._writer) % 2 ^ 64).toNat)
              _writer :=
                if s._writer + ((min (min s._min_delay s._n_remaining)
                    ((s._buffer_end - s._writer) % 2 ^ 64).toNat : ℕ) : ℤ) = s._buffer_end
                then 0
                else s._writer + ((min (min s._min_delay s._n_remaining)
                    ((s._buffer_end - s._writer) % 2 ^ 64).toNat : ℕ) : ℤ)
              _n_remaining := s._n_remaining - min (min s._min_delay s._n_remaining)
                ((s._buffer_end - s._writer) % 2 ^ 64).toNat }
            r.2.2
            (done + min (min s._min_delay s._n_remaining)
              ((s._buffer_end - s._writer) % 2 ^ 64).toNat)
        else none

/-- `FadingMultiDelay::process(input, output, n_frames)`: the new state and the contents of
`output`. `fade_in` and `fade_out` are the two tables of `N_FADE` constants. -/
def process (fade_in fade_out : ℕ → R) (s : FadingMultiDelay R) (input output : ℕ → R)
    (n_frames : ℕ) : Option (FadingMultiDelay R × (ℕ → R)) :=
  match (if s._has_changed then s._update else some s) with
  | none => none
  | some s1 =>
    match processLoop fade_in fade_out input n_frames { s1 with _n_remaining := n_frames }
        (fun idx => if idx < n_frames then 0 else output idx) 0 with
    | none => none
    | some r =>
      match ({ r.1 with _n_delays := r.1._new_n_delays })._update_min_delay with
      | none => none
      | some s3 => some ({ s3 with _has_changed := false }, r.2)

end FadingMultiDelay

section ExamplesFading

/-- Arbitrary values for the members a `_DelayCore` constructor leaves uninitialised. -/
def exFreshCore : FadingMultiDelay.FreshCore ℚ :=
  { rdr := 7
    old_rdr := 9
    wgt := 3
    old_wgt := 5
    n_dly := 11 }

/-- Arbitrary non-zero contents for what a `FadingMultiDelay` allocates. -/
def exFreshFading : FreshFading ℚ :=
  { buffer := fun _ => 13
    core_buffer := fun _ => 15
    core := fun _ => exFreshCore
    new_delays := fun _ => 17
    new_weights := fun _ => 19
    n_remaining := 23
    n_ready := 29 }

/-- Fade tables that rise and fall linearly. -/
def exFadeIn : ℕ → ℚ := fun idx => (idx : ℚ) / 127

/-- The falling table. -/
def exFadeOut : ℕ → ℚ := fun idx => 1 - (idx : ℚ) / 127

/-- A core on a ring of five allocated samples, as its constructor leaves it: status
`BORN`, 128 samples to fade. -/
def exCore : FadingMultiDelay._DelayCore ℚ := FadingMultiDelay._DelayCore.new exFreshCore 0 5 0 0

end ExamplesFading

end laproque

/-! # Theorems -/

namespace laproque

namespace Cpx

variable {R : Type} [CommRing R]

/-! ## Lemmas on complex samples -/

@[simp] theorem zero_re : (0 : Cpx R).re = 0 := rfl

@[simp] theorem zero_im : (0 : Cpx R).im = 0 := rfl

@[simp] theorem one_re : (1 : Cpx R).re = 1 := rfl

@[simp] theorem one_im : (1 : Cpx R).im = 0 := rfl

@[simp] theorem add_re (a b : Cpx R) : (a + b).re = a.re + b.re := rfl

@[simp] theorem add_im (a b : Cpx R) : (a + b).im = a.im + b.im := rfl

@[simp] theorem neg_re (a : Cpx R) : (-a).re = -a.re := rfl

@[simp] theorem neg_im (a : Cpx R) : (-a).im = -a.im := rfl

@[simp] theorem sub_re (a b : Cpx R) : (a - b).re = a.re - b.re := rfl

@[simp] theorem sub_im (a b : Cpx R) : (a - b).im = a.im - b.im := rfl

@[simp] theorem mul_re (a b : Cpx R) : (a * b).re = a.re * b.re - a.im * b.im := rfl

@[simp] theorem mul_im (a b : Cpx R) : (a * b).im = a.re * b.im + a.im * b.re := rfl

@[simp] theorem ofReal_re (r : R) : (ofReal r).re = r := rfl

@[simp] theorem ofReal_im (r : R) : (ofReal r).im = 0 := rfl

@[simp] theorem conj_re (a : Cpx R) : (conj a).re = a.re := rfl

@[simp] theorem conj_im (a : Cpx R) : (conj a).im = -a.im := rfl

@[simp] theorem scale_re (a : Cpx R) (f : R) : (scale a f).re = a.re * f := rfl

@[simp] theorem scale_im (a : Cpx R) (f : R) : (scale a f).im = a.im * f := rfl

@[simp] theorem mk_zero : (⟨0, 0⟩ : Cpx R) = 0 := rfl

theorem mk_add (a b : Cpx R) : (⟨a.re + b.re, a.im + b.im⟩ : Cpx R) = a + b := rfl

theorem mk_mul (a b : Cpx R) :
    (⟨a.re * b.re - a.im * b.im, a.re * b.im + a.im * b.re⟩ : Cpx R) = a * b := rfl

theorem scale_eq (a : Cpx R) (f : R) : scale a f = ofReal f * a := by
  ext <;> simp [mul_comm]

theorem ofReal_mul (r s : R) : ofReal (r * s) = ofReal r * ofReal s := by
  ext <;> simp

@[simp] theorem conj_zero : conj (0 : Cpx R) = 0 := by ext <;> simp

@[simp] theorem conj_one : conj (1 : Cpx R) = 1 := by ext <;> simp

theorem conj_add (a b : Cpx R) : conj (a + b) = conj a + conj b := by
  ext <;> simp [add_comm]

theorem conj_mul (a b : Cpx R) : conj (a * b) = conj a * conj b := by
  ext <;> simp <;> ring

@[simp] theorem conj_ofReal (r : R) : conj (ofReal r) = ofReal r := by ext <;> simp

theorem conj_pow (a : Cpx R) (n : ℕ) : conj (a ^ n) = conj a ^ n := by
  induction n with
  | zero => simp
  | succ n ih => rw [pow_succ, pow_succ, conj_mul, ih]

theorem conj_sum {ι : Type} (s : Finset ι) (f : ι → Cpx R) :
    conj (∑ i ∈ s, f i) = ∑ i ∈ s, conj (f i) := by
  classical
  induction s using Finset.induction_on with
  | empty => simp
  | insert hi ih => rw [Finset.sum_insert hi, Finset.sum_insert hi, conj_add, ih]

theorem re_sum {ι : Type} (s : Finset ι) (f : ι → Cpx R) :
    (∑ i ∈ s, f i).re = ∑ i ∈ s, (f i).re := by
  classical
  induction s using Finset.induction_on with
  | empty => simp
  | insert hi ih => rw [Finset.sum_insert hi, Finset.sum_insert hi, add_re, ih]

theorem im_sum {ι : Type} (s : Finset ι) (f : ι → Cpx R) :
    (∑ i ∈ s, f i).im = ∑ i ∈ s, (f i).im := by
  classical
  induction s using Finset.induction_on with
  | empty => simp
  | insert hi ih => rw [Finset.sum_insert hi, Finset.sum_insert hi, add_im, ih]

theorem natCast_re (n : ℕ) : ((n : Cpx R)).re = (n : R) := by
  induction n with
  | zero => simp
  | succ n ih => simp [ih]

theorem natCast_im (n : ℕ) : ((n : Cpx R)).im = 0 := by
  induction n with
  | zero => simp
  | succ n ih => simp [ih]

end Cpx

@[simp] theorem memcpy_apply {α : Type} (dst : ℕ → α) (d : ℕ) (src : ℕ → α) (s n i : ℕ) :
    memcpy dst d src s n i = if d ≤ i ∧ i < d + n then src (s + (i - d)) else dst i := rfl

section DFT

variable {R : Type} [CommRing R]

theorem fftw_r2c_eq (w : Cpx R) (n : ℕ) (x : ℕ → R) (out : ℕ → Cpx R) (k : ℕ)
    (hk : k ≤ n / 2) : fftw_r2c w n x out k = dft w n x k := by
  simp [fftw_r2c, dft, hk]

theorem dft_congr (w : Cpx R) (n : ℕ) (u v : ℕ → R) (k : ℕ) (h : ∀ j, j < n → u j = v j) :
    dft w n u k = dft w n v k := by
  unfold dft
  exact Finset.sum_congr rfl (fun j hj => by rw [h j (Finset.mem_range.mp hj)])

namespace IsDFTKernel

variable {w : Cpx R} {n : ℕ}

theorem conj_eq_pow (hw : IsDFTKernel w n) (hn : 0 < n) : Cpx.conj w = w ^ (n - 1) := by
  have h1 : w * w ^ (n - 1) = 1 := by
    rw [← pow_succ']
    have : n - 1 + 1 = n := by omega
    rw [this, hw.pow_eq_one]
  calc Cpx.conj w = Cpx.conj w * (w * w ^ (n - 1)) := by rw [h1, mul_one]
    _ = (w * Cpx.conj w) * w ^ (n - 1) := by ring
    _ = w ^ (n - 1) := by rw [hw.mul_conj, one_mul]

/-- Orthogonality of the kernel powers: the sum over `k < n` of `w^(a k) conj(w)^(m k)`
is `n` when `a` is `m` modulo `n`, and `0` otherwise. -/
theorem kernel_sum (hw : IsDFTKernel w n) (a m : ℕ) (hm : m < n) :
    ∑ k ∈ Finset.range n, w ^ (a * k) * Cpx.conj w ^ (m * k)
      = if a % n = m then (n : Cpx R) else 0 := by
  have hn : 0 < n := by omega
  have hterm : ∀ k, w ^ (a * k) * Cpx.conj w ^ (m * k)
      = w ^ (((a + (n - 1) * m) % n) * k) := by
    intro k
    rw [hw.conj_eq_pow hn, ← pow_mul, ← pow_add]
    have e : a * k + (n - 1) * (m * k) = (a + (n - 1) * m) * k := by ring
    rw [e, pow_mul, pow_eq_pow_mod (a + (n - 1) * m) hw.pow_eq_one, ← pow_mul]
  simp only [hterm]
  have hiff : (a + (n - 1) * m) % n = 0 ↔ a % n = m := by
    have e : a + (n - 1) * m + m = a + n * m := by
      have : (n - 1) * m + m = n * m := by
        rw [Nat.sub_mul, one_mul]
        exact Nat.sub_add_cancel (Nat.le_mul_of_pos_left m hn)
      omega
    constructor
    · intro h
      have h1 : (a + (n - 1) * m + m) % n = m % n := by
        rw [Nat.add_mod, h, zero_add, Nat.mod_mod]
      rw [e, Nat.add_mul_mod_self_left, Nat.mod_eq_of_lt hm] at h1
      exact h1
    · intro h
      have h1 : (a + (n - 1) * m + m) % n = (0 + m) % n := by
        rw [e, Nat.add_mul_mod_self_left, h, zero_add, Nat.mod_eq_of_lt hm]
      have h2 : Nat.ModEq n (a + (n - 1) * m) 0 := Nat.ModEq.add_right_cancel' m h1
      simpa [Nat.ModEq] using h2
  by_cases h0 : (a + (n - 1) * m) % n = 0
  · rw [if_pos (hiff.mp h0), h0]
    simp
  · rw [if_neg (fun h => h0 (hiff.mpr h))]
    exact hw.orth _ (Nat.pos_of_ne_zero h0) (Nat.mod_lt _ hn)

/-- The forward transform of real samples is Hermitian. -/
theorem conj_dft (hw : IsDFTKernel w n) (u : ℕ → R) (k : ℕ) (hk : k ≤ n) :
    Cpx.conj (dft w n u (n - k)) = dft w n u k := by
  unfold dft
  rw [Cpx.conj_sum]
  refine Finset.sum_congr rfl (fun j _ => ?_)
  rw [Cpx.conj_mul, Cpx.conj_ofReal, Cpx.conj_pow]
  congr 1
  have h1 : Cpx.conj w ^ (j * (n - k)) * w ^ (j * (n - k)) = 1 := by
    rw [← mul_pow, mul_comm, hw.mul_conj, one_pow]
  have h2 : w ^ (j * (n - k)) * w ^ (j * k) = 1 := by
    rw [← pow_add]
    have : j * (n - k) + j * k = n * j := by
      rw [← Nat.mul_add, Nat.sub_add_cancel hk, Nat.mul_comm]
    rw [this, pow_mul, hw.pow_eq_one, one_pow]
  calc Cpx.conj w ^ (j * (n - k))
      = Cpx.conj w ^ (j * (n - k)) * (w ^ (j * (n - k)) * w ^ (j * k)) := by rw [h2, mul_one]
    _ = (Cpx.conj w ^ (j * (n - k)) * w ^ (j * (n - k))) * w ^ (j * k) := by ring
    _ = w ^ (j * k) := by rw [h1, one_mul]

end IsDFTKernel

end DFT

section Circular

variable {R : Type} [CommRing R] {w : Cpx R} {n : ℕ}

/-- Bins above `n/2` of a sum of products of transforms of real blocks are recovered by
Hermitian symmetry. -/
theorem hermitian_products (hw : IsDFTKernel w n) (P : ℕ) (c : R) (u v : ℕ → ℕ → R)
    (X : ℕ → Cpx R)
    (hX : ∀ k, k ≤ n / 2 →
      X k = ∑ p ∈ Finset.range P, Cpx.ofReal c * dft w n (u p) k * dft w n (v p) k)
    (k : ℕ) (hk : k < n) :
    hermitian n X k
      = ∑ p ∈ Finset.range P, Cpx.ofReal c * dft w n (u p) k * dft w n (v p) k := by
  unfold hermitian
  split_ifs with h
  · exact hX k (by omega)
  · rw [hX (n - k) (by omega), Cpx.conj_sum]
    refine Finset.sum_congr rfl (fun p _ => ?_)
    rw [Cpx.conj_mul, Cpx.conj_mul, Cpx.conj_ofReal, hw.conj_dft (u p) k (by omega),
      hw.conj_dft (v p) k (by omega)]

/-- The inverse transform of a sum of products of transforms is a sum of circular
convolutions. -/
theorem inverse_of_products (hw : IsDFTKernel w n) (P : ℕ) (c : R) (u v : ℕ → ℕ → R)
    (m : ℕ) (hm : m < n) :
    ∑ k ∈ Finset.range n,
        ((∑ p ∈ Finset.range P, Cpx.ofReal c * dft w n (u p) k * dft w n (v p) k)
          * Cpx.conj w ^ (m * k)).re
      = ∑ p ∈ Finset.range P, ∑ j ∈ Finset.range n, ∑ l ∈ Finset.range n,
          (c * u p j * v p l) * (if (j + l) % n = m then (n : R) else 0) := by
  rw [← Cpx.re_sum]
  have hterm : ∀ k, (∑ p ∈ Finset.range P, Cpx.ofReal c * dft w n (u p) k * dft w n (v p) k)
        * Cpx.conj w ^ (m * k)
      = ∑ p ∈ Finset.range P, ∑ j ∈ Finset.range n, ∑ l ∈ Finset.range n,
          Cpx.ofReal (c * u p j * v p l) * (w ^ ((j + l) * k) * Cpx.conj w ^ (m * k)) := by
    intro k
    rw [Finset.sum_mul]
    refine Finset.sum_congr rfl (fun p _ => ?_)
    rw [mul_assoc (Cpx.ofReal c), dft, dft, Finset.sum_mul_sum, Finset.mul_sum, Finset.sum_mul]
    refine Finset.sum_congr rfl (fun j _ => ?_)
    rw [Finset.mul_sum, Finset.sum_mul]
    refine Finset.sum_congr rfl (fun l _ => ?_)
    rw [Cpx.ofReal_mul, Cpx.ofReal_mul, add_mul, pow_add]
    ring
  simp only [hterm]
  rw [Finset.sum_comm, Cpx.re_sum]
  refine Finset.sum_congr rfl (fun p _ => ?_)
  rw [Finset.sum_comm, Cpx.re_sum]
  refine Finset.sum_congr rfl (fun j _ => ?_)
  rw [Finset.sum_comm, Cpx.re_sum]
  refine Finset.sum_congr rfl (fun l _ => ?_)
  rw [← Finset.mul_sum, hw.kernel_sum (j + l) m hm]
  split_ifs <;> simp [Cpx.natCast_re, Cpx.natCast_im]

/-- Overlap-save: for a block `v` whose second half is zero, sample `B + i` of the circular
convolution of size `2 B` is the linear convolution of the first half of `v` with `u`. -/
theorem overlap_save_sample (B : ℕ) (u v : ℕ → R) (hv : ∀ l, B ≤ l → l < B * 2 → v l = 0)
    (i : ℕ) (hi : i < B) :
    ∑ j ∈ Finset.range (B * 2), ∑ l ∈ Finset.range (B * 2),
        (u j * v l) * (if (j + l) % (B * 2) = B + i then (1 : R) else 0)
      = ∑ l ∈ Finset.range B, v l * u (B + i - l) := by
  rw [Finset.sum_comm]
  have hsplit : B * 2 = B + B := by omega
  rw [hsplit, Finset.sum_range_add]
  have hzero : ∑ x ∈ Finset.range B, ∑ j ∈ Finset.range (B + B),
      (u j * v (B + x)) * (if (j + (B + x)) % (B + B) = B + i then (1 : R) else 0) = 0 := by
    refine Finset.sum_eq_zero (fun x hx => Finset.sum_eq_zero (fun j _ => ?_))
    rw [hv (B + x) (by omega) (by have := Finset.mem_range.mp hx; omega)]
    simp
  rw [hzero, add_zero]
  refine Finset.sum_congr rfl (fun l hl => ?_)
  have hl' := Finset.mem_range.mp hl
  rw [Finset.sum_eq_single (B + i - l)]
  · have : (B + i - l + l) % (B + B) = B + i := by
      rw [Nat.sub_add_cancel (by omega)]
      exact Nat.mod_eq_of_lt (by omega)
    rw [if_pos this]
    ring
  · intro j hj hne
    have hj' := Finset.mem_range.mp hj
    have : (j + l) % (B + B) ≠ B + i := by
      by_cases hlt : j + l < B + B
      · rw [Nat.mod_eq_of_lt hlt]
        omega
      · have := Nat.mod_eq_sub_mod (Nat.le_of_not_lt hlt)
        rw [this, Nat.mod_eq_of_lt (by omega)]
        omega
    rw [if_neg this]
    simp
  · intro hnot
    exact absurd (Finset.mem_range.mpr (by omega)) hnot

end Circular

namespace Convolver

variable {R : Type} [Field R]

theorem accumulate_snd (S : ℕ) (isp frp : ℕ → Cpx R) (P : ℕ)
    (init : (ℕ → Cpx R) × (ℕ → Cpx R)) (bin : ℕ) :
    (accumulate S isp frp P init).2 bin
      = if bin < S then
          init.2 bin + ∑ p ∈ Finset.range P, isp (p * S + bin) * frp (p * S + bin)
        else init.2 bin := by
  induction P with
  | zero => simp [accumulate]
  | succ P ih =>
    unfold accumulate at ih ⊢
    rw [List.range_succ, List.foldl_append, List.foldl_cons, List.foldl_nil]
    dsimp only
    by_cases hb : bin < S
    · rw [if_pos hb, if_pos hb, Cpx.mk_add, ih, if_pos hb, Finset.sum_range_succ]
      simp only [complex_multiply, if_pos hb, Cpx.mk_mul]
      ring
    · rw [if_neg hb, if_neg hb, ih, if_neg hb]

theorem fast_conv_eq (c : Convolver R) :
    c._fast_conv =
      { c with
        _input_spectra := (c._fft.real2complex c._input c._input_spectra 0 true).2
        _multiply_buffer :=
          (accumulate c._spectrum_size (c._fft.real2complex c._input c._input_spectra 0 true).2
            c._freq_resp_parts c._n_parts
            (c._multiply_buffer,
              fun bin => if bin < c._spectrum_size then ⟨0, 0⟩ else c._output_spectr bin)).1
        _output_spectr :=
          (accumulate c._spectrum_size (c._fft.real2complex c._input c._input_spectra 0 true).2
            c._freq_resp_parts c._n_parts
            (c._multiply_buffer,
              fun bin => if bin < c._spectrum_size then ⟨0, 0⟩ else c._output_spectr bin)).2
        _fft := ((c._fft.real2complex c._input c._input_spectra 0 true).1.complex2real
          (accumulate c._spectrum_size (c._fft.real2complex c._input c._input_spectra 0 true).2
            c._freq_resp_parts c._n_parts
            (c._multiply_buffer,
              fun bin => if bin < c._spectrum_size then ⟨0, 0⟩ else c._output_spectr bin)).2
          c._result).1
        _result := ((c._fft.real2complex c._input c._input_spectra 0 true).1.complex2real
          (accumulate c._spectrum_size (c._fft.real2complex c._input c._input_spectra 0 true).2
            c._freq_resp_parts c._n_parts
            (c._multiply_buffer,
              fun bin => if bin < c._spectrum_size then ⟨0, 0⟩ else c._output_spectr bin)).2
          c._result).2 } := rfl

@[simp] theorem fast_conv_fft_size (c : Convolver R) : c._fast_conv._fft_size = c._fft_size := rfl

@[simp] theorem fast_conv_block_size (c : Convolver R) :
    c._fast_conv._block_size = c._block_size := rfl

@[simp] theorem fast_conv_spectrum_size (c : Convolver R) :
    c._fast_conv._spectrum_size = c._spectrum_size := rfl

@[simp] theorem fast_conv_spectra_size (c : Convolver R) :
    c._fast_conv._spectra_size = c._spectra_size := rfl

@[simp] theorem fast_conv_n_parts (c : Convolver R) : c._fast_conv._n_parts = c._n_parts := rfl

@[simp] theorem fast_conv_input (c : Convolver R) : c._fast_conv._input = c._input := rfl

@[simp] theorem fast_conv_freq_resp_parts (c : Convolver R) :
    c._fast_conv._freq_resp_parts = c._freq_resp_parts := rfl

@[simp] theorem fast_conv_fft_fft_size (c : Convolver R) :
    c._fast_conv._fft._fft_size = c._fft._fft_size := rfl

@[simp] theorem fast_conv_fft_spectrum_size (c : Convolver R) :
    c._fast_conv._fft._spectrum_size = c._fft._spectrum_size := rfl

@[simp] theorem fast_conv_fft_norm_fact (c : Convolver R) :
    c._fast_conv._fft._norm_fact = c._fft._norm_fact := rfl

@[simp] theorem fast_conv_fft_w (c : Convolver R) : c._fast_conv._fft.w = c._fft.w := rfl

/-- The spectrum `_fast_conv` stores at the head of the spectrum buffer: the normalised
transform of the time window. -/
theorem fast_conv_input_spectra (c : Convolver R) (h : c.DimsOk) (i : ℕ) :
    c._fast_conv._input_spectra i
      = if i < c._block_size + 1 then
          Cpx.ofReal c._fft._norm_fact * dft c._fft.w (c._block_size * 2) c._input i
        else c._input_spectra i := by
  show (c._fft.real2complex c._input c._input_spectra 0 true).2 i = _
  simp only [FFThelper.real2complex, memcpy_apply, h.fft_fft_size, h.fft_spectrum_size,
    if_true, Nat.zero_le, true_and, zero_add, Nat.sub_zero]
  by_cases hi : i < c._block_size + 1
  · have hi2 : i ≤ c._block_size * 2 / 2 := by
      rw [Nat.mul_div_cancel _ (by norm_num : 0 < 2)]
      omega
    rw [if_pos hi, if_pos hi, if_pos hi, Cpx.scale_eq, fftw_r2c_eq _ _ _ _ _ hi2]
    congr 1
    exact dft_congr _ _ _ _ _ (fun j hj => by simp [hj])
  · rw [if_neg hi, if_neg hi]

/-- The accumulator after the multiply-and-accumulate loop of `_fast_conv`. -/
theorem fast_conv_output_spectr (c : Convolver R) (bin : ℕ) (hb : bin < c._spectrum_size) :
    c._fast_conv._output_spectr bin
      = ∑ p ∈ Finset.range c._n_parts,
          c._fast_conv._input_spectra (p * c._spectrum_size + bin)
            * c._freq_resp_parts (p * c._spectrum_size + bin) := by
  show (accumulate c._spectrum_size (c._fft.real2complex c._input c._input_spectra 0 true).2
      c._freq_resp_parts c._n_parts _).2 bin = _
  rw [accumulate_snd, if_pos hb]
  simp only [if_pos hb, Cpx.mk_zero, zero_add]
  rfl

theorem hermitian_congr {n : ℕ} (X Y : ℕ → Cpx R) (hXY : ∀ k, k ≤ n / 2 → X k = Y k) (k : ℕ)
    (hk : k < n) : hermitian n X k = hermitian n Y k := by
  unfold hermitian
  split_ifs with h2
  · exact hXY k (by omega)
  · rw [hXY (n - k) (by omega)]

/-- The time-domain result of `_fast_conv`: the inverse transform of the accumulator. -/
theorem fast_conv_result (c : Convolver R) (h : c.DimsOk) (m : ℕ)
    (hm : m < c._block_size * 2) :
    c._fast_conv._result m
      = ∑ k ∈ Finset.range (c._block_size * 2),
          (hermitian (c._block_size * 2) c._fast_conv._output_spectr k
            * Cpx.conj c._fft.w ^ (m * k)).re := by
  rw [fast_conv_eq]
  simp only [FFThelper.complex2real, FFThelper.real2complex, memcpy_apply, h.fft_fft_size,
    h.fft_spectrum_size, Nat.zero_le, true_and, zero_add, Nat.sub_zero, if_pos hm, fftw_c2r]
  refine Finset.sum_congr rfl (fun k hk => ?_)
  congr 2
  refine hermitian_congr _ _ (fun b hb => ?_) k (Finset.mem_range.mp hk)
  have hb2 : b < c._block_size + 1 := by
    rw [Nat.mul_div_cancel _ (by norm_num : 0 < 2)] at hb
    omega
  rw [memcpy_apply, if_pos ⟨Nat.zero_le _, by omega⟩]
  simp

theorem load_dimsOk (c : Convolver R) (h : c.DimsOk) (x : ℕ → R) : (c.load x).DimsOk :=
  ⟨h.fft_size, h.spectrum_size, h.spectra_size, h.fft_fft_size, h.fft_spectrum_size⟩

@[simp] theorem load_fft_size (c : Convolver R) (x : ℕ → R) :
    (c.load x)._fft_size = c._fft_size := rfl

@[simp] theorem load_block_size (c : Convolver R) (x : ℕ → R) :
    (c.load x)._block_size = c._block_size := rfl

@[simp] theorem load_spectrum_size (c : Convolver R) (x : ℕ → R) :
    (c.load x)._spectrum_size = c._spectrum_size := rfl

@[simp] theorem load_spectra_size (c : Convolver R) (x : ℕ → R) :
    (c.load x)._spectra_size = c._spectra_size := rfl

@[simp] theorem load_n_parts (c : Convolver R) (x : ℕ → R) :
    (c.load x)._n_parts = c._n_parts := rfl

@[simp] theorem load_freq_resp_parts (c : Convolver R) (x : ℕ → R) :
    (c.load x)._freq_resp_parts = c._freq_resp_parts := rfl

@[simp] theorem load_input_spectra (c : Convolver R) (x : ℕ → R) :
    (c.load x)._input_spectra = c._input_spectra := rfl

@[simp] theorem load_fft (c : Convolver R) (x : ℕ → R) : (c.load x)._fft = c._fft := rfl

theorem process_out (c : Convolver R) (x o : ℕ → R) (i : ℕ) :
    (c.process x o).2 i
      = if i < c._block_size then (c.load x)._fast_conv._result (c._block_size + i) else o i := by
  simp [process, load]

theorem process_input (c : Convolver R) (x o : ℕ → R) (i : ℕ) :
    (c.process x o).1._input i
      = if i < c._block_size then x i else (c.load x)._input i := by
  simp [process, load]

/-- The shift length of an engine whose spectrum buffer holds at least one spectrum. -/
theorem shiftLength_eq (c : Convolver R) (h : c._spectrum_size ≤ c._spectra_size) :
    c.shiftLength = c._spectra_size - c._spectrum_size := by
  unfold shiftLength
  rw [if_pos h]

/-- With constructor dimensions and at least one partition the spectrum buffer holds at
least one spectrum. -/
theorem spectrum_le_spectra (c : Convolver R) (hs : c._spectra_size = c._spectrum_size * c._n_parts)
    (hP : 0 < c._n_parts) : c._spectrum_size ≤ c._spectra_size := by
  rw [hs]
  exact Nat.le_mul_of_pos_right _ hP

/-- The shift at the end of `process` stays within the spectrum buffer exactly when the
engine has a partition. -/
theorem shiftInBounds_iff (c : Convolver R) (hs : c._spectra_size = c._spectrum_size * c._n_parts)
    (h0 : 0 < c._spectrum_size) (h32 : c._spectrum_size < 2 ^ 32) :
    c.shiftInBounds ↔ 0 < c._n_parts := by
  unfold shiftInBounds shiftLength
  constructor
  · intro h
    rcases Nat.eq_zero_or_pos c._n_parts with hP | hP
    · rw [hP, Nat.mul_zero] at hs
      rw [hs, if_neg (by omega)] at h
      omega
    · exact hP
  · intro hP
    have := spectrum_le_spectra c hs hP
    rw [if_pos this]
    omega

theorem process_input_spectra (c : Convolver R) (x o : ℕ → R) (i : ℕ) :
    (c.process x o).1._input_spectra i
      = if c._spectrum_size ≤ i ∧ i < c._spectrum_size + c.shiftLength
        then (c.load x)._fast_conv._input_spectra (i - c._spectrum_size)
        else (c.load x)._fast_conv._input_spectra i := by
  simp [process, load, shiftLength]

@[simp] theorem process_fft_size (c : Convolver R) (x o : ℕ → R) :
    (c.process x o).1._fft_size = c._fft_size := rfl

@[simp] theorem process_block_size (c : Convolver R) (x o : ℕ → R) :
    (c.process x o).1._block_size = c._block_size := rfl

@[simp] theorem process_spectrum_size (c : Convolver R) (x o : ℕ → R) :
    (c.process x o).1._spectrum_size = c._spectrum_size := rfl

@[simp] theorem process_spectra_size (c : Convolver R) (x o : ℕ → R) :
    (c.process x o).1._spectra_size = c._spectra_size := rfl

@[simp] theorem process_n_parts (c : Convolver R) (x o : ℕ → R) :
    (c.process x o).1._n_parts = c._n_parts := rfl

@[simp] theorem process_freq_resp_parts (c : Convolver R) (x o : ℕ → R) :
    (c.process x o).1._freq_resp_parts = c._freq_resp_parts := rfl

@[simp] theorem process_fft_fft_size (c : Convolver R) (x o : ℕ → R) :
    (c.process x o).1._fft._fft_size = c._fft._fft_size := rfl

@[simp] theorem process_fft_spectrum_size (c : Convolver R) (x o : ℕ → R) :
    (c.process x o).1._fft._spectrum_size = c._fft._spectrum_size := rfl

@[simp] theorem process_fft_norm_fact (c : Convolver R) (x o : ℕ → R) :
    (c.process x o).1._fft._norm_fact = c._fft._norm_fact := rfl

@[simp] theorem process_fft_w (c : Convolver R) (x o : ℕ → R) :
    (c.process x o).1._fft.w = c._fft.w := rfl

theorem process_dimsOk (c : Convolver R) (h : c.DimsOk) (x o : ℕ → R) :
    (c.process x o).1.DimsOk :=
  ⟨h.fft_size, h.spectrum_size, h.spectra_size, h.fft_fft_size, h.fft_spectrum_size⟩

/-- The spectra the accumulate step of a `process` call reads: the transform of the current
window at index 0, the stored history above. -/
theorem load_fast_conv_input_spectra (c : Convolver R) (h : c.DimsOk) (x : ℕ → R) (p bin : ℕ)
    (hb : bin < c._block_size + 1) :
    (c.load x)._fast_conv._input_spectra (p * c._spectrum_size + bin)
      = if p = 0 then
          Cpx.ofReal c._fft._norm_fact * dft c._fft.w (c._block_size * 2) (c.load x)._input bin
        else c._input_spectra (p * c._spectrum_size + bin) := by
  rw [fast_conv_input_spectra _ (load_dimsOk c h x)]
  show (if p * c._spectrum_size + bin < c._block_size + 1 then _ else _) = _
  rw [h.spectrum_size]
  by_cases hp : p = 0
  · subst hp
    simp [hb]
  · have : ¬ p * (c._block_size + 1) + bin < c._block_size + 1 := by
      have : 1 * (c._block_size + 1) ≤ p * (c._block_size + 1) :=
        Nat.mul_le_mul_right _ (Nat.one_le_iff_ne_zero.mpr hp)
      omega
    rw [if_neg this, if_neg hp]
    rfl

/-- Output of one `process` call when the stored spectra are the normalised transforms of
real windows `U p` and the partitions the transforms of zero-padded blocks `V p`: sample `i`
is the sum over the partitions of the linear convolutions of block and window. -/
theorem process_out_of_windows (c : Convolver R) (h : c.DimsOk)
    (hw : IsDFTKernel c._fft.w (c._block_size * 2))
    (hnf : c._fft._norm_fact * ((c._block_size * 2 : ℕ) : R) = 1)
    (x o : ℕ → R) (U V : ℕ → ℕ → R)
    (hV : ∀ p, p < c._n_parts → ∀ bin, bin < c._block_size + 1 →
      c._freq_resp_parts (p * c._spectrum_size + bin)
        = dft c._fft.w (c._block_size * 2) (V p) bin)
    (hVz : ∀ p l, c._block_size ≤ l → l < c._block_size * 2 → V p l = 0)
    (hU : ∀ p, 1 ≤ p → p < c._n_parts → ∀ bin, bin < c._block_size + 1 →
      c._input_spectra (p * c._spectrum_size + bin)
        = Cpx.ofReal c._fft._norm_fact * dft c._fft.w (c._block_size * 2) (U p) bin)
    (hU0 : ∀ j, j < c._block_size * 2 → U 0 j = (c.load x)._input j)
    (i : ℕ) (hi : i < c._block_size) :
    (c.process x o).2 i
      = ∑ p ∈ Finset.range c._n_parts, ∑ l ∈ Finset.range c._block_size,
          V p l * U p (c._block_size + i - l) := by
  rw [process_out, if_pos hi,
    fast_conv_result _ (load_dimsOk c h x) _ (by show c._block_size + i < c._block_size * 2; omega)]
  show ∑ k ∈ Finset.range (c._block_size * 2),
      (hermitian (c._block_size * 2) (c.load x)._fast_conv._output_spectr k
        * Cpx.conj c._fft.w ^ ((c._block_size + i) * k)).re = _
  have hX : ∀ k, k ≤ c._block_size * 2 / 2 →
      (c.load x)._fast_conv._output_spectr k
        = ∑ p ∈ Finset.range c._n_parts,
            Cpx.ofReal c._fft._norm_fact * dft c._fft.w (c._block_size * 2) (U p) k
              * dft c._fft.w (c._block_size * 2) (V p) k := by
    intro k hk
    rw [Nat.mul_div_cancel _ (by norm_num : 0 < 2)] at hk
    have hk1 : k < c._block_size + 1 := by omega
    rw [fast_conv_output_spectr _ _ (by show k < c._spectrum_size; rw [h.spectrum_size]; exact hk1)]
    refine Finset.sum_congr rfl (fun p hp => ?_)
    have hp' := Finset.mem_range.mp hp
    show (c.load x)._fast_conv._input_spectra (p * c._spectrum_size + k)
      * c._freq_resp_parts (p * c._spectrum_size + k) = _
    rw [load_fast_conv_input_spectra c h x p k hk1, hV p hp' k hk1]
    by_cases hp0 : p = 0
    · subst hp0
      rw [if_pos rfl, dft_congr _ _ (U 0) (c.load x)._input k hU0]
    · rw [if_neg hp0, hU p (Nat.one_le_iff_ne_zero.mpr hp0) hp' k hk1]
  have hherm := fun k (hk : k < c._block_size * 2) =>
    hermitian_products hw c._n_parts c._fft._norm_fact U V _ hX k hk
  rw [Finset.sum_congr rfl (fun k hk => by rw [hherm k (Finset.mem_range.mp hk)]),
    inverse_of_products hw c._n_parts c._fft._norm_fact U V (c._block_size + i) (by omega)]
  refine Finset.sum_congr rfl (fun p _ => ?_)
  rw [← overlap_save_sample c._block_size (U p) (V p) (hVz p) i hi]
  refine Finset.sum_congr rfl (fun j _ => Finset.sum_congr rfl (fun l _ => ?_))
  split_ifs
  · linear_combination (U p j * V p l) * hnf
  · simp

theorem compute_freq_resp_eq (c : Convolver R) (imp_resp : ℕ → R) :
    c._compute_freq_resp imp_resp =
      { c with
        _fft := (freqRespLoop c._block_size c._spectrum_size imp_resp c._n_parts
          (fun _ => 0, c._fft, c._freq_resp_parts)).2.1
        _freq_resp_parts := (freqRespLoop c._block_size c._spectrum_size imp_resp c._n_parts
          (fun _ => 0, c._fft, c._freq_resp_parts)).2.2 } := rfl

theorem freqRespLoop_inv (B : ℕ) (imp_resp : ℕ → R) (f0 : FFThelper R)
    (h1 : f0._fft_size = B * 2) (h2 : f0._spectrum_size = B + 1) (frp0 : ℕ → Cpx R) (P : ℕ) :
    FreqRespInv B imp_resp f0 P (freqRespLoop B (B + 1) imp_resp P (fun _ => 0, f0, frp0)) := by
  induction P with
  | zero =>
    exact ⟨rfl, rfl, rfl, rfl, fun _ _ => rfl, fun p hp => absurd hp (Nat.not_lt_zero p)⟩
  | succ P ih =>
    unfold freqRespLoop at ih ⊢
    rw [List.range_succ, List.foldl_append, List.foldl_cons, List.foldl_nil]
    generalize (List.range P).foldl _ _ = st at ih ⊢
    refine ⟨ih.fft_size, ih.spectrum_size, ih.norm_fact, ih.kernel, ?_, ?_⟩
    · intro j hj
      show memcpy st.1 0 imp_resp (P * B) B j = 0
      rw [memcpy_apply, if_neg (by omega), ih.upper_zero j hj]
    · intro p hp bin hbin
      show (st.2.1.real2complex (memcpy st.1 0 imp_resp (P * B) B) st.2.2 (P * (B + 1)) false).2
        (p * (B + 1) + bin) = _
      simp only [FFThelper.real2complex, memcpy_apply, Bool.false_eq_true, if_false,
        ih.spectrum_size, ih.fft_size, h1, h2, ih.kernel]
      by_cases hpP : p = P
      · subst hpP
        have hb2 : bin ≤ B * 2 / 2 := by
          rw [Nat.mul_div_cancel _ (by norm_num : 0 < 2)]
          omega
        rw [if_pos ⟨Nat.le_add_right _ _, by omega⟩, Nat.zero_add, Nat.add_sub_cancel_left,
          fftw_r2c_eq _ _ _ _ _ hb2]
        refine dft_congr _ _ _ _ _ (fun j hj => ?_)
        simp only [memcpy_apply, Nat.zero_le, true_and, Nat.zero_add, Nat.sub_zero, if_pos hj,
          zeroPaddedBlock]
        by_cases hjB : j < B
        · rw [if_pos hjB, if_pos hjB]
        · rw [if_neg hjB, if_neg hjB, ih.upper_zero j (by omega)]
      · have hlt : p < P := by omega
        have : ¬ (P * (B + 1) ≤ p * (B + 1) + bin ∧ p * (B + 1) + bin < P * (B + 1) + (B + 1)) := by
          have : (p + 1) * (B + 1) ≤ P * (B + 1) := Nat.mul_le_mul_right _ hlt
          have e : (p + 1) * (B + 1) = p * (B + 1) + (B + 1) := by ring
          omega
        rw [if_neg this]
        exact ih.parts p hlt bin hbin

/-- The loop of `_compute_freq_resp` over `P` partitions writes no bin from `P * (B + 1)`
on. -/
theorem freqRespLoop_rest (B : ℕ) (imp_resp : ℕ → R) (f0 : FFThelper R)
    (h1 : f0._fft_size = B * 2) (h2 : f0._spectrum_size = B + 1) (frp0 : ℕ → Cpx R) (P : ℕ) :
    ∀ i, P * (B + 1) ≤ i →
      (freqRespLoop B (B + 1) imp_resp P (fun _ => 0, f0, frp0)).2.2 i = frp0 i := by
  induction P with
  | zero =>
    intro i _
    rfl
  | succ P ih =>
    intro i hi
    have hinv := freqRespLoop_inv B imp_resp f0 h1 h2 frp0 P
    unfold freqRespLoop at ih hinv ⊢
    rw [List.range_succ, List.foldl_append, List.foldl_cons, List.foldl_nil]
    generalize (List.range P).foldl _ _ = st at ih hinv ⊢
    show (st.2.1.real2complex (memcpy st.1 0 imp_resp (P * B) B) st.2.2 (P * (B + 1)) false).2 i
      = _
    have e : (P + 1) * (B + 1) = P * (B + 1) + (B + 1) := by ring
    simp only [FFThelper.real2complex, memcpy_apply, Bool.false_eq_true, if_false,
      hinv.spectrum_size, h2]
    rw [if_neg (by omega)]
    exact ih i (by omega)

/-! ## The partition count in single precision -/

theorem float_zero : float 0 = 0 := by
  unfold float
  rw [if_pos (le_refl _)]

/-- The shape of a rounded value: with `u` the unit in the last place of `x` and
`x = (k + d) u`, `0 <= d < 1`, the result is `k u` (then `d <= 1/2`) or `(k + 1) u` (then
`d >= 1/2`). -/
theorem float_shape (x : ℚ) (hx : 0 < x) :
    (2 : ℚ) ^ Int.log 2 x ≤ x ∧ x < 2 ^ (Int.log 2 x + 1)
      ∧ ((Int.fract (x / 2 ^ (Int.log 2 x - 23)) ≤ 1 / 2
          ∧ float x = ⌊x / 2 ^ (Int.log 2 x - 23)⌋ * 2 ^ (Int.log 2 x - 23))
        ∨ (1 / 2 ≤ Int.fract (x / 2 ^ (Int.log 2 x - 23))
          ∧ float x = (⌊x / 2 ^ (Int.log 2 x - 23)⌋ + 1) * 2 ^ (Int.log 2 x - 23))) := by
  have h1 := Int.zpow_log_le_self (b := 2) (r := x) (by decide) hx
  have h2 := Int.lt_zpow_succ_log_self (b := 2) (by decide) x
  rw [Nat.cast_ofNat] at h1 h2
  refine ⟨h1, h2, ?_⟩
  unfold float
  rw [if_neg (not_le.mpr hx)]
  have hf : x / 2 ^ (Int.log 2 x - 23) - ⌊x / 2 ^ (Int.log 2 x - 23)⌋
      = Int.fract (x / 2 ^ (Int.log 2 x - 23)) := rfl
  rw [hf]
  split_ifs with h
  · left
    refine ⟨?_, rfl⟩
    rcases h with h | h
    · exact le_of_lt h
    · exact le_of_eq h.1
  · right
    refine ⟨?_, rfl⟩
    by_contra hc
    exact h (Or.inl (not_le.mp hc))

/-- A value on the grid of its unit in the last place is not changed. -/
theorem float_of_grid (x : ℚ) (hx : 0 < x) (k : ℤ)
    (hk : x / 2 ^ (Int.log 2 x - 23) = (k : ℚ)) : float x = x := by
  have hu : (0 : ℚ) < 2 ^ (Int.log 2 x - 23) := zpow_pos (by norm_num) _
  unfold float
  rw [if_neg (not_le.mpr hx), hk, Int.floor_intCast, sub_self, if_pos (Or.inl (by norm_num)),
    ← hk, div_mul_cancel₀ _ (ne_of_gt hu)]

/-- A natural number of at most 25 bits whose value is at most `2^24` is a binary32
value. -/
theorem float_natCast (n : ℕ) (hn : n ≤ 2 ^ 24) : float (n : ℚ) = n := by
  rcases Nat.eq_zero_or_pos n with h0 | h0
  · subst h0
    simpa using float_zero
  have hx : (0 : ℚ) < (n : ℚ) := by exact_mod_cast h0
  have h1 := Int.zpow_log_le_self (b := 2) (r := (n : ℚ)) (by decide) hx
  rw [Nat.cast_ofNat] at h1
  have hn' : (n : ℚ) ≤ 2 ^ (24 : ℤ) := by
    have : (n : ℚ) ≤ ((2 ^ 24 : ℕ) : ℚ) := by exact_mod_cast hn
    norm_num at this ⊢
    exact this
  have he : Int.log 2 (n : ℚ) ≤ 24 := by
    have := (Int.zpow_le_iff_le_log (b := 2) (by decide) hx (x := Int.log 2 (n : ℚ))).mpr
      (le_refl _)
    by_contra hc
    have h25 : (25 : ℤ) ≤ Int.log 2 (n : ℚ) := by omega
    have := (Int.zpow_le_iff_le_log (b := 2) (by decide) hx (x := 25)).mpr h25
    rw [Nat.cast_ofNat] at this
    have h3 : (2 : ℚ) ^ (24 : ℤ) < 2 ^ (25 : ℤ) := by norm_num
    linarith
  have h0e : 0 ≤ Int.log 2 (n : ℚ) := by
    rw [Int.log_natCast]
    exact Int.natCast_nonneg _
  rcases lt_or_ge (Int.log 2 (n : ℚ)) 24 with hlt | hge
  · -- the unit is `2^-(23 - e)`
    obtain ⟨t, ht⟩ : ∃ t : ℕ, (23 : ℤ) - Int.log 2 (n : ℚ) = t :=
      ⟨(23 - Int.log 2 (n : ℚ)).toNat, by omega⟩
    refine float_of_grid _ hx ((n : ℤ) * 2 ^ t) ?_
    have e1 : Int.log 2 (n : ℚ) - 23 = -(t : ℤ) := by omega
    rw [e1, zpow_neg, zpow_natCast]
    push_cast
    field_simp
  · have e24 : Int.log 2 (n : ℚ) = 24 := by omega
    have hn2 : (n : ℚ) = 2 ^ (24 : ℤ) := by
      rw [e24] at h1
      exact le_antisymm hn' h1
    refine float_of_grid _ hx (2 ^ 23) ?_
    rw [e24, hn2]
    norm_num

/-- Rounding the quotient of two natural numbers to binary32 does not move it across an
integer, as long as the dividend is at most `2^24`. -/
theorem ceil_float_div (a b : ℕ) (ha0 : 0 < a) (ha : a ≤ 2 ^ 24) (hb : 1 ≤ b) :
    ⌈float ((a : ℚ) / (b : ℚ))⌉₊ = ⌈(a : ℚ) / (b : ℚ)⌉₊ := by
  have hbq : (0 : ℚ) < (b : ℚ) := by exact_mod_cast hb
  have haq : (0 : ℚ) < (a : ℚ) := by exact_mod_cast ha0
  obtain ⟨q, hq⟩ : ∃ q : ℚ, q = (a : ℚ) / (b : ℚ) := ⟨_, rfl⟩
  rw [← hq]
  have hq0 : 0 < q := by rw [hq]; exact div_pos haq hbq
  have hqb : q * b = a := by rw [hq]; field_simp
  have ha' : (a : ℚ) ≤ 2 ^ 24 := by
    have : (a : ℚ) ≤ ((2 ^ 24 : ℕ) : ℚ) := by exact_mod_cast ha
    norm_num at this ⊢
    exact this
  -- the ceiling of the exact quotient
  obtain ⟨m, hm⟩ : ∃ m : ℕ, m = ⌈q⌉₊ := ⟨_, rfl⟩
  rw [← hm]
  have hm0 : m ≠ 0 := by
    rw [hm]
    exact (Nat.ceil_pos.mpr hq0).ne'
  have hqm : q ≤ (m : ℚ) := by rw [hm]; exact Nat.le_ceil q
  have hmq : ((m - 1 : ℕ) : ℚ) < q := by
    have := Nat.ceil_lt_add_one (le_of_lt hq0)
    rw [← hm] at this
    rw [Nat.cast_sub (Nat.one_le_iff_ne_zero.mpr hm0)]
    push_cast
    linarith
  have hgap : ((m - 1 : ℕ) : ℚ) + 1 / (b : ℚ) ≤ q := by
    have h1 : ((m - 1 : ℕ) : ℚ) * b < a := by
      rw [← hqb]
      exact mul_lt_mul_of_pos_right hmq hbq
    have h2 : (m - 1) * b < a := by exact_mod_cast h1
    have h3 : (((m - 1) * b + 1 : ℕ) : ℚ) ≤ (a : ℚ) := by exact_mod_cast h2
    push_cast at h3
    rw [← hqb] at h3
    apply le_of_mul_le_mul_right _ hbq
    rw [add_mul, one_div, inv_mul_cancel₀ (ne_of_gt hbq)]
    exact h3
  -- the unit in the last place
  obtain ⟨e, he⟩ : ∃ e : ℤ, e = Int.log 2 q := ⟨_, rfl⟩
  obtain ⟨u, hu⟩ : ∃ u : ℚ, u = 2 ^ (e - 23) := ⟨_, rfl⟩
  have hu0 : 0 < u := by rw [hu]; exact zpow_pos (by norm_num) _
  have h2e : (2 : ℚ) ^ e = u * 8388608 := by
    rw [hu, show (8388608 : ℚ) = 2 ^ (23 : ℤ) by norm_num,
      ← zpow_add₀ (by norm_num : (2 : ℚ) ≠ 0)]
    congr 1
    ring
  obtain ⟨hlo, _, hshape⟩ := float_shape q hq0
  rw [← he, ← hu] at hshape
  rw [← he, h2e] at hlo
  have hy : q / u = (⌊q / u⌋ : ℚ) + Int.fract (q / u) := (Int.floor_add_fract _).symm
  have hqy : q = (q / u) * u := (div_mul_cancel₀ _ (ne_of_gt hu0)).symm
  have hd0 : 0 ≤ Int.fract (q / u) := Int.fract_nonneg _
  have hd1 : Int.fract (q / u) < 1 := Int.fract_lt_one _
  have hq24 : q * b ≤ 16777216 := by
    rw [hqb]
    exact le_trans ha' (by norm_num)
  have hb1 : (1 : ℚ) ≤ (b : ℚ) := by exact_mod_cast hb
  have hq24' : q ≤ 16777216 := by nlinarith
  -- when the quotient is off the grid, the unit is small
  have hstrict : 0 < Int.fract (q / u) → u * 8388608 < q := by
    intro hd
    rcases lt_or_eq_of_le hlo with h | h
    · exact h
    · exfalso
      have : q / u = ((8388608 : ℤ) : ℚ) := by
        rw [← h]
        field_simp
      rw [this, Int.fract_intCast] at hd
      exact lt_irrefl _ hd
  have hsmall : 0 < Int.fract (q / u) → Int.fract (q / u) ≤ 1 / 2 →
      Int.fract (q / u) * u < 1 / (b : ℚ) := by
    intro hd hhalf
    have h1 := hstrict hd
    have h2 : u * 8388608 * b < 16777216 :=
      lt_of_lt_of_le (mul_lt_mul_of_pos_right h1 hbq) hq24
    have h3 : u * b < 2 := by linarith
    rw [lt_div_iff₀ hbq]
    have hub : 0 ≤ u * (b : ℚ) := mul_nonneg (le_of_lt hu0) (le_of_lt hbq)
    have h4 : Int.fract (q / u) * (u * (b : ℚ)) ≤ 1 / 2 * (u * (b : ℚ)) :=
      mul_le_mul_of_nonneg_right hhalf hub
    rw [mul_assoc]
    linarith
  rw [Nat.ceil_eq_iff hm0]
  rcases hshape with ⟨hd, hf⟩ | ⟨hd, hf⟩
  · rw [hf]
    have hfq : (⌊q / u⌋ : ℚ) * u = q - Int.fract (q / u) * u := by
      have : (⌊q / u⌋ : ℚ) = q / u - Int.fract (q / u) := by linarith
      rw [this, sub_mul, ← hqy]
    rw [hfq]
    constructor
    · rcases eq_or_lt_of_le hd0 with h0 | hpos
      · rw [← h0]
        linarith
      · have := hsmall hpos hd
        linarith
    · have : 0 ≤ Int.fract (q / u) * u := mul_nonneg hd0 (le_of_lt hu0)
      linarith
  · rw [hf]
    have hpos : 0 < Int.fract (q / u) := by linarith
    constructor
    · have : q < ((⌊q / u⌋ : ℚ) + 1) * u := by
        have h1 : q / u < (⌊q / u⌋ : ℚ) + 1 := Int.lt_floor_add_one _
        calc q = (q / u) * u := hqy
          _ < ((⌊q / u⌋ : ℚ) + 1) * u := mul_lt_mul_of_pos_right h1 hu0
      linarith
    · -- the exponent is at most 23, so that `m` is on the grid
      have he23 : e ≤ 23 := by
        by_contra hc
        have h24 : (24 : ℤ) ≤ e := by omega
        have h1 : (2 : ℚ) ^ (24 : ℤ) ≤ 2 ^ e := zpow_le_zpow_right₀ (by norm_num) h24
        rw [h2e] at h1
        have h2 := hstrict hpos
        norm_num at h1
        linarith
      obtain ⟨t, ht⟩ : ∃ t : ℕ, (23 : ℤ) - e = t := ⟨(23 - e).toNat, by omega⟩
      have hut : u * 2 ^ t = 1 := by
        rw [hu, ← zpow_natCast, ← zpow_add₀ (by norm_num : (2 : ℚ) ≠ 0)]
        have : e - 23 + (t : ℤ) = 0 := by omega
        rw [this, zpow_zero]
      have hyM : q / u ≤ (((m : ℤ) * 2 ^ t : ℤ) : ℚ) := by
        rw [div_le_iff₀ hu0]
        push_cast
        have : (m : ℚ) * 2 ^ t * u = m := by
          rw [mul_assoc, mul_comm ((2 : ℚ) ^ t) u, hut, mul_one]
        rw [this]
        exact hqm
      have hk : (⌊q / u⌋ : ℚ) < (((m : ℤ) * 2 ^ t : ℤ) : ℚ) := by
        have : (⌊q / u⌋ : ℚ) < q / u := by linarith
        linarith
      have hk2 : ⌊q / u⌋ + 1 ≤ (m : ℤ) * 2 ^ t := by
        have : ⌊q / u⌋ < (m : ℤ) * 2 ^ t := by exact_mod_cast hk
        omega
      have hk3 : ((⌊q / u⌋ : ℚ) + 1) ≤ (m : ℚ) * 2 ^ t := by exact_mod_cast hk2
      calc ((⌊q / u⌋ : ℚ) + 1) * u ≤ ((m : ℚ) * 2 ^ t) * u :=
            mul_le_mul_of_nonneg_right hk3 (le_of_lt hu0)
        _ = m := by rw [mul_assoc, mul_comm ((2 : ℚ) ^ t) u, hut, mul_one]

/-- For an impulse response of at most `2^24` samples and a block size of at most `2^24`
the partition count computed in binary32 is the exact ceiling of `N / B`. -/
theorem partCount_eq_ceil (N B : ℕ) (hN : N ≤ 2 ^ 24) (hB1 : 1 ≤ B) (hB : B ≤ 2 ^ 24) :
    partCount N B = ⌈(N : ℚ) / (B : ℚ)⌉₊ := by
  unfold partCount
  rw [float_natCast N hN, float_natCast B hB]
  rcases Nat.eq_zero_or_pos N with h0 | h0
  · subst h0
    simp [float_zero]
  · exact ceil_float_div N B h0 hN hB1

/-- The conversion of `2^24 + 1` to binary32 is a tie, which goes to the even
neighbour `2^24`. -/
theorem float_tie : float ((16777217 : ℕ) : ℚ) = 16777216 := by
  have hx : (0 : ℚ) < ((16777217 : ℕ) : ℚ) := by norm_num
  have he : Int.log 2 ((16777217 : ℕ) : ℚ) = 24 := by
    rw [Int.log_natCast]
    have : Nat.log 2 16777217 = 24 := by
      rw [Nat.log_eq_iff (by norm_num)]
      norm_num
    rw [this]
    rfl
  have hfl : ⌊((16777217 : ℕ) : ℚ) / 2 ^ ((24 : ℤ) - 23)⌋ = 8388608 := by
    rw [Int.floor_eq_iff]
    norm_num
  unfold float
  rw [if_neg (not_le.mpr hx), he, hfl]
  norm_num

/-- With 16777217 samples and blocks of 4096 samples the constructor computes 4096
partitions, whose blocks hold 16777216 samples; the exact ceiling is 4097. -/
theorem partCount_big :
    partCount 16777217 4096 = 4096 ∧ ⌈((16777217 : ℕ) : ℚ) / ((4096 : ℕ) : ℚ)⌉₊ = 4097 := by
  constructor
  · unfold partCount
    rw [float_tie, float_natCast 4096 (by norm_num)]
    have : (16777216 : ℚ) / ((4096 : ℕ) : ℚ) = ((4096 : ℕ) : ℚ) := by norm_num
    rw [this, float_natCast 4096 (by norm_num), Nat.ceil_natCast]
  · rw [Nat.ceil_eq_iff (by norm_num)]
    norm_num

/-- The exact ceiling of `N / B` covers `N` samples and its last block starts below `N`. -/
theorem n_parts_spec (N B : ℕ) (hB : 0 < B) :
    N ≤ ⌈(N : ℚ) / (B : ℚ)⌉₊ * B ∧ B * (⌈(N : ℚ) / (B : ℚ)⌉₊ - 1) ≤ N := by
  have hBq : (0 : ℚ) < (B : ℚ) := by exact_mod_cast hB
  constructor
  · have h1 : (N : ℚ) / (B : ℚ) ≤ (⌈(N : ℚ) / (B : ℚ)⌉₊ : ℚ) := Nat.le_ceil _
    rw [div_le_iff₀ hBq] at h1
    exact_mod_cast h1
  · by_cases hP : ⌈(N : ℚ) / (B : ℚ)⌉₊ = 0
    · rw [hP]
      simp
    · have h0 : (0 : ℚ) ≤ (N : ℚ) / (B : ℚ) := by positivity
      have h1 : (⌈(N : ℚ) / (B : ℚ)⌉₊ : ℚ) < (N : ℚ) / (B : ℚ) + 1 := Nat.ceil_lt_add_one h0
      have h2 : ((⌈(N : ℚ) / (B : ℚ)⌉₊ - 1 : ℕ) : ℚ) < (N : ℚ) / (B : ℚ) := by
        rw [Nat.cast_sub (Nat.one_le_iff_ne_zero.mpr hP)]
        push_cast
        linarith
      rw [lt_div_iff₀ hBq] at h2
      have h3 : (⌈(N : ℚ) / (B : ℚ)⌉₊ - 1) * B < N := by exact_mod_cast h2
      rw [Nat.mul_comm]
      exact Nat.le_of_lt h3

theorem new_loop (w : Cpx R) (mem : Fresh R) (h : ℕ → R) (N B : ℕ) :
    (Convolver.new w mem h N B)._fft
        = (freqRespLoop B (B + 1) (paddedImpResp mem h N B) (partCount N B)
            (fun _ => 0, FFThelper.new w mem.time_domain mem.freq_domain (B * 2),
              mem.freq_resp_parts)).2.1
      ∧ (Convolver.new w mem h N B)._freq_resp_parts
        = (freqRespLoop B (B + 1) (paddedImpResp mem h N B) (partCount N B)
            (fun _ => 0, FFThelper.new w mem.time_domain mem.freq_domain (B * 2),
              mem.freq_resp_parts)).2.2 :=
  ⟨rfl, rfl⟩

theorem new_loop_inv (w : Cpx R) (mem : Fresh R) (h : ℕ → R) (N B : ℕ) :
    FreqRespInv B (paddedImpResp mem h N B)
      (FFThelper.new w mem.time_domain mem.freq_domain (B * 2)) (partCount N B)
      (freqRespLoop B (B + 1) (paddedImpResp mem h N B) (partCount N B)
        (fun _ => 0, FFThelper.new w mem.time_domain mem.freq_domain (B * 2),
          mem.freq_resp_parts)) :=
  freqRespLoop_inv B _ _ (by show B * 2 + B * 2 % 2 = B * 2; omega)
    (by show B * 2 / 2 + 1 = B + 1; omega) _ _

theorem new_dimsOk (w : Cpx R) (mem : Fresh R) (h : ℕ → R) (N B : ℕ) :
    (Convolver.new w mem h N B).DimsOk := by
  refine ⟨rfl, rfl, rfl, ?_, ?_⟩
  · rw [(new_loop w mem h N B).1, (new_loop_inv w mem h N B).fft_size]
    show B * 2 + B * 2 % 2 = B * 2
    omega
  · rw [(new_loop w mem h N B).1, (new_loop_inv w mem h N B).spectrum_size]
    show B * 2 / 2 + 1 = B + 1
    omega

theorem new_fft_w (w : Cpx R) (mem : Fresh R) (h : ℕ → R) (N B : ℕ) :
    (Convolver.new w mem h N B)._fft.w = w := by
  rw [(new_loop w mem h N B).1, (new_loop_inv w mem h N B).kernel]
  rfl

theorem new_fft_norm_fact (w : Cpx R) (mem : Fresh R) (h : ℕ → R) (N B : ℕ) :
    (Convolver.new w mem h N B)._fft._norm_fact = (1 / 2) / (B : R) := by
  rw [(new_loop w mem h N B).1, (new_loop_inv w mem h N B).norm_fact]
  show (1 / 2) / (((B * 2 / 2 + 1 - 1 : ℕ) : R)) = _
  have : B * 2 / 2 + 1 - 1 = B := by omega
  rw [this]

/-- The partitions built by the constructor, when the last of the blocks it counted starts
at or below sample `N`: partition `p` is the unnormalised transform of block `p` of the
impulse response, zero-padded to twice the block size. -/
theorem new_freq_resp_parts (w : Cpx R) (mem : Fresh R) (h : ℕ → R) (N B : ℕ)
    (hlast : B * (partCount N B - 1) ≤ N)
    (p : ℕ) (hp : p < partCount N B) (bin : ℕ) (hbin : bin < B + 1) :
    (Convolver.new w mem h N B)._freq_resp_parts (p * (B + 1) + bin)
      = dft w (B * 2) (zeroPaddedBlock B (fun j => if j < N then h j else 0) p) bin := by
  rw [(new_loop w mem h N B).2, (new_loop_inv w mem h N B).parts p hp bin hbin]
  show dft w _ _ _ = _
  refine dft_congr _ _ _ _ _ (fun j _ => ?_)
  unfold zeroPaddedBlock
  by_cases hj : j < B
  · rw [if_pos hj, if_pos hj]
    unfold paddedImpResp
    rw [memcpy_apply]
    beta_reduce
    by_cases hN : p * B + j < N
    · rw [if_pos ⟨Nat.zero_le _, by omega⟩, if_pos hN]
      simp
    · rw [if_neg (by omega), if_neg hN]
      have h1 := hlast
      have h2 : (p + 1) * B ≤ partCount N B * B := Nat.mul_le_mul_right _ hp
      have e1 : (p + 1) * B = p * B + B := by ring
      have e2 : B * partCount N B = partCount N B * B := Nat.mul_comm _ _
      rw [if_pos ⟨by omega, by omega⟩]
  · rw [if_neg hj, if_neg hj]

@[simp] theorem new_block_size (w : Cpx R) (mem : Fresh R) (h : ℕ → R) (N B : ℕ) :
    (Convolver.new w mem h N B)._block_size = B := rfl

@[simp] theorem new_n_parts (w : Cpx R) (mem : Fresh R) (h : ℕ → R) (N B : ℕ) :
    (Convolver.new w mem h N B)._n_parts = partCount N B := rfl

/-- For sizes of at most `2^24` the constructor counts the exact ceiling of `N / B`. -/
theorem new_n_parts_eq_ceil (w : Cpx R) (mem : Fresh R) (h : ℕ → R) (N B : ℕ)
    (hN : N ≤ 2 ^ 24) (hB1 : 1 ≤ B) (hB : B ≤ 2 ^ 24) :
    (Convolver.new w mem h N B)._n_parts = ⌈(N : ℚ) / (B : ℚ)⌉₊ :=
  partCount_eq_ceil N B hN hB1 hB

/-- The constructor writes no bin of the partition buffer from `_spectra_size` on. -/
theorem new_freq_resp_parts_rest (w : Cpx R) (mem : Fresh R) (h : ℕ → R) (N B : ℕ) (i : ℕ)
    (hi : partCount N B * (B + 1) ≤ i) :
    (Convolver.new w mem h N B)._freq_resp_parts i = mem.freq_resp_parts i := by
  rw [(new_loop w mem h N B).2]
  exact freqRespLoop_rest B _ _ (by show B * 2 + B * 2 % 2 = B * 2; omega)
    (by show B * 2 / 2 + 1 = B + 1; omega) _ _ i hi

/-- For sizes of at most `2^24` the blocks the constructor counts cover the `N` samples,
and the last of them starts below sample `N`. -/
theorem partCount_spec (N B : ℕ) (hN : N ≤ 2 ^ 24) (hB1 : 1 ≤ B) (hB : B ≤ 2 ^ 24) :
    N ≤ partCount N B * B ∧ B * (partCount N B - 1) ≤ N := by
  rw [partCount_eq_ceil N B hN hB1 hB]
  exact n_parts_spec N B hB1

theorem partCount_one_one : partCount 1 1 = 1 := by
  rw [partCount_eq_ceil 1 1 (by norm_num) (by norm_num) (by norm_num),
    Nat.ceil_eq_iff (by norm_num)]
  norm_num

theorem partCount_one_two : partCount 1 2 = 1 := by
  rw [partCount_eq_ceil 1 2 (by norm_num) (by norm_num) (by norm_num),
    Nat.ceil_eq_iff (by norm_num)]
  norm_num

theorem partCount_two_one : partCount 2 1 = 2 := by
  rw [partCount_eq_ceil 2 1 (by norm_num) (by norm_num) (by norm_num),
    Nat.ceil_eq_iff (by norm_num)]
  norm_num

theorem partCount_two_four : partCount 2 4 = 1 := by
  rw [partCount_eq_ceil 2 4 (by norm_num) (by norm_num) (by norm_num),
    Nat.ceil_eq_iff (by norm_num)]
  norm_num

theorem partCount_three_two : partCount 3 2 = 2 := by
  rw [partCount_eq_ceil 3 2 (by norm_num) (by norm_num) (by norm_num),
    Nat.ceil_eq_iff (by norm_num)]
  norm_num

@[simp] theorem new_spectrum_size (w : Cpx R) (mem : Fresh R) (h : ℕ → R) (N B : ℕ) :
    (Convolver.new w mem h N B)._spectrum_size = B + 1 := rfl

theorem new_input (w : Cpx R) (mem : Fresh R) (h : ℕ → R) (N B : ℕ) (j : ℕ) (hj : j < B * 2) :
    (Convolver.new w mem h N B)._input j = 0 := by
  show (if j < B * 2 then (0 : R) else mem.input j) = 0
  rw [if_pos hj]

end Convolver

section Streams

variable {R : Type} [Field R]

theorem pastWindow_succ (B : ℕ) (x : ℕ → R) (t p j : ℕ) :
    pastWindow B x (t + 1) (p + 1) j = pastWindow B x t p j := by
  unfold pastWindow
  have e1 : (p + 1 + 1) * B = (p + 1) * B + B := by ring
  have e2 : (t + 1) * B = t * B + B := by ring
  rw [e1, e2]
  by_cases hc : (p + 1) * B ≤ t * B + j
  · rw [if_pos hc, if_pos (by omega)]
    congr 1
    omega
  · rw [if_neg hc, if_neg (by omega)]

theorem dft_zero {S : Type} [CommRing S] (w : Cpx S) (n : ℕ) (u : ℕ → S) (k : ℕ)
    (hu : ∀ j, j < n → u j = 0) : dft w n u k = 0 := by
  unfold dft
  refine Finset.sum_eq_zero (fun j hj => ?_)
  rw [hu j (Finset.mem_range.mp hj)]
  have : Cpx.ofReal (0 : S) = 0 := rfl
  rw [this, zero_mul]

theorem sum_blocks {S : Type} [AddCommMonoid S] (f : ℕ → S) (P B : ℕ) :
    ∑ p ∈ Finset.range P, ∑ l ∈ Finset.range B, f (p * B + l)
      = ∑ q ∈ Finset.range (P * B), f q := by
  induction P with
  | zero => simp
  | succ P ih =>
    have e : (P + 1) * B = P * B + B := by ring
    rw [Finset.sum_range_succ, ih, e, Finset.sum_range_add]

namespace StreamInv

variable {w : Cpx R} {B P : ℕ} {h x : ℕ → R} {c : Convolver R} {t : ℕ}

theorem load_input (inv : StreamInv w B P h x c t) (j : ℕ) (hj : j < B * 2) :
    (c.load (blockOf B x t))._input j = pastWindow B x t 0 j := by
  show memcpy c._input c._block_size (blockOf B x t) 0 c._block_size j = _
  rw [memcpy_apply, inv.block_size]
  by_cases hjB : j < B
  · rw [if_neg (by omega), inv.input j hjB]
  · rw [if_pos ⟨by omega, by omega⟩]
    unfold pastWindow blockOf
    rw [if_pos (by omega)]
    congr 1
    omega

theorem step (inv : StreamInv w B P h x c t) (o : ℕ → R) :
    StreamInv w B P h x (c.process (blockOf B x t) o).1 (t + 1) := by
  refine ⟨Convolver.process_dimsOk c inv.dims _ _, inv.block_size, inv.n_parts, inv.kernel,
    inv.norm_fact, inv.parts, ?_, ?_⟩
  · intro j hj
    rw [Convolver.process_input, inv.block_size, if_pos hj]
    unfold pastWindow blockOf
    have e : (t + 1) * B = t * B + B := by ring
    rw [e, if_pos (by omega)]
    congr 1
    omega
  · intro p hp1 hpP bin hbin
    have hS : c._spectrum_size = B + 1 := by rw [inv.dims.spectrum_size, inv.block_size]
    have hSS : c._spectra_size = (B + 1) * P := by
      rw [inv.dims.spectra_size, hS, inv.n_parts]
    obtain ⟨q, rfl⟩ : ∃ q, p = q + 1 := ⟨p - 1, by omega⟩
    have e1 : (q + 1) * (B + 1) = q * (B + 1) + (B + 1) := by ring
    have e2 : (q + 1 + 1) * (B + 1) ≤ P * (B + 1) := Nat.mul_le_mul_right _ hpP
    have e3 : (q + 1 + 1) * (B + 1) = q * (B + 1) + (B + 1) + (B + 1) := by ring
    have e4 : (B + 1) * P = P * (B + 1) := Nat.mul_comm _ _
    rw [Convolver.process_input_spectra, Convolver.shiftLength_eq c (by rw [hS, hSS]; omega),
      hS, hSS, if_pos ⟨by omega, by omega⟩]
    have e5 : (q + 1) * (B + 1) + bin - (B + 1) = q * c._spectrum_size + bin := by
      rw [hS]
      omega
    rw [e5, Convolver.load_fast_conv_input_spectra c inv.dims _ q bin
      (by rw [inv.block_size]; exact hbin), inv.kernel, inv.norm_fact, inv.block_size]
    by_cases hq : q = 0
    · subst hq
      rw [if_pos rfl]
      congr 1
      refine dft_congr _ _ _ _ _ (fun j hj => ?_)
      rw [inv.load_input j hj, pastWindow_succ]
    · rw [if_neg hq, hS, inv.spectra q (Nat.one_le_iff_ne_zero.mpr hq) (by omega) bin hbin]
      congr 1
      refine dft_congr _ _ _ _ _ (fun j _ => ?_)
      rw [pastWindow_succ]

/-- The output block of the next `process` call is the linear convolution of the stream
with the padded impulse response. -/
theorem out_eq [CharZero R] (inv : StreamInv w B P h x c t) (hw : IsDFTKernel w (B * 2))
    (hB : 0 < B) (o : ℕ → R) (i : ℕ) (hi : i < B) :
    (c.process (blockOf B x t) o).2 i = linearConvolution h (P * B) x (t * B + i) := by
  have hS : c._spectrum_size = B + 1 := by rw [inv.dims.spectrum_size, inv.block_size]
  have hBR : (B : R) ≠ 0 := Nat.cast_ne_zero.mpr (by omega)
  have hnf : c._fft._norm_fact * ((c._block_size * 2 : ℕ) : R) = 1 := by
    rw [inv.norm_fact, inv.block_size]
    push_cast
    field_simp
    ring
  rw [Convolver.process_out_of_windows c inv.dims (by rw [inv.kernel, inv.block_size]; exact hw)
    hnf _ o (pastWindow B x t) (Convolver.zeroPaddedBlock B h)
    (by
      intro p hp bin hbin
      rw [inv.n_parts] at hp
      rw [inv.block_size] at hbin
      rw [hS, inv.kernel, inv.block_size]
      exact inv.parts p hp bin hbin)
    (by
      intro p l hl _
      rw [inv.block_size] at hl
      unfold Convolver.zeroPaddedBlock
      rw [if_neg (by omega)])
    (by
      intro p hp1 hpP bin hbin
      rw [inv.n_parts] at hpP
      rw [inv.block_size] at hbin
      rw [hS, inv.kernel, inv.block_size, inv.norm_fact]
      exact inv.spectra p hp1 hpP bin hbin)
    (by
      intro j hj
      rw [inv.block_size] at hj
      rw [inv.load_input j hj])
    i (by rw [inv.block_size]; exact hi)]
  rw [inv.n_parts, inv.block_size]
  unfold linearConvolution
  rw [← sum_blocks]
  refine Finset.sum_congr rfl (fun p _ => Finset.sum_congr rfl (fun l hl => ?_))
  have hl' := Finset.mem_range.mp hl
  unfold Convolver.zeroPaddedBlock pastWindow
  rw [if_pos hl']
  have e : (p + 1) * B = p * B + B := by ring
  rw [e]
  by_cases hc : p * B + l ≤ t * B + i
  · rw [if_pos hc, if_pos (by omega)]
    congr 2
    omega
  · rw [if_neg hc, if_neg (by omega), mul_zero]

end StreamInv

theorem Convolver.run_inv {w : Cpx R} {B P : ℕ} {h x : ℕ → R} {c : Convolver R}
    (inv : StreamInv w B P h x c 0) (outs : ℕ → ℕ → R) (t : ℕ) :
    StreamInv w B P h x (c.run (blockOf B x) outs t) t := by
  induction t with
  | zero =>
    rw [Convolver.run]
    exact inv
  | succ t ih =>
    rw [Convolver.run]
    exact ih.step (outs t)

end Streams

section Initial

variable {R : Type} [Field R]

theorem pastWindow_zero (B : ℕ) (x : ℕ → R) (p j : ℕ) (hj : j < (p + 1) * B) :
    pastWindow B x 0 p j = 0 := by
  unfold pastWindow
  rw [if_neg (by omega)]

/-- A freshly constructed engine whose buffers were reset has consumed no block. -/
theorem streamInv_new_reset (w : Cpx R) (mem : Fresh R) (h x : ℕ → R) (N B : ℕ)
    (hlast : B * (Convolver.partCount N B - 1) ≤ N) :
    StreamInv w B (Convolver.partCount N B) (fun j => if j < N then h j else 0) x
      (Convolver.new w mem h N B).reset_input_buffer 0 := by
  have hd := Convolver.new_dimsOk w mem h N B
  refine ⟨⟨hd.fft_size, hd.spectrum_size, hd.spectra_size, hd.fft_fft_size,
    hd.fft_spectrum_size⟩, rfl, rfl, Convolver.new_fft_w w mem h N B,
    Convolver.new_fft_norm_fact w mem h N B, Convolver.new_freq_resp_parts w mem h N B hlast,
    ?_, ?_⟩
  · intro j hj
    show (if j < (Convolver.new w mem h N B)._fft_size then (0 : R) else _) = _
    rw [hd.fft_size, Convolver.new_block_size, if_pos (by omega),
      pastWindow_zero B x 0 j (by omega)]
  · intro p hp1 hpP bin hbin
    show (if p * (B + 1) + bin < (Convolver.new w mem h N B)._spectra_size then
      (⟨0, 0⟩ : Cpx R) else _) = _
    have e1 : (p + 1) * (B + 1) ≤ Convolver.partCount N B * (B + 1) :=
      Nat.mul_le_mul_right _ hpP
    have e2 : (p + 1) * (B + 1) = p * (B + 1) + (B + 1) := by ring
    have e3 : (Convolver.new w mem h N B)._spectra_size
        = Convolver.partCount N B * (B + 1) :=
      Nat.mul_comm _ _
    rw [e3, if_pos (by omega), dft_zero _ _ _ _ (fun j hj => pastWindow_zero B x p j (by
      have : 2 * B ≤ (p + 1) * B := Nat.mul_le_mul_right _ (by omega)
      omega)), mul_zero]
    rfl

/-- A freshly constructed engine with a single partition has consumed no block, whatever
the allocator left in its spectrum buffer. -/
theorem streamInv_new_single (w : Cpx R) (mem : Fresh R) (h x : ℕ → R) (N B : ℕ)
    (hlast : B * (Convolver.partCount N B - 1) ≤ N) (hP : Convolver.partCount N B ≤ 1) :
    StreamInv w B (Convolver.partCount N B) (fun j => if j < N then h j else 0) x
      (Convolver.new w mem h N B) 0 := by
  refine ⟨Convolver.new_dimsOk w mem h N B, rfl, rfl, Convolver.new_fft_w w mem h N B,
    Convolver.new_fft_norm_fact w mem h N B, Convolver.new_freq_resp_parts w mem h N B hlast,
    ?_, ?_⟩
  · intro j hj
    rw [Convolver.new_input w mem h N B j (by omega), pastWindow_zero B x 0 j (by omega)]
  · intro p hp1 hpP
    omega

theorem linearConvolution_padded (h x : ℕ → R) (N M : ℕ) (hNM : N ≤ M) (n : ℕ) :
    linearConvolution (fun j => if j < N then h j else 0) M x n = linearConvolution h N x n := by
  unfold linearConvolution
  obtain ⟨k, rfl⟩ : ∃ k, M = N + k := ⟨M - N, by omega⟩
  rw [Finset.sum_range_add]
  have hz : ∑ q ∈ Finset.range k,
      (if N + q ≤ n then (fun j => if j < N then h j else 0) (N + q) * x (n - (N + q)) else 0)
        = 0 := by
    refine Finset.sum_eq_zero (fun q _ => ?_)
    beta_reduce
    rw [if_neg (by omega : ¬ N + q < N), zero_mul, ite_self]
  rw [hz, add_zero]
  refine Finset.sum_congr rfl (fun q hq => ?_)
  beta_reduce
  rw [if_pos (Finset.mem_range.mp hq)]

/-- Output stream of an engine with `P` partitions that starts in a state that has consumed
no block: the linear convolution with the `P * B` samples its partitions hold. -/
theorem outputStream_of_parts [CharZero R] {w : Cpx R} {B P : ℕ} {c : Convolver R}
    (h x : ℕ → R) (hB : 0 < B) (hw : IsDFTKernel w (B * 2)) (inv : StreamInv w B P h x c 0)
    (outs : ℕ → ℕ → R) (n : ℕ) :
    c.outputStream B x outs n = linearConvolution h (P * B) x n := by
  unfold Convolver.outputStream Convolver.outputs
  rw [(Convolver.run_inv inv outs (n / B)).out_eq hw hB (outs (n / B)) (n % B)
    (Nat.mod_lt _ hB), Nat.div_add_mod' n B]

/-- Output stream of an engine that starts in a state that has consumed no block and whose
partitions cover the `N` samples of the impulse response. -/
theorem outputStream_of_inv [CharZero R] {w : Cpx R} {B P : ℕ} {c : Convolver R} (h x : ℕ → R)
    (N : ℕ) (hB : 0 < B) (hw : IsDFTKernel w (B * 2)) (hcover : N ≤ P * B)
    (inv : StreamInv w B P (fun j => if j < N then h j else 0) x c 0)
    (outs : ℕ → ℕ → R) (n : ℕ) :
    c.outputStream B x outs n = linearConvolution h N x n := by
  rw [outputStream_of_parts _ x hB hw inv outs n, linearConvolution_padded h x N _ hcover]

end Initial

section RealKernel

theorem Cpx.toComplex_injective : Function.Injective Cpx.toComplex := by
  intro a b hab
  have h1 := congrArg Complex.re hab
  have h2 := congrArg Complex.im hab
  exact Cpx.ext h1 h2

theorem Cpx.toComplex_zero : Cpx.toComplex 0 = 0 := rfl

theorem Cpx.toComplex_one : Cpx.toComplex 1 = 1 := rfl

theorem Cpx.toComplex_add (a b : Cpx ℝ) :
    Cpx.toComplex (a + b) = Cpx.toComplex a + Cpx.toComplex b := rfl

theorem Cpx.toComplex_mul (a b : Cpx ℝ) :
    Cpx.toComplex (a * b) = Cpx.toComplex a * Cpx.toComplex b := by
  apply Complex.ext <;> simp [Cpx.toComplex]

theorem Cpx.toComplex_pow (a : Cpx ℝ) (k : ℕ) :
    Cpx.toComplex (a ^ k) = Cpx.toComplex a ^ k := by
  induction k with
  | zero => simp [Cpx.toComplex_one]
  | succ k ih => rw [pow_succ, pow_succ, Cpx.toComplex_mul, ih]

theorem Cpx.toComplex_sum (s : Finset ℕ) (f : ℕ → Cpx ℝ) :
    Cpx.toComplex (∑ i ∈ s, f i) = ∑ i ∈ s, Cpx.toComplex (f i) := by
  induction s using Finset.induction_on with
  | empty => simp [Cpx.toComplex_zero]
  | insert hi ih => rw [Finset.sum_insert hi, Finset.sum_insert hi, Cpx.toComplex_add, ih]

theorem toComplex_realKernel (n : ℕ) :
    Cpx.toComplex ⟨Real.cos (2 * Real.pi / n), -Real.sin (2 * Real.pi / n)⟩
      = (Complex.exp (2 * Real.pi * Complex.I / n))⁻¹ := by
  rw [← Complex.exp_neg]
  have e : -(2 * (Real.pi : ℂ) * Complex.I / n) = ((-(2 * Real.pi / n) : ℝ) : ℂ) * Complex.I := by
    push_cast
    ring
  rw [e]
  apply Complex.ext
  · rw [Complex.exp_ofReal_mul_I_re, Real.cos_neg]
    rfl
  · rw [Complex.exp_ofReal_mul_I_im, Real.sin_neg]
    rfl

/-- Over the reals, `e^{-2 pi i / n} = cos(2 pi / n) - i sin(2 pi / n)` is a kernel of the
DFT of size `n`. -/
theorem isDFTKernel_real (n : ℕ) (hn : 0 < n) :
    IsDFTKernel (⟨Real.cos (2 * Real.pi / n), -Real.sin (2 * Real.pi / n)⟩ : Cpx ℝ) n := by
  have hprim : IsPrimitiveRoot (Complex.exp (2 * Real.pi * Complex.I / n))⁻¹ n :=
    (Complex.isPrimitiveRoot_exp n (by omega)).inv
  refine ⟨?_, ?_, ?_⟩
  · apply Cpx.toComplex_injective
    rw [Cpx.toComplex_pow, toComplex_realKernel, hprim.pow_eq_one]
    rfl
  · ext
    · simp only [Cpx.mul_re, Cpx.conj_re, Cpx.conj_im, Cpx.one_re]
      have := Real.cos_sq_add_sin_sq (2 * Real.pi / n)
      linear_combination this
    · simp only [Cpx.mul_im, Cpx.conj_re, Cpx.conj_im, Cpx.one_im]
      ring
  · intro d hd0 hdn
    apply Cpx.toComplex_injective
    rw [Cpx.toComplex_sum, Cpx.toComplex_zero]
    have hne : (Complex.exp (2 * Real.pi * Complex.I / n))⁻¹ ^ d ≠ 1 :=
      hprim.pow_ne_one_of_pos_of_lt (by omega) hdn
    have hgeom := geom_sum_mul ((Complex.exp (2 * Real.pi * Complex.I / n))⁻¹ ^ d) n
    rw [← pow_mul, Nat.mul_comm, pow_mul, hprim.pow_eq_one, one_pow, sub_self] at hgeom
    have hsum := (mul_eq_zero.mp hgeom).resolve_right (sub_ne_zero.mpr hne)
    rw [← hsum]
    refine Finset.sum_congr rfl (fun k _ => ?_)
    rw [Cpx.toComplex_pow, toComplex_realKernel, pow_mul]

end RealKernel

section Examples

theorem kernel4_sq : kernel4 * kernel4 = -1 := by
  ext <;> simp [kernel4]

theorem isDFTKernel_kernel4 : IsDFTKernel kernel4 (2 * 2) := by
  have h2 : kernel4 ^ 2 = -1 := by rw [pow_two, kernel4_sq]
  refine ⟨?_, ?_, ?_⟩
  · have : kernel4 ^ (2 * 2) = (kernel4 ^ 2) ^ 2 := by rw [← pow_mul]
    rw [this, h2]
    norm_num
  · ext <;> simp [kernel4]
  · intro d hd0 hd4
    have hpow : ∀ k, kernel4 ^ (d * k) = (kernel4 ^ d) ^ k := fun k => pow_mul _ _ _
    simp only [hpow]
    interval_cases d
    · simp only [Finset.sum_range_succ, Finset.sum_range_zero]
      linear_combination (1 + kernel4) * h2
    · rw [h2]
      simp [Finset.sum_range_succ, pow_succ]
    · have h3 : kernel4 ^ 3 = -kernel4 := by rw [pow_succ, h2]; ring
      rw [h3]
      simp only [Finset.sum_range_succ, Finset.sum_range_zero]
      linear_combination (1 - kernel4) * h2

theorem isDFTKernel_kernel2 : IsDFTKernel kernel2 (1 * 2) := by
  have h1 : kernel2 = -1 := by ext <;> simp [kernel2]
  refine ⟨?_, ?_, ?_⟩
  · rw [h1]
    norm_num
  · ext <;> simp [kernel2]
  · intro d hd0 hd2
    interval_cases d
    rw [h1]
    simp [Finset.sum_range_succ]

end Examples

section BaseClaims

/-! ## Claims on the base engine -/

/-- For every impulse response `h` of length `1 <= N <= 2^24` and every block size
`1 <= B <= 2^24`, with the transforms the exact DFT of size `2 B` (kernel `w`), an engine
that is constructed and then reset returns, over successive `process` calls on the blocks
of a stream `x`, output blocks whose concatenation is the linear convolution
`y[n] = sum_{j<N} h[j] x[n-j]` of the stream, sample for sample and with no extra delay. -/
theorem Convolver.outputStream_eq_linearConvolution {R : Type} [Field R] [CharZero R]
    (w : Cpx R) (N B : ℕ) (_hN : 1 ≤ N) (hB : 1 ≤ B) (hN24 : N ≤ 2 ^ 24) (hB24 : B ≤ 2 ^ 24)
    (hw : IsDFTKernel w (B * 2))
    (mem : Fresh R) (h x : ℕ → R) (outs : ℕ → ℕ → R) (n : ℕ) :
    (Convolver.new w mem h N B).reset_input_buffer.outputStream B x outs n
      = linearConvolution h N x n :=
  outputStream_of_inv h x N hB hw (Convolver.partCount_spec N B hN24 hB hB24).1
    (streamInv_new_reset w mem h x N B (Convolver.partCount_spec N B hN24 hB hB24).2) outs n

/-- Example: three-sample impulse response, block size 2, the DFT of size 4 over the
rationals, output sample 5. -/
theorem Convolver.outputStream_eq_linearConvolution_witness :
    1 ≤ 3 ∧ 1 ≤ 2 ∧ IsDFTKernel kernel4 (2 * 2)
      ∧ (Convolver.new kernel4 exFresh exImp 3 2).reset_input_buffer.outputStream 2 exStream
            exOuts 5
          = linearConvolution exImp 3 exStream 5 :=
  ⟨by decide, by decide, isDFTKernel_kernel4,
    Convolver.outputStream_eq_linearConvolution kernel4 3 2 (by decide) (by decide)
      (by norm_num) (by norm_num) isDFTKernel_kernel4 exFresh exImp exStream exOuts 5⟩

/-- C1 fails for an impulse response of 16777217 samples and block size 4096 (the exact
DFT of size 8192 over the reals): the constructor counts 4096 partitions, which hold
16777216 samples, so the engine that is constructed and then reset returns the linear
convolution with the first 16777216 samples; for the impulse response whose only non-zero
sample is the last one and the unit impulse as input, output sample 16777216 is 0, where
the linear convolution with all 16777217 samples is 1. -/
theorem Convolver.last_tap_dropped (mem : Fresh ℝ) (outs : ℕ → ℕ → ℝ) :
    (∀ (h x : ℕ → ℝ) (n : ℕ),
        (Convolver.new (⟨Real.cos (2 * Real.pi / 8192), -Real.sin (2 * Real.pi / 8192)⟩ : Cpx ℝ)
          mem h 16777217 4096).reset_input_buffer.outputStream 4096 x outs n
          = linearConvolution h 16777216 x n)
      ∧ (Convolver.new (⟨Real.cos (2 * Real.pi / 8192), -Real.sin (2 * Real.pi / 8192)⟩ : Cpx ℝ)
          mem (fun j => if j = 16777216 then 1 else 0) 16777217
          4096).reset_input_buffer.outputStream 4096 (fun m => if m = 0 then 1 else 0) outs
            16777216 = 0
      ∧ linearConvolution (fun j => if j = 16777216 then (1 : ℝ) else 0) 16777217
          (fun m => if m = 0 then 1 else 0) 16777216 = 1 := by
  have hw : IsDFTKernel
      (⟨Real.cos (2 * Real.pi / 8192), -Real.sin (2 * Real.pi / 8192)⟩ : Cpx ℝ) (4096 * 2) := by
    have := isDFTKernel_real (4096 * 2) (by norm_num)
    norm_num at this
    norm_num
    exact this
  have hP : Convolver.partCount 16777217 4096 = 4096 := Convolver.partCount_big.1
  have hall : ∀ (h x : ℕ → ℝ) (n : ℕ),
      (Convolver.new (⟨Real.cos (2 * Real.pi / 8192), -Real.sin (2 * Real.pi / 8192)⟩ : Cpx ℝ)
        mem h 16777217 4096).reset_input_buffer.outputStream 4096 x outs n
        = linearConvolution h 16777216 x n := by
    intro h x n
    have inv0 := streamInv_new_reset
      (⟨Real.cos (2 * Real.pi / 8192), -Real.sin (2 * Real.pi / 8192)⟩ : Cpx ℝ) mem h x
      16777217 4096 (by rw [hP]; norm_num)
    rw [hP] at inv0
    rw [outputStream_of_parts _ x (by norm_num) hw inv0 outs n]
    unfold linearConvolution
    have e : 4096 * 4096 = 16777216 := by norm_num
    rw [e]
    refine Finset.sum_congr rfl (fun j hj => ?_)
    have hj' : j < 16777217 := Nat.lt_succ_of_lt (Finset.mem_range.mp hj)
    beta_reduce
    rw [if_pos hj']
  refine ⟨hall, ?_, ?_⟩
  · rw [hall]
    unfold linearConvolution
    refine Finset.sum_eq_zero (fun j hj => ?_)
    have hj' : j ≠ 16777216 := Nat.ne_of_lt (Finset.mem_range.mp hj)
    beta_reduce
    rw [if_neg hj', zero_mul, ite_self]
  · unfold linearConvolution
    rw [Finset.sum_eq_single 16777216]
    · simp
    · intro j _ hj
      beta_reduce
      rw [if_neg hj, zero_mul, ite_self]
    · intro hn
      exact absurd (Finset.mem_range.mpr (Nat.lt_succ_self _)) hn

/-- C2: an engine constructed with impulse response `[1, 0.5]` and block size 4 (exact
arithmetic over the reals, the exact DFT of size 8) returns `[1, 0.5, 0, 0]` for the first
`process` call on `[1, 0, 0, 0]` and `[0, 0, 0, 0]` for the second call on `[0, 0, 0, 0]`,
whatever the allocator left in the buffers. -/
theorem Convolver.impulse_fidelity (mem : Fresh ℝ) (o1 o2 : ℕ → ℝ) :
    ((List.range 4).map
        ((Convolver.new (⟨Real.cos (2 * Real.pi / 8), -Real.sin (2 * Real.pi / 8)⟩ : Cpx ℝ) mem
          (fun j => if j = 0 then 1 else 1 / 2) 2 4).process
            (fun i => if i = 0 then 1 else 0) o1).2
        = [1, 1 / 2, 0, 0])
      ∧ ((List.range 4).map
        (((Convolver.new (⟨Real.cos (2 * Real.pi / 8), -Real.sin (2 * Real.pi / 8)⟩ : Cpx ℝ)
          mem (fun j => if j = 0 then 1 else 1 / 2) 2 4).process
            (fun i => if i = 0 then 1 else 0) o1).1.process (fun _ => 0) o2).2
        = [0, 0, 0, 0]) := by
  have hw : IsDFTKernel
      (⟨Real.cos (2 * Real.pi / 8), -Real.sin (2 * Real.pi / 8)⟩ : Cpx ℝ) (4 * 2) := by
    have := isDFTKernel_real (4 * 2) (by norm_num)
    norm_num at this
    norm_num
    exact this
  have hP : Convolver.partCount 2 4 = 1 := Convolver.partCount_two_four
  obtain ⟨x, hx⟩ : ∃ x : ℕ → ℝ, x = fun n => if n = 0 then 1 else 0 := ⟨_, rfl⟩
  have hb0 : (fun i => if i = 0 then (1 : ℝ) else 0) = blockOf 4 x 0 := by
    funext i
    simp [blockOf, hx]
  have hb1 : (fun _ => (0 : ℝ)) = blockOf 4 x 1 := by
    funext i
    simp [blockOf, hx]
  have inv0 := streamInv_new_single
    (⟨Real.cos (2 * Real.pi / 8), -Real.sin (2 * Real.pi / 8)⟩ : Cpx ℝ) mem
    (fun j => if j = 0 then 1 else 1 / 2) x 2 4 (by rw [hP]; norm_num) (le_of_eq hP)
  rw [hP] at inv0
  have inv1 := inv0.step o1
  have e0 := fun i hi => inv0.out_eq hw (by norm_num) o1 i hi
  have e1 := fun i hi => inv1.out_eq hw (by norm_num) o2 i hi
  rw [hb0, hb1]
  constructor
  · show [_, _, _, _] = _
    rw [e0 0 (by norm_num), e0 1 (by norm_num), e0 2 (by norm_num), e0 3 (by norm_num)]
    simp [linearConvolution, Finset.sum_range_succ, hx]
  · show [_, _, _, _] = _
    rw [e1 0 (by norm_num), e1 1 (by norm_num), e1 2 (by norm_num), e1 3 (by norm_num)]
    simp [linearConvolution, Finset.sum_range_succ, hx]

end BaseClaims

section Affine

variable {R : Type} [Field R]

/-! ## Superposition -/

theorem dft_affine {S : Type} [CommRing S] (w : Cpx S) (n : ℕ) (a b d : S)
    (u u1 u2 u0 : ℕ → S) (k : ℕ)
    (hu : ∀ j, j < n → u j = a * u1 j + b * u2 j + d * u0 j) :
    dft w n u k = Cpx.ofReal a * dft w n u1 k + Cpx.ofReal b * dft w n u2 k
      + Cpx.ofReal d * dft w n u0 k := by
  unfold dft
  rw [Finset.mul_sum, Finset.mul_sum, Finset.mul_sum, ← Finset.sum_add_distrib,
    ← Finset.sum_add_distrib]
  refine Finset.sum_congr rfl (fun j hj => ?_)
  rw [hu j (Finset.mem_range.mp hj)]
  ext <;> simp <;> ring

theorem hermitian_affine {S : Type} [CommRing S] (n : ℕ) (a b d : S)
    (X X1 X2 X0 : ℕ → Cpx S)
    (hX : ∀ k, k ≤ n / 2 →
      X k = Cpx.ofReal a * X1 k + Cpx.ofReal b * X2 k + Cpx.ofReal d * X0 k)
    (k : ℕ) (hk : k < n) :
    hermitian n X k = Cpx.ofReal a * hermitian n X1 k + Cpx.ofReal b * hermitian n X2 k
      + Cpx.ofReal d * hermitian n X0 k := by
  unfold hermitian
  split_ifs with h
  · exact hX k (by omega)
  · rw [hX (n - k) (by omega)]
    simp only [Cpx.conj_add, Cpx.conj_mul, Cpx.conj_ofReal]

theorem Convolver.load_input_affine (c : Convolver R) (a b : R) (x1 x2 : ℕ → R) (j : ℕ) :
    (c.load (fun i => a * x1 i + b * x2 i))._input j
      = a * (c.load x1)._input j + b * (c.load x2)._input j
        + (1 - a - b) * (c.load (fun _ => 0))._input j := by
  simp only [Convolver.load, memcpy_apply]
  split_ifs <;> ring

/-- The accumulator of a `process` call depends affinely on the input block. -/
theorem Convolver.load_output_spectr_affine (c : Convolver R) (h : c.DimsOk) (a b : R)
    (x1 x2 : ℕ → R) (k : ℕ) (hk : k < c._block_size + 1) :
    (c.load (fun i => a * x1 i + b * x2 i))._fast_conv._output_spectr k
      = Cpx.ofReal a * (c.load x1)._fast_conv._output_spectr k
        + Cpx.ofReal b * (c.load x2)._fast_conv._output_spectr k
        + Cpx.ofReal (1 - a - b) * (c.load (fun _ => 0))._fast_conv._output_spectr k := by
  have hS : ∀ x : ℕ → R, k < (c.load x)._spectrum_size := by
    intro x
    show k < c._spectrum_size
    rw [h.spectrum_size]
    exact hk
  rw [Convolver.fast_conv_output_spectr _ _ (hS _), Convolver.fast_conv_output_spectr _ _ (hS _),
    Convolver.fast_conv_output_spectr _ _ (hS _), Convolver.fast_conv_output_spectr _ _ (hS _)]
  simp only [Convolver.load_n_parts, Convolver.load_spectrum_size,
    Convolver.load_freq_resp_parts]
  rw [Finset.mul_sum, Finset.mul_sum, Finset.mul_sum, ← Finset.sum_add_distrib,
    ← Finset.sum_add_distrib]
  refine Finset.sum_congr rfl (fun p _ => ?_)
  rw [Convolver.load_fast_conv_input_spectra c h _ p k hk,
    Convolver.load_fast_conv_input_spectra c h _ p k hk,
    Convolver.load_fast_conv_input_spectra c h _ p k hk,
    Convolver.load_fast_conv_input_spectra c h _ p k hk]
  by_cases hp : p = 0
  · rw [if_pos hp, if_pos hp, if_pos hp, if_pos hp,
      dft_affine _ _ a b (1 - a - b) _ (c.load x1)._input (c.load x2)._input
        (c.load (fun _ => 0))._input k (fun j _ => Convolver.load_input_affine c a b x1 x2 j)]
    ring
  · rw [if_neg hp, if_neg hp, if_neg hp, if_neg hp]
    have e : Cpx.ofReal (1 - a - b) = 1 - Cpx.ofReal a - Cpx.ofReal b := by
      ext <;> simp
    rw [e]
    ring

/-- The output block of a `process` call depends affinely on the input block. -/
theorem Convolver.process_out_affine (c : Convolver R) (h : c.DimsOk) (a b : R)
    (x1 x2 o : ℕ → R) (i : ℕ) (hi : i < c._block_size) :
    (c.process (fun j => a * x1 j + b * x2 j) o).2 i
      = a * (c.process x1 o).2 i + b * (c.process x2 o).2 i
        + (1 - a - b) * (c.process (fun _ => 0) o).2 i := by
  have hm : c._block_size + i < c._block_size * 2 := by omega
  rw [Convolver.process_out, Convolver.process_out, Convolver.process_out,
    Convolver.process_out, if_pos hi, if_pos hi, if_pos hi, if_pos hi,
    Convolver.fast_conv_result _ (Convolver.load_dimsOk c h _) _ hm,
    Convolver.fast_conv_result _ (Convolver.load_dimsOk c h _) _ hm,
    Convolver.fast_conv_result _ (Convolver.load_dimsOk c h _) _ hm,
    Convolver.fast_conv_result _ (Convolver.load_dimsOk c h _) _ hm]
  simp only [Convolver.load_block_size, Convolver.load_fft]
  rw [Finset.mul_sum, Finset.mul_sum, Finset.mul_sum, ← Finset.sum_add_distrib,
    ← Finset.sum_add_distrib]
  refine Finset.sum_congr rfl (fun k hk => ?_)
  rw [hermitian_affine _ a b (1 - a - b) _ (c.load x1)._fast_conv._output_spectr
    (c.load x2)._fast_conv._output_spectr (c.load (fun _ => 0))._fast_conv._output_spectr
    (fun k' hk' => Convolver.load_output_spectr_affine c h a b x1 x2 k' (by
      rw [Nat.mul_div_cancel _ (by norm_num : 0 < 2)] at hk'
      omega))
    k (Finset.mem_range.mp hk)]
  simp only [Cpx.mul_re, Cpx.add_re, Cpx.add_im, Cpx.mul_im, Cpx.ofReal_re, Cpx.ofReal_im]
  ring

end Affine

section Zero

variable {R : Type} [Field R]

/-! ## Reset and the zero input -/

theorem Convolver.reset_dimsOk (c : Convolver R) (h : c.DimsOk) : c.reset_input_buffer.DimsOk :=
  ⟨h.fft_size, h.spectrum_size, h.spectra_size, h.fft_fft_size, h.fft_spectrum_size⟩

theorem Convolver.run_dimsOk (c : Convolver R) (h : c.DimsOk) (xs outs : ℕ → ℕ → R) (t : ℕ) :
    (c.run xs outs t).DimsOk := by
  induction t with
  | zero =>
    rw [Convolver.run]
    exact h
  | succ t ih =>
    rw [Convolver.run]
    exact Convolver.process_dimsOk _ ih _ _

@[simp] theorem Convolver.run_block_size (c : Convolver R) (xs outs : ℕ → ℕ → R) (t : ℕ) :
    (c.run xs outs t)._block_size = c._block_size := by
  induction t with
  | zero => rw [Convolver.run]
  | succ t ih => rw [Convolver.run, Convolver.process_block_size, ih]

theorem Convolver.reset_atRest (c : Convolver R) (h : c.DimsOk) :
    c.reset_input_buffer.AtRest := by
  constructor
  · intro j hj
    show (if j < c._fft_size then (0 : R) else c._input j) = 0
    have hj' : j < c._block_size := hj
    rw [h.fft_size, if_pos (by omega)]
  · intro i _ hi
    have hi' : i < c._spectra_size := hi
    show (if i < c._spectra_size then (⟨0, 0⟩ : Cpx R) else c._input_spectra i) = 0
    rw [if_pos hi']
    rfl

theorem Convolver.load_zero_spectra (c : Convolver R) (h : c.DimsOk) (hz : c.AtRest) (i : ℕ)
    (hi : i < c._spectra_size) :
    (c.load (fun _ => 0))._fast_conv._input_spectra i = 0 := by
  rw [Convolver.fast_conv_input_spectra _ (Convolver.load_dimsOk c h _)]
  simp only [Convolver.load_block_size, Convolver.load_fft, Convolver.load_input_spectra]
  by_cases hlt : i < c._block_size + 1
  · rw [if_pos hlt, dft_zero _ _ _ _ (fun j hj => ?_), mul_zero]
    show memcpy c._input c._block_size (fun _ => 0) 0 c._block_size j = 0
    rw [memcpy_apply]
    split_ifs with hc
    · rfl
    · exact hz.input j (by omega)
  · rw [if_neg hlt]
    exact hz.spectra i (by rw [h.spectrum_size]; omega) hi

/-- A `process` call on an all-zero block from an engine at rest returns an all-zero block
and leaves the engine at rest. -/
theorem Convolver.process_zero (c : Convolver R) (h : c.DimsOk) (hz : c.AtRest) (o : ℕ → R) :
    (c.process (fun _ => 0) o).1.AtRest ∧ ∀ i, i < c._block_size → (c.process (fun _ => 0) o).2 i = 0 := by
  refine ⟨⟨?_, ?_⟩, ?_⟩
  · intro j hj
    have hj' : j < c._block_size := hj
    rw [Convolver.process_input, if_pos hj']
  · intro i _ hi
    have hi' : i < c._spectra_size := hi
    rw [Convolver.process_input_spectra]
    split_ifs with hc
    · exact Convolver.load_zero_spectra c h hz _ (by omega)
    · exact Convolver.load_zero_spectra c h hz _ hi'
  · intro i hi
    rw [Convolver.process_out, if_pos hi,
      Convolver.fast_conv_result _ (Convolver.load_dimsOk c h _) _
        (by show c._block_size + i < c._block_size * 2; omega)]
    refine Finset.sum_eq_zero (fun k hk => ?_)
    have hos : ∀ b, b ≤ c._block_size * 2 / 2 →
        (c.load (fun _ => 0))._fast_conv._output_spectr b = (fun _ => (0 : Cpx R)) b := by
      intro b hb
      rw [Nat.mul_div_cancel _ (by norm_num : 0 < 2)] at hb
      rw [Convolver.fast_conv_output_spectr _ _
        (by show b < c._spectrum_size; rw [h.spectrum_size]; omega)]
      refine Finset.sum_eq_zero (fun p hp => ?_)
      have hp' : p < c._n_parts := Finset.mem_range.mp hp
      have hlt : p * c._spectrum_size + b < c._spectra_size := by
        have e1 : (p + 1) * c._spectrum_size ≤ c._n_parts * c._spectrum_size :=
          Nat.mul_le_mul_right _ hp'
        have e2 : (p + 1) * c._spectrum_size = p * c._spectrum_size + c._spectrum_size := by ring
        rw [h.spectra_size, Nat.mul_comm c._spectrum_size c._n_parts]
        have := h.spectrum_size
        omega
      show (c.load _)._fast_conv._input_spectra (p * c._spectrum_size + b) * _ = 0
      rw [Convolver.load_zero_spectra c h hz _ hlt, zero_mul]
    simp only [Convolver.load_block_size]
    rw [hermitian_congr _ _ hos k (Finset.mem_range.mp hk)]
    have : hermitian (c._block_size * 2) (fun _ => (0 : Cpx R)) k = 0 := by
      unfold hermitian
      split_ifs <;> simp
    rw [this, zero_mul]
    rfl

theorem Convolver.run_zero_atRest (c : Convolver R) (h : c.DimsOk) (hz : c.AtRest)
    (outs : ℕ → ℕ → R) (t : ℕ) : (c.run (fun _ _ => 0) outs t).AtRest := by
  induction t with
  | zero =>
    rw [Convolver.run]
    exact hz
  | succ t ih =>
    rw [Convolver.run]
    exact (Convolver.process_zero _ (Convolver.run_dimsOk c h _ _ t) ih _).1

end Zero

section BaseClaimsSuperposition

theorem exState_dimsOk : exState.DimsOk :=
  Convolver.process_dimsOk _ (Convolver.reset_dimsOk _ (Convolver.new_dimsOk _ _ _ _ _)) _ _

theorem exState_n_parts_pos : 0 < exState._n_parts := by
  show 0 < Convolver.partCount 2 1
  rw [Convolver.partCount_two_one]
  decide

theorem exNew_n_parts_pos : 0 < exNew._n_parts := by
  show 0 < Convolver.partCount 2 1
  rw [Convolver.partCount_two_one]
  decide

/-- The zero-input response of `exState` is not zero: the block `[1]` it has consumed is still
to be convolved with the second sample of the impulse response. -/
theorem exState_zero_input (o : ℕ → ℚ) : (exState.process (fun _ => 0) o).2 0 = 1 := by
  obtain ⟨x, hx⟩ : ∃ x : ℕ → ℚ, x = fun n => if n = 0 then 1 else 0 := ⟨_, rfl⟩
  have hP : Convolver.partCount 2 1 = 2 := Convolver.partCount_two_one
  have hb0 : (fun i => if i = 0 then (1 : ℚ) else 0) = blockOf 1 x 0 := by
    funext i
    simp [blockOf, hx]
  have hb1 : (fun _ => (0 : ℚ)) = blockOf 1 x 1 := by
    funext i
    simp [blockOf, hx]
  have inv0 := streamInv_new_reset kernel2 exFresh (fun _ => 1) x 2 1 (by rw [hP]; norm_num)
  rw [hP] at inv0
  have inv1 := inv0.step (exOuts 0)
  have e1 := inv1.out_eq isDFTKernel_kernel2 (by norm_num) o 0 (by norm_num)
  unfold exState
  rw [hb0, hb1, e1]
  simp [linearConvolution, Finset.sum_range_succ, hx]

/-- C3, as stated, fails: from the state `exState` and with `a = b = 1`, `x1 = x2 = [0]`, the
output for `a x1 + b x2` is `1` while `a` times the output for `x1` plus `b` times the output
for `x2` is `2`. -/
theorem Convolver.process_not_linear :
    (exState.process (fun j => 1 * exZero j + 1 * exZero j) (exOuts 1)).2 0
      ≠ 1 * (exState.process exZero (exOuts 1)).2 0
        + 1 * (exState.process exZero (exOuts 1)).2 0 := by
  have e : (fun j : ℕ => 1 * exZero j + 1 * exZero j) = fun _ => (0 : ℚ) := by
    funext j
    simp [exZero]
  have e2 : exZero = fun _ => (0 : ℚ) := rfl
  rw [e, e2, exState_zero_input]
  norm_num

/-- C3, amended: for every engine state, all input blocks `x1`, `x2` and all scalars `a`,
`b`, the output of `process` on `a x1 + b x2` is `a` times the output on `x1` plus `b` times
the output on `x2` plus `(1 - a - b)` times the output on the zero block, all from the same
state: the output is affine in the input block, and linear as claimed when `a + b = 1` or
the zero-input response of the state is zero. -/
theorem Convolver.process_superposition {R : Type} [Field R] (c : Convolver R) (h : c.DimsOk)
    (a b : R) (x1 x2 o : ℕ → R) (i : ℕ) (hi : i < c._block_size) :
    (c.process (fun j => a * x1 j + b * x2 j) o).2 i
      = a * (c.process x1 o).2 i + b * (c.process x2 o).2 i
        + (1 - a - b) * (c.process (fun _ => 0) o).2 i :=
  Convolver.process_out_affine c h a b x1 x2 o i hi

/-- Witness of the amended C3 at the state `exState`. -/
theorem Convolver.process_superposition_witness :
    exState.DimsOk ∧ 0 < exState._block_size
      ∧ (exState.process (fun j => 2 * exStream j + 3 * exImp j) (exOuts 1)).2 0
        = 2 * (exState.process exStream (exOuts 1)).2 0
          + 3 * (exState.process exImp (exOuts 1)).2 0
          + (1 - 2 - 3) * (exState.process (fun _ => 0) (exOuts 1)).2 0 :=
  ⟨exState_dimsOk, by decide,
    Convolver.process_superposition exState exState_dimsOk 2 3 exStream exImp (exOuts 1) 0
      (by decide)⟩

/-- C4: for every engine with at least one partition (any partitions, any earlier inputs)
and every number of calls, after `reset_input_buffer` each of the consecutive `process`
calls on an all-zero block returns an all-zero block. -/
theorem Convolver.zero_steady_state {R : Type} [Field R] (c : Convolver R) (h : c.DimsOk)
    (_hP : 0 < c._n_parts) (outs : ℕ → ℕ → R) (t i : ℕ) (hi : i < c._block_size) :
    c.reset_input_buffer.outputs (fun _ _ => 0) outs t i = 0 := by
  unfold Convolver.outputs
  refine (Convolver.process_zero _ (Convolver.run_dimsOk _ (Convolver.reset_dimsOk c h) _ _ t)
    (Convolver.run_zero_atRest _ (Convolver.reset_dimsOk c h) (Convolver.reset_atRest c h)
      outs t) _).2 i ?_
  rw [Convolver.run_block_size]
  exact hi

/-- Witness of C4: the engine `exState`, which holds the block `[1]`, is reset; the fourth
all-zero call returns zero. -/
theorem Convolver.zero_steady_state_witness :
    exState.DimsOk ∧ 0 < exState._n_parts ∧ 0 < exState._block_size
      ∧ exState.reset_input_buffer.outputs (fun _ _ => 0) exOuts 3 0 = 0 :=
  ⟨exState_dimsOk, exState_n_parts_pos, by decide,
    Convolver.zero_steady_state exState exState_dimsOk exState_n_parts_pos exOuts 3 0
      (by decide)⟩

end BaseClaimsSuperposition

section Agree

variable {R : Type} [Field R]

theorem Convolver.Agree.refl (c : Convolver R) : c.Agree c :=
  ⟨rfl, rfl, rfl, rfl, fun _ _ => rfl, fun _ _ _ => rfl, fun _ _ => rfl⟩

/-- `_fast_conv` on two engines that hold the same time window and agree on stored spectra
and partitions: same spectra, same time-domain result. -/
theorem Convolver.fast_conv_congr (c d : Convolver R) (hc : c.DimsOk) (hd : d.DimsOk)
    (hB : c._block_size = d._block_size) (hP : c._n_parts = d._n_parts)
    (hw : c._fft.w = d._fft.w) (hnf : c._fft._norm_fact = d._fft._norm_fact)
    (hin : ∀ j, j < c._block_size * 2 → c._input j = d._input j)
    (hsp : ∀ i, c._spectrum_size ≤ i → i < c._spectra_size →
      c._input_spectra i = d._input_spectra i)
    (hfr : ∀ i, i < c._spectra_size → c._freq_resp_parts i = d._freq_resp_parts i) :
    (∀ i, i < c._spectra_size → c._fast_conv._input_spectra i = d._fast_conv._input_spectra i)
      ∧ ∀ m, m < c._block_size * 2 → c._fast_conv._result m = d._fast_conv._result m := by
  have hS : c._spectrum_size = d._spectrum_size := by
    rw [hc.spectrum_size, hd.spectrum_size, hB]
  have hisp : ∀ i, i < c._spectra_size →
      c._fast_conv._input_spectra i = d._fast_conv._input_spectra i := by
    intro i hi
    rw [Convolver.fast_conv_input_spectra c hc, Convolver.fast_conv_input_spectra d hd, ← hB,
      ← hw, ← hnf]
    by_cases hlt : i < c._block_size + 1
    · rw [if_pos hlt, if_pos hlt, dft_congr _ _ _ _ _ hin]
    · rw [if_neg hlt, if_neg hlt]
      exact hsp i (by rw [hc.spectrum_size]; omega) hi
  refine ⟨hisp, ?_⟩
  intro m hm
  rw [Convolver.fast_conv_result c hc m hm, Convolver.fast_conv_result d hd m (by omega), ← hB,
    ← hw]
  refine Finset.sum_congr rfl (fun k hk => ?_)
  congr 2
  refine hermitian_congr _ _ (fun b hb => ?_) k (Finset.mem_range.mp hk)
  rw [Nat.mul_div_cancel _ (by norm_num : 0 < 2)] at hb
  have hbS : b < c._spectrum_size := by rw [hc.spectrum_size]; omega
  rw [Convolver.fast_conv_output_spectr c b hbS,
    Convolver.fast_conv_output_spectr d b (by omega), ← hP, ← hS]
  refine Finset.sum_congr rfl (fun p hp => ?_)
  have hp' : p < c._n_parts := Finset.mem_range.mp hp
  have hlt : p * c._spectrum_size + b < c._spectra_size := by
    have e1 : (p + 1) * c._spectrum_size ≤ c._n_parts * c._spectrum_size :=
      Nat.mul_le_mul_right _ hp'
    have e2 : (p + 1) * c._spectrum_size = p * c._spectrum_size + c._spectrum_size := by ring
    rw [hc.spectra_size, Nat.mul_comm c._spectrum_size c._n_parts]
    omega
  rw [hisp _ hlt, hfr _ hlt]

theorem Convolver.Agree.load {c d : Convolver R} (hcd : c.Agree d) (x : ℕ → R) (j : ℕ)
    (hj : j < c._block_size * 2) : (c.load x)._input j = (d.load x)._input j := by
  show memcpy c._input c._block_size x 0 c._block_size j
    = memcpy d._input d._block_size x 0 d._block_size j
  rw [memcpy_apply, memcpy_apply, ← hcd.block_size]
  split_ifs with h1
  · rfl
  · exact hcd.input j (by omega)

theorem Convolver.Agree.load_fast_conv {c d : Convolver R} (hcd : c.Agree d) (hc : c.DimsOk)
    (hd : d.DimsOk) (x : ℕ → R) :
    (∀ i, i < c._spectra_size →
        (c.load x)._fast_conv._input_spectra i = (d.load x)._fast_conv._input_spectra i)
      ∧ ∀ m, m < c._block_size * 2 →
        (c.load x)._fast_conv._result m = (d.load x)._fast_conv._result m :=
  Convolver.fast_conv_congr (c.load x) (d.load x) (Convolver.load_dimsOk c hc x)
    (Convolver.load_dimsOk d hd x) hcd.block_size hcd.n_parts hcd.kernel hcd.norm_fact
    (hcd.load x) hcd.spectra hcd.parts

/-- `process` on two engines that agree: same output block, and the engines agree
afterwards. -/
theorem Convolver.Agree.process_agree {c d : Convolver R} (hcd : c.Agree d) (hc : c.DimsOk)
    (hd : d.DimsOk) (x o o' : ℕ → R) :
    (∀ i, i < c._block_size → (c.process x o).2 i = (d.process x o').2 i)
      ∧ (c.process x o).1.Agree (d.process x o').1 := by
  have hfc := hcd.load_fast_conv hc hd x
  have hS : c._spectrum_size = d._spectrum_size := by
    rw [hc.spectrum_size, hd.spectrum_size, hcd.block_size]
  have hSS : c._spectra_size = d._spectra_size := by
    rw [hc.spectra_size, hd.spectra_size, hS, hcd.n_parts]
  refine ⟨?_, ⟨hcd.block_size, hcd.n_parts, hcd.kernel, hcd.norm_fact, ?_, ?_, hcd.parts⟩⟩
  · intro i hi
    rw [Convolver.process_out, Convolver.process_out, ← hcd.block_size, if_pos hi, if_pos hi]
    exact hfc.2 _ (by omega)
  · intro j hj
    have hj' : j < c._block_size := hj
    rw [Convolver.process_input, Convolver.process_input, ← hcd.block_size, if_pos hj',
      if_pos hj']
  · intro i hi1 hi2
    have hi1' : c._spectrum_size ≤ i := hi1
    have hi2' : i < c._spectra_size := hi2
    rw [Convolver.process_input_spectra, Convolver.process_input_spectra,
      Convolver.shiftLength_eq c (by omega), Convolver.shiftLength_eq d (by omega), ← hS, ← hSS,
      if_pos ⟨hi1', by omega⟩, if_pos ⟨hi1', by omega⟩]
    exact hfc.1 _ (by omega)

end Agree

namespace TimeVarConvolver

variable {R : Type} [Field R]

/-! ## The time-varying engine -/

/-- Without a pending swap `process` is the `process` of the base class. -/
theorem process_of_not_changed (s : TimeVarConvolver R) (h : s._has_changed = false)
    (x o : ℕ → R) :
    s.process x o
      = ({ s with toConvolver := (s.toConvolver.process x o).1 },
          (s.toConvolver.process x o).2) := by
  unfold TimeVarConvolver.process
  simp only [h, Bool.false_eq_true, if_false]
  rfl

theorem process_swap_out (s : TimeVarConvolver R) (h : s._has_changed = true) (x o : ℕ → R)
    (i : ℕ) (hi : i < s._block_size) :
    (s.process x o).2 i
      = (s.toConvolver.load x)._fast_conv._result (s._block_size + i) * s._down_ramp i
        + (s.swapped x)._fast_conv._result (s._block_size + i) * s._up_ramp i := by
  unfold TimeVarConvolver.process
  simp only [h, if_true]
  simp only [memcpy_apply, Nat.zero_le, true_and, zero_add, Nat.sub_zero]
  have hi' : i < (s.toConvolver.load x)._fast_conv._block_size := hi
  simp [hi, swapped, Convolver.load]

theorem withParts_dimsOk (c : Convolver R) (h : c.DimsOk) (X : ℕ → Cpx R) :
    (c.withParts X).DimsOk :=
  ⟨h.fft_size, h.spectrum_size, h.spectra_size, h.fft_fft_size, h.fft_spectrum_size⟩

theorem swapped_dimsOk (s : TimeVarConvolver R) (h : s.DimsOk) (x : ℕ → R) :
    (s.swapped x).DimsOk :=
  ⟨h.fft_size, h.spectrum_size, h.spectra_size, h.fft_fft_size, h.fft_spectrum_size⟩

/-- The second `_fast_conv` of a swap block stores the same spectra as the first one. -/
theorem swapped_input_spectra (s : TimeVarConvolver R) (h : s.DimsOk) (x : ℕ → R) :
    (s.swapped x)._fast_conv._input_spectra = (s.toConvolver.load x)._fast_conv._input_spectra := by
  funext i
  rw [Convolver.fast_conv_input_spectra _ (swapped_dimsOk s h x)]
  show (if i < s._block_size + 1 then
      Cpx.ofReal s._fft._norm_fact * dft s._fft.w (s._block_size * 2) (s.toConvolver.load x)._input i
    else (s.toConvolver.load x)._fast_conv._input_spectra i) = _
  by_cases hi : i < s._block_size + 1
  · rw [if_pos hi, Convolver.fast_conv_input_spectra _ (Convolver.load_dimsOk _ h x)]
    simp only [Convolver.load_block_size, Convolver.load_fft, if_pos hi]
  · rw [if_neg hi]

/-- The second `_fast_conv` of a swap block computes what the base algorithm computes for
the block with the standby set in place of the active one. -/
theorem swapped_result (s : TimeVarConvolver R) (h : s.DimsOk) (x : ℕ → R) (m : ℕ)
    (hm : m < s._block_size * 2) :
    (s.swapped x)._fast_conv._result m
      = ((s.toConvolver.withParts s._other_freq_resp).load x)._fast_conv._result m := by
  refine (Convolver.fast_conv_congr (s.swapped x)
    ((s.toConvolver.withParts s._other_freq_resp).load x) (swapped_dimsOk s h x)
    (Convolver.load_dimsOk _ (withParts_dimsOk _ h _) x) rfl rfl rfl rfl (fun _ _ => rfl) ?_
    (fun _ _ => rfl)).2 m hm
  intro i hi1 _
  have hi1' : s._spectrum_size ≤ i := hi1
  show (s.toConvolver.load x)._fast_conv._input_spectra i = s._input_spectra i
  rw [Convolver.fast_conv_input_spectra _ (Convolver.load_dimsOk _ h x), if_neg]
  · rfl
  · show ¬ i < s._block_size + 1
    rw [← h.spectrum_size]
    omega

/-- Output of a swap block: the crossfade of the base outputs for the active and for the
standby partition set. -/
theorem process_swap_out_base (s : TimeVarConvolver R) (h : s.DimsOk)
    (hch : s._has_changed = true) (x o : ℕ → R) (i : ℕ) (hi : i < s._block_size) :
    (s.process x o).2 i
      = (s.toConvolver.process x o).2 i * s._down_ramp i
        + ((s.toConvolver.withParts s._other_freq_resp).process x o).2 i * s._up_ramp i := by
  rw [process_swap_out s hch x o i hi, swapped_result s h x _ (by omega),
    Convolver.process_out, Convolver.process_out, if_pos hi, if_pos (by exact hi)]
  rfl

/-- State left by a swap block. -/
theorem process_swap_state (s : TimeVarConvolver R) (hch : s._has_changed = true)
    (x o : ℕ → R) :
    (s.process x o).1._freq_resp_parts = s._other_freq_resp
      ∧ (s.process x o).1._other_freq_resp = s._freq_resp_parts
      ∧ (s.process x o).1._freq_resp_parts_addr = s._other_freq_resp_addr
      ∧ (s.process x o).1._other_freq_resp_addr = s._freq_resp_parts_addr
      ∧ (s.process x o).1._has_changed = false
      ∧ (s.process x o).1._input = memcpy (s.toConvolver.load x)._input 0 x 0 s._block_size
      ∧ (s.process x o).1._input_spectra
        = memcpy (s.swapped x)._fast_conv._input_spectra s._spectrum_size
            (s.swapped x)._fast_conv._input_spectra 0 s.shiftLength := by
  obtain ⟨c, a1, ofr, a2, pb, hc, up, down, fade⟩ := s
  simp only at hch
  subst hch
  exact ⟨rfl, rfl, rfl, rfl, rfl, rfl, rfl⟩

@[simp] theorem tv_process_block_size (s : TimeVarConvolver R) (x o : ℕ → R) :
    (s.process x o).1._block_size = s._block_size := by
  unfold TimeVarConvolver.process
  cases s._has_changed <;> rfl

@[simp] theorem process_up_ramp (s : TimeVarConvolver R) (x o : ℕ → R) :
    (s.process x o).1._up_ramp = s._up_ramp := by
  unfold TimeVarConvolver.process
  cases s._has_changed <;> rfl

@[simp] theorem process_down_ramp (s : TimeVarConvolver R) (x o : ℕ → R) :
    (s.process x o).1._down_ramp = s._down_ramp := by
  unfold TimeVarConvolver.process
  cases s._has_changed <;> rfl

theorem process_has_changed (s : TimeVarConvolver R) (x o : ℕ → R) :
    (s.process x o).1._has_changed = false := by
  unfold TimeVarConvolver.process
  cases h : s._has_changed <;> simp [h]

theorem tv_process_dimsOk (s : TimeVarConvolver R) (h : s.DimsOk) (x o : ℕ → R) :
    (s.process x o).1.DimsOk := by
  unfold TimeVarConvolver.process
  cases hc : s._has_changed
  · exact ⟨h.fft_size, h.spectrum_size, h.spectra_size, h.fft_fft_size, h.fft_spectrum_size⟩
  · exact ⟨h.fft_size, h.spectrum_size, h.spectra_size, h.fft_fft_size, h.fft_spectrum_size⟩

theorem rampLoop_complementary (cosf : R → R) (inc : R) (n : ℕ) (init : R × (ℕ → R) × (ℕ → R))
    (i : ℕ) (hi : i < n) :
    (rampLoop cosf inc n init).2.1 i = 1 - (rampLoop cosf inc n init).2.2 i := by
  induction n with
  | zero => omega
  | succ n ih =>
    unfold rampLoop at ih ⊢
    rw [List.range_succ, List.foldl_append, List.foldl_cons, List.foldl_nil]
    generalize (List.range n).foldl _ _ = st at ih ⊢
    dsimp only
    by_cases hin : i = n
    · subst hin
      simp
    · rw [Function.update_noteq hin, Function.update_noteq hin, Function.update_noteq hin]
      exact ih (by omega)

/-- The ramps built by `_setup_ramps` are complementary. -/
theorem setup_ramps_complementary (cosf : R → R) (M_PI : R) (B : ℕ) (up down : ℕ → R) (i : ℕ)
    (hi : i < B) :
    (_setup_ramps cosf M_PI B up down).1 i = 1 - (_setup_ramps cosf M_PI B up down).2 i :=
  rampLoop_complementary cosf _ B _ i hi

theorem process_addr (s : TimeVarConvolver R) (x o : ℕ → R)
    (h : s._freq_resp_parts_addr ≠ s._other_freq_resp_addr) :
    (s.process x o).1._freq_resp_parts_addr ≠ (s.process x o).1._other_freq_resp_addr := by
  cases hc : s._has_changed
  · rw [process_of_not_changed s hc]
    exact h
  · obtain ⟨-, -, h3, h4, -⟩ := process_swap_state s hc x o
    rw [h3, h4]
    exact fun e => h e.symm

theorem Reachable.inv {s : TimeVarConvolver R} (hs : Reachable s) : Inv s := by
  induction hs with
  | new w cosf M_PI mem memTV imp_resp n_samples block_size hN hB =>
    exact ⟨Convolver.new_dimsOk w mem imp_resp n_samples block_size, memTV.live_distinct,
      fun i hi => setup_ramps_complementary cosf M_PI _ _ _ i hi⟩
  | copy cosf M_PI mem memTV s _ ih =>
    refine ⟨⟨ih.dims.fft_size, ih.dims.spectrum_size, ih.dims.spectra_size, ?_, ?_⟩,
      memTV.live_distinct, fun i hi => setup_ramps_complementary cosf M_PI _ _ _ i hi⟩
    · show s._fft_size + s._fft_size % 2 = s._block_size * 2
      rw [ih.dims.fft_size]
      omega
    · show s._fft_size / 2 + 1 = s._block_size + 1
      rw [ih.dims.fft_size]
      omega
  | process s x o _ ih =>
    refine ⟨tv_process_dimsOk s ih.dims x o, process_addr s x o ih.distinct, ?_⟩
    intro i hi
    rw [tv_process_block_size] at hi
    rw [process_up_ramp, process_down_ramp]
    exact ih.ramps i hi
  | set_partitions s X _ ih =>
    exact ⟨⟨ih.dims.fft_size, ih.dims.spectrum_size, ih.dims.spectra_size,
      ih.dims.fft_fft_size, ih.dims.fft_spectrum_size⟩, ih.distinct, ih.ramps⟩
  | reset_input_buffer s _ ih =>
    exact ⟨⟨ih.dims.fft_size, ih.dims.spectrum_size, ih.dims.spectra_size,
      ih.dims.fft_fft_size, ih.dims.fft_spectrum_size⟩, ih.distinct, ih.ramps⟩
  | set_freq_response s X _ ih =>
    exact ⟨⟨ih.dims.fft_size, ih.dims.spectrum_size, ih.dims.spectra_size,
      ih.dims.fft_fft_size, ih.dims.fft_spectrum_size⟩, ih.distinct, ih.ramps⟩

/-- Whether or not a swap is pending, `process` leaves the time window and the spectrum
buffer the `process` of the base class leaves. -/
theorem process_history_eq (s : TimeVarConvolver R) (h : s.DimsOk) (x o o' : ℕ → R) :
    (s.process x o).1._input = (s.toConvolver.process x o').1._input
      ∧ (s.process x o).1._input_spectra = (s.toConvolver.process x o').1._input_spectra := by
  cases hc : s._has_changed
  · rw [process_of_not_changed s hc]
    exact ⟨rfl, rfl⟩
  · obtain ⟨-, -, -, -, -, h6, h7⟩ := process_swap_state s hc x o
    rw [h6, h7, swapped_input_spectra s h x]
    exact ⟨rfl, rfl⟩

theorem withParts_agree (c : Convolver R) (X Y : ℕ → Cpx R)
    (hXY : ∀ i, i < c._spectra_size → X i = Y i) : (c.withParts X).Agree (c.withParts Y) :=
  ⟨rfl, rfl, rfl, rfl, fun _ _ => rfl, fun _ _ _ => rfl, hXY⟩

/-- The swap block after `set_partitions X`: crossfade from the base output with the active
set to the base output with `X`. -/
theorem set_partitions_process_out (s : TimeVarConvolver R) (h : s.DimsOk) (X : ℕ → Cpx R)
    (x o : ℕ → R) (i : ℕ) (hi : i < s._block_size) :
    ((s.set_partitions X).process x o).2 i
      = (s.toConvolver.process x o).2 i * s._down_ramp i
        + ((s.toConvolver.withParts X).process x o).2 i * s._up_ramp i := by
  have h1 : (s.set_partitions X).DimsOk :=
    ⟨h.fft_size, h.spectrum_size, h.spectra_size, h.fft_fft_size, h.fft_spectrum_size⟩
  rw [process_swap_out_base (s.set_partitions X) h1 rfl x o i hi]
  have hag : (s.toConvolver.withParts (memcpy s._other_freq_resp 0 X 0 s._spectra_size)).Agree
      (s.toConvolver.withParts X) := by
    refine withParts_agree _ _ _ (fun j hj => ?_)
    rw [memcpy_apply, if_pos ⟨Nat.zero_le _, by omega⟩]
    simp
  rw [← (hag.process_agree (withParts_dimsOk _ h _) (withParts_dimsOk _ h _) x o o).1 i hi]
  rfl

end TimeVarConvolver

section ExamplesTV

theorem exTV_reachable : exTV.Reachable :=
  TimeVarConvolver.Reachable.new _ _ _ _ _ _ _ _ (by decide) (by decide)

end ExamplesTV

section TimeVarClaims

/-- C5: when a swap is pending (`set_partitions X` was called), `process` on block `x`
returns `output[i] = result1[i] * down[i] + result2[i] * up[i]` for every `i < B`, where
`result1` is the base-algorithm output for `x` with the partition set active before the call
and `result2` the base-algorithm output for `x` with the set `X` given to `set_partitions`,
from the same time window and input history; the pending flag is false afterwards. -/
theorem TimeVarConvolver.swap_block_crossfade {R : Type} [Field R] (s : TimeVarConvolver R)
    (hs : s.Reachable) (X : ℕ → Cpx R) (x o : ℕ → R) :
    (∀ i, i < s._block_size →
        ((s.set_partitions X).process x o).2 i
          = (s.toConvolver.process x o).2 i * s._down_ramp i
            + ((s.toConvolver.withParts X).process x o).2 i * s._up_ramp i)
      ∧ ((s.set_partitions X).process x o).1._has_changed = false :=
  ⟨fun i hi => TimeVarConvolver.set_partitions_process_out s hs.inv.dims X x o i hi,
    TimeVarConvolver.process_has_changed _ x o⟩

/-- Witness of C5 at the engine `exTV`. -/
theorem TimeVarConvolver.swap_block_crossfade_witness :
    exTV.Reachable
      ∧ (∀ i, i < exTV._block_size →
        ((exTV.set_partitions exParts2).process exOne (exOuts 0)).2 i
          = (exTV.toConvolver.process exOne (exOuts 0)).2 i * exTV._down_ramp i
            + ((exTV.toConvolver.withParts exParts2).process exOne (exOuts 0)).2 i
              * exTV._up_ramp i)
      ∧ ((exTV.set_partitions exParts2).process exOne (exOuts 0)).1._has_changed = false :=
  ⟨exTV_reachable,
    TimeVarConvolver.swap_block_crossfade exTV exTV_reachable exParts2 exOne (exOuts 0)⟩

end TimeVarClaims

namespace TimeVarConvolver

variable {R : Type} [Field R]

@[simp] theorem tv_process_n_parts (s : TimeVarConvolver R) (x o : ℕ → R) :
    (s.process x o).1._n_parts = s._n_parts := by
  unfold TimeVarConvolver.process
  cases s._has_changed <;> rfl

@[simp] theorem tv_process_spectrum_size (s : TimeVarConvolver R) (x o : ℕ → R) :
    (s.process x o).1._spectrum_size = s._spectrum_size := by
  unfold TimeVarConvolver.process
  cases s._has_changed <;> rfl

@[simp] theorem tv_process_spectra_size (s : TimeVarConvolver R) (x o : ℕ → R) :
    (s.process x o).1._spectra_size = s._spectra_size := by
  unfold TimeVarConvolver.process
  cases s._has_changed <;> rfl

@[simp] theorem tv_process_fft_w (s : TimeVarConvolver R) (x o : ℕ → R) :
    (s.process x o).1._fft.w = s._fft.w := by
  unfold TimeVarConvolver.process
  cases s._has_changed <;> rfl

@[simp] theorem tv_process_fft_norm_fact (s : TimeVarConvolver R) (x o : ℕ → R) :
    (s.process x o).1._fft._norm_fact = s._fft._norm_fact := by
  unfold TimeVarConvolver.process
  cases s._has_changed <;> rfl

theorem Follows.process_step {a b : TimeVarConvolver R} (hab : Follows a b) (x o o' : ℕ → R) :
    (∀ i, i < a._block_size → (a.process x o).2 i = (b.process x o').2 i)
      ∧ Follows (a.process x o).1 (b.process x o').1 := by
  have hbase := hab.agree.process_agree hab.dimsA hab.dimsB x o o'
  have hb : b.process x o' = ({ b with toConvolver := (b.toConvolver.process x o').1 },
      (b.toConvolver.process x o').2) := process_of_not_changed b hab.idle x o'
  have hhist := process_history_eq a hab.dimsA x o o
  have hramps : ∀ i, i < (a.process x o).1._block_size →
      (a.process x o).1._up_ramp i = 1 - (a.process x o).1._down_ramp i := by
    intro i hi
    rw [tv_process_block_size] at hi
    rw [process_up_ramp, process_down_ramp]
    exact hab.ramps i hi
  have hstandby : (a.process x o).1._has_changed = true →
      ∀ i, i < (a.process x o).1._spectra_size →
        (a.process x o).1._other_freq_resp i = (a.process x o).1._freq_resp_parts i := by
    intro h
    rw [process_has_changed] at h
    exact absurd h (by decide)
  cases hc : a._has_changed
  · have ha : a.process x o = ({ a with toConvolver := (a.toConvolver.process x o).1 },
        (a.toConvolver.process x o).2) := process_of_not_changed a hc x o
    refine ⟨?_, ⟨?_, tv_process_dimsOk a hab.dimsA x o, ?_, ?_, hramps, hstandby⟩⟩
    · intro i hi
      rw [ha, hb]
      exact hbase.1 i hi
    · rw [ha, hb]
      exact hbase.2
    · rw [hb]
      exact Convolver.process_dimsOk b.toConvolver hab.dimsB x o'
    · rw [hb]
      exact hab.idle
  · have hst := process_swap_state a hc x o
    have hag : (a.toConvolver.withParts a._other_freq_resp).Agree a.toConvolver :=
      ⟨rfl, rfl, rfl, rfl, fun _ _ => rfl, fun _ _ _ => rfl, hab.standby hc⟩
    refine ⟨?_, ⟨?_, tv_process_dimsOk a hab.dimsA x o, ?_, ?_, hramps, hstandby⟩⟩
    · intro i hi
      rw [process_swap_out_base a hab.dimsA hc x o i hi,
        (hag.process_agree (withParts_dimsOk _ hab.dimsA _) hab.dimsA x o o).1 i hi, hb,
        hab.ramps i hi, ← hbase.1 i hi]
      ring
    · rw [hb]
      refine ⟨?_, ?_, ?_, ?_, ?_, ?_, ?_⟩
      · rw [tv_process_block_size]
        exact hbase.2.block_size
      · rw [tv_process_n_parts]
        exact hbase.2.n_parts
      · rw [tv_process_fft_w]
        exact hbase.2.kernel
      · rw [tv_process_fft_norm_fact]
        exact hbase.2.norm_fact
      · intro j hj
        rw [tv_process_block_size] at hj
        rw [hhist.1]
        exact hbase.2.input j hj
      · intro i hi1 hi2
        rw [tv_process_spectrum_size] at hi1
        rw [tv_process_spectra_size] at hi2
        rw [hhist.2]
        exact hbase.2.spectra i hi1 hi2
      · intro i hi
        rw [tv_process_spectra_size] at hi
        rw [hst.1, hab.standby hc i hi]
        exact hab.agree.parts i hi
    · rw [hb]
      exact Convolver.process_dimsOk b.toConvolver hab.dimsB x o'
    · rw [hb]
      exact hab.idle

theorem Follows.run {a b : TimeVarConvolver R} (hab : Follows a b) (xs outs : ℕ → ℕ → R)
    (t : ℕ) : Follows (a.run xs outs t) (b.run xs outs t) := by
  induction t with
  | zero =>
    rw [TimeVarConvolver.run, TimeVarConvolver.run]
    exact hab
  | succ t ih =>
    rw [TimeVarConvolver.run, TimeVarConvolver.run]
    exact (ih.process_step _ _ _).2

@[simp] theorem tv_run_block_size (s : TimeVarConvolver R) (xs outs : ℕ → ℕ → R) (t : ℕ) :
    (s.run xs outs t)._block_size = s._block_size := by
  induction t with
  | zero => rw [TimeVarConvolver.run]
  | succ t ih => rw [TimeVarConvolver.run, tv_process_block_size, ih]

end TimeVarConvolver

section SinglePartition

variable {R : Type} [Field R]

/-- Output of `process` for an engine with a single partition, the transform of the
zero-padded block `V`. -/
theorem Convolver.process_out_single [CharZero R] (c : Convolver R) (h : c.DimsOk)
    (hP : c._n_parts = 1) (hw : IsDFTKernel c._fft.w (c._block_size * 2))
    (hnf : c._fft._norm_fact = (1 / 2) / (c._block_size : R)) (hB : 0 < c._block_size)
    (V : ℕ → R)
    (hV : ∀ bin, bin < c._block_size + 1 →
      c._freq_resp_parts bin = dft c._fft.w (c._block_size * 2) V bin)
    (hVz : ∀ l, c._block_size ≤ l → l < c._block_size * 2 → V l = 0)
    (x o : ℕ → R) (i : ℕ) (hi : i < c._block_size) :
    (c.process x o).2 i
      = ∑ l ∈ Finset.range c._block_size, V l * (c.load x)._input (c._block_size + i - l) := by
  have hBR : (c._block_size : R) ≠ 0 := Nat.cast_ne_zero.mpr (by omega)
  have hnf' : c._fft._norm_fact * ((c._block_size * 2 : ℕ) : R) = 1 := by
    rw [hnf]
    push_cast
    field_simp
    ring
  rw [Convolver.process_out_of_windows c h hw hnf' x o (fun _ => (c.load x)._input) (fun _ => V)
    (by
      intro p hp bin hbin
      rw [hP] at hp
      have hp0 : p = 0 := by omega
      subst hp0
      rw [Nat.zero_mul, Nat.zero_add]
      exact hV bin hbin)
    (fun _ => hVz)
    (by
      intro p hp1 hpP
      rw [hP] at hpP
      omega)
    (fun _ _ => rfl) i hi, hP, Finset.sum_range_one]

end SinglePartition

section ExamplesSwap

/-- Output on the block `[1]` of a single-partition engine of block size 1 whose partition
is the transform of `[v, 0]`. -/
theorem ex_single_out (c : Convolver ℚ) (h : c.DimsOk) (hB : c._block_size = 1)
    (hP : c._n_parts = 1) (hw : c._fft.w = kernel2) (hnf : c._fft._norm_fact = 1 / 2)
    (V : ℕ → ℚ) (hV : ∀ bin, bin < 2 → c._freq_resp_parts bin = dft kernel2 (1 * 2) V bin)
    (hVz : V 1 = 0) (o : ℕ → ℚ) : (c.process exOne o).2 0 = V 0 := by
  rw [Convolver.process_out_single c h hP (by rw [hw, hB]; exact isDFTKernel_kernel2)
    (by rw [hnf, hB]; norm_num) (by omega) V
    (by
      intro bin hbin
      rw [hB] at hbin
      rw [hw, hB]
      exact hV bin hbin)
    (by
      intro l h1 h2
      rw [hB] at h1 h2
      have : l = 1 := by omega
      rw [this, hVz])
    exOne o 0 (by omega), hB, Finset.sum_range_one]
  show V 0 * memcpy c._input c._block_size exOne 0 c._block_size (1 + 0 - 0) = V 0
  rw [hB, memcpy_apply, if_pos ⟨by norm_num, by norm_num⟩]
  simp [exOne]

theorem exTV_spectra_size : exTV._spectra_size = 2 := by
  show (1 + 1) * Convolver.partCount 1 1 = 2
  rw [Convolver.partCount_one_one]

theorem exTV_fft_w : exTV._fft.w = kernel2 := Convolver.new_fft_w _ _ _ _ _

theorem exTV_fft_norm_fact : exTV._fft._norm_fact = 1 / 2 := by
  show (Convolver.new kernel2 exFresh (fun _ => 1) 1 1)._fft._norm_fact = 1 / 2
  rw [Convolver.new_fft_norm_fact]
  norm_num

/-- The active partition of `exTV` is the transform of `[1, 0]`. -/
theorem exTV_freq_resp_parts (bin : ℕ) (hbin : bin < 2) :
    exTV._freq_resp_parts bin = dft kernel2 (1 * 2) (fun l => if l = 0 then 1 else 0) bin := by
  have := Convolver.new_freq_resp_parts kernel2 exFresh (fun _ => (1 : ℚ)) 1 1
    (by rw [Convolver.partCount_one_one]; norm_num) 0
    (by rw [Convolver.partCount_one_one]; norm_num) bin hbin
  rw [Nat.zero_mul, Nat.zero_add] at this
  show (Convolver.new kernel2 exFresh (fun _ => 1) 1 1)._freq_resp_parts bin = _
  rw [this]
  refine dft_congr _ _ _ _ _ (fun j _ => ?_)
  unfold Convolver.zeroPaddedBlock
  by_cases hj : j = 0
  · subst hj
    simp
  · have : ¬ j < 1 := by omega
    simp [hj, this]

/-- The set `exParts2` is the transform of `[2, 0]`. -/
theorem exParts2_eq (bin : ℕ) :
    exParts2 bin = dft kernel2 (1 * 2) (fun l => if l = 0 then 2 else 0) bin := by
  unfold dft exParts2
  rw [Finset.sum_range_succ, Finset.sum_range_one]
  ext <;> simp

/-- Second output after a swap to `exParts2` was requested on `exTV`: the new set is
active. -/
theorem exTV_swap_second_out :
    ((((exTV.set_partitions exParts2).process exOne (exOuts 0)).1).process exOne (exOuts 1)).2 0
      = 2 := by
  have hd : ((exTV.set_partitions exParts2).process exOne (exOuts 0)).1.DimsOk :=
    (TimeVarConvolver.Reachable.process _ _ _
      (TimeVarConvolver.Reachable.set_partitions _ _ exTV_reachable)).inv.dims
  rw [TimeVarConvolver.process_of_not_changed _ (TimeVarConvolver.process_has_changed _ _ _)]
  show (((exTV.set_partitions exParts2).process exOne (exOuts 0)).1.toConvolver.process exOne
    (exOuts 1)).2 0 = 2
  rw [ex_single_out _ hd (by rw [TimeVarConvolver.tv_process_block_size]; rfl)
    (by rw [TimeVarConvolver.tv_process_n_parts]; exact Convolver.partCount_one_one)
    (by rw [TimeVarConvolver.tv_process_fft_w]; exact exTV_fft_w)
    (by rw [TimeVarConvolver.tv_process_fft_norm_fact]; exact exTV_fft_norm_fact)
    (fun l => if l = 0 then 2 else 0)
    (by
      intro bin hbin
      rw [(TimeVarConvolver.process_swap_state (exTV.set_partitions exParts2) rfl exOne
        (exOuts 0)).1]
      show memcpy exTV._other_freq_resp 0 exParts2 0 exTV._spectra_size bin = _
      rw [exTV_spectra_size, memcpy_apply, if_pos ⟨Nat.zero_le _, by omega⟩, ← exParts2_eq]
      simp)
    (by simp)]
  simp

/-- Second output when the pending request for `exParts2` is overwritten by a copy of the
active set: the old set stays active. -/
theorem exTV_copy_second_out :
    (((((exTV.set_partitions exParts2).set_partitions
        (exTV.set_partitions exParts2)._freq_resp_parts).process exOne (exOuts 0)).1).process
      exOne (exOuts 1)).2 0 = 1 := by
  have hd : (((exTV.set_partitions exParts2).set_partitions
      (exTV.set_partitions exParts2)._freq_resp_parts).process exOne (exOuts 0)).1.DimsOk :=
    (TimeVarConvolver.Reachable.process _ _ _
      (TimeVarConvolver.Reachable.set_partitions _ _
        (TimeVarConvolver.Reachable.set_partitions _ _ exTV_reachable))).inv.dims
  rw [TimeVarConvolver.process_of_not_changed _ (TimeVarConvolver.process_has_changed _ _ _)]
  show ((((exTV.set_partitions exParts2).set_partitions
      (exTV.set_partitions exParts2)._freq_resp_parts).process exOne (exOuts 0)).1.toConvolver.process
    exOne (exOuts 1)).2 0 = 1
  rw [ex_single_out _ hd (by rw [TimeVarConvolver.tv_process_block_size]; rfl)
    (by rw [TimeVarConvolver.tv_process_n_parts]; exact Convolver.partCount_one_one)
    (by rw [TimeVarConvolver.tv_process_fft_w]; exact exTV_fft_w)
    (by rw [TimeVarConvolver.tv_process_fft_norm_fact]; exact exTV_fft_norm_fact)
    (fun l => if l = 0 then 1 else 0)
    (by
      intro bin hbin
      rw [(TimeVarConvolver.process_swap_state ((exTV.set_partitions exParts2).set_partitions
        (exTV.set_partitions exParts2)._freq_resp_parts) rfl exOne (exOuts 0)).1]
      show memcpy (memcpy exTV._other_freq_resp 0 exParts2 0 exTV._spectra_size) 0
        exTV._freq_resp_parts 0 exTV._spectra_size bin = _
      rw [exTV_spectra_size, memcpy_apply, if_pos ⟨Nat.zero_le _, by omega⟩,
        ← exTV_freq_resp_parts _ hbin]
      simp)
    (by simp)]
  simp

end ExamplesSwap

section TimeVarClaimsSwap

/-- C6, as stated, fails: on `exTV` a swap to `exParts2` is pending; overwriting the request
with a copy of the active set discards it, so the second output on the block `[1]` is `1`
instead of the `2` obtained without the call. -/
theorem TimeVarConvolver.identical_replacement_fails :
    ((exTV.set_partitions exParts2).set_partitions
        (exTV.set_partitions exParts2)._freq_resp_parts).outputs (fun _ => exOne) exOuts 1 0
      ≠ (exTV.set_partitions exParts2).outputs (fun _ => exOne) exOuts 1 0 := by
  have h1 : ((exTV.set_partitions exParts2).set_partitions
      (exTV.set_partitions exParts2)._freq_resp_parts).outputs (fun _ => exOne) exOuts 1 0 = 1 :=
    exTV_copy_second_out
  have h2 : (exTV.set_partitions exParts2).outputs (fun _ => exOne) exOuts 1 0 = 2 :=
    exTV_swap_second_out
  rw [h1, h2]
  norm_num

/-- C6, amended: for every state with no swap pending and every sequence of later input
blocks, calling `set_partitions` with a bin-for-bin copy of the active partition set yields
the same outputs for all subsequent `process` calls, the swap block included, as not calling
it. -/
theorem TimeVarConvolver.identical_replacement {R : Type} [Field R] (s : TimeVarConvolver R)
    (hs : s.Reachable) (hidle : s._has_changed = false) (X : ℕ → Cpx R)
    (hX : ∀ i, i < s._spectra_size → X i = s._freq_resp_parts i) (xs outs : ℕ → ℕ → R)
    (t i : ℕ) (hi : i < s._block_size) :
    (s.set_partitions X).outputs xs outs t i = s.outputs xs outs t i := by
  have h0 : TimeVarConvolver.Follows (s.set_partitions X) s := by
    refine ⟨Convolver.Agree.refl _, ?_, hs.inv.dims, hidle, hs.inv.ramps, ?_⟩
    · exact (TimeVarConvolver.Reachable.set_partitions s X hs).inv.dims
    · intro _ j hj
      have hj' : j < s._spectra_size := hj
      show memcpy s._other_freq_resp 0 X 0 s._spectra_size j = s._freq_resp_parts j
      rw [memcpy_apply, if_pos ⟨Nat.zero_le _, by omega⟩, ← hX j hj']
      simp
  unfold TimeVarConvolver.outputs
  refine ((h0.run xs outs t).process_step (xs t) (outs t) (outs t)).1 i ?_
  rw [TimeVarConvolver.tv_run_block_size]
  exact hi

/-- Witness of the amended C6 at the engine `exTV`, which has no swap pending. -/
theorem TimeVarConvolver.identical_replacement_witness :
    exTV.Reachable ∧ exTV._has_changed = false
      ∧ (∀ i, i < exTV._spectra_size → exTV._freq_resp_parts i = exTV._freq_resp_parts i)
      ∧ 0 < exTV._block_size
      ∧ (exTV.set_partitions exTV._freq_resp_parts).outputs (fun _ => exOne) exOuts 1 0
        = exTV.outputs (fun _ => exOne) exOuts 1 0 :=
  ⟨exTV_reachable, rfl, fun _ _ => rfl, by decide,
    TimeVarConvolver.identical_replacement exTV exTV_reachable rfl exTV._freq_resp_parts
      (fun _ _ => rfl) (fun _ => exOne) exOuts 1 0 (by decide)⟩

/-- C7: when no swap is pending, `TimeVarConvolver::process` returns the output block of
`Convolver::process` on the same state and input, and leaves the base state (time window,
input history, active partition set and all the rest) `Convolver::process` leaves. -/
theorem TimeVarConvolver.process_idle_eq_base {R : Type} [Field R] (s : TimeVarConvolver R)
    (hidle : s._has_changed = false) (x o : ℕ → R) :
    (s.process x o).2 = (s.toConvolver.process x o).2
      ∧ (s.process x o).1.toConvolver = (s.toConvolver.process x o).1
      ∧ (s.process x o).1._input_spectra = (s.toConvolver.process x o).1._input_spectra
      ∧ (s.process x o).1._input = (s.toConvolver.process x o).1._input
      ∧ (s.process x o).1._freq_resp_parts = (s.toConvolver.process x o).1._freq_resp_parts := by
  rw [TimeVarConvolver.process_of_not_changed s hidle x o]
  exact ⟨rfl, rfl, rfl, rfl, rfl⟩

/-- Witness of C7 at the engine `exTV`. -/
theorem TimeVarConvolver.process_idle_eq_base_witness :
    exTV._has_changed = false
      ∧ (exTV.process exOne (exOuts 0)).2 = (exTV.toConvolver.process exOne (exOuts 0)).2
      ∧ (exTV.process exOne (exOuts 0)).1.toConvolver
        = (exTV.toConvolver.process exOne (exOuts 0)).1
      ∧ (exTV.process exOne (exOuts 0)).1._input_spectra
        = (exTV.toConvolver.process exOne (exOuts 0)).1._input_spectra
      ∧ (exTV.process exOne (exOuts 0)).1._input
        = (exTV.toConvolver.process exOne (exOuts 0)).1._input
      ∧ (exTV.process exOne (exOuts 0)).1._freq_resp_parts
        = (exTV.toConvolver.process exOne (exOuts 0)).1._freq_resp_parts :=
  ⟨rfl, TimeVarConvolver.process_idle_eq_base exTV rfl exOne (exOuts 0)⟩

end TimeVarClaimsSwap

section TimeVarClaimsHandoff

theorem TimeVarConvolver.set_partitions_twice {R : Type} [Field R] (s : TimeVarConvolver R)
    (A B : ℕ → Cpx R) : (s.set_partitions A).set_partitions B = s.set_partitions B := by
  have e : memcpy (memcpy s._other_freq_resp 0 A 0 s._spectra_size) 0 B 0 s._spectra_size
      = memcpy s._other_freq_resp 0 B 0 s._spectra_size := by
    funext i
    simp only [memcpy_apply]
    split_ifs <;> rfl
  unfold TimeVarConvolver.set_partitions
  simp only [e]

/-- C9: after a `process` call that consumed the swap requested by `set_partitions X`, the
active partition set is `X`, the standby set is the previously active set, the two pointers
have exchanged their blocks and designate two distinct blocks, and the pending flag is clear;
the next `process` call (with no new `set_partitions`) is the `process` of the base class
with the new set, one convolution. -/
theorem TimeVarConvolver.swap_consumed {R : Type} [Field R] (s : TimeVarConvolver R)
    (hs : s.Reachable) (X : ℕ → Cpx R) (x o : ℕ → R) :
    (∀ i, i < s._spectra_size → ((s.set_partitions X).process x o).1._freq_resp_parts i = X i)
      ∧ ((s.set_partitions X).process x o).1._other_freq_resp = s._freq_resp_parts
      ∧ ((s.set_partitions X).process x o).1._freq_resp_parts_addr = s._other_freq_resp_addr
      ∧ ((s.set_partitions X).process x o).1._other_freq_resp_addr = s._freq_resp_parts_addr
      ∧ ((s.set_partitions X).process x o).1._freq_resp_parts_addr
        ≠ ((s.set_partitions X).process x o).1._other_freq_resp_addr
      ∧ ((s.set_partitions X).process x o).1._has_changed = false
      ∧ ∀ x' o' : ℕ → R,
        (((s.set_partitions X).process x o).1.process x' o').2
            = (((s.set_partitions X).process x o).1.toConvolver.process x' o').2
          ∧ (((s.set_partitions X).process x o).1.process x' o').1.toConvolver
            = (((s.set_partitions X).process x o).1.toConvolver.process x' o').1 := by
  obtain ⟨h1, h2, h3, h4, h5, -, -⟩ :=
    TimeVarConvolver.process_swap_state (s.set_partitions X) rfl x o
  refine ⟨?_, h2, h3, h4, ?_, h5, ?_⟩
  · intro i hi
    rw [h1]
    show memcpy s._other_freq_resp 0 X 0 s._spectra_size i = X i
    rw [memcpy_apply, if_pos ⟨Nat.zero_le _, by omega⟩]
    simp
  · rw [h3, h4]
    exact fun e => hs.inv.distinct e.symm
  · intro x' o'
    rw [TimeVarConvolver.process_of_not_changed _ h5 x' o']
    exact ⟨rfl, rfl⟩

/-- Witness of C9 at the engine `exTV`. -/
theorem TimeVarConvolver.swap_consumed_witness :
    exTV.Reachable
      ∧ (∀ i, i < exTV._spectra_size →
        ((exTV.set_partitions exParts2).process exOne (exOuts 0)).1._freq_resp_parts i
          = exParts2 i)
      ∧ ((exTV.set_partitions exParts2).process exOne (exOuts 0)).1._other_freq_resp
        = exTV._freq_resp_parts
      ∧ ((exTV.set_partitions exParts2).process exOne (exOuts 0)).1._freq_resp_parts_addr
        = exTV._other_freq_resp_addr
      ∧ ((exTV.set_partitions exParts2).process exOne (exOuts 0)).1._other_freq_resp_addr
        = exTV._freq_resp_parts_addr
      ∧ ((exTV.set_partitions exParts2).process exOne (exOuts 0)).1._freq_resp_parts_addr
        ≠ ((exTV.set_partitions exParts2).process exOne (exOuts 0)).1._other_freq_resp_addr
      ∧ ((exTV.set_partitions exParts2).process exOne (exOuts 0)).1._has_changed = false
      ∧ ∀ x' o' : ℕ → ℚ,
        (((exTV.set_partitions exParts2).process exOne (exOuts 0)).1.process x' o').2
            = (((exTV.set_partitions exParts2).process exOne
                (exOuts 0)).1.toConvolver.process x' o').2
          ∧ (((exTV.set_partitions exParts2).process exOne (exOuts 0)).1.process x'
                o').1.toConvolver
            = (((exTV.set_partitions exParts2).process exOne
                (exOuts 0)).1.toConvolver.process x' o').1 :=
  ⟨exTV_reachable,
    TimeVarConvolver.swap_consumed exTV exTV_reachable exParts2 exOne (exOuts 0)⟩

/-- C10: for every two partition sets `A` and `B`, `set_partitions A` followed by
`set_partitions B` with no `process` call in between leaves the state `set_partitions B`
alone leaves: the standby set is `B`, the pending flag is raised, and the next `process` call
crossfades from the active set to `B`; `A` has no influence on any output. -/
theorem TimeVarConvolver.set_partitions_last_writer_wins {R : Type} [Field R]
    (s : TimeVarConvolver R) (hs : s.Reachable) (A B : ℕ → Cpx R) (x o : ℕ → R) :
    (s.set_partitions A).set_partitions B = s.set_partitions B
      ∧ (∀ i, i < s._spectra_size →
        ((s.set_partitions A).set_partitions B)._other_freq_resp i = B i)
      ∧ ((s.set_partitions A).set_partitions B)._has_changed = true
      ∧ ∀ i, i < s._block_size →
        (((s.set_partitions A).set_partitions B).process x o).2 i
          = (s.toConvolver.process x o).2 i * s._down_ramp i
            + ((s.toConvolver.withParts B).process x o).2 i * s._up_ramp i := by
  refine ⟨TimeVarConvolver.set_partitions_twice s A B, ?_, rfl, ?_⟩
  · intro i hi
    show memcpy _ 0 B 0 s._spectra_size i = B i
    rw [memcpy_apply, if_pos ⟨Nat.zero_le _, by omega⟩]
    simp
  · intro i hi
    rw [TimeVarConvolver.set_partitions_twice s A B]
    exact TimeVarConvolver.set_partitions_process_out s hs.inv.dims B x o i hi

/-- Witness of C10 at the engine `exTV`. -/
theorem TimeVarConvolver.set_partitions_last_writer_wins_witness :
    exTV.Reachable
      ∧ (exTV.set_partitions exParts2).set_partitions exTV._freq_resp_parts
        = exTV.set_partitions exTV._freq_resp_parts
      ∧ (∀ i, i < exTV._spectra_size →
        ((exTV.set_partitions exParts2).set_partitions exTV._freq_resp_parts)._other_freq_resp i
          = exTV._freq_resp_parts i)
      ∧ ((exTV.set_partitions exParts2).set_partitions exTV._freq_resp_parts)._has_changed = true
      ∧ ∀ i, i < exTV._block_size →
        (((exTV.set_partitions exParts2).set_partitions exTV._freq_resp_parts).process exOne
            (exOuts 0)).2 i
          = (exTV.toConvolver.process exOne (exOuts 0)).2 i * exTV._down_ramp i
            + ((exTV.toConvolver.withParts exTV._freq_resp_parts).process exOne (exOuts 0)).2 i
              * exTV._up_ramp i :=
  ⟨exTV_reachable,
    TimeVarConvolver.set_partitions_last_writer_wins exTV exTV_reachable exParts2
      exTV._freq_resp_parts exOne (exOuts 0)⟩

end TimeVarClaimsHandoff

/-! ## The crossfade ramps -/

section Ramps

variable {R : Type} [Field R]

/-- The loop of `_setup_ramps` run from phase `p0`: the phase advances by one increment per
sample, and sample `i` of the down ramp is the square of `cosf` at phase `p0 + i * inc`. -/
theorem TimeVarConvolver.rampLoop_spec (cosf : R → R) (inc : R) (n : ℕ)
    (init : R × (ℕ → R) × (ℕ → R)) :
    (TimeVarConvolver.rampLoop cosf inc n init).1 = init.1 + n * inc
      ∧ ∀ i, i < n →
        (TimeVarConvolver.rampLoop cosf inc n init).2.2 i
          = cosf (init.1 + i * inc) * cosf (init.1 + i * inc) := by
  induction n with
  | zero =>
    refine ⟨?_, fun i hi => absurd hi (Nat.not_lt_zero i)⟩
    simp [TimeVarConvolver.rampLoop]
  | succ n ih =>
    unfold TimeVarConvolver.rampLoop at ih ⊢
    rw [List.range_succ, List.foldl_append, List.foldl_cons, List.foldl_nil]
    generalize (List.range n).foldl _ _ = st at ih ⊢
    dsimp only
    refine ⟨?_, ?_⟩
    · rw [ih.1]
      push_cast
      ring
    · intro i hi
      by_cases hin : i = n
      · subst hin
        simp [ih.1]
      · rw [Function.update_noteq hin, Function.update_noteq hin]
        exact ih.2 i (by omega)

theorem TimeVarConvolver.setup_ramps_down (cosf : R → R) (M_PI : R) (B : ℕ) (up down : ℕ → R)
    (i : ℕ) (hi : i < B) :
    (TimeVarConvolver._setup_ramps cosf M_PI B up down).2 i
      = cosf (i * ((M_PI / 2) / B)) * cosf (i * ((M_PI / 2) / B)) := by
  have h := (TimeVarConvolver.rampLoop_spec cosf ((M_PI / 2) / (B : R)) B ((0 : R), up, down)).2
    i hi
  simp only [zero_add] at h
  exact h

end Ramps

section RampClaims

/-- C12: for every block size `B >= 1` and every `i < B`, with `cosf` and `M_PI` the cosine
and `pi` of the reals, the ramps built by `_setup_ramps` are `down[i] = cos^2(phase_i)` and
`up[i] = sin^2(phase_i)` with `phase_i = i * (pi / 2) / B`; hence `up[i] + down[i] = 1`, and
`down[0] = 1`, `up[0] = 0`. -/
theorem TimeVarConvolver.setup_ramps_cos_sq (B : ℕ) (hB : 1 ≤ B) (up down : ℕ → ℝ) (i : ℕ)
    (hi : i < B) :
    (TimeVarConvolver._setup_ramps Real.cos Real.pi B up down).2 i
        = Real.cos (i * ((Real.pi / 2) / B)) ^ 2
      ∧ (TimeVarConvolver._setup_ramps Real.cos Real.pi B up down).1 i
        = Real.sin (i * ((Real.pi / 2) / B)) ^ 2
      ∧ (TimeVarConvolver._setup_ramps Real.cos Real.pi B up down).1 i
          + (TimeVarConvolver._setup_ramps Real.cos Real.pi B up down).2 i = 1
      ∧ (TimeVarConvolver._setup_ramps Real.cos Real.pi B up down).2 0 = 1
      ∧ (TimeVarConvolver._setup_ramps Real.cos Real.pi B up down).1 0 = 0 := by
  have hd := TimeVarConvolver.setup_ramps_down Real.cos Real.pi B up down i hi
  have hu := TimeVarConvolver.setup_ramps_complementary Real.cos Real.pi B up down i hi
  have hd0 := TimeVarConvolver.setup_ramps_down Real.cos Real.pi B up down 0 (by omega)
  have hu0 := TimeVarConvolver.setup_ramps_complementary Real.cos Real.pi B up down 0 (by omega)
  have hsc := Real.sin_sq_add_cos_sq (i * ((Real.pi / 2) / B))
  have hd0' : (TimeVarConvolver._setup_ramps Real.cos Real.pi B up down).2 0 = 1 := by
    rw [hd0]
    simp
  refine ⟨?_, ?_, ?_, hd0', ?_⟩
  · rw [hd]
    ring
  · rw [hu, hd]
    linear_combination -hsc
  · rw [hu]
    ring
  · rw [hu0, hd0']
    ring

/-- Witness of C12: block size 2, sample 1. -/
theorem TimeVarConvolver.setup_ramps_cos_sq_witness :
    1 ≤ 2 ∧ 1 < 2
      ∧ (TimeVarConvolver._setup_ramps Real.cos Real.pi 2 (fun _ => 0) (fun _ => 0)).2 1
        = Real.cos ((1 : ℕ) * ((Real.pi / 2) / (2 : ℕ))) ^ 2
      ∧ (TimeVarConvolver._setup_ramps Real.cos Real.pi 2 (fun _ => 0) (fun _ => 0)).1 1
        = Real.sin ((1 : ℕ) * ((Real.pi / 2) / (2 : ℕ))) ^ 2
      ∧ (TimeVarConvolver._setup_ramps Real.cos Real.pi 2 (fun _ => 0) (fun _ => 0)).1 1
          + (TimeVarConvolver._setup_ramps Real.cos Real.pi 2 (fun _ => 0) (fun _ => 0)).2 1 = 1
      ∧ (TimeVarConvolver._setup_ramps Real.cos Real.pi 2 (fun _ => 0) (fun _ => 0)).2 0 = 1
      ∧ (TimeVarConvolver._setup_ramps Real.cos Real.pi 2 (fun _ => 0) (fun _ => 0)).1 0 = 0 :=
  ⟨by decide, by decide,
    TimeVarConvolver.setup_ramps_cos_sq 2 (by decide) (fun _ => 0) (fun _ => 0) 1 (by decide)⟩

end RampClaims

section ExamplesContinuity

/-- Output on the block `[1, 1]` of a single-partition engine of block size 2 whose partition
is the transform of `[v, 0, 0, 0]`. -/
theorem ex4_single_out (c : Convolver ℚ) (h : c.DimsOk) (hB : c._block_size = 2)
    (hP : c._n_parts = 1) (hw : c._fft.w = kernel4) (hnf : c._fft._norm_fact = 1 / 4)
    (V : ℕ → ℚ) (hV : ∀ bin, bin < 3 → c._freq_resp_parts bin = dft kernel4 (2 * 2) V bin)
    (hVz : ∀ l, 1 ≤ l → V l = 0) (o : ℕ → ℚ) (i : ℕ) (hi : i < 2) :
    (c.process exOne o).2 i = V 0 := by
  rw [Convolver.process_out_single c h hP (by rw [hw, hB]; exact isDFTKernel_kernel4)
    (by rw [hnf, hB]; norm_num) (by omega) V
    (by
      intro bin hbin
      rw [hB] at hbin
      rw [hw, hB]
      exact hV bin hbin)
    (by
      intro l h1 _
      rw [hB] at h1
      exact hVz l (by omega))
    exOne o i (by omega), hB, Finset.sum_range_succ, Finset.sum_range_one, hVz 1 (le_refl 1),
    zero_mul, add_zero]
  show V 0 * memcpy c._input c._block_size exOne 0 c._block_size (2 + i - 0) = V 0
  rw [hB, memcpy_apply, if_pos ⟨by omega, by omega⟩]
  simp [exOne]

theorem exTV4_reachable : exTV4.Reachable :=
  TimeVarConvolver.Reachable.new _ _ _ _ _ _ _ _ (by decide) (by decide)

theorem exTV4_fft_norm_fact : exTV4._fft._norm_fact = 1 / 4 := by
  show (Convolver.new kernel4 exFresh (fun _ => 1) 1 2)._fft._norm_fact = 1 / 4
  rw [Convolver.new_fft_norm_fact]
  norm_num

/-- The active partition of `exTV4` is the transform of `[1, 0, 0, 0]`. -/
theorem exTV4_freq_resp_parts (bin : ℕ) (hbin : bin < 3) :
    exTV4._freq_resp_parts bin = dft kernel4 (2 * 2) (fun l => if l = 0 then 1 else 0) bin := by
  have := Convolver.new_freq_resp_parts kernel4 exFresh (fun _ => (1 : ℚ)) 1 2
    (by rw [Convolver.partCount_one_two]; norm_num) 0
    (by rw [Convolver.partCount_one_two]; norm_num) bin hbin
  rw [Nat.zero_mul, Nat.zero_add] at this
  show (Convolver.new kernel4 exFresh (fun _ => 1) 1 2)._freq_resp_parts bin = _
  rw [this]
  refine dft_congr _ _ _ _ _ (fun j _ => ?_)
  unfold Convolver.zeroPaddedBlock
  by_cases hj : j = 0
  · subst hj
    simp
  · have : ¬ j < 1 := by omega
    simp [hj, this]

/-- The set `exParts2` is also the transform of `[2, 0, 0, 0]`. -/
theorem exParts2_eq4 (bin : ℕ) :
    exParts2 bin = dft kernel4 (2 * 2) (fun l => if l = 0 then 2 else 0) bin := by
  unfold dft exParts2
  simp only [Finset.sum_range_succ, Finset.sum_range_zero]
  ext <;> simp

/-- With its own partition `exTV4` returns the block `[1, 1]` for the block `[1, 1]`. -/
theorem exTV4_old_out (o : ℕ → ℚ) (i : ℕ) (hi : i < 2) :
    (exTV4.toConvolver.process exOne o).2 i = 1 :=
  ex4_single_out exTV4.toConvolver exTV4_reachable.inv.dims rfl Convolver.partCount_one_two
    (Convolver.new_fft_w _ _ _ _ _) exTV4_fft_norm_fact (fun l => if l = 0 then 1 else 0)
    exTV4_freq_resp_parts (fun l hl => by simp; omega) o i hi

/-- With the partition set `exParts2` it returns `[2, 2]`. -/
theorem exTV4_new_out (o : ℕ → ℚ) (i : ℕ) (hi : i < 2) :
    ((exTV4.toConvolver.withParts exParts2).process exOne o).2 i = 2 :=
  ex4_single_out (exTV4.toConvolver.withParts exParts2)
    (TimeVarConvolver.withParts_dimsOk _ exTV4_reachable.inv.dims _) rfl Convolver.partCount_one_two
    (Convolver.new_fft_w _ _ _ _ _) exTV4_fft_norm_fact (fun l => if l = 0 then 2 else 0)
    (fun bin _ => exParts2_eq4 bin) (fun l hl => by simp; omega) o i hi

end ExamplesContinuity

section ContinuityClaim

/-- C11: in a swap block where the result with the old partitions is the constant `a` and
the result with the new partitions is the constant `b`, for every `i` with `1 <= i < B` the
jump `|output[i] - output[i-1]|` is at most
`max(|down[i] - down[i-1]|, |up[i] - up[i-1]|) * |b - a|`. -/
theorem TimeVarConvolver.swap_continuity {R : Type} [LinearOrderedField R]
    (s : TimeVarConvolver R) (hs : s.Reachable) (X : ℕ → Cpx R) (x o : ℕ → R) (a b : R)
    (hold : ∀ i, i < s._block_size → (s.toConvolver.process x o).2 i = a)
    (hnew : ∀ i, i < s._block_size → ((s.toConvolver.withParts X).process x o).2 i = b)
    (i : ℕ) (h1 : 1 ≤ i) (hi : i < s._block_size) :
    |((s.set_partitions X).process x o).2 i - ((s.set_partitions X).process x o).2 (i - 1)|
      ≤ max |s._down_ramp i - s._down_ramp (i - 1)| |s._up_ramp i - s._up_ramp (i - 1)|
        * |b - a| := by
  have hi' : i - 1 < s._block_size := by omega
  have key : ((s.set_partitions X).process x o).2 i
      - ((s.set_partitions X).process x o).2 (i - 1)
      = (a - b) * (s._down_ramp i - s._down_ramp (i - 1)) := by
    rw [TimeVarConvolver.set_partitions_process_out s hs.inv.dims X x o i hi,
      TimeVarConvolver.set_partitions_process_out s hs.inv.dims X x o (i - 1) hi',
      hold i hi, hold (i - 1) hi', hnew i hi, hnew (i - 1) hi', hs.inv.ramps i hi,
      hs.inv.ramps (i - 1) hi']
    ring
  rw [key, abs_mul, abs_sub_comm a b, mul_comm]
  exact mul_le_mul_of_nonneg_right (le_max_left _ _) (abs_nonneg _)

/-- Witness of C11: the engine `exTV4` of block size 2 fed the constant block `[1, 1]`, old
result `1`, new result `2`, sample 1. -/
theorem TimeVarConvolver.swap_continuity_witness :
    exTV4.Reachable
      ∧ (∀ i, i < exTV4._block_size → (exTV4.toConvolver.process exOne (exOuts 0)).2 i = 1)
      ∧ (∀ i, i < exTV4._block_size →
        ((exTV4.toConvolver.withParts exParts2).process exOne (exOuts 0)).2 i = 2)
      ∧ 1 ≤ 1 ∧ 1 < exTV4._block_size
      ∧ |((exTV4.set_partitions exParts2).process exOne (exOuts 0)).2 1
          - ((exTV4.set_partitions exParts2).process exOne (exOuts 0)).2 (1 - 1)|
        ≤ max |exTV4._down_ramp 1 - exTV4._down_ramp (1 - 1)|
            |exTV4._up_ramp 1 - exTV4._up_ramp (1 - 1)| * |(2 : ℚ) - 1| :=
  ⟨exTV4_reachable, fun i hi => exTV4_old_out _ i hi, fun i hi => exTV4_new_out _ i hi,
    le_refl 1, by decide,
    TimeVarConvolver.swap_continuity exTV4 exTV4_reachable exParts2 exOne (exOuts 0) 1 2
      (fun i hi => exTV4_old_out _ i hi) (fun i hi => exTV4_new_out _ i hi) 1 (le_refl 1)
      (by decide)⟩

end ContinuityClaim

/-! ## Dimensions, reset and replacement of the partitions -/

section Dimensions

variable {R : Type} [Field R]

/-- The ceiling of `N / B` in integer arithmetic. -/
theorem Convolver.n_parts_eq_div (N B : ℕ) (hB : 0 < B) :
    ⌈(N : ℚ) / (B : ℚ)⌉₊ = (N + B - 1) / B := by
  have hBq : (0 : ℚ) < (B : ℚ) := by exact_mod_cast hB
  apply Nat.le_antisymm
  · rw [Nat.ceil_le, div_le_iff₀ hBq]
    have h1 : N ≤ (N + B - 1) / B * B := by
      have h2 := Nat.div_add_mod (N + B - 1) B
      have h3 := Nat.mod_lt (N + B - 1) hB
      have h4 : B * ((N + B - 1) / B) = (N + B - 1) / B * B := Nat.mul_comm _ _
      omega
    exact_mod_cast h1
  · have h1 := (Convolver.n_parts_spec N B hB).1
    rw [Nat.div_le_iff_le_mul_add_pred hB]
    have h4 : B * ⌈(N : ℚ) / (B : ℚ)⌉₊ = ⌈(N : ℚ) / (B : ℚ)⌉₊ * B := Nat.mul_comm _ _
    omega

theorem Convolver.Agree.run_agree {c d : Convolver R} (hcd : c.Agree d) (hc : c.DimsOk)
    (hd : d.DimsOk) (xs outs outs' : ℕ → ℕ → R) (t : ℕ) :
    (c.run xs outs t).Agree (d.run xs outs' t) := by
  induction t with
  | zero =>
    rw [Convolver.run, Convolver.run]
    exact hcd
  | succ t ih =>
    rw [Convolver.run, Convolver.run]
    exact (ih.process_agree (Convolver.run_dimsOk c hc _ _ t) (Convolver.run_dimsOk d hd _ _ t)
      _ _ _).2

theorem Convolver.Agree.outputs_eq {c d : Convolver R} (hcd : c.Agree d) (hc : c.DimsOk)
    (hd : d.DimsOk) (xs outs outs' : ℕ → ℕ → R) (t i : ℕ) (hi : i < c._block_size) :
    c.outputs xs outs t i = d.outputs xs outs' t i := by
  unfold Convolver.outputs
  refine ((hcd.run_agree hc hd xs outs outs' t).process_agree
    (Convolver.run_dimsOk c hc _ _ t) (Convolver.run_dimsOk d hd _ _ t) _ _ _).1 i ?_
  rw [Convolver.run_block_size]
  exact hi

end Dimensions

section DimensionClaims

/-- For every impulse length `1 <= N <= 2^24` and block size `1 <= B <= 2^24` a constructed
engine reports `get_fft_size() = 2 B`, `get_block_size() = B`, `get_spectrum_size() = B + 1`,
`get_n_parts() = ceil(N / B)` and `get_spectra_size() = ceil(N / B) * (B + 1)`, and for every
engine `process`, `reset_input_buffer` and `set_freq_response` leave the five values as they
are. -/
theorem Convolver.dimensions_fixed {R : Type} [Field R] (w : Cpx R) (mem : Fresh R)
    (h : ℕ → R) (N B : ℕ) (_hN : 1 ≤ N) (hB : 1 ≤ B) (hN24 : N ≤ 2 ^ 24) (hB24 : B ≤ 2 ^ 24) :
    ((Convolver.new w mem h N B).get_fft_size = 2 * B
        ∧ (Convolver.new w mem h N B).get_block_size = B
        ∧ (Convolver.new w mem h N B).get_spectrum_size = B + 1
        ∧ (Convolver.new w mem h N B).get_n_parts = ⌈(N : ℚ) / (B : ℚ)⌉₊
        ∧ (Convolver.new w mem h N B).get_n_parts = (N + B - 1) / B
        ∧ (Convolver.new w mem h N B).get_spectra_size = ⌈(N : ℚ) / (B : ℚ)⌉₊ * (B + 1))
      ∧ ∀ (c : Convolver R) (x o : ℕ → R) (X : ℕ → Cpx R),
        ((c.process x o).1.get_fft_size = c.get_fft_size
            ∧ (c.process x o).1.get_block_size = c.get_block_size
            ∧ (c.process x o).1.get_spectrum_size = c.get_spectrum_size
            ∧ (c.process x o).1.get_n_parts = c.get_n_parts
            ∧ (c.process x o).1.get_spectra_size = c.get_spectra_size)
          ∧ (c.reset_input_buffer.get_fft_size = c.get_fft_size
            ∧ c.reset_input_buffer.get_block_size = c.get_block_size
            ∧ c.reset_input_buffer.get_spectrum_size = c.get_spectrum_size
            ∧ c.reset_input_buffer.get_n_parts = c.get_n_parts
            ∧ c.reset_input_buffer.get_spectra_size = c.get_spectra_size)
          ∧ ((c.set_freq_response X).get_fft_size = c.get_fft_size
            ∧ (c.set_freq_response X).get_block_size = c.get_block_size
            ∧ (c.set_freq_response X).get_spectrum_size = c.get_spectrum_size
            ∧ (c.set_freq_response X).get_n_parts = c.get_n_parts
            ∧ (c.set_freq_response X).get_spectra_size = c.get_spectra_size) := by
  have hP := Convolver.new_n_parts_eq_ceil w mem h N B hN24 hB hB24
  refine ⟨⟨Nat.mul_comm B 2, rfl, rfl, hP, hP.trans (Convolver.n_parts_eq_div N B hB), ?_⟩,
    fun c x o X => ⟨⟨rfl, rfl, rfl, rfl, rfl⟩, ⟨rfl, rfl, rfl, rfl, rfl⟩,
      ⟨rfl, rfl, rfl, rfl, rfl⟩⟩⟩
  show (B + 1) * (Convolver.new w mem h N B)._n_parts = _
  rw [hP, Nat.mul_comm]

/-- What the accessors of a constructed engine return, in terms of the partition count the
constructor computed. -/
theorem Convolver.new_getters {R : Type} [Field R] (w : Cpx R) (mem : Fresh R) (h : ℕ → R)
    (N B : ℕ) :
    (Convolver.new w mem h N B).get_block_size = B
      ∧ (Convolver.new w mem h N B).get_spectrum_size = B + 1
      ∧ (Convolver.new w mem h N B).get_n_parts = Convolver.partCount N B
      ∧ (Convolver.new w mem h N B).get_spectra_size
        = (B + 1) * (Convolver.new w mem h N B).get_n_parts
      ∧ (Convolver.new w mem h N B).get_fft_size = 2 * B :=
  ⟨rfl, rfl, rfl, rfl, Nat.mul_comm B 2⟩

/-- C13 fails for 16777217 samples and block size 4096: the constructed engine reports
4096 partitions and `4097 * 4096` bins, where the ceiling of `N / B` is 4097; its
partitions hold `get_block_size() * get_n_parts()` samples, fewer than the impulse response
has. The other three dimensions are as claimed. -/
theorem Convolver.n_parts_rounded {R : Type} [Field R] (w : Cpx R) (mem : Fresh R)
    (h : ℕ → R) :
    (Convolver.new w mem h 16777217 4096).get_n_parts = 4096
      ∧ ⌈((16777217 : ℕ) : ℚ) / ((4096 : ℕ) : ℚ)⌉₊ = 4097
      ∧ (Convolver.new w mem h 16777217 4096).get_spectra_size = (4096 + 1) * 4096
      ∧ (Convolver.new w mem h 16777217 4096).get_block_size
          * (Convolver.new w mem h 16777217 4096).get_n_parts < 16777217
      ∧ (Convolver.new w mem h 16777217 4096).get_fft_size = 2 * 4096
      ∧ (Convolver.new w mem h 16777217 4096).get_block_size = 4096
      ∧ (Convolver.new w mem h 16777217 4096).get_spectrum_size = 4096 + 1 := by
  have hP : (Convolver.new w mem h 16777217 4096).get_n_parts = 4096 :=
    (Convolver.new_getters w mem h 16777217 4096).2.2.1.trans Convolver.partCount_big.1
  have hB := (Convolver.new_getters w mem h 16777217 4096).1
  have hS := (Convolver.new_getters w mem h 16777217 4096).2.1
  refine ⟨hP, Convolver.partCount_big.2, ?_, ?_,
    (Convolver.new_getters w mem h 16777217 4096).2.2.2.2, hB, hS⟩
  · rw [(Convolver.new_getters w mem h 16777217 4096).2.2.2.1, hP]
  · rw [hB, hP]
    norm_num

/-- C14: `reset_input_buffer` sets every sample of the time window and every bin of the
input history to zero and leaves the partitions and the dimensions as they are; two engines
with the same dimensions, transforms and partitions therefore give, after a reset, the same
outputs for the same later inputs, whatever each was fed before. -/
theorem Convolver.reset_input_buffer_forgets {R : Type} [Field R] (c d : Convolver R)
    (hc : c.DimsOk) (hd : d.DimsOk) (hB : c._block_size = d._block_size)
    (hP : c._n_parts = d._n_parts) (hw : c._fft.w = d._fft.w)
    (hnf : c._fft._norm_fact = d._fft._norm_fact)
    (hparts : ∀ i, i < c._spectra_size → c._freq_resp_parts i = d._freq_resp_parts i) :
    (∀ j, j < c._fft_size → c.reset_input_buffer._input j = 0)
      ∧ (∀ i, i < c._spectra_size → c.reset_input_buffer._input_spectra i = 0)
      ∧ c.reset_input_buffer._freq_resp_parts = c._freq_resp_parts
      ∧ (c.reset_input_buffer.get_fft_size = c.get_fft_size
        ∧ c.reset_input_buffer.get_block_size = c.get_block_size
        ∧ c.reset_input_buffer.get_spectrum_size = c.get_spectrum_size
        ∧ c.reset_input_buffer.get_n_parts = c.get_n_parts
        ∧ c.reset_input_buffer.get_spectra_size = c.get_spectra_size)
      ∧ ∀ (xs outs outs' : ℕ → ℕ → R) (t i : ℕ), i < c._block_size →
        c.reset_input_buffer.outputs xs outs t i = d.reset_input_buffer.outputs xs outs' t i := by
  refine ⟨?_, ?_, rfl, ⟨rfl, rfl, rfl, rfl, rfl⟩, ?_⟩
  · intro j hj
    show (if j < c._fft_size then (0 : R) else c._input j) = 0
    rw [if_pos hj]
  · intro i hi
    show (if i < c._spectra_size then (⟨0, 0⟩ : Cpx R) else c._input_spectra i) = 0
    rw [if_pos hi]
    rfl
  · intro xs outs outs' t i hi
    have hrc := Convolver.reset_atRest c hc
    have hrd := Convolver.reset_atRest d hd
    have hS : c._spectrum_size = d._spectrum_size := by
      rw [hc.spectrum_size, hd.spectrum_size, hB]
    have hSS : c._spectra_size = d._spectra_size := by
      rw [hc.spectra_size, hd.spectra_size, hS, hP]
    have hag : c.reset_input_buffer.Agree d.reset_input_buffer := by
      refine ⟨hB, hP, hw, hnf, ?_, ?_, hparts⟩
      · intro j hj
        rw [hrc.input j hj, hrd.input j (by
          show j < d._block_size
          rw [← hB]
          exact hj)]
      · intro k hk1 hk2
        have hk1' : c._spectrum_size ≤ k := hk1
        have hk2' : c._spectra_size ≤ k → False := fun h => absurd hk2 (Nat.not_lt.mpr h)
        rw [hrc.spectra k hk1 hk2, hrd.spectra k (by
          show d._spectrum_size ≤ k
          rw [← hS]
          exact hk1') (by
          show k < d._spectra_size
          rw [← hSS]
          exact hk2)]
    exact hag.outputs_eq (Convolver.reset_dimsOk c hc) (Convolver.reset_dimsOk d hd) xs outs outs'
      t i hi

/-- C15: for every buffer `X` of `P * spectrum_length` bins, after `set_freq_response(X)` the
partition set equals `X` bin for bin, while the input history, the time window and the
dimensions are as before. -/
theorem Convolver.set_freq_response_replaces {R : Type} [Field R] (c : Convolver R)
    (h : c.DimsOk) (X : ℕ → Cpx R) :
    (∀ i, i < c._n_parts * c._spectrum_size → (c.set_freq_response X)._freq_resp_parts i = X i)
      ∧ (c.set_freq_response X)._input_spectra = c._input_spectra
      ∧ (c.set_freq_response X)._input = c._input
      ∧ (c.set_freq_response X).get_fft_size = c.get_fft_size
      ∧ (c.set_freq_response X).get_block_size = c.get_block_size
      ∧ (c.set_freq_response X).get_spectrum_size = c.get_spectrum_size
      ∧ (c.set_freq_response X).get_n_parts = c.get_n_parts
      ∧ (c.set_freq_response X).get_spectra_size = c.get_spectra_size := by
  refine ⟨?_, rfl, rfl, rfl, rfl, rfl, rfl, rfl⟩
  intro i hi
  show memcpy c._freq_resp_parts 0 X 0 c._spectra_size i = X i
  rw [memcpy_apply, h.spectra_size, Nat.mul_comm c._spectrum_size c._n_parts,
    if_pos ⟨Nat.zero_le _, by omega⟩]
  simp

end DimensionClaims

section DimensionWitnesses

/-- Example: impulse length 3, block size 2. -/
theorem Convolver.dimensions_fixed_witness :
    1 ≤ 3 ∧ 1 ≤ 2
      ∧ (Convolver.new kernel4 exFresh exImp 3 2).get_fft_size = 2 * 2
      ∧ (Convolver.new kernel4 exFresh exImp 3 2).get_block_size = 2
      ∧ (Convolver.new kernel4 exFresh exImp 3 2).get_spectrum_size = 2 + 1
      ∧ (Convolver.new kernel4 exFresh exImp 3 2).get_n_parts = ⌈((3 : ℕ) : ℚ) / ((2 : ℕ) : ℚ)⌉₊
      ∧ (Convolver.new kernel4 exFresh exImp 3 2).get_n_parts = (3 + 2 - 1) / 2
      ∧ (Convolver.new kernel4 exFresh exImp 3 2).get_spectra_size
        = ⌈((3 : ℕ) : ℚ) / ((2 : ℕ) : ℚ)⌉₊ * (2 + 1) :=
  ⟨by decide, by decide,
    (Convolver.dimensions_fixed kernel4 exFresh exImp 3 2 (by decide) (by decide)
      (by norm_num) (by norm_num)).1⟩

theorem exNew_dimsOk : exNew.DimsOk := Convolver.new_dimsOk _ _ _ _ _

/-- Witness of C14: the engine `exNew`, never fed, and the engine `exState`, which has
consumed the block `[1]`, give the same third output after a reset. -/
theorem Convolver.reset_input_buffer_forgets_witness :
    exNew.DimsOk ∧ exState.DimsOk ∧ exNew._block_size = exState._block_size
      ∧ exNew._n_parts = exState._n_parts ∧ exNew._fft.w = exState._fft.w
      ∧ exNew._fft._norm_fact = exState._fft._norm_fact
      ∧ (∀ i, i < exNew._spectra_size → exNew._freq_resp_parts i = exState._freq_resp_parts i)
      ∧ exNew.reset_input_buffer.outputs (fun _ => exStream) exOuts 2 0
        = exState.reset_input_buffer.outputs (fun _ => exStream) exOuts 2 0 :=
  ⟨exNew_dimsOk, exState_dimsOk, rfl, rfl, rfl, rfl, fun _ _ => rfl,
    (Convolver.reset_input_buffer_forgets exNew exState exNew_dimsOk exState_dimsOk rfl rfl rfl
      rfl (fun _ _ => rfl)).2.2.2.2 (fun _ => exStream) exOuts exOuts 2 0 (by decide)⟩

/-- Witness of C15 at the engine `exState`. -/
theorem Convolver.set_freq_response_replaces_witness :
    exState.DimsOk
      ∧ (∀ i, i < exState._n_parts * exState._spectrum_size →
        (exState.set_freq_response exParts2)._freq_resp_parts i = exParts2 i)
      ∧ (exState.set_freq_response exParts2)._input_spectra = exState._input_spectra
      ∧ (exState.set_freq_response exParts2)._input = exState._input
      ∧ (exState.set_freq_response exParts2).get_fft_size = exState.get_fft_size
      ∧ (exState.set_freq_response exParts2).get_block_size = exState.get_block_size
      ∧ (exState.set_freq_response exParts2).get_spectrum_size = exState.get_spectrum_size
      ∧ (exState.set_freq_response exParts2).get_n_parts = exState.get_n_parts
      ∧ (exState.set_freq_response exParts2).get_spectra_size = exState.get_spectra_size :=
  ⟨exState_dimsOk, Convolver.set_freq_response_replaces exState exState_dimsOk exParts2⟩

end DimensionWitnesses

section HelperClaims

/-- C18: for every `FFThelper` and input block, every bin `real2complex` writes with
`normalize = true` is the bin it writes with `normalize = false`, real and imaginary part
multiplied by the current normalisation factor; the factor is `0.5 / (spectrum_length - 1)`
after construction, `f` after `set_norm_fact(f)`, and `0.5 / (spectrum_length - 1)` again
after `reset_norm_fact()`. -/
theorem FFThelper.normalize_scales {R : Type} [Field R] (f : FFThelper R) (input : ℕ → R)
    (output : ℕ → Cpx R) (o idx : ℕ) (hidx : idx < f.get_spetrum_size) (w : Cpx R)
    (time_domain : ℕ → R) (freq_domain : ℕ → Cpx R) (size : ℕ) (g : R) :
    (f.real2complex input output o true).2 (o + idx)
        = ((f.real2complex input output o false).2 (o + idx)).scale f.get_norm_fact
      ∧ (FFThelper.new w time_domain freq_domain size).get_norm_fact
        = (1 / 2) / (((FFThelper.new w time_domain freq_domain size).get_spetrum_size - 1 : ℕ) : R)
      ∧ (f.set_norm_fact g).get_norm_fact = g
      ∧ (f.set_norm_fact g).reset_norm_fact.get_norm_fact
        = (1 / 2) / ((f.get_spetrum_size - 1 : ℕ) : R)
      ∧ (f.set_norm_fact g).get_spetrum_size = f.get_spetrum_size
      ∧ (f.set_norm_fact g).reset_norm_fact.get_spetrum_size = f.get_spetrum_size := by
  refine ⟨?_, rfl, rfl, rfl, rfl, rfl⟩
  have hidx' : idx < f._spectrum_size := hidx
  simp only [FFThelper.real2complex, memcpy_apply, FFThelper.get_norm_fact, if_true,
    Bool.false_eq_true, if_false]
  simp [hidx']

/-- Witness of C18 at the helper `exFFT` of size 4, bin 1. -/
theorem FFThelper.normalize_scales_witness :
    1 < exFFT.get_spetrum_size
      ∧ (exFFT.real2complex exStream exParts2 0 true).2 (0 + 1)
        = ((exFFT.real2complex exStream exParts2 0 false).2 (0 + 1)).scale exFFT.get_norm_fact
      ∧ (FFThelper.new kernel4 exFresh.time_domain exFresh.freq_domain 4).get_norm_fact
        = (1 / 2) / (((FFThelper.new kernel4 exFresh.time_domain exFresh.freq_domain
            4).get_spetrum_size - 1 : ℕ) : ℚ)
      ∧ (exFFT.set_norm_fact 5).get_norm_fact = 5
      ∧ (exFFT.set_norm_fact 5).reset_norm_fact.get_norm_fact
        = (1 / 2) / ((exFFT.get_spetrum_size - 1 : ℕ) : ℚ)
      ∧ (exFFT.set_norm_fact 5).get_spetrum_size = exFFT.get_spetrum_size
      ∧ (exFFT.set_norm_fact 5).reset_norm_fact.get_spetrum_size = exFFT.get_spetrum_size :=
  ⟨by decide,
    FFThelper.normalize_scales exFFT exStream exParts2 0 1 (by decide) kernel4
      exFresh.time_domain exFresh.freq_domain 4 5⟩

end HelperClaims

/-! ## Forward and inverse transform of the helper -/

section RoundTrip

variable {R : Type} [Field R]

theorem FFThelper.new_sizes (w : Cpx R) (td : ℕ → R) (fd : ℕ → Cpx R) (size : ℕ) :
    (size % 2 = 0 →
        (FFThelper.new w td fd size)._fft_size = size
          ∧ (FFThelper.new w td fd size).get_spetrum_size
            = (FFThelper.new w td fd size)._fft_size / 2 + 1)
      ∧ (size % 2 = 1 →
        (FFThelper.new w td fd size)._fft_size = size + 1
          ∧ (FFThelper.new w td fd size).get_spetrum_size + 1
            = (FFThelper.new w td fd size)._fft_size / 2 + 1) := by
  constructor
  · intro h
    show size + size % 2 = size ∧ size / 2 + 1 = (size + size % 2) / 2 + 1
    rw [h]
    exact ⟨rfl, rfl⟩
  · intro h
    show size + size % 2 = size + 1 ∧ size / 2 + 1 + 1 = (size + size % 2) / 2 + 1
    rw [h]
    exact ⟨rfl, by omega⟩

/-- `complex2real` applied to what `real2complex` returned, when the spectrum length covers
the bins `0 .. n/2` of the plans: the inverse transform of the normalised transform. -/
theorem FFThelper.complex2real_real2complex (f : FFThelper R) (x : ℕ → R) (out : ℕ → Cpx R)
    (out' : ℕ → R) (m : ℕ) (hm : m < f._fft_size) (hS : f._fft_size / 2 < f._spectrum_size) :
    ((f.real2complex x out 0 true).1.complex2real (f.real2complex x out 0 true).2 out').2 m
      = ∑ k ∈ Finset.range f._fft_size,
          (hermitian f._fft_size
              (fun b => Cpx.ofReal f._norm_fact * dft f.w f._fft_size x b) k
            * Cpx.conj f.w ^ (m * k)).re := by
  simp only [FFThelper.complex2real, FFThelper.real2complex, memcpy_apply, if_true, fftw_c2r,
    Nat.zero_le, true_and, Nat.zero_add, Nat.sub_zero, if_pos hm]
  refine Finset.sum_congr rfl (fun k hk => ?_)
  congr 2
  refine Convolver.hermitian_congr _ _ (fun b hb => ?_) k (Finset.mem_range.mp hk)
  have hb' : b < f._spectrum_size := by omega
  rw [memcpy_apply, if_pos ⟨Nat.zero_le _, by omega⟩, memcpy_apply,
    if_pos ⟨Nat.zero_le _, by omega⟩]
  simp only [Nat.zero_add, Nat.sub_zero, if_pos hb', Cpx.scale_eq]
  rw [fftw_r2c_eq _ _ _ _ _ hb]
  congr 1
  exact dft_congr _ _ _ _ _ (fun j hj => by simp [hj])

/-- For an even size and the default normalisation factor, the inverse transform of the
normalised forward transform gives the block back. -/
theorem FFThelper.roundtrip_even [CharZero R] (w : Cpx R) (td : ℕ → R) (fd : ℕ → Cpx R) (B : ℕ)
    (hB : 0 < B) (hw : IsDFTKernel w (B * 2)) (x : ℕ → R) (out : ℕ → Cpx R) (out' : ℕ → R)
    (m : ℕ) (hm : m < B * 2) :
    (((FFThelper.new w td fd (B * 2)).real2complex x out 0 true).1.complex2real
        ((FFThelper.new w td fd (B * 2)).real2complex x out 0 true).2 out').2 m = x m := by
  have hn : (FFThelper.new w td fd (B * 2))._fft_size = B * 2 := by
    show B * 2 + B * 2 % 2 = B * 2
    omega
  have hS : (FFThelper.new w td fd (B * 2))._spectrum_size = B + 1 := by
    show B * 2 / 2 + 1 = B + 1
    omega
  have hnf : (FFThelper.new w td fd (B * 2))._norm_fact = (1 / 2) / (B : R) := by
    show (1 / 2) / (((B * 2 / 2 + 1 - 1 : ℕ) : R)) = _
    have : B * 2 / 2 + 1 - 1 = B := by omega
    rw [this]
  have hBR : (B : R) ≠ 0 := Nat.cast_ne_zero.mpr (by omega)
  rw [FFThelper.complex2real_real2complex _ x out out' m (by rw [hn]; exact hm)
    (by rw [hn, hS]; omega), hn, hnf]
  show ∑ k ∈ Finset.range (B * 2),
    (hermitian (B * 2) (fun b => Cpx.ofReal ((1 / 2) / (B : R)) * dft w (B * 2) x b) k
      * Cpx.conj w ^ (m * k)).re = x m
  have hdelta : ∀ b, dft w (B * 2) (fun j => if j = 0 then (1 : R) else 0) b = 1 := by
    intro b
    unfold dft
    rw [Finset.sum_eq_single 0]
    · simp
      rfl
    · intro j _ hj
      beta_reduce
      rw [if_neg hj]
      have : Cpx.ofReal (0 : R) = 0 := rfl
      rw [this, zero_mul]
    · intro h0
      exact absurd (Finset.mem_range.mpr (by omega)) h0
  have hherm := fun k (hk : k < B * 2) =>
    hermitian_products hw 1 ((1 / 2) / (B : R)) (fun _ => x)
      (fun _ j => if j = 0 then (1 : R) else 0)
      (fun b => Cpx.ofReal ((1 / 2) / (B : R)) * dft w (B * 2) x b)
      (fun b _ => by rw [Finset.sum_range_one, hdelta, mul_one]) k hk
  rw [Finset.sum_congr rfl (fun k hk => by rw [hherm k (Finset.mem_range.mp hk)]),
    inverse_of_products hw 1 ((1 / 2) / (B : R)) (fun _ => x)
      (fun _ j => if j = 0 then (1 : R) else 0) m hm, Finset.sum_range_one,
    Finset.sum_eq_single m]
  · rw [Finset.sum_eq_single 0]
    · rw [if_pos rfl, Nat.add_zero, if_pos (Nat.mod_eq_of_lt hm)]
      push_cast
      have h1 : (1 / 2) / (B : R) * ((B : R) * 2) = 1 := by
        field_simp
        ring
      linear_combination (x m) * h1
    · intro l _ hl
      rw [if_neg hl, mul_zero, zero_mul]
    · intro h0
      exact absurd (Finset.mem_range.mpr (by omega)) h0
  · intro j hj hjm
    refine Finset.sum_eq_zero (fun l _ => ?_)
    by_cases hl : l = 0
    · subst hl
      rw [Nat.add_zero, Nat.mod_eq_of_lt (Finset.mem_range.mp hj), if_neg hjm, mul_zero]
    · rw [if_neg hl, mul_zero, zero_mul]
  · intro hmn
    exact absurd (Finset.mem_range.mpr hm) hmn

end RoundTrip

section HelperSizeClaims

theorem kernel4_conj_sq : (Cpx.conj kernel4) ^ 2 = -1 := by
  ext <;> simp [kernel4, Cpx.conj, pow_two]

/-- C16 fails at the odd size 3: the helper has transform length 4, and the inverse transform
of the normalised forward transform of the block `[1, 0, 0, 0]` has first sample `5/2`
instead of `1`. Whatever the scratch spectrum holds when `complex2real` is entered, samples 0
and 2 of the result are not both those of the block. -/
theorem FFThelper.roundtrip_odd_size :
    exFFT3._fft_size = 4 ∧ exDelta 0 = 1 ∧ exDelta 2 = 0
      ∧ ((exFFT3.real2complex exDelta exParts2 0 true).1.complex2real
          (exFFT3.real2complex exDelta exParts2 0 true).2 exStream).2 0 = 5 / 2
      ∧ ∀ fd : ℕ → Cpx ℚ,
        ¬ ((({ exFFT3 with _freq_domain := fd } : FFThelper ℚ).complex2real
              (exFFT3.real2complex exDelta exParts2 0 true).2 exStream).2 0 = exDelta 0
          ∧ (({ exFFT3 with _freq_domain := fd } : FFThelper ℚ).complex2real
              (exFFT3.real2complex exDelta exParts2 0 true).2 exStream).2 2 = exDelta 2) := by
  have c4 : (Cpx.conj kernel4) ^ 4 = 1 := by
    rw [show 4 = 2 * 2 from rfl, pow_mul, kernel4_conj_sq]; ring
  have c6 : (Cpx.conj kernel4) ^ 6 = -1 := by
    rw [show 6 = 2 * 3 from rfl, pow_mul, kernel4_conj_sq]; ring
  refine ⟨rfl, rfl, rfl, ?_, ?_⟩
  · simp [exFFT3, FFThelper.new, FFThelper.real2complex, FFThelper.complex2real, fftw_c2r,
      fftw_r2c, hermitian, memcpy_apply, Finset.sum_range_succ, exDelta]
    norm_num
  · intro fd
    simp [exFFT3, FFThelper.new, FFThelper.real2complex, FFThelper.complex2real, fftw_c2r,
      fftw_r2c, hermitian, memcpy_apply, Finset.sum_range_succ, exDelta, kernel4_conj_sq, c4,
      c6]
    intro h h2
    linarith

/-- C17 fails at the odd size 3: the transform length is 4 and the spectrum length is 2,
while `(transform length) / 2 + 1` is 3. -/
theorem FFThelper.spectrum_length_odd_size :
    exFFT3._fft_size = 4 ∧ exFFT3.get_spetrum_size = 2 ∧ exFFT3._fft_size / 2 + 1 = 3 :=
  ⟨rfl, rfl, rfl⟩

/-- C19, as stated, fails: with size 0 the constructor returns a helper of transform length
0, spectrum length 1 and normalisation factor `0.5 / 0`, and the `Convolver` constructor with
block size 0 returns an engine built on it. -/
theorem FFThelper.size_zero_constructed :
    (FFThelper.new kernel2 exFresh.time_domain exFresh.freq_domain 0)._fft_size = 0
      ∧ (FFThelper.new kernel2 exFresh.time_domain exFresh.freq_domain 0).get_spetrum_size = 1
      ∧ (FFThelper.new kernel2 exFresh.time_domain exFresh.freq_domain 0).get_norm_fact
        = (1 / 2) / ((0 : ℕ) : ℚ)
      ∧ (Convolver.new kernel2 exFresh exImp 3 0).get_block_size = 0
      ∧ (Convolver.new kernel2 exFresh exImp 3 0).get_fft_size = 0 :=
  ⟨rfl, rfl, rfl, rfl, rfl⟩

/-- C19, amended: the constructors reject nothing. For size 0 `FFThelper` returns a helper
with transform length 0, spectrum length 1 and normalisation factor `0.5 / 0`; for block size
0 `Convolver` returns an engine with block size 0, transform size 0 and spectrum size 1 whose
helper is of that kind. -/
theorem FFThelper.size_zero_not_rejected {R : Type} [Field R] (w : Cpx R) (td : ℕ → R)
    (fd : ℕ → Cpx R) (mem : Fresh R) (h : ℕ → R) (N : ℕ) :
    ((FFThelper.new w td fd 0)._fft_size = 0
        ∧ (FFThelper.new w td fd 0).get_spetrum_size = 1
        ∧ (FFThelper.new w td fd 0).get_norm_fact = (1 / 2) / ((0 : ℕ) : R))
      ∧ (Convolver.new w mem h N 0).get_block_size = 0
      ∧ (Convolver.new w mem h N 0).get_fft_size = 0
      ∧ (Convolver.new w mem h N 0).get_spectrum_size = 1
      ∧ (Convolver.new w mem h N 0)._fft._fft_size = 0
      ∧ (Convolver.new w mem h N 0)._fft.get_spetrum_size = 1
      ∧ (Convolver.new w mem h N 0)._fft.get_norm_fact = (1 / 2) / ((0 : ℕ) : R) :=
  ⟨⟨rfl, rfl, rfl⟩, rfl, rfl, rfl, (Convolver.new_dimsOk w mem h N 0).fft_fft_size,
    (Convolver.new_dimsOk w mem h N 0).fft_spectrum_size,
    Convolver.new_fft_norm_fact w mem h N 0⟩

end HelperSizeClaims

section ReplacementClaims

theorem exTV_freq_resp_parts_zero : exTV._freq_resp_parts 0 = ⟨1, 0⟩ := by
  rw [exTV_freq_resp_parts 0 (by decide)]
  unfold dft
  rw [Finset.sum_range_succ, Finset.sum_range_one]
  ext <;> simp

theorem exLong_length_ne : exLong.length ≠ exTV._n_parts * exTV._spectrum_size := by
  show 3 ≠ Convolver.partCount 1 1 * (1 + 1)
  rw [Convolver.partCount_one_one]
  decide

/-- C20, as stated, fails: the partition set of `exTV` has two bins; given the three bins
`exLong`, `set_partitions` raises the pending flag and overwrites the standby set, and
`set_freq_response` overwrites the active set. -/
theorem TimeVarConvolver.wrong_length_accepted :
    exLong.length ≠ exTV._n_parts * exTV._spectrum_size
      ∧ (exTV.set_partitions (bufferOf exLong exParts2))._has_changed ≠ exTV._has_changed
      ∧ (exTV.set_partitions (bufferOf exLong exParts2))._other_freq_resp 0
        ≠ exTV._other_freq_resp 0
      ∧ (exTV.toConvolver.set_freq_response (bufferOf exLong exParts2))._freq_resp_parts 0
        ≠ exTV._freq_resp_parts 0 := by
  refine ⟨exLong_length_ne, ?_, ?_, ?_⟩
  · show true ≠ false
    decide
  · show memcpy exTV._other_freq_resp 0 (bufferOf exLong exParts2) 0 exTV._spectra_size 0
      ≠ (⟨29, 31⟩ : Cpx ℚ)
    rw [exTV_spectra_size, memcpy_apply, if_pos ⟨le_refl 0, by decide⟩]
    intro h
    have h1 := congrArg Cpx.re h
    simp [bufferOf, exLong] at h1
  · show memcpy exTV._freq_resp_parts 0 (bufferOf exLong exParts2) 0 exTV._spectra_size 0
      ≠ exTV._freq_resp_parts 0
    rw [exTV_spectra_size, memcpy_apply, if_pos ⟨le_refl 0, by decide⟩,
      exTV_freq_resp_parts_zero]
    intro h
    have h1 := congrArg Cpx.re h
    simp [bufferOf, exLong] at h1

/-- C20, amended: given a replacement buffer whose number of bins differs from
`partition_count * spectrum_length`, neither function rejects the call. Both copy
`partition_count * spectrum_length` bins from the given address: `set_freq_response` into the
active set, `set_partitions` into the standby set, raising the pending flag and leaving the
active set as it is; the input history and the time window are unchanged. -/
theorem TimeVarConvolver.wrong_length_copied {R : Type} [Field R] (s : TimeVarConvolver R)
    (l : List (Cpx R)) (beyond : ℕ → Cpx R)
    (_hlen : l.length ≠ s._n_parts * s._spectrum_size) :
    ((∀ i, (s.toConvolver.set_freq_response (bufferOf l beyond))._freq_resp_parts i
          = if i < s._spectra_size then bufferOf l beyond i else s._freq_resp_parts i)
        ∧ (s.toConvolver.set_freq_response (bufferOf l beyond))._input_spectra = s._input_spectra
        ∧ (s.toConvolver.set_freq_response (bufferOf l beyond))._input = s._input)
      ∧ (∀ i, (s.set_partitions (bufferOf l beyond))._other_freq_resp i
          = if i < s._spectra_size then bufferOf l beyond i else s._other_freq_resp i)
      ∧ (s.set_partitions (bufferOf l beyond))._has_changed = true
      ∧ (s.set_partitions (bufferOf l beyond))._freq_resp_parts = s._freq_resp_parts
      ∧ (s.set_partitions (bufferOf l beyond))._input_spectra = s._input_spectra
      ∧ (s.set_partitions (bufferOf l beyond))._input = s._input := by
  refine ⟨⟨?_, rfl, rfl⟩, ?_, rfl, rfl, rfl, rfl⟩
  · intro i
    show memcpy s._freq_resp_parts 0 (bufferOf l beyond) 0 s._spectra_size i = _
    simp [memcpy_apply]
  · intro i
    show memcpy s._other_freq_resp 0 (bufferOf l beyond) 0 s._spectra_size i = _
    simp [memcpy_apply]

/-- Witness of the amended C20 at the engine `exTV` and the three bins `exLong`. -/
theorem TimeVarConvolver.wrong_length_copied_witness :
    exLong.length ≠ exTV._n_parts * exTV._spectrum_size
      ∧ (exTV.set_partitions (bufferOf exLong exParts2))._has_changed = true
      ∧ (exTV.set_partitions (bufferOf exLong exParts2))._freq_resp_parts
        = exTV._freq_resp_parts
      ∧ (exTV.set_partitions (bufferOf exLong exParts2))._input_spectra = exTV._input_spectra
      ∧ (exTV.set_partitions (bufferOf exLong exParts2))._input = exTV._input :=
  ⟨exLong_length_ne,
    (TimeVarConvolver.wrong_length_copied exTV exLong exParts2 exLong_length_ne).2.2⟩

end ReplacementClaims

/-! ## complexmath -/

section ComplexMathClaims

variable {R : Type} [CommRing R]

/-- For every `N` and arrays `a`, `b` and a result array that overlaps neither,
`complex_multiply` writes the complex product
`a[i] * b[i]` (real part `a.re*b.re - a.im*b.im`, imaginary part `a.re*b.im + a.im*b.re`) to
`result[i]` for every `i < N` and leaves every other bin of `result` as it was; exchanging
the two factors gives the same result. -/
theorem complex_multiply_spec (a b result : ℕ → Cpx R) (N i : ℕ) :
    complex_multiply a 0 b 0 result N i = (if i < N then a i * b i else result i)
      ∧ (a i * b i).re = (a i).re * (b i).re - (a i).im * (b i).im
      ∧ (a i * b i).im = (a i).re * (b i).im + (a i).im * (b i).re
      ∧ complex_multiply a 0 b 0 result N = complex_multiply b 0 a 0 result N := by
  refine ⟨?_, rfl, rfl, ?_⟩
  · unfold complex_multiply
    simp only [Nat.zero_add]
    split_ifs
    · rfl
    · rfl
  · funext j
    unfold complex_multiply
    simp only [Nat.zero_add]
    split_ifs
    · ext
      · show _ - _ = _ - _
        ring
      · show _ + _ = _ + _
        ring
    · rfl

theorem complex_multiply_mem_succ (m : ℕ → R) (factor1 factor2 result N : ℕ) :
    complex_multiply_mem m factor1 factor2 result (N + 1)
      = complex_multiply_body factor1 factor2 result
          (complex_multiply_mem m factor1 factor2 result N) N := by
  unfold complex_multiply_mem
  rw [List.range_succ, List.foldl_append, List.foldl_cons, List.foldl_nil]

/-- The loop of `complex_multiply` after `k` rounds, for a result block that overlaps
neither factor block. -/
theorem complex_multiply_mem_inv (m : ℕ → R) (factor1 factor2 result N : ℕ)
    (h1 : result + 2 * N ≤ factor1 ∨ factor1 + 2 * N ≤ result)
    (h2 : result + 2 * N ≤ factor2 ∨ factor2 + 2 * N ≤ result) (k : ℕ) (hk : k ≤ N) :
    (∀ i, i < k →
        complex_multiply_mem m factor1 factor2 result k (result + 2 * i)
            = m (factor1 + 2 * i) * m (factor2 + 2 * i)
              - m (factor1 + 2 * i + 1) * m (factor2 + 2 * i + 1)
          ∧ complex_multiply_mem m factor1 factor2 result k (result + 2 * i + 1)
            = m (factor1 + 2 * i) * m (factor2 + 2 * i + 1)
              + m (factor1 + 2 * i + 1) * m (factor2 + 2 * i))
      ∧ ∀ a, (a < result ∨ result + 2 * k ≤ a) →
        complex_multiply_mem m factor1 factor2 result k a = m a := by
  induction k with
  | zero =>
    exact ⟨fun i hi => absurd hi (Nat.not_lt_zero i), fun a _ => rfl⟩
  | succ k ih =>
    obtain ⟨ihw, ihr⟩ := ih (by omega)
    rw [complex_multiply_mem_succ]
    generalize complex_multiply_mem m factor1 factor2 result k = mk at ihw ihr
    have r1 : mk (factor1 + 2 * k) = m (factor1 + 2 * k) := ihr _ (by omega)
    have r2 : mk (factor1 + 2 * k + 1) = m (factor1 + 2 * k + 1) := ihr _ (by omega)
    have r3 : mk (factor2 + 2 * k) = m (factor2 + 2 * k) := ihr _ (by omega)
    have r4 : mk (factor2 + 2 * k + 1) = m (factor2 + 2 * k + 1) := ihr _ (by omega)
    have n1 : factor1 + 2 * k ≠ result + 2 * k := by omega
    have n2 : factor1 + 2 * k + 1 ≠ result + 2 * k := by omega
    have n3 : factor2 + 2 * k ≠ result + 2 * k := by omega
    have n4 : factor2 + 2 * k + 1 ≠ result + 2 * k := by omega
    have hbody : ∀ a, complex_multiply_body factor1 factor2 result mk k a
        = if a = result + 2 * k + 1 then
            m (factor1 + 2 * k) * m (factor2 + 2 * k + 1)
              + m (factor1 + 2 * k + 1) * m (factor2 + 2 * k)
          else if a = result + 2 * k then
            m (factor1 + 2 * k) * m (factor2 + 2 * k)
              - m (factor1 + 2 * k + 1) * m (factor2 + 2 * k + 1)
          else mk a := by
      intro a
      unfold complex_multiply_body
      simp only [if_neg n1, if_neg n2, if_neg n3, if_neg n4, r1, r2, r3, r4]
    refine ⟨fun i hi => ?_, fun a ha => ?_⟩
    · rw [hbody, hbody]
      by_cases hik : i = k
      · subst hik
        rw [if_neg (by omega), if_pos rfl, if_pos rfl]
        exact ⟨rfl, rfl⟩
      · have hlt : i < k := by omega
        rw [if_neg (by omega), if_neg (by omega), if_neg (by omega), if_neg (by omega)]
        exact ihw i hlt
    · rw [hbody, if_neg (by omega), if_neg (by omega)]
      exact ihr a (by omega)

/-- For a result block that overlaps neither factor block, the call on one memory is the
call on three arrays: the samples at `result` afterwards are `complex_multiply` of the
samples at `factor1`, at `factor2` and at `result` before. -/
theorem complex_multiply_of_disjoint (m : ℕ → R) (factor1 factor2 result N : ℕ)
    (h1 : result + 2 * N ≤ factor1 ∨ factor1 + 2 * N ≤ result)
    (h2 : result + 2 * N ≤ factor2 ∨ factor2 + 2 * N ≤ result) :
    samplesAt (complex_multiply_mem m factor1 factor2 result N) result
      = complex_multiply (samplesAt m factor1) 0 (samplesAt m factor2) 0 (samplesAt m result)
          N := by
  have ha := complex_multiply_mem_inv m factor1 factor2 result N h1 h2 N (le_refl _)
  funext i
  unfold samplesAt complex_multiply
  by_cases hi : i < N
  · rw [if_pos hi, (ha.1 i hi).1, (ha.1 i hi).2]
    simp only [Nat.zero_add]
  · rw [if_neg hi, ha.2 _ (by omega), ha.2 _ (by omega)]

/-- C22, amended: for every `N` and every pair of arrays of `N` complex samples at
`factor1` and `factor2`, and a result array of `N` samples that overlaps neither of them,
`complex_multiply` writes the complex product (real part `a.re*b.re - a.im*b.im`, imaginary
part `a.re*b.im + a.im*b.re`) of samples `i` of the two arrays to sample `i` of the result
for every `i < N` and writes nothing else; exchanging the two factors gives the same
memory. The two factor arrays may overlap each other. -/
theorem complex_multiply_mem_spec (m : ℕ → R) (factor1 factor2 result N : ℕ)
    (h1 : result + 2 * N ≤ factor1 ∨ factor1 + 2 * N ≤ result)
    (h2 : result + 2 * N ≤ factor2 ∨ factor2 + 2 * N ≤ result) :
    (∀ i, i < N →
        complex_multiply_mem m factor1 factor2 result N (result + 2 * i)
            = m (factor1 + 2 * i) * m (factor2 + 2 * i)
              - m (factor1 + 2 * i + 1) * m (factor2 + 2 * i + 1)
          ∧ complex_multiply_mem m factor1 factor2 result N (result + 2 * i + 1)
            = m (factor1 + 2 * i) * m (factor2 + 2 * i + 1)
              + m (factor1 + 2 * i + 1) * m (factor2 + 2 * i))
      ∧ (∀ a, (a < result ∨ result + 2 * N ≤ a) →
        complex_multiply_mem m factor1 factor2 result N a = m a)
      ∧ complex_multiply_mem m factor1 factor2 result N
        = complex_multiply_mem m factor2 factor1 result N := by
  have ha := complex_multiply_mem_inv m factor1 factor2 result N h1 h2 N (le_refl _)
  have hb := complex_multiply_mem_inv m factor2 factor1 result N h2 h1 N (le_refl _)
  refine ⟨ha.1, ha.2, ?_⟩
  funext a
  by_cases hin : result ≤ a ∧ a < result + 2 * N
  · obtain ⟨i, hi⟩ : ∃ i, a = result + 2 * i ∨ a = result + 2 * i + 1 :=
      ⟨(a - result) / 2, by omega⟩
    have hiN : i < N := by omega
    rcases hi with hi | hi
    · rw [hi, (ha.1 i hiN).1, (hb.1 i hiN).1]
      ring
    · rw [hi, (ha.1 i hiN).2, (hb.1 i hiN).2]
      ring
  · rw [ha.2 a (by omega), hb.2 a (by omega)]

/-- Witness of the amended C22: the two samples of `exMem` multiplied into offsets 4
and 5. -/
theorem complex_multiply_mem_spec_witness :
    (4 + 2 * 1 ≤ 0 ∨ 0 + 2 * 1 ≤ 4) ∧ (4 + 2 * 1 ≤ 2 ∨ 2 + 2 * 1 ≤ 4)
      ∧ complex_multiply_mem exMem 0 2 4 1 (4 + 2 * 0)
        = exMem (0 + 2 * 0) * exMem (2 + 2 * 0) - exMem (0 + 2 * 0 + 1) * exMem (2 + 2 * 0 + 1)
      ∧ complex_multiply_mem exMem 0 2 4 1 (4 + 2 * 0 + 1)
        = exMem (0 + 2 * 0) * exMem (2 + 2 * 0 + 1) + exMem (0 + 2 * 0 + 1) * exMem (2 + 2 * 0) :=
  ⟨by decide, by decide,
    (complex_multiply_mem_spec exMem 0 2 4 1 (by decide) (by decide)).1 0 (by decide)⟩

/-- C22, as stated, fails for the call in place: with `factor1 = result` holding `1 + 2i`
and `factor2` holding `5 + 6i`, `complex_multiply(a, b, a, 1)` leaves `-7 - 32i` in the
result, where the product is `-7 + 16i`: the imaginary part is computed from the real part
just written. -/
theorem complex_multiply_in_place :
    complex_multiply_mem exMem 0 2 0 1 0 = -7
      ∧ complex_multiply_mem exMem 0 2 0 1 1 = -32
      ∧ exMem 0 * exMem 2 - exMem 1 * exMem 3 = -7
      ∧ exMem 0 * exMem 3 + exMem 1 * exMem 2 = 16 := by
  refine ⟨?_, ?_, ?_, ?_⟩ <;>
    norm_num [complex_multiply_mem, complex_multiply_body, exMem, List.range_succ]

/-- C23: `complex_interp` writes `w*base[i] + (1-w)*neighbour[i]` component-wise for every
`i < N` and nothing else, so weight 1 gives `base` and weight 0 gives `neighbour`; and
`complex_bilin_interp` with `y_fract = 0` is `complex_interp` of `base` and `x_neighbour`
with weight `1 - x_fract` on `base`. -/
theorem complex_interp_spec (base neighbour x_neighbour y_neigbour diag_neighbour
    result : ℕ → Cpx R) (w x_fract : R) (N i : ℕ) :
    complex_interp base neighbour result w N i
        = (if i < N then
            ⟨w * (base i).re + (1 - w) * (neighbour i).re,
              w * (base i).im + (1 - w) * (neighbour i).im⟩
          else result i)
      ∧ complex_interp base neighbour result 1 N i = (if i < N then base i else result i)
      ∧ complex_interp base neighbour result 0 N i
        = (if i < N then neighbour i else result i)
      ∧ complex_bilin_interp base x_neighbour y_neigbour diag_neighbour result x_fract 0 N
        = complex_interp base x_neighbour result (1 - x_fract) N := by
  refine ⟨?_, ?_, ?_, ?_⟩
  · unfold complex_interp
    split_ifs
    · ext
      · show _ + _ = _ + _
        ring
      · show _ + _ = _ + _
        ring
    · rfl
  · unfold complex_interp
    split_ifs
    · ext <;> simp
    · rfl
  · unfold complex_interp
    split_ifs
    · ext <;> simp
    · rfl
  · funext j
    unfold complex_bilin_interp complex_interp
    split_ifs
    · ext
      · show _ + _ = _ + _
        ring
      · show _ + _ = _ + _
        ring
    · rfl

end ComplexMathClaims

/-! ## Filter and Filterbank -/


namespace Filter

variable {R : Type} [Field R]

/-- The result of `Filter::process` on at least one frame. -/
theorem process_of_pos (f : Filter R) (input output : ℕ → R) (o n : ℕ) (hn : 1 ≤ n) :
    f.process input output o n
      = some (f.processed input output o n, processLoop f input output o (n - 1)) := by
  unfold process processed
  rw [if_neg (by omega)]

/-- The output loop reads the state only through the coefficients and the delay lines. -/
theorem processLoop_congr (f g : Filter R) (input output : ℕ → R) (o k : ℕ)
    (ha : g._a_coeffs = f._a_coeffs) (hb : g._b_coeffs = f._b_coeffs)
    (hi : g._in_dlyline = f._in_dlyline) (ho : g._out_dlyline = f._out_dlyline) :
    processLoop g input output o k = processLoop f input output o k := by
  induction k with
  | zero => simp only [processLoop, ha, hb, hi, ho]
  | succ k ih => simp only [processLoop, ha, hb, ih]

/-- Outside the block `[o, o + k]` the output buffer is as before. -/
theorem processLoop_outside (f : Filter R) (input output : ℕ → R) (o k j : ℕ)
    (hj : j < o ∨ o + k < j) : processLoop f input output o k j = output j := by
  induction k with
  | zero =>
    simp only [processLoop]
    rw [Function.update_noteq (by omega)]
  | succ k ih =>
    simp only [processLoop]
    rw [Function.update_noteq (by omega), ih (by omega)]

/-- Later passes of the loop keep what was written. -/
theorem processLoop_stable (f : Filter R) (input output : ℕ → R) (o i k : ℕ) (hik : i ≤ k) :
    processLoop f input output o k (o + i) = processLoop f input output o i (o + i) := by
  induction k with
  | zero =>
    have : i = 0 := by omega
    subst this
    rfl
  | succ k ih =>
    rcases Nat.eq_or_lt_of_le hik with h | h
    · subst h
      rfl
    · simp only [processLoop]
      rw [Function.update_noteq (by omega), ih (by omega)]

end Filter

section FilterClaims

variable {R : Type} [Field R]

/-- C29: for every filter state and every block of `n >= 1` samples, `Filter::process`
followed by `Filter::reverse()` leaves the input and the output delay line as they were
before `process`, and processing the same block again gives the same output. -/
theorem Filter.process_reverse (f : Filter R) (input output : ℕ → R) (o n : ℕ)
    (hn : 1 ≤ n) :
    ∃ f1 out, f.process input output o n = some (f1, out)
      ∧ f1.reverse._in_dlyline = f._in_dlyline
      ∧ f1.reverse._out_dlyline = f._out_dlyline
      ∧ ∃ f2, f1.reverse.process input output o n = some (f2, out) := by
  refine ⟨f.processed input output o n, Filter.processLoop f input output o (n - 1),
    Filter.process_of_pos f input output o n hn, rfl, rfl,
    (f.processed input output o n).reverse.processed input output o n, ?_⟩
  rw [Filter.process_of_pos _ input output o n hn,
    Filter.processLoop_congr f (f.processed input output o n).reverse input output o (n - 1)
      rfl rfl rfl rfl]

/-- Witness of C29: the low pass `exFilter` on the block `[1, 2]`. -/
theorem Filter.process_reverse_witness :
    1 ≤ 2 ∧ ∃ f1 out, exFilter.process exStream exZero 0 2 = some (f1, out)
      ∧ f1.reverse._in_dlyline = exFilter._in_dlyline
      ∧ f1.reverse._out_dlyline = exFilter._out_dlyline
      ∧ ∃ f2, f1.reverse.process exStream exZero 0 2 = some (f2, out) :=
  ⟨by decide, Filter.process_reverse exFilter exStream exZero 0 2 (by decide)⟩

end FilterClaims

namespace Filter

variable {R : Type} [Field R]

/-- The two filters built for one crossover frequency are coupled and balanced. -/
theorem new_pair_balanced (tanf : R → R) (M_PI fc : R) (sr : ℕ)
    (h : 1 + 1 / tanf (M_PI * (fc / (sr : R))) ≠ 0) :
    Balanced (Filter.new tanf M_PI filter_type.LOW fc sr)
      (Filter.new tanf M_PI filter_type.HIGH fc sr) := by
  have key : ∀ c : R, 1 + c ≠ 0 → (1 - c) / (1 + c) = 2 * (1 / (1 + c)) - 1 := by
    intro c hc
    field_simp
    ring
  refine ⟨⟨rfl, rfl, rfl, ?_, ?_, rfl, rfl⟩, rfl, ?_⟩
  · show (1 - 1 / tanf (M_PI * (fc / (sr : R)))) / (1 + 1 / tanf (M_PI * (fc / (sr : R))))
      = 2 * (1 / (1 + 1 / tanf (M_PI * (fc / (sr : R))))) - 1
    exact key _ h
  · show (1 - 1 / tanf (M_PI * (fc / (sr : R)))) / (1 + 1 / tanf (M_PI * (fc / (sr : R))))
      = 2 * (1 / (1 + 1 / tanf (M_PI * (fc / (sr : R))))) - 1
    exact key _ h
  · show (0 : R) + 0 = 0
    simp

/-- A balanced pair fed the same sample returns two samples that add up to it, and stays
balanced. -/
theorem Balanced.pair_operator_call {l h : Filter R} (hb : Balanced l h) (v : R) :
    (l.operator_call v).2 + (h.operator_call v).2 = v
      ∧ Balanced (l.operator_call v).1 (h.operator_call v).1 := by
  obtain ⟨⟨h1, h2, h3, h4, h5, h6, h7⟩, h8, h9⟩ := hb
  have key : (v * l._b_coeffs.1 + l._b_coeffs.2 * l._in_dlyline
        - l._a_coeffs.2 * l._out_dlyline)
      + (v * h._b_coeffs.1 + h._b_coeffs.2 * h._in_dlyline
        - h._a_coeffs.2 * h._out_dlyline) = v := by
    rw [h1, h2, h3, h4, h5, h8, ← h9]
    ring
  refine ⟨?_, ⟨h1, h2, h3, h4, h5, h6, h7⟩, rfl, ?_⟩
  · show (v * l._b_coeffs.1 + l._b_coeffs.2 * l._in_dlyline
          - (0 + l._a_coeffs.2 * l._out_dlyline)) * l._a_coeffs.1
        + (v * h._b_coeffs.1 + h._b_coeffs.2 * h._in_dlyline
          - (0 + h._a_coeffs.2 * h._out_dlyline)) * h._a_coeffs.1 = v
    rw [h6, h7]
    linear_combination key
  · show (v * l._b_coeffs.1 + l._b_coeffs.2 * l._in_dlyline
          - (0 + l._a_coeffs.2 * l._out_dlyline))
        + (v * h._b_coeffs.1 + h._b_coeffs.2 * h._in_dlyline
          - (0 + h._a_coeffs.2 * h._out_dlyline)) = v
    linear_combination key

/-- The outputs a balanced pair writes for the same input block add up to the input. -/
theorem Balanced.pair_processLoop_add {l h : Filter R} (hb : Balanced l h) (x outL outH : ℕ → R)
    (oL oH i : ℕ) :
    processLoop l x outL oL i (oL + i) + processLoop h x outH oH i (oH + i) = x i := by
  obtain ⟨⟨h1, h2, h3, h4, h5, _, _⟩, h8, h9⟩ := hb
  induction i with
  | zero =>
    simp only [processLoop, Nat.add_zero, Function.update_same]
    rw [h1, h2, h3, h4, h5, h8, ← h9]
    ring
  | succ i ih =>
    simp only [processLoop, Function.update_same]
    rw [h1, h2, h3, h4, h5]
    linear_combination (-(2 * l._b_coeffs.1 - 1)) * ih

/-- The same, in the buffers left by a longer run of the loop. -/
theorem Balanced.pair_processLoop_add_le {l h : Filter R} (hb : Balanced l h)
    (x outL outH : ℕ → R) (oL oH i k : ℕ) (hik : i ≤ k) :
    processLoop l x outL oL k (oL + i) + processLoop h x outH oH k (oH + i) = x i := by
  rw [processLoop_stable l x outL oL i k hik, processLoop_stable h x outH oH i k hik]
  exact hb.pair_processLoop_add x outL outH oL oH i

/-- A balanced pair stays balanced when both filters process the same block. -/
theorem Balanced.pair_processed {l h : Filter R} (hb : Balanced l h) (x outL outH : ℕ → R)
    (oL oH n : ℕ) : Balanced (l.processed x outL oL n) (h.processed x outH oH n) :=
  ⟨hb.1, rfl, hb.pair_processLoop_add x outL outH oL oH (n - 1)⟩

/-- `Filter::reset()` makes a coupled pair balanced. -/
theorem Balanced.pair_reset {l h : Filter R} (hb : Balanced l h) : Balanced l.reset h.reset :=
  ⟨hb.1, rfl, by show (0 : R) + 0 = 0; simp⟩

end Filter

namespace Filterbank

variable {R : Type} [Field R]

theorem two_mul_index (band : ℕ) :
    (band + 1) * 2 - 1 = 2 * band + 1 ∧ (band + 1) * 2 - 2 = 2 * band := by
  omega

/-- One pass of the filter loop of `Filterbank::process`, when the two filters of the band
exist and there is at least one frame. -/
theorem bandLoop_succ (n off band : ℕ) (fb : Filterbank R) (output : ℕ → ℕ → R)
    (hp lp : Filter R) (hn : 1 ≤ n) (h1 : fb._filters[2 * band + 1]? = some hp)
    (h2 : fb._filters[2 * band]? = some lp) :
    bandLoop n off (band + 1) fb output
      = bandLoop n off band (bandStep n off (band + 1) fb output hp lp).1
          (bandStep n off (band + 1) fb output hp lp).2 := by
  have h3 : (fb._filters.set (2 * band + 1)
      (hp.processed fb.lowBand (output (band + 1)) off n))[2 * band]? = some lp := by
    rw [List.getElem?_set_ne (by omega)]
    exact h2
  rw [bandLoop]
  simp only [(two_mul_index band).1, (two_mul_index band).2, h1,
    Filter.process_of_pos _ _ _ _ n hn, h3, bandStep, lowBand, otherBand]
  cases hlb : fb._low_band <;> simp only [lowBand, hlb] at h3 <;> simp only [hlb, h3]

end Filterbank

namespace Filterbank

variable {R : Type} [Field R]

theorem bandStep_filters (n off band : ℕ) (fb : Filterbank R) (output : ℕ → ℕ → R)
    (hp lp : Filter R) :
    (bandStep n off (band + 1) fb output hp lp).1._filters
      = (fb._filters.set (2 * band + 1)
          (hp.processed fb.lowBand (output (band + 1)) off n)).set (2 * band)
          (lp.processed fb.lowBand fb.otherBand 0 n) := by
  unfold bandStep
  simp only [(two_mul_index band).1, (two_mul_index band).2]
  cases fb._low_band <;> rfl

theorem bandStep_lowBand (n off band : ℕ) (fb : Filterbank R) (output : ℕ → ℕ → R)
    (hp lp : Filter R) :
    (bandStep n off band fb output hp lp).1.lowBand
      = Filter.processLoop lp fb.lowBand fb.otherBand 0 (n - 1) := by
  unfold bandStep lowBand
  cases fb._low_band <;> rfl

theorem bandStep_fields (n off band : ℕ) (fb : Filterbank R) (output : ℕ → ℕ → R)
    (hp lp : Filter R) :
    (bandStep n off band fb output hp lp).1._n_bands = fb._n_bands
      ∧ (bandStep n off band fb output hp lp).1._n_filters = fb._n_filters
      ∧ (bandStep n off band fb output hp lp).1._n_remaining = fb._n_remaining
      ∧ (bandStep n off band fb output hp lp).1._n_ready = fb._n_ready := by
  unfold bandStep
  cases fb._low_band <;> exact ⟨rfl, rfl, rfl, rfl⟩

theorem bandStep_snd (n off band : ℕ) (fb : Filterbank R) (output : ℕ → ℕ → R)
    (hp lp : Filter R) :
    (bandStep n off band fb output hp lp).2
      = Function.update output band
          (Filter.processLoop hp fb.lowBand (output band) off (n - 1)) := rfl

/-- The filter loop of one chunk, run on `band` balanced pairs: it returns, the pairs stay
balanced, the bands written and the new low band add up to the old low band, and nothing
else is written. -/
theorem bandLoop_spec (n off : ℕ) (hn : 1 ≤ n) (band : ℕ) :
    ∀ (fb : Filterbank R) (output : ℕ → ℕ → R),
      (∀ k, k < band → ∃ l h, fb._filters[2 * k]? = some l
        ∧ fb._filters[2 * k + 1]? = some h ∧ Filter.Balanced l h) →
      ∃ fb1 output1, bandLoop n off band fb output = some (fb1, output1)
        ∧ fb1._filters.length = fb._filters.length
        ∧ (∀ idx, 2 * band ≤ idx → fb1._filters[idx]? = fb._filters[idx]?)
        ∧ (∀ k, k < band → ∃ l h, fb1._filters[2 * k]? = some l
          ∧ fb1._filters[2 * k + 1]? = some h ∧ Filter.Balanced l h)
        ∧ (fb1._n_bands = fb._n_bands ∧ fb1._n_filters = fb._n_filters
          ∧ fb1._n_remaining = fb._n_remaining ∧ fb1._n_ready = fb._n_ready)
        ∧ (∀ i, i < n →
          ∑ b ∈ Finset.range band, output1 (b + 1) (off + i) + fb1.lowBand i = fb.lowBand i)
        ∧ (∀ b, (b = 0 ∨ band < b) → output1 b = output b)
        ∧ (∀ b j, (j < off ∨ off + n ≤ j) → output1 b j = output b j) := by
  induction band with
  | zero =>
    intro fb output _
    refine ⟨fb, output, rfl, rfl, fun _ _ => rfl, fun k hk => absurd hk (Nat.not_lt_zero k),
      ⟨rfl, rfl, rfl, rfl⟩, fun i _ => by simp, fun _ _ => rfl, fun _ _ _ => rfl⟩
  | succ band ih =>
    intro fb output hpairs
    obtain ⟨l, h, hl, hh, hbal⟩ := hpairs band (Nat.lt_succ_self band)
    rw [bandLoop_succ n off band fb output h l hn hh hl]
    have hfs := bandStep_filters n off band fb output h l
    have hlen : (bandStep n off (band + 1) fb output h l).1._filters.length
        = fb._filters.length := by
      rw [hfs, List.length_set, List.length_set]
    have hlt1 : 2 * band + 1 < fb._filters.length := by
      by_contra hc
      rw [List.getElem?_eq_none (by omega)] at hh
      exact Option.noConfusion hh
    have hget : ∀ idx, idx ≠ 2 * band → idx ≠ 2 * band + 1 →
        (bandStep n off (band + 1) fb output h l).1._filters[idx]? = fb._filters[idx]? := by
      intro idx h1 h2
      rw [hfs, List.getElem?_set_ne (Ne.symm h1), List.getElem?_set_ne (Ne.symm h2)]
    have hgetl : (bandStep n off (band + 1) fb output h l).1._filters[2 * band]?
        = some (l.processed fb.lowBand fb.otherBand 0 n) := by
      rw [hfs, List.getElem?_set_self (by rw [List.length_set]; omega)]
    have hgeth : (bandStep n off (band + 1) fb output h l).1._filters[2 * band + 1]?
        = some (h.processed fb.lowBand (output (band + 1)) off n) := by
      rw [hfs, List.getElem?_set_ne (by omega), List.getElem?_set_self hlt1]
    obtain ⟨fb1, output1, hrun, h1len, h1keep, h1pairs, h1fields, h1sum, h1out, h1frame⟩ :=
      ih (bandStep n off (band + 1) fb output h l).1
        (bandStep n off (band + 1) fb output h l).2
        (fun k hk => by
          obtain ⟨l', h', hl', hh', hb'⟩ := hpairs k (Nat.lt_succ_of_lt hk)
          refine ⟨l', h', ?_, ?_, hb'⟩
          · rw [hget (2 * k) (by omega) (by omega)]
            exact hl'
          · rw [hget (2 * k + 1) (by omega) (by omega)]
            exact hh')
    have hf := bandStep_fields n off (band + 1) fb output h l
    refine ⟨fb1, output1, hrun, h1len.trans hlen, ?_, ?_, ?_, ?_, ?_, ?_⟩
    · intro idx hidx
      rw [h1keep idx (by omega), hget idx (by omega) (by omega)]
    · intro k hk
      rcases Nat.lt_succ_iff_lt_or_eq.mp hk with hk' | hk'
      · exact h1pairs k hk'
      · subst hk'
        refine ⟨_, _, ?_, ?_, hbal.pair_processed fb.lowBand fb.otherBand (output (k + 1)) 0 off n⟩
        · rw [h1keep (2 * k) (le_refl _)]
          exact hgetl
        · rw [h1keep (2 * k + 1) (by omega)]
          exact hgeth
    · exact ⟨h1fields.1.trans hf.1, h1fields.2.1.trans hf.2.1, h1fields.2.2.1.trans hf.2.2.1,
        h1fields.2.2.2.trans hf.2.2.2⟩
    · intro i hi
      rw [Finset.sum_range_succ, add_assoc, add_comm (output1 (band + 1) (off + i)),
        ← add_assoc, h1sum i hi, bandStep_lowBand, h1out (band + 1) (Or.inr (Nat.lt_succ_self _)),
        bandStep_snd, Function.update_same]
      exact hbal.pair_processLoop_add_le fb.lowBand fb.otherBand (output (band + 1)) 0 off i (n - 1)
        (by omega) |> fun e => by simpa using e
    · intro b hb
      rw [h1out b (by omega), bandStep_snd, Function.update_noteq (by omega)]
    · intro b j hj
      rw [h1frame b j hj, bandStep_snd]
      by_cases hb : b = band + 1
      · subst hb
        rw [Function.update_same]
        exact Filter.processLoop_outside h fb.lowBand (output (band + 1)) off (n - 1) j
          (by omega)
      · rw [Function.update_noteq hb]

end Filterbank

section MapFirst

theorem length_mapFirst {α : Type} (g : α → α) (n : ℕ) (l : List α) :
    (mapFirst g n l).length = l.length := by
  induction n generalizing l with
  | zero => rfl
  | succ n ih =>
    cases l with
    | nil => rfl
    | cons a l => simp [mapFirst, ih]

theorem getElem_mapFirst {α : Type} (g : α → α) (n : ℕ) (l : List α) (i : ℕ) :
    (mapFirst g n l)[i]? = if i < n then (l[i]?).map g else l[i]? := by
  induction n generalizing l i with
  | zero => simp [mapFirst]
  | succ n ih =>
    cases l with
    | nil => simp [mapFirst]
    | cons a l =>
      cases i with
      | zero => simp [mapFirst]
      | succ i => simp [mapFirst, ih]

end MapFirst

namespace Filterbank

variable {R : Type} [Field R]

theorem lowBand_setLowBand (fb : Filterbank R) (b : ℕ → R) : (fb.setLowBand b).lowBand = b := by
  unfold setLowBand lowBand
  cases h : fb._low_band <;> simp only [h]

theorem setLowBand_fields (fb : Filterbank R) (b : ℕ → R) :
    (fb.setLowBand b)._filters = fb._filters ∧ (fb.setLowBand b)._n_bands = fb._n_bands
      ∧ (fb.setLowBand b)._n_filters = fb._n_filters
      ∧ (fb.setLowBand b)._n_remaining = fb._n_remaining
      ∧ (fb.setLowBand b)._n_ready = fb._n_ready := by
  unfold setLowBand
  cases fb._low_band <;> exact ⟨rfl, rfl, rfl, rfl, rfl⟩

/-- One pass of the `while` loop of `Filterbank::process` on a balanced bank with frames
left: it returns, the bank stays balanced, the bands written for a frame add up to the
input frame, and nothing else is written. -/
theorem chunk_spec (fb : Filterbank R) (hfb : fb.Balanced) (hrem : fb._n_remaining ≠ 0)
    (input : ℕ → R) (output : ℕ → ℕ → R) (o done : ℕ) :
    ∃ fb1 output1, chunk fb input output o done = some (fb1, output1)
      ∧ fb1.Balanced ∧ fb1._n_bands = fb._n_bands
      ∧ fb1._n_ready = min fb._n_remaining _intern_buff_size
      ∧ fb1._n_remaining = fb._n_remaining - min fb._n_remaining _intern_buff_size
      ∧ (∀ i, i < min fb._n_remaining _intern_buff_size →
        ∑ b ∈ Finset.range fb._n_bands, output1 b (o + done + i) = input (done + i))
      ∧ (∀ b j, (j < o + done ∨ o + done + min fb._n_remaining _intern_buff_size ≤ j) →
        output1 b j = output b j) := by
  obtain ⟨hnb, hlen, hnf, hpairs⟩ := hfb
  have hmin : (if fb._n_remaining < _intern_buff_size then fb._n_remaining
      else _intern_buff_size) = min fb._n_remaining _intern_buff_size := by
    unfold _intern_buff_size
    split_ifs <;> omega
  have hpos : 1 ≤ min fb._n_remaining _intern_buff_size := by
    unfold _intern_buff_size
    omega
  obtain ⟨n, hn⟩ : ∃ n, n = min fb._n_remaining _intern_buff_size := ⟨_, rfl⟩
  rw [← hn] at hpos ⊢
  obtain ⟨fb2, hfb2⟩ : ∃ fb2 : Filterbank R, fb2
      = Filterbank.setLowBand { fb with _n_ready := n }
        (memcpy (Filterbank.lowBand { fb with _n_ready := n }) 0 input done n) := ⟨_, rfl⟩
  have h2f : fb2._filters = fb._filters ∧ fb2._n_bands = fb._n_bands
      ∧ fb2._n_filters = fb._n_filters ∧ fb2._n_remaining = fb._n_remaining
      ∧ fb2._n_ready = n := by
    rw [hfb2]
    exact setLowBand_fields { fb with _n_ready := n }
      (memcpy (Filterbank.lowBand { fb with _n_ready := n }) 0 input done n)
  have h2low : fb2.lowBand
      = memcpy (Filterbank.lowBand { fb with _n_ready := n }) 0 input done n := by
    rw [hfb2, lowBand_setLowBand]
  obtain ⟨fb3, output3, hrun, h3len, _, h3pairs, h3fields, h3sum, h3out, h3frame⟩ :=
    bandLoop_spec n (o + done) hpos (fb2._n_bands - 1) fb2 output (fun k hk => by
      rw [h2f.1]
      exact hpairs k (by rw [h2f.2.1] at hk; omega))
  have hchunk : chunk fb input output o done
      = some ({ fb3 with _n_remaining := fb3._n_remaining - n },
        Function.update output3 0 (memcpy (output3 0) (o + done) fb3.lowBand 0 n)) := by
    unfold chunk
    simp only [hmin, ← hn, ← hfb2, hrun]
  refine ⟨_, _, hchunk, ⟨?_, ?_, ?_, ?_⟩, ?_, ?_, ?_, ?_, ?_⟩
  · show 1 ≤ fb3._n_bands
    rw [h3fields.1, h2f.2.1]
    exact hnb
  · show fb3._filters.length = (fb3._n_bands - 1) * 2
    rw [h3len, h3fields.1, h2f.1, h2f.2.1]
    exact hlen
  · show fb3._n_filters = (fb3._n_bands - 1) * 2
    rw [h3fields.2.1, h3fields.1, h2f.2.2.1, h2f.2.1]
    exact hnf
  · intro k hk
    exact h3pairs k (by
      have : fb3._n_bands = fb2._n_bands := h3fields.1
      have hk' : k + 1 < fb3._n_bands := hk
      omega)
  · show fb3._n_bands = fb._n_bands
    rw [h3fields.1, h2f.2.1]
  · show fb3._n_ready = n
    rw [h3fields.2.2.2, h2f.2.2.2.2]
  · show fb3._n_remaining - n = fb._n_remaining - n
    rw [h3fields.2.2.1, h2f.2.2.2.1]
  · intro i hi
    have hs := h3sum i hi
    rw [h2low, memcpy_apply, if_pos ⟨Nat.zero_le _, by omega⟩, Nat.sub_zero] at hs
    have hnb' : fb._n_bands = (fb2._n_bands - 1) + 1 := by
      rw [h2f.2.1]
      omega
    have e1 : ∑ b ∈ Finset.range (fb2._n_bands - 1),
        Function.update output3 0 (memcpy (output3 0) (o + done) fb3.lowBand 0 n) (b + 1)
          (o + done + i)
        = ∑ b ∈ Finset.range (fb2._n_bands - 1), output3 (b + 1) (o + done + i) := by
      refine Finset.sum_congr rfl (fun b _ => ?_)
      rw [Function.update_noteq (Nat.succ_ne_zero b)]
    have e2 : Function.update output3 0 (memcpy (output3 0) (o + done) fb3.lowBand 0 n) 0
        (o + done + i) = fb3.lowBand i := by
      rw [Function.update_same, memcpy_apply, if_pos ⟨by omega, by omega⟩]
      congr 1
      omega
    rw [hnb', Finset.sum_range_succ', e1, e2]
    exact hs
  · intro b j hj
    by_cases hb : b = 0
    · subst hb
      rw [Function.update_same, memcpy_apply, if_neg (by omega), h3frame 0 j hj]
    · rw [Function.update_noteq hb, h3frame b j hj]

/-- The `while` loop of `Filterbank::process` on a balanced bank, with one unit of fuel for
every frame left. -/
theorem processLoop_spec (input : ℕ → R) (o fuel : ℕ) :
    ∀ (done : ℕ) (fb : Filterbank R) (output : ℕ → ℕ → R), fb.Balanced →
      fb._n_remaining ≤ fuel →
      ∃ fb1 output1, processLoop input o fuel done fb output = some (fb1, output1)
        ∧ fb1.Balanced ∧ fb1._n_bands = fb._n_bands
        ∧ (∀ i, i < fb._n_remaining →
          ∑ b ∈ Finset.range fb._n_bands, output1 b (o + done + i) = input (done + i))
        ∧ (∀ b j, (j < o + done ∨ o + done + fb._n_remaining ≤ j) →
          output1 b j = output b j) := by
  induction fuel with
  | zero =>
    intro done fb output hfb hrem
    have h0 : fb._n_remaining = 0 := by omega
    refine ⟨fb, output, ?_, hfb, rfl, fun i hi => by omega, fun _ _ _ => rfl⟩
    rw [processLoop, if_pos h0]
  | succ fuel ih =>
    intro done fb output hfb hrem
    by_cases h0 : fb._n_remaining = 0
    · refine ⟨fb, output, ?_, hfb, rfl, fun i hi => by omega, fun _ _ _ => rfl⟩
      rw [processLoop, if_pos h0]
    · obtain ⟨fb1, output1, hchunk, h1bal, h1nb, h1ready, h1rem, h1sum, h1frame⟩ :=
        chunk_spec fb hfb h0 input output o done
      have hpos : 1 ≤ min fb._n_remaining _intern_buff_size := by
        unfold _intern_buff_size
        omega
      have hle : min fb._n_remaining _intern_buff_size ≤ fb._n_remaining := Nat.min_le_left _ _
      obtain ⟨fb2, output2, hrun, h2bal, h2nb, h2sum, h2frame⟩ :=
        ih (done + fb1._n_ready) fb1 output1 h1bal (by omega)
      refine ⟨fb2, output2, ?_, h2bal, h2nb.trans h1nb, ?_, ?_⟩
      · rw [processLoop, if_neg h0]
        simp only [hchunk, hrun]
      · intro i hi
        by_cases hin : i < min fb._n_remaining _intern_buff_size
        · rw [← h1sum i hin]
          refine Finset.sum_congr rfl (fun b _ => ?_)
          exact h2frame b _ (Or.inl (by omega))
        · have hs := h2sum (i - min fb._n_remaining _intern_buff_size) (by omega)
          rw [h1nb, h1ready] at hs
          have e1 : o + (done + min fb._n_remaining _intern_buff_size)
              + (i - min fb._n_remaining _intern_buff_size) = o + done + i := by omega
          have e2 : done + min fb._n_remaining _intern_buff_size
              + (i - min fb._n_remaining _intern_buff_size) = done + i := by omega
          rw [e1, e2] at hs
          exact hs
      · intro b j hj
        rw [h2frame b j (by omega), h1frame b j (by omega)]

/-- `Filterbank::process` on a balanced bank: it returns, the bank stays balanced, and for
every frame of the block the band outputs add up to the input sample. -/
theorem process_spec (fb : Filterbank R) (hfb : fb.Balanced) (input : ℕ → R)
    (output : ℕ → ℕ → R) (o n : ℕ) :
    ∃ fb1 output1, fb.process input output o n = some (fb1, output1)
      ∧ fb1.Balanced ∧ fb1._n_bands = fb._n_bands
      ∧ (∀ i, i < n → ∑ b ∈ Finset.range fb._n_bands, output1 b (o + i) = input i)
      ∧ (∀ b j, (j < o ∨ o + n ≤ j) → output1 b j = output b j) := by
  obtain ⟨fb1, output1, hrun, hbal, hnb, hsum, hframe⟩ :=
    processLoop_spec input o n 0 { fb with _n_remaining := n } output hfb (le_refl n)
  refine ⟨fb1, output1, hrun, hbal, hnb, ?_, ?_⟩
  · intro i hi
    have := hsum i hi
    simpa using this
  · intro b j hj
    exact hframe b j (by simpa using hj)

end Filterbank

namespace Filterbank

variable {R : Type} [Field R]

/-- The loop of `Filterbank::operator()` on `band` balanced pairs: it returns, the pairs
stay balanced, and the bands written and the last low band sample add up to the first. -/
theorem callLoop_spec (band : ℕ) :
    ∀ (fs : List (Filter R)) (low : R) (bands : ℕ → R),
      (∀ k, k < band → ∃ l h, fs[2 * k]? = some l ∧ fs[2 * k + 1]? = some h
        ∧ Filter.Balanced l h) →
      ∃ fs1 low1 bands1, callLoop band fs low bands = some (fs1, low1, bands1)
        ∧ fs1.length = fs.length
        ∧ (∀ k, k < band → ∃ l h, fs1[2 * k]? = some l ∧ fs1[2 * k + 1]? = some h
          ∧ Filter.Balanced l h)
        ∧ ∑ b ∈ Finset.range band, bands1 (b + 1) + low1 = low
        ∧ (∀ idx, 2 * band ≤ idx → fs1[idx]? = fs[idx]?)
        ∧ (∀ b, (b = 0 ∨ band < b) → bands1 b = bands b) := by
  induction band with
  | zero =>
    intro fs low bands _
    exact ⟨fs, low, bands, rfl, rfl, fun k hk => absurd hk (Nat.not_lt_zero k), by simp,
      fun _ _ => rfl, fun _ _ => rfl⟩
  | succ band ih =>
    intro fs low bands hpairs
    obtain ⟨l, h, hl, hh, hbal⟩ := hpairs band (Nat.lt_succ_self band)
    have hlt1 : 2 * band + 1 < fs.length := by
      by_contra hc
      rw [List.getElem?_eq_none (by omega)] at hh
      exact Option.noConfusion hh
    obtain ⟨fs0, hfs0⟩ : ∃ fs0, fs0 = (fs.set (2 * band + 1) (h.operator_call low).1).set
      (2 * band) (l.operator_call low).1 := ⟨_, rfl⟩
    have hget : ∀ idx, idx ≠ 2 * band → idx ≠ 2 * band + 1 → fs0[idx]? = fs[idx]? := by
      intro idx h1 h2
      rw [hfs0, List.getElem?_set_ne (Ne.symm h1), List.getElem?_set_ne (Ne.symm h2)]
    have hgetl : fs0[2 * band]? = some (l.operator_call low).1 := by
      rw [hfs0, List.getElem?_set_self (by rw [List.length_set]; omega)]
    have hgeth : fs0[2 * band + 1]? = some (h.operator_call low).1 := by
      rw [hfs0, List.getElem?_set_ne (by omega), List.getElem?_set_self hlt1]
    have h3 : (fs.set (2 * band + 1) (h.operator_call low).1)[2 * band]? = some l := by
      rw [List.getElem?_set_ne (by omega)]
      exact hl
    have hstep : callLoop (band + 1) fs low bands
        = callLoop band fs0 (l.operator_call low).2
            (Function.update bands (band + 1) (h.operator_call low).2) := by
      rw [callLoop]
      simp only [(two_mul_index band).1, (two_mul_index band).2, hh, h3, hfs0]
    obtain ⟨fs1, low1, bands1, hrun, h1len, h1pairs, h1sum, h1keep, h1bands⟩ :=
      ih fs0 (l.operator_call low).2 (Function.update bands (band + 1) (h.operator_call low).2)
        (fun k hk => by
          obtain ⟨l', h', hl', hh', hb'⟩ := hpairs k (Nat.lt_succ_of_lt hk)
          refine ⟨l', h', ?_, ?_, hb'⟩
          · rw [hget (2 * k) (by omega) (by omega)]
            exact hl'
          · rw [hget (2 * k + 1) (by omega) (by omega)]
            exact hh')
    refine ⟨fs1, low1, bands1, hstep.trans hrun, ?_, ?_, ?_, ?_, ?_⟩
    · rw [h1len, hfs0, List.length_set, List.length_set]
    · intro k hk
      rcases Nat.lt_succ_iff_lt_or_eq.mp hk with hk' | hk'
      · exact h1pairs k hk'
      · subst hk'
        refine ⟨_, _, ?_, ?_, (hbal.pair_operator_call low).2⟩
        · rw [h1keep (2 * k) (le_refl _)]
          exact hgetl
        · rw [h1keep (2 * k + 1) (by omega)]
          exact hgeth
    · rw [Finset.sum_range_succ, add_assoc, add_comm (bands1 (band + 1)), ← add_assoc, h1sum,
        h1bands (band + 1) (Or.inr (Nat.lt_succ_self _)), Function.update_same]
      exact (hbal.pair_operator_call low).1
    · intro idx hidx
      rw [h1keep idx (by omega), hget idx (by omega) (by omega)]
    · intro b hb
      rw [h1bands b (by omega), Function.update_noteq (by omega)]

/-- `Filterbank::operator()` on a balanced bank: it returns, the bank stays balanced, and
the band samples add up to the input sample. -/
theorem operator_call_spec (fb : Filterbank R) (hfb : fb.Balanced) (v : R) (bands : ℕ → R) :
    ∃ fb1 bands1, fb.operator_call v bands = some (fb1, bands1)
      ∧ fb1.Balanced ∧ fb1._n_bands = fb._n_bands
      ∧ ∑ b ∈ Finset.range fb._n_bands, bands1 b = v := by
  obtain ⟨hnb, hlen, hnf, hpairs⟩ := hfb
  obtain ⟨fs1, low1, bands1, hrun, h1len, h1pairs, h1sum, _, _⟩ :=
    callLoop_spec (fb._n_bands - 1) fb._filters v bands (fun k hk => hpairs k (by omega))
  refine ⟨{ fb with _filters := fs1 }, Function.update bands1 0 low1, ?_,
    ⟨hnb, h1len.trans hlen, hnf, fun k hk => h1pairs k (by
      have hk' : k + 1 < fb._n_bands := hk
      omega)⟩, rfl, ?_⟩
  · unfold operator_call
    simp only [hrun]
  · have hnb' : fb._n_bands = (fb._n_bands - 1) + 1 := by omega
    have e1 : ∑ b ∈ Finset.range (fb._n_bands - 1), Function.update bands1 0 low1 (b + 1)
        = ∑ b ∈ Finset.range (fb._n_bands - 1), bands1 (b + 1) := by
      refine Finset.sum_congr rfl (fun b _ => ?_)
      rw [Function.update_noteq (Nat.succ_ne_zero b)]
    rw [hnb', Finset.sum_range_succ', e1, Function.update_same]
    exact h1sum

/-- A constructed bank is balanced when no crossover frequency has `1 + c = 0`. -/
theorem new_balanced (tanf : R → R) (M_PI : R) (mem : FreshBank R) (co_freqs : List R)
    (sr : ℕ) (h : ∀ fc ∈ co_freqs, 1 + 1 / tanf (M_PI * (fc / (sr : R))) ≠ 0) :
    (Filterbank.new tanf M_PI mem co_freqs sr).Balanced := by
  refine ⟨Nat.le_add_left 1 _, ?_, rfl, ?_⟩
  · show ((List.range ((co_freqs.length + 1 - 1) * 2)).map _).length = _
    rw [List.length_map, List.length_range]
    rfl
  · intro k hk
    have hk' : k < co_freqs.length := by
      have : k + 1 < co_freqs.length + 1 := hk
      omega
    refine ⟨Filter.new tanf M_PI filter_type.LOW (co_freqs.getD k 0) sr,
      Filter.new tanf M_PI filter_type.HIGH (co_freqs.getD k 0) sr, ?_, ?_,
      Filter.new_pair_balanced tanf M_PI _ sr (h _ ?_)⟩
    · show ((List.range ((co_freqs.length + 1 - 1) * 2)).map _)[2 * k]? = _
      rw [List.getElem?_map, List.getElem?_range (by omega)]
      simp
    · show ((List.range ((co_freqs.length + 1 - 1) * 2)).map _)[2 * k + 1]? = _
      rw [List.getElem?_map, List.getElem?_range (by omega)]
      have e : (2 * k + 1) / 2 = k := by omega
      have e2 : (2 * k + 1) % 2 ≠ 0 := by omega
      simp [e, e2]
    · rw [List.getD_eq_getElem _ _ hk']
      exact List.getElem_mem _

/-- `Filterbank::reset()` keeps a balanced bank balanced. -/
theorem reset_balanced (fb : Filterbank R) (hfb : fb.Balanced) : fb.reset.Balanced := by
  obtain ⟨hnb, hlen, hnf, hpairs⟩ := hfb
  refine ⟨hnb, ?_, hnf, ?_⟩
  · show (mapFirst Filter.reset fb._n_filters fb._filters).length = _
    rw [length_mapFirst]
    exact hlen
  · intro k hk
    obtain ⟨l, h, hl, hh, hb⟩ := hpairs k hk
    have hk' : k + 1 < fb._n_bands := hk
    refine ⟨l.reset, h.reset, ?_, ?_, hb.pair_reset⟩
    · show (mapFirst Filter.reset fb._n_filters fb._filters)[2 * k]? = _
      rw [getElem_mapFirst, if_pos (by omega), hl]
      rfl
    · show (mapFirst Filter.reset fb._n_filters fb._filters)[2 * k + 1]? = _
      rw [getElem_mapFirst, if_pos (by omega), hh]
      rfl

/-- Every state reached by feeding a constructed bank is balanced. -/
theorem Fed.is_balanced {tanf : R → R} {M_PI : R} {co_freqs : List R} {sr : ℕ}
    (h : ∀ fc ∈ co_freqs, 1 + 1 / tanf (M_PI * (fc / (sr : R))) ≠ 0) {fb : Filterbank R}
    (hfb : Fed tanf M_PI co_freqs sr fb) : fb.Balanced := by
  induction hfb with
  | new mem => exact new_balanced tanf M_PI mem co_freqs sr h
  | operator_call v bands bands1 _ hrun ih =>
    obtain ⟨fb2, bands2, hrun2, hbal, _, _⟩ := operator_call_spec _ ih v bands
    rw [hrun] at hrun2
    cases hrun2
    exact hbal
  | process input output output1 o n _ hrun ih =>
    obtain ⟨fb2, output2, hrun2, hbal, _, _, _⟩ := process_spec _ ih input output o n
    rw [hrun] at hrun2
    cases hrun2
    exact hbal
  | reset _ ih => exact reset_balanced _ ih

/-- The number of bands of a fed bank. -/
theorem Fed.n_bands_eq {tanf : R → R} {M_PI : R} {co_freqs : List R} {sr : ℕ}
    (h : ∀ fc ∈ co_freqs, 1 + 1 / tanf (M_PI * (fc / (sr : R))) ≠ 0) {fb : Filterbank R}
    (hfb : Fed tanf M_PI co_freqs sr fb) : fb._n_bands = co_freqs.length + 1 := by
  induction hfb with
  | new mem => rfl
  | operator_call v bands bands1 hprev hrun ih =>
    obtain ⟨fb2, bands2, hrun2, _, hnb, _⟩ := operator_call_spec _ (hprev.is_balanced h) v bands
    rw [hrun] at hrun2
    cases hrun2
    exact hnb.trans ih
  | process input output output1 o n hprev hrun ih =>
    obtain ⟨fb2, output2, hrun2, _, hnb, _, _⟩ :=
      process_spec _ (hprev.is_balanced h) input output o n
    rw [hrun] at hrun2
    cases hrun2
    exact hnb.trans ih
  | reset _ ih => exact ih

end Filterbank

namespace Filterbank

variable {R : Type} [Field R]

theorem exists_getElem {α : Type} (l : List α) (i : ℕ) (h : i < l.length) :
    ∃ a, l[i]? = some a :=
  ⟨l[i], List.getElem?_eq_getElem h⟩

/-- The filter loop of one chunk on a bank with `band` pairs of filters: it returns, every
filter it ran has the delay lines it started from as its backup, and the high pass of the
top band has the last frame of the chunk as its input delay line. -/
theorem bandLoop_backup (n off : ℕ) (hn : 1 ≤ n) (band : ℕ) :
    ∀ (fb : Filterbank R) (output : ℕ → ℕ → R), 2 * band ≤ fb._filters.length →
      ∃ fb1 output1, bandLoop n off band fb output = some (fb1, output1)
        ∧ fb1._filters.length = fb._filters.length
        ∧ (∀ idx, 2 * band ≤ idx → fb1._filters[idx]? = fb._filters[idx]?)
        ∧ (∀ idx, idx < 2 * band → ∃ f f1, fb._filters[idx]? = some f
          ∧ fb1._filters[idx]? = some f1 ∧ f1._in_dlyline_backup = f._in_dlyline
          ∧ f1._out_dlyline_backup = f._out_dlyline)
        ∧ (fb1._n_bands = fb._n_bands ∧ fb1._n_filters = fb._n_filters
          ∧ fb1._n_remaining = fb._n_remaining ∧ fb1._n_ready = fb._n_ready)
        ∧ (1 ≤ band → ∃ f1, fb1._filters[2 * band - 1]? = some f1
          ∧ f1._in_dlyline = fb.lowBand (n - 1)) := by
  induction band with
  | zero =>
    intro fb output _
    exact ⟨fb, output, rfl, rfl, fun _ _ => rfl, fun idx hidx => absurd hidx (by omega),
      ⟨rfl, rfl, rfl, rfl⟩, fun h => absurd h (by omega)⟩
  | succ band ih =>
    intro fb output hlen0
    obtain ⟨h, hh⟩ := exists_getElem fb._filters (2 * band + 1) (by omega)
    obtain ⟨l, hl⟩ := exists_getElem fb._filters (2 * band) (by omega)
    rw [bandLoop_succ n off band fb output h l hn hh hl]
    have hfs := bandStep_filters n off band fb output h l
    have hlen : (bandStep n off (band + 1) fb output h l).1._filters.length
        = fb._filters.length := by
      rw [hfs, List.length_set, List.length_set]
    have hget : ∀ idx, idx ≠ 2 * band → idx ≠ 2 * band + 1 →
        (bandStep n off (band + 1) fb output h l).1._filters[idx]? = fb._filters[idx]? := by
      intro idx h1 h2
      rw [hfs, List.getElem?_set_ne (Ne.symm h1), List.getElem?_set_ne (Ne.symm h2)]
    have hgetl : (bandStep n off (band + 1) fb output h l).1._filters[2 * band]?
        = some (l.processed fb.lowBand fb.otherBand 0 n) := by
      rw [hfs, List.getElem?_set_self (by rw [List.length_set]; omega)]
    have hgeth : (bandStep n off (band + 1) fb output h l).1._filters[2 * band + 1]?
        = some (h.processed fb.lowBand (output (band + 1)) off n) := by
      rw [hfs, List.getElem?_set_ne (by omega), List.getElem?_set_self (by omega)]
    obtain ⟨fb1, output1, hrun, h1len, h1keep, h1back, h1fields, _⟩ :=
      ih (bandStep n off (band + 1) fb output h l).1
        (bandStep n off (band + 1) fb output h l).2 (by rw [hlen]; omega)
    have hf := bandStep_fields n off (band + 1) fb output h l
    refine ⟨fb1, output1, hrun, h1len.trans hlen, ?_, ?_, ?_, ?_⟩
    · intro idx hidx
      rw [h1keep idx (by omega), hget idx (by omega) (by omega)]
    · intro idx hidx
      by_cases h1 : idx = 2 * band
      · subst h1
        exact ⟨l, _, hl, (h1keep _ (le_refl _)).trans hgetl, rfl, rfl⟩
      · by_cases h2 : idx = 2 * band + 1
        · subst h2
          exact ⟨h, _, hh, (h1keep _ (by omega)).trans hgeth, rfl, rfl⟩
        · obtain ⟨f, f1, hf0, hf1, hb1, hb2⟩ := h1back idx (by omega)
          rw [hget idx h1 h2] at hf0
          exact ⟨f, f1, hf0, hf1, hb1, hb2⟩
    · exact ⟨h1fields.1.trans hf.1, h1fields.2.1.trans hf.2.1, h1fields.2.2.1.trans hf.2.2.1,
        h1fields.2.2.2.trans hf.2.2.2⟩
    · intro _
      refine ⟨h.processed fb.lowBand (output (band + 1)) off n, ?_, rfl⟩
      rw [show 2 * (band + 1) - 1 = 2 * band + 1 by omega, h1keep _ (by omega)]
      exact hgeth

/-- One pass of the `while` loop of `Filterbank::process` on a well-formed bank with
frames left. -/
theorem chunk_backup (fb : Filterbank R) (hfb : fb.WellFormed) (hrem : fb._n_remaining ≠ 0)
    (input : ℕ → R) (output : ℕ → ℕ → R) (o done : ℕ) :
    ∃ fb1 output1, chunk fb input output o done = some (fb1, output1)
      ∧ fb1.WellFormed ∧ fb1._n_bands = fb._n_bands
      ∧ fb1._n_ready = min fb._n_remaining _intern_buff_size
      ∧ fb1._n_remaining = fb._n_remaining - min fb._n_remaining _intern_buff_size
      ∧ (∀ idx, idx < fb._n_filters → ∃ f f1, fb._filters[idx]? = some f
          ∧ fb1._filters[idx]? = some f1 ∧ f1._in_dlyline_backup = f._in_dlyline
          ∧ f1._out_dlyline_backup = f._out_dlyline)
      ∧ (2 ≤ fb._n_bands → ∃ f1, fb1._filters[fb._n_filters - 1]? = some f1
          ∧ f1._in_dlyline
            = input (done + (min fb._n_remaining _intern_buff_size - 1))) := by
  obtain ⟨hnb, hlen, hnf⟩ := hfb
  have hmin : (if fb._n_remaining < _intern_buff_size then fb._n_remaining
      else _intern_buff_size) = min fb._n_remaining _intern_buff_size := by
    unfold _intern_buff_size
    split_ifs <;> omega
  have hpos : 1 ≤ min fb._n_remaining _intern_buff_size := by
    unfold _intern_buff_size
    omega
  obtain ⟨n, hn⟩ : ∃ n, n = min fb._n_remaining _intern_buff_size := ⟨_, rfl⟩
  rw [← hn] at hpos ⊢
  obtain ⟨fb2, hfb2⟩ : ∃ fb2 : Filterbank R, fb2
      = Filterbank.setLowBand { fb with _n_ready := n }
        (memcpy (Filterbank.lowBand { fb with _n_ready := n }) 0 input done n) := ⟨_, rfl⟩
  have h2f : fb2._filters = fb._filters ∧ fb2._n_bands = fb._n_bands
      ∧ fb2._n_filters = fb._n_filters ∧ fb2._n_remaining = fb._n_remaining
      ∧ fb2._n_ready = n := by
    rw [hfb2]
    exact setLowBand_fields { fb with _n_ready := n }
      (memcpy (Filterbank.lowBand { fb with _n_ready := n }) 0 input done n)
  have h2low : fb2.lowBand
      = memcpy (Filterbank.lowBand { fb with _n_ready := n }) 0 input done n := by
    rw [hfb2, lowBand_setLowBand]
  obtain ⟨fb3, output3, hrun, h3len, _, h3back, h3fields, h3top⟩ :=
    bandLoop_backup n (o + done) hpos (fb2._n_bands - 1) fb2 output (by
      rw [h2f.1, h2f.2.1, hlen]
      omega)
  have hchunk : chunk fb input output o done
      = some ({ fb3 with _n_remaining := fb3._n_remaining - n },
        Function.update output3 0 (memcpy (output3 0) (o + done) fb3.lowBand 0 n)) := by
    unfold chunk
    simp only [hmin, ← hn, ← hfb2, hrun]
  refine ⟨_, _, hchunk, ⟨?_, ?_, ?_⟩, ?_, ?_, ?_, ?_, ?_⟩
  · show 1 ≤ fb3._n_bands
    rw [h3fields.1, h2f.2.1]
    exact hnb
  · show fb3._filters.length = (fb3._n_bands - 1) * 2
    rw [h3len, h3fields.1, h2f.1, h2f.2.1]
    exact hlen
  · show fb3._n_filters = (fb3._n_bands - 1) * 2
    rw [h3fields.2.1, h3fields.1, h2f.2.2.1, h2f.2.1]
    exact hnf
  · show fb3._n_bands = fb._n_bands
    rw [h3fields.1, h2f.2.1]
  · show fb3._n_ready = n
    rw [h3fields.2.2.2, h2f.2.2.2.2]
  · show fb3._n_remaining - n = fb._n_remaining - n
    rw [h3fields.2.2.1, h2f.2.2.2.1]
  · intro idx hidx
    obtain ⟨f, f1, hf0, hf1, hb1, hb2⟩ := h3back idx (by rw [h2f.2.1]; omega)
    rw [h2f.1] at hf0
    exact ⟨f, f1, hf0, hf1, hb1, hb2⟩
  · intro h2
    obtain ⟨f1, hf1, hin⟩ := h3top (by rw [h2f.2.1]; omega)
    refine ⟨f1, ?_, ?_⟩
    · show fb3._filters[fb._n_filters - 1]? = some f1
      rw [← hf1]
      congr 1
      rw [h2f.2.1, hnf]
      omega
    · rw [hin, h2low, memcpy_apply, if_pos ⟨Nat.zero_le _, by omega⟩, Nat.sub_zero]

end Filterbank

namespace Filterbank

variable {R : Type} [Field R]

/-- A constructed bank is well formed. -/
theorem new_wellFormed (tanf : R → R) (M_PI : R) (mem : FreshBank R) (co_freqs : List R)
    (sr : ℕ) : (Filterbank.new tanf M_PI mem co_freqs sr).WellFormed := by
  refine ⟨Nat.le_add_left 1 _, ?_, rfl⟩
  show ((List.range ((co_freqs.length + 1 - 1) * 2)).map _).length = _
  rw [List.length_map, List.length_range]
  rfl

/-- The `while` loop with no frame left returns at once. -/
theorem processLoop_done (input : ℕ → R) (o fuel done : ℕ) (fb : Filterbank R)
    (output : ℕ → ℕ → R) (h : fb._n_remaining = 0) :
    processLoop input o fuel done fb output = some (fb, output) := by
  cases fuel with
  | zero => rw [processLoop, if_pos h]
  | succ fuel => rw [processLoop, if_pos h]

/-- The filters after `Filterbank::reverse()`. -/
theorem reverse_getElem (fb : Filterbank R) (idx : ℕ) (hidx : idx < fb._n_filters) :
    fb.reverse._filters[idx]? = (fb._filters[idx]?).map Filter.reverse := by
  show (mapFirst Filter.reverse fb._n_filters fb._filters)[idx]? = _
  rw [getElem_mapFirst, if_pos hidx]

/-- For a block of at most `_intern_buff_size` frames, `Filterbank::process` followed by
`Filterbank::reverse()` leaves the delay lines of every filter as they were. -/
theorem reverse_after_one_chunk (fb : Filterbank R) (hfb : fb.WellFormed) (input : ℕ → R)
    (output : ℕ → ℕ → R) (o n : ℕ) (h1 : 1 ≤ n) (h2 : n ≤ _intern_buff_size) :
    ∃ fb1 output1, fb.process input output o n = some (fb1, output1)
      ∧ ∀ idx, idx < fb._n_filters → ∃ f f1, fb._filters[idx]? = some f
        ∧ fb1.reverse._filters[idx]? = some f1 ∧ f1._in_dlyline = f._in_dlyline
        ∧ f1._out_dlyline = f._out_dlyline := by
  obtain ⟨fb1, output1, hchunk, h1wf, h1nb, _, h1rem, h1back, _⟩ :=
    chunk_backup { fb with _n_remaining := n } hfb (by show n ≠ 0; omega) input output o 0
  have hrem : fb1._n_remaining = 0 := by
    rw [h1rem]
    show n - min n _intern_buff_size = 0
    omega
  refine ⟨fb1, output1, ?_, ?_⟩
  · unfold process
    obtain ⟨m, rfl⟩ : ∃ m, n = m + 1 := ⟨n - 1, by omega⟩
    rw [processLoop, if_neg (by show m + 1 ≠ 0; omega)]
    simp only [hchunk]
    exact processLoop_done input o m _ fb1 output1 hrem
  · intro idx hidx
    obtain ⟨f, f1, hf0, hf1, hb1, hb2⟩ := h1back idx hidx
    refine ⟨f, f1.reverse, hf0, ?_, hb1, hb2⟩
    rw [reverse_getElem fb1 idx (by
      rw [h1wf.2.2, h1nb]
      have := hfb.2.2
      have hidx' : idx < fb._n_filters := hidx
      show idx < (fb._n_bands - 1) * 2
      omega), hf1]
    rfl

/-- For a block of more than `_intern_buff_size` and at most twice as many frames,
`Filterbank::process` followed by `Filterbank::reverse()` leaves the input delay line of
the top high pass at the last frame of the first chunk. -/
theorem reverse_after_two_chunks (fb : Filterbank R) (hfb : fb.WellFormed)
    (hnb : 2 ≤ fb._n_bands) (input : ℕ → R) (output : ℕ → ℕ → R) (o n : ℕ)
    (h1 : _intern_buff_size < n) (h2 : n ≤ 2 * _intern_buff_size) :
    ∃ fb1 output1, fb.process input output o n = some (fb1, output1)
      ∧ ∃ f1, fb1.reverse._filters[fb._n_filters - 1]? = some f1
        ∧ f1._in_dlyline = input (_intern_buff_size - 1) := by
  have hsize : _intern_buff_size = 1024 := rfl
  obtain ⟨fbA, outputA, hchunkA, hAwf, hAnb, hAready, hArem, _, hAtop⟩ :=
    chunk_backup { fb with _n_remaining := n } hfb (by show n ≠ 0; omega) input output o 0
  have hAready' : fbA._n_ready = _intern_buff_size := by
    rw [hAready]
    show min n _intern_buff_size = _
    omega
  have hArem' : fbA._n_remaining = n - _intern_buff_size := by
    rw [hArem]
    show n - min n _intern_buff_size = _
    omega
  obtain ⟨fA, hfA, hinA⟩ := hAtop hnb
  have hinA' : fA._in_dlyline = input (_intern_buff_size - 1) := by
    rw [hinA]
    show input (0 + (min n _intern_buff_size - 1)) = _
    congr 1
    omega
  obtain ⟨fbB, outputB, hchunkB, hBwf, hBnb, _, hBrem, hBback, _⟩ :=
    chunk_backup fbA hAwf (by omega) input outputA o (0 + fbA._n_ready)
  have hBrem' : fbB._n_remaining = 0 := by
    rw [hBrem]
    omega
  have hnfA : fbA._n_filters = fb._n_filters := by
    rw [hAwf.2.2, hAnb]
    exact hfb.2.2.symm
  have hnfB : fbB._n_filters = fb._n_filters := by
    rw [hBwf.2.2, hBnb, hAnb]
    exact hfb.2.2.symm
  have hnfpos : fb._n_filters - 1 < fb._n_filters := by
    have := hfb.2.2
    omega
  refine ⟨fbB, outputB, ?_, ?_⟩
  · unfold process
    obtain ⟨m, rfl⟩ : ∃ m, n = m + 2 := ⟨n - 2, by omega⟩
    rw [processLoop, if_neg (by show m + 2 ≠ 0; omega)]
    simp only [hchunkA]
    rw [processLoop, if_neg (by omega)]
    simp only [hchunkB]
    exact processLoop_done input o m _ fbB outputB hBrem'
  · obtain ⟨f, f1, hf0, hf1, hb1, _⟩ := hBback (fb._n_filters - 1) (by rw [hnfA]; exact hnfpos)
    have hfA' : fbA._filters[fb._n_filters - 1]? = some fA := hfA
    rw [hfA'] at hf0
    cases hf0
    refine ⟨f1.reverse, ?_, hb1.trans hinA'⟩
    rw [reverse_getElem fbB _ (by rw [hnfB]; exact hnfpos), hf1]
    rfl

end Filterbank

section FilterbankClaims

/-- C24: for a sample rate that is not zero and crossover frequencies with
`tan(pi*fc/fs) != 0` and `1 + c != 0`, `c = 1/tan(pi*fc/fs)` (so that no coefficient is the
quotient by zero), in every state
a `Filterbank` reaches from its constructed (reset) state by feeding samples and blocks, the
bands that `operator()` returns for a sample add up to that sample, and the bands that
`process` writes for a block add up, frame by frame, to the block. -/
theorem Filterbank.bands_sum_to_input {R : Type} [Field R] (tanf : R → R) (M_PI : R)
    (co_freqs : List R) (sr : ℕ) (_hsr : (sr : R) ≠ 0)
    (_htan : ∀ fc ∈ co_freqs, tanf (M_PI * (fc / (sr : R))) ≠ 0)
    (h : ∀ fc ∈ co_freqs, 1 + 1 / tanf (M_PI * (fc / (sr : R))) ≠ 0) (fb : Filterbank R)
    (hfb : Filterbank.Fed tanf M_PI co_freqs sr fb) :
    (∀ (in_sample : R) (bands : ℕ → R), ∃ fb1 bands1,
        fb.operator_call in_sample bands = some (fb1, bands1)
        ∧ ∑ b ∈ Finset.range (co_freqs.length + 1), bands1 b = in_sample)
      ∧ ∀ (input : ℕ → R) (output : ℕ → ℕ → R) (o n_frames : ℕ), ∃ fb1 output1,
        fb.process input output o n_frames = some (fb1, output1)
        ∧ ∀ i, i < n_frames →
          ∑ b ∈ Finset.range (co_freqs.length + 1), output1 b (o + i) = input i := by
  have hbal := hfb.is_balanced h
  have hnb := hfb.n_bands_eq h
  refine ⟨fun v bands => ?_, fun input output o n => ?_⟩
  · obtain ⟨fb1, bands1, hrun, _, _, hsum⟩ := Filterbank.operator_call_spec fb hbal v bands
    rw [hnb] at hsum
    exact ⟨fb1, bands1, hrun, hsum⟩
  · obtain ⟨fb1, output1, hrun, _, _, hsum, _⟩ :=
      Filterbank.process_spec fb hbal input output o n
    rw [hnb] at hsum
    exact ⟨fb1, output1, hrun, hsum⟩

theorem exBank_crossover :
    ∀ fc ∈ [(1000 : ℚ)], 1 + 1 / exTan (exPi * (fc / ((44100 : ℕ) : ℚ))) ≠ 0 := by
  intro fc hfc
  rw [List.mem_singleton] at hfc
  subst hfc
  unfold exTan exPi
  norm_num

theorem exBank_rate : ((44100 : ℕ) : ℚ) ≠ 0 := by
  norm_num

theorem exBank_tan :
    ∀ fc ∈ [(1000 : ℚ)], exTan (exPi * (fc / ((44100 : ℕ) : ℚ))) ≠ 0 := by
  intro fc hfc
  rw [List.mem_singleton] at hfc
  subst hfc
  unfold exTan exPi
  norm_num

/-- Witness of C24: the two-band bank `exBank`, right after construction. -/
theorem Filterbank.bands_sum_to_input_witness :
    ((44100 : ℕ) : ℚ) ≠ 0
      ∧ (∀ fc ∈ [(1000 : ℚ)], exTan (exPi * (fc / ((44100 : ℕ) : ℚ))) ≠ 0)
      ∧ (∀ fc ∈ [(1000 : ℚ)], 1 + 1 / exTan (exPi * (fc / ((44100 : ℕ) : ℚ))) ≠ 0)
      ∧ Filterbank.Fed exTan exPi [1000] 44100 exBank
      ∧ (∃ fb1 bands1, exBank.operator_call 3 exZero = some (fb1, bands1)
        ∧ ∑ b ∈ Finset.range 2, bands1 b = 3)
      ∧ ∃ fb1 output1, exBank.process exStream exOuts 0 2 = some (fb1, output1)
        ∧ ∀ i, i < 2 → ∑ b ∈ Finset.range 2, output1 b (0 + i) = exStream i :=
  ⟨exBank_rate, exBank_tan, exBank_crossover, Filterbank.Fed.new exFreshBank,
    (Filterbank.bands_sum_to_input exTan exPi [1000] 44100 exBank_rate exBank_tan
      exBank_crossover exBank (Filterbank.Fed.new exFreshBank)).1 3 exZero,
    (Filterbank.bands_sum_to_input exTan exPi [1000] 44100 exBank_rate exBank_tan
      exBank_crossover exBank (Filterbank.Fed.new exFreshBank)).2 exStream exOuts 0 2⟩

/-- C30 fails for a block of 1025 frames: the two-band bank `exBank`, whose high pass has
input delay line 0, has input delay line 1 in that filter after `process` on 1025 frames of
value 1 followed by `reverse()`. -/
theorem Filterbank.long_block_not_reversed :
    (∃ f, exBank._filters[1]? = some f ∧ f._in_dlyline = 0)
      ∧ ∃ fb1 output1, exBank.process exOne exOuts 0 1025 = some (fb1, output1)
        ∧ ∃ f1, fb1.reverse._filters[1]? = some f1 ∧ f1._in_dlyline = 1 := by
  refine ⟨⟨_, rfl, rfl⟩, ?_⟩
  obtain ⟨fb1, output1, hrun, f1, hf1, hin⟩ :=
    Filterbank.reverse_after_two_chunks exBank
      (Filterbank.new_wellFormed exTan exPi exFreshBank [1000] 44100) (by decide) exOne exOuts
      0 1025 (by decide) (by decide)
  exact ⟨fb1, output1, hrun, f1, hf1, hin⟩

end FilterbankClaims

/-! ## Positions in the ring buffer -/

section Ring

end Ring

/-! ## Delay -/

namespace Delay

variable {R : Type} [Field R]

end Delay

namespace Delay

variable {R : Type} [Field R]

end Delay

namespace Delay

variable {R : Type} [Field R]

end Delay

namespace Delay

variable {R : Type} [Field R]

/-- After `set_delay` with a delay between 1 and the buffer size, `get_delay` returns it. -/
theorem get_delay_set_delay_pos (s : Delay R) (hend : s._buffer_end = s._buffer_size)
    (new_delay : ℤ) (h0 : 0 < new_delay) (h1 : new_delay < s._buffer_size) :
    (s.set_delay new_delay).get_delay = new_delay
      ∧ (s.set_delay new_delay)._n_delay = new_delay := by
  unfold set_delay
  rw [if_pos h1]
  refine ⟨?_, rfl⟩
  unfold get_delay
  simp only [hend]
  split_ifs <;> omega

/-- After `set_delay(0)`, `get_delay` returns the buffer size. -/
theorem get_delay_set_delay_zero (s : Delay R) (hend : s._buffer_end = s._buffer_size)
    (h1 : 0 < s._buffer_size) (hw : 0 ≤ s._writer) :
    (s.set_delay 0).get_delay = s._buffer_size ∧ (s.set_delay 0)._n_delay = 0 := by
  unfold set_delay
  rw [if_pos h1]
  refine ⟨?_, rfl⟩
  unfold get_delay
  simp only [hend]
  split_ifs <;> omega

/-- `set_delay` with a delay of at least the buffer size changes nothing. -/
theorem set_delay_of_le (s : Delay R) (new_delay : ℤ) (h : s._buffer_size ≤ new_delay) :
    s.set_delay new_delay = s := by
  unfold set_delay
  rw [if_neg (by omega)]

end Delay

section DelayClaims

/-- C27 fails for `new_delay = 0`: on a `Delay` with a buffer of four samples, `get_delay()`
right after `set_delay(0)` returns 4, while the delay that was set is 0. -/
theorem Delay.get_delay_after_set_delay_zero :
    (0 : ℤ) < exDelay4._buffer_size ∧ (exDelay4.set_delay 0)._n_delay = 0
      ∧ (exDelay4.set_delay 0).get_delay = 4 := by
  refine ⟨by decide, ?_, ?_⟩
  · exact (Delay.get_delay_set_delay_zero exDelay4 rfl (by decide) (by decide)).2
  · exact (Delay.get_delay_set_delay_zero exDelay4 rfl (by decide) (by decide)).1

end DelayClaims

/-! ## MultiDelay -/

section RingStep

variable {R : Type} [Field R]

theorem ring_step_arith (size d r w : ℕ) (h0 : 0 < d) (hd : d < size) (hr : r ≤ size)
    (hw : w ≤ size) (hcong : wrapAt size w = posAt size (wrapAt size r) d) :
    wrapAt size r < size ∧ wrapAt size w < size
      ∧ posAt size (wrapAt size r) 0 = wrapAt size r
      ∧ wrapAt size (wrapAt size w + 1)
        = posAt size (wrapAt size (wrapAt size r + 1)) d := by
  revert hcong
  unfold wrapAt posAt
  split_ifs <;> omega

theorem ring_step_last (size d r w j : ℕ) (hd : d < size) (_hr : r ≤ size)
    (_hw : w ≤ size) (hcong : wrapAt size w = posAt size (wrapAt size r) d)
    (hj : j + 1 = d) :
    posAt size (wrapAt size (wrapAt size r + 1)) j = wrapAt size w := by
  revert hcong
  unfold wrapAt posAt
  split_ifs <;> omega

theorem ring_step_keep (size d r w j : ℕ) (hd : d < size) (_hr : r ≤ size)
    (hw : w ≤ size) (hcong : wrapAt size w = posAt size (wrapAt size r) d)
    (hj : j + 1 < d) :
    posAt size (wrapAt size (wrapAt size r + 1)) j = posAt size (wrapAt size r) (j + 1)
      ∧ posAt size (wrapAt size r) (j + 1) ≠ wrapAt size w := by
  revert hcong
  unfold wrapAt posAt
  split_ifs <;> omega

/-- Reading at the reader and writing the next sample of the stream at the writer, both
moving on by one position, keeps a reader tracking. -/
theorem RingTracks.ring_step {size d : ℕ} {x : ℕ → R} {t : ℕ} {b : ℕ → R} {r w : ℕ}
    (h : RingTracks size d x t b r w) :
    b (wrapAt size r) = delayed d x t
      ∧ RingTracks size d x (t + 1) (Function.update b (wrapAt size w) (x t))
        (wrapAt size r + 1) (wrapAt size w + 1) := by
  obtain ⟨h0, hd, hr, hw, hcong, hcont⟩ := h
  have ha := ring_step_arith size d r w h0 hd hr hw hcong
  refine ⟨?_, h0, hd, by omega, by omega, ha.2.2.2, ?_⟩
  · have := hcont 0 h0
    rw [ha.2.2.1] at this
    exact this
  · intro j hj
    by_cases hlast : j + 1 = d
    · rw [ring_step_last size d r w j hd hr hw hcong hlast, Function.update_same]
      unfold delayed
      rw [if_neg (by omega)]
      congr 1
      omega
    · have hk := ring_step_keep size d r w j hd hr hw hcong (by omega)
      rw [hk.1, Function.update_noteq hk.2, hcont (j + 1) (by omega)]
      congr 1
      omega

/-- A reader set `d` positions behind a writer at the start of a zeroed buffer tracks the
stream from its start. -/
theorem ringTracks_start (size d : ℕ) (x : ℕ → R) (b : ℕ → R) (h0 : 0 < d) (hd : d < size)
    (hb : ∀ p, p < size → b p = 0) : RingTracks size d x 0 b (size - d) 0 := by
  refine ⟨h0, hd, Nat.sub_le _ _, Nat.zero_le _, ?_, ?_⟩
  · unfold wrapAt posAt
    split_ifs <;> omega
  · intro j hj
    have hp : posAt size (wrapAt size (size - d)) j < size := by
      unfold wrapAt posAt
      split_ifs <;> omega
    rw [hb _ hp]
    unfold delayed
    rw [if_pos (by omega)]

end RingStep

namespace MultiDelay

variable {R : Type} [Field R]

/-- The loop of `MultiDelay::operator()` over tracking readers: it returns, every reader
is wrapped and moved on by one position, and the delayed samples times their weights are
added to the result. -/
theorem readLoop_spec (s : MultiDelay R) (size : ℕ) (x : ℕ → R) (t w : ℕ)
    (hsize : s._buffer_size = (size : ℤ)) (hend : s._buffer_end = (size : ℤ))
    {readers : List ℤ} {taps : List (ℕ × R)}
    (h : List.Forall₂ (fun (reader : ℤ) (tap : ℕ × R) =>
      ∃ r : ℕ, reader = (r : ℤ) ∧ RingTracks size tap.1 x t s._buffer r w) readers taps) :
    ∀ (idx : ℕ) (acc : R), (∀ k, s._weights[idx + k]? = (taps.map Prod.snd)[k]?) →
      ∃ readers1, readLoop s readers idx acc
          = some (readers1, acc + (taps.map fun tap => delayed tap.1 x t * tap.2).sum)
        ∧ List.Forall₂ (fun (reader1 : ℤ) (tap : ℕ × R) =>
            ∃ r : ℕ, reader1 = ((wrapAt size r + 1 : ℕ) : ℤ)
              ∧ RingTracks size tap.1 x t s._buffer r w) readers1 taps := by
  induction h with
  | nil =>
    intro idx acc _
    exact ⟨[], by simp [readLoop], List.Forall₂.nil⟩
  | @cons reader tap readers taps hhead _ ih =>
    intro idx acc hweights
    obtain ⟨r, hr, hring⟩ := hhead
    have ha := ring_step_arith size tap.1 r w hring.1 hring.2.1 hring.2.2.1 hring.2.2.2.1
      hring.2.2.2.2.1
    have hr1 : (if reader ≥ s._buffer_end then reader - s._buffer_size else reader)
        = ((wrapAt size r : ℕ) : ℤ) := by
      rw [hr, hend, hsize]
      have := hring.2.2.1
      unfold wrapAt
      split_ifs <;> omega
    have hw0 : s._weights[idx]? = some tap.2 := by
      have := hweights 0
      simpa using this
    obtain ⟨readers1, hrun, hall⟩ := ih (idx + 1)
      (acc + s._buffer (wrapAt size r) * tap.2) (fun k => by
        have := hweights (k + 1)
        rw [show idx + (k + 1) = idx + 1 + k by omega] at this
        simpa using this)
    refine ⟨(((wrapAt size r : ℕ) : ℤ) + 1) :: readers1, ?_,
      List.Forall₂.cons ⟨r, by push_cast; rfl, hring⟩ hall⟩
    have e1 : (if reader ≥ s._buffer_end then reader - s._buffer_size else reader).toNat
        = wrapAt size r := by
      rw [hr1]
      exact Int.toNat_ofNat _
    rw [readLoop]
    simp only [hw0]
    rw [e1, hr1, hsize, if_pos ⟨by omega, by omega⟩]
    simp only [hrun]
    rw [hring.ring_step.1, List.map_cons, List.sum_cons, add_assoc]

/-- `MultiDelay::operator()` on a tracking state returns the weighted sum of the delayed
samples and keeps tracking. -/
theorem Tracks.multi_operator_call {size : ℕ} {taps : List (ℕ × R)} {x : ℕ → R} {t : ℕ}
    {s : MultiDelay R} (hT : Tracks size taps x t s) :
    ∃ s1, s.operator_call (x t) = some (s1, tapSum taps x t)
      ∧ Tracks size taps x (t + 1) s1 := by
  obtain ⟨hS, hsize, hend, hweights, w, hw, hws, hall⟩ := hT
  obtain ⟨readers1, hrun, hall1⟩ := readLoop_spec s size x t w hsize hend hall 0 0
    (fun k => by rw [Nat.zero_add, hweights])
  have hw1 : (if s._writer ≥ s._buffer_end then s._writer - s._buffer_size else s._writer)
      = ((wrapAt size w : ℕ) : ℤ) := by
    rw [hw, hend, hsize]
    unfold wrapAt
    split_ifs <;> omega
  have hwlt : wrapAt size w < size := by
    unfold wrapAt
    split_ifs <;> omega
  have hsum : (0 : R) + (taps.map fun tap => delayed tap.1 x t * tap.2).sum
      = tapSum taps x t := by
    rw [zero_add]
    unfold tapSum delayed
    congr 1
    refine List.map_congr_left (fun tap _ => ?_)
    rw [mul_comm]
  rw [hsum] at hrun
  have hcall : s.operator_call (x t)
      = some ({ s with
          _writer := ((wrapAt size w : ℕ) : ℤ) + 1
          _readers := readers1
          _buffer := Function.update s._buffer (wrapAt size w) (x t) },
        tapSum taps x t) := by
    have e1 : (if s._writer ≥ s._buffer_end then s._writer - s._buffer_size
        else s._writer).toNat = wrapAt size w := by
      rw [hw1]
      exact Int.toNat_ofNat _
    unfold operator_call
    simp only [hrun]
    rw [e1, hw1, hsize, if_pos ⟨by omega, by omega⟩]
  refine ⟨_, hcall, hS, hsize, hend, hweights, wrapAt size w + 1, by push_cast; rfl,
    by omega, ?_⟩
  refine List.Forall₂.imp ?_ hall1
  rintro reader1 tap ⟨r, hr1, hring⟩
  exact ⟨wrapAt size r + 1, hr1, hring.ring_step.2⟩

/-- `MultiDelay::process` on a tracking state: it returns, writes the weighted sums of the
delayed samples and keeps tracking. -/
theorem Tracks.multi_process {size : ℕ} {taps : List (ℕ × R)} {x : ℕ → R} {t : ℕ}
    {s : MultiDelay R} (hT : Tracks size taps x t s) (output : ℕ → R) (o n : ℕ) :
    ∃ s1 output1, s.process (fun i => x (t + i)) output o n = some (s1, output1)
      ∧ Tracks size taps x (t + n) s1
      ∧ (∀ i, i < n → output1 (o + i) = tapSum taps x (t + i))
      ∧ (∀ j, (j < o ∨ o + n ≤ j) → output1 j = output j) := by
  induction n with
  | zero =>
    exact ⟨s, output, rfl, hT, fun i hi => absurd hi (Nat.not_lt_zero i), fun _ _ => rfl⟩
  | succ n ih =>
    obtain ⟨s1, output1, hrun1, hT1, hout1, hframe1⟩ := ih
    obtain ⟨s2, hcall, hT2⟩ := hT1.multi_operator_call
    refine ⟨s2, Function.update output1 (o + n) (tapSum taps x (t + n)), ?_, hT2, ?_, ?_⟩
    · rw [process]
      simp only [hrun1, hcall]
    · intro i hi
      by_cases hin : i = n
      · subst hin
        rw [Function.update_same]
      · rw [Function.update_noteq (by omega)]
        exact hout1 i (by omega)
    · intro j hj
      rw [Function.update_noteq (by omega)]
      exact hframe1 j (by omega)

/-- Successive calls of `MultiDelay::process` on a tracking state. -/
theorem Tracks.multi_processAll {size : ℕ} {taps : List (ℕ × R)} {x : ℕ → R} (ns : List ℕ) :
    ∀ (t : ℕ) (s : MultiDelay R) (output : ℕ → R), Tracks size taps x t s →
      ∃ s1 output1, processAll x ns t s output = some (s1, output1)
        ∧ Tracks size taps x (t + ns.sum) s1
        ∧ (∀ i, i < ns.sum → output1 (t + i) = tapSum taps x (t + i))
        ∧ (∀ j, (j < t ∨ t + ns.sum ≤ j) → output1 j = output j) := by
  induction ns with
  | nil =>
    intro t s output hT
    exact ⟨s, output, rfl, hT, fun i hi => absurd hi (by simp), fun _ _ => rfl⟩
  | cons n ns ih =>
    intro t s output hT
    obtain ⟨s1, output1, hrun1, hT1, hout1, hframe1⟩ := hT.multi_process output t n
    obtain ⟨s2, output2, hrun2, hT2, hout2, hframe2⟩ := ih (t + n) s1 output1 hT1
    refine ⟨s2, output2, ?_, ?_, ?_, ?_⟩
    · rw [processAll]
      simp only [hrun1]
      exact hrun2
    · rw [List.sum_cons, ← Nat.add_assoc]
      exact hT2
    · intro i hi
      rw [List.sum_cons] at hi
      by_cases hin : i < n
      · rw [hframe2 _ (Or.inl (by omega))]
        exact hout1 i hin
      · have := hout2 (i - n) (by omega)
        have e : t + n + (i - n) = t + i := by omega
        rw [e] at this
        exact this
    · intro j hj
      rw [List.sum_cons] at hj
      rw [hframe2 j (by omega), hframe1 j (by omega)]

end MultiDelay

namespace MultiDelay

variable {R : Type} [Field R]

/-- `add_delay` with a new delay between 1 and the buffer size, on a state whose writer is
at the start of the buffer. -/
theorem add_delay_fields (size : ℕ) (s : MultiDelay R) (hsize : s._buffer_size = (size : ℤ))
    (hw : s._writer = 0) (d : ℕ) (weight : R) (h0 : 0 < d) (hd : d < size)
    (hnew : (d : ℤ) ∉ s._n_samples_delay) :
    (s.add_delay (d : ℤ) weight)._readers = s._readers ++ [((size - d : ℕ) : ℤ)]
      ∧ (s.add_delay (d : ℤ) weight)._n_samples_delay = s._n_samples_delay ++ [(d : ℤ)]
      ∧ (s.add_delay (d : ℤ) weight)._weights = s._weights ++ [weight]
      ∧ (s.add_delay (d : ℤ) weight)._buffer = s._buffer
      ∧ (s.add_delay (d : ℤ) weight)._writer = 0
      ∧ (s.add_delay (d : ℤ) weight)._buffer_size = (size : ℤ)
      ∧ (s.add_delay (d : ℤ) weight)._buffer_end = s._buffer_end := by
  unfold add_delay
  rw [if_neg hnew, if_pos ⟨by rw [hsize]; omega, by omega⟩]
  refine ⟨?_, rfl, rfl, rfl, hw, hsize, rfl⟩
  show s._readers ++ [if s._writer - (d : ℤ) < 0 then s._writer - (d : ℤ) + s._buffer_size
    else s._writer - (d : ℤ)] = _
  rw [hw, hsize, if_pos (by omega)]
  congr 2
  omega

/-- The taps added in turn to a state whose writer is at the start of the buffer. -/
theorem add_delays_fields (size : ℕ) (taps : List (ℕ × R)) :
    ∀ (s : MultiDelay R), s._buffer_size = (size : ℤ) → s._writer = 0 →
      (taps.map Prod.fst).Nodup → (∀ tap ∈ taps, 0 < tap.1 ∧ tap.1 < size) →
      (∀ tap ∈ taps, ((tap.1 : ℕ) : ℤ) ∉ s._n_samples_delay) →
      (s.add_delays taps)._readers
          = s._readers ++ taps.map (fun tap => ((size - tap.1 : ℕ) : ℤ))
        ∧ (s.add_delays taps)._weights = s._weights ++ taps.map Prod.snd
        ∧ (s.add_delays taps)._buffer = s._buffer
        ∧ (s.add_delays taps)._writer = 0
        ∧ (s.add_delays taps)._buffer_size = (size : ℤ)
        ∧ (s.add_delays taps)._buffer_end = s._buffer_end := by
  induction taps with
  | nil =>
    intro s hsize hw _ _ _
    exact ⟨by simp [add_delays], by simp [add_delays], rfl, hw, hsize, rfl⟩
  | cons tap taps ih =>
    intro s hsize hw hnodup hrange hnew
    have hf := add_delay_fields size s hsize hw tap.1 tap.2 (hrange tap (List.mem_cons_self _ _)).1
      (hrange tap (List.mem_cons_self _ _)).2 (hnew tap (List.mem_cons_self _ _))
    rw [List.map_cons, List.nodup_cons] at hnodup
    obtain ⟨h1, h2, h3, h4, h5, h6⟩ := ih (s.add_delay (tap.1 : ℤ) tap.2) hf.2.2.2.2.2.1
      hf.2.2.2.2.1 hnodup.2
      (fun tap' h' => hrange tap' (List.mem_cons_of_mem _ h'))
      (fun tap' h' => by
        rw [hf.2.1, List.mem_append, List.mem_singleton]
        rintro (hc | hc)
        · exact hnew tap' (List.mem_cons_of_mem _ h') hc
        · have : tap'.1 = tap.1 := by exact_mod_cast hc
          exact hnodup.1 (this ▸ List.mem_map_of_mem Prod.fst h'))
    have hstep : s.add_delays (tap :: taps) = (s.add_delay (tap.1 : ℤ) tap.2).add_delays taps :=
      rfl
    rw [hstep]
    refine ⟨?_, ?_, h3.trans hf.2.2.2.1, h4, h5, h6.trans hf.2.2.2.2.2.2⟩
    · rw [h1, hf.1, List.map_cons, List.append_assoc]
      rfl
    · rw [h2, hf.2.2.1, List.map_cons, List.append_assoc]
      rfl

/-- A reset state without taps, after the taps were added, tracks the stream from its
start. -/
theorem add_delays_tracks (size : ℕ) (s : MultiDelay R) (hs : s.Tapless size)
    (hsize : 1 ≤ size) (taps : List (ℕ × R)) (hnodup : (taps.map Prod.fst).Nodup)
    (hrange : ∀ tap ∈ taps, 0 < tap.1 ∧ tap.1 < size) (x : ℕ → R) :
    Tracks size taps x 0 (s.reset.add_delays taps) := by
  obtain ⟨hr, hd, hw, hn, hbs, hbe⟩ := hs
  have hreaders : s.reset._readers = [] := by
    show (List.range s._n_delays).foldl _ s._readers = []
    rw [hn, hr]
    rfl
  obtain ⟨h1, h2, h3, h4, h5, h6⟩ := add_delays_fields size taps s.reset hbs rfl hnodup hrange
    (fun tap _ => by
      show ((tap.1 : ℕ) : ℤ) ∉ s._n_samples_delay
      rw [hd]
      exact List.not_mem_nil _)
  refine ⟨hsize, h5, h6.trans hbe, ?_, 0, h4, Nat.zero_le _, ?_⟩
  · rw [h2]
    show s._weights ++ _ = _
    rw [hw, List.nil_append]
  · rw [h1, hreaders, List.nil_append, List.forall₂_map_left_iff, List.forall₂_same]
    intro tap htap
    refine ⟨size - tap.1, rfl, ?_⟩
    rw [h3]
    refine ringTracks_start size tap.1 x _ (hrange tap htap).1 (hrange tap htap).2 ?_
    intro p hp
    show (if (p : ℤ) < s._buffer_size then (0 : R) else s._buffer p) = 0
    rw [hbs, if_pos (by omega)]

end MultiDelay

section MultiDelayClaims

/-- C28: on a `MultiDelay` that was reset (or constructed) without taps and then given the
taps `(d_i, w_i)` with pairwise distinct `0 < d_i < max_delay`, for every split of the input
into blocks every `process` call returns, every output sample is
`sum_i w_i * input[n - d_i]` with `input[m] = 0` for `m < 0`, and so is the sample that
`operator()` returns next. With no tap at all, the buffer must hold at least one sample. -/
theorem MultiDelay.taps_weighted_sum {R : Type} [Field R] (max_delay : ℕ)
    (s : MultiDelay R) (hs : s.Tapless max_delay) (taps : List (ℕ × R))
    (hmax : taps = [] → 1 ≤ max_delay) (hdistinct : (taps.map Prod.fst).Nodup)
    (hrange : ∀ tap ∈ taps, 0 < tap.1 ∧ tap.1 < max_delay) (x output : ℕ → R)
    (ns : List ℕ) :
    ∃ s1 output1,
      MultiDelay.processAll x ns 0 (s.reset.add_delays taps) output = some (s1, output1)
        ∧ (∀ n, n < ns.sum → output1 n
          = (taps.map fun tap => tap.2 * (if n < tap.1 then 0 else x (n - tap.1))).sum)
        ∧ ∃ s2, s1.operator_call (x ns.sum)
          = some (s2, (taps.map fun tap =>
              tap.2 * (if ns.sum < tap.1 then 0 else x (ns.sum - tap.1))).sum) := by
  have hmax1 : 1 ≤ max_delay := by
    cases taps with
    | nil => exact hmax rfl
    | cons tap taps =>
      have := hrange tap (List.mem_cons_self _ _)
      omega
  obtain ⟨s1, output1, hrun, hT1, hout, _⟩ :=
    MultiDelay.Tracks.multi_processAll ns 0 (s.reset.add_delays taps) output
      (MultiDelay.add_delays_tracks max_delay s hs hmax1 taps hdistinct hrange x)
  rw [Nat.zero_add] at hT1
  obtain ⟨s2, hcall, _⟩ := hT1.multi_operator_call
  refine ⟨s1, output1, hrun, fun n hn => ?_, s2, hcall⟩
  have := hout n hn
  rw [Nat.zero_add] at this
  exact this

/-- Witness of C28: a constructed `MultiDelay` with a buffer of four samples and the taps
`exTaps`, fed in blocks of one and two samples. -/
theorem MultiDelay.taps_weighted_sum_witness :
    (exTaps = [] → 1 ≤ 4) ∧ (exTaps.map Prod.fst).Nodup
      ∧ (∀ tap ∈ exTaps, 0 < tap.1 ∧ tap.1 < 4)
      ∧ ∃ s1 output1,
        MultiDelay.processAll exStream [1, 2] 0
            ((MultiDelay.new exFreshMulti 4).add_delays exTaps) exZero = some (s1, output1)
          ∧ (∀ n, n < [1, 2].sum → output1 n
            = (exTaps.map fun tap =>
                tap.2 * (if n < tap.1 then 0 else exStream (n - tap.1))).sum)
          ∧ ∃ s2, s1.operator_call (exStream [1, 2].sum)
            = some (s2, (exTaps.map fun tap =>
                tap.2 * (if [1, 2].sum < tap.1 then 0
                  else exStream ([1, 2].sum - tap.1))).sum) :=
  ⟨fun _ => by decide, by decide, by simp [exTaps],
    MultiDelay.taps_weighted_sum 4
      { _buffer := exFreshMulti.buffer
        _buffer_end := 4
        _writer := 0
        _readers := []
        _n_samples_delay := []
        _weights := []
        _n_delays := 0
        _n_remaining := exFreshMulti.n_remaining
        _n_ready_read := exFreshMulti.n_ready_read
        _n_ready_write := 0
        _buffer_size := 4 }
      ⟨rfl, rfl, rfl, rfl, rfl, rfl⟩ exTaps (fun _ => by decide) (by decide)
      (by simp [exTaps]) exStream exZero [1, 2]⟩

end MultiDelayClaims

/-! ## The handoff between the threads -/

namespace Handoff

theorem init_safe (pointer_backup : Block) : (init pointer_backup).Safe := by
  refine ⟨?_, ?_, ?_, ?_, ?_⟩ <;> simp [init]

/-- A step of the audio thread keeps the state safe. -/
theorem stepAudio_safe (s : Handoff) (h : s.Safe) : (stepAudio s).Safe := by
  rcases s with ⟨A, O, B, flag, c, a⟩
  obtain ⟨h1, h2, h3, h4, h5⟩ := h
  cases a
  case idle => exact ⟨by simp [stepAudio], by simpa [stepAudio] using h2, by simp [stepAudio], h4,
    by simp [stepAudio]⟩
  case conv1 => exact ⟨by simp [stepAudio], by simpa [stepAudio] using h2, by simp [stepAudio], h4,
    by simp [stepAudio]⟩
  case check =>
    cases flag
    · exact ⟨by simp [stepAudio], by simpa [stepAudio] using h2, by simp [stepAudio], h4,
        by simp [stepAudio]⟩
    · exact ⟨by simp [stepAudio], by simpa [stepAudio] using h2, by simp [stepAudio], h4,
        by simp [stepAudio]⟩
  case swap1 => exact ⟨by simp [stepAudio], by simpa [stepAudio] using h2, by simp [stepAudio], h4,
    fun _ => h5 (Or.inl rfl)⟩
  case swap2 =>
    have e := h3 rfl
    have ne := h2 (by simp)
    have hf := h5 (Or.inr (Or.inl rfl))
    refine ⟨fun _ => ⟨rfl, ?_⟩, by simp [stepAudio], by simp [stepAudio], ?_, fun _ => hf⟩
    · show B ≠ O
      rw [show B = A from e]
      exact ne
    · intro dst done hc
      have := (h4 dst done hc).1
      rw [show flag = true from hf] at this
      exact absurd this (by simp)
  case swap3 =>
    have e := h1 rfl
    have hf := h5 (Or.inr (Or.inr (Or.inl rfl)))
    refine ⟨by simp [stepAudio], fun _ => ?_, by simp [stepAudio], ?_, fun _ => hf⟩
    · show A ≠ B
      exact fun hc => e.2 hc.symm
    · intro dst done hc
      have := (h4 dst done hc).1
      rw [show flag = true from hf] at this
      exact absurd this (by simp)
  case conv2 => exact ⟨by simp [stepAudio], by simpa [stepAudio] using h2, by simp [stepAudio], h4,
    fun _ => h5 (Or.inr (Or.inr (Or.inr (Or.inl rfl))))⟩
  case fade =>
    have hf := h5 (Or.inr (Or.inr (Or.inr (Or.inr rfl))))
    refine ⟨by simp [stepAudio], by simpa [stepAudio] using h2, by simp [stepAudio], ?_,
      by simp [stepAudio]⟩
    intro dst done hc
    have := (h4 dst done hc).1
    rw [show flag = true from hf] at this
    exact absurd this (by simp)
  case finish => exact ⟨by simp [stepAudio], by simpa [stepAudio] using h2, by simp [stepAudio], h4,
    by simp [stepAudio]⟩

/-- A step of a patient control thread keeps the state safe. -/
theorem stepControl_safe (n : ℕ) (s : Handoff) (h : s.Safe)
    (hp : ¬ (s.control = ControlPc.idle ∧ s._has_changed = true)) :
    (stepControl n s).Safe := by
  rcases s with ⟨A, O, B, flag, c, a⟩
  obtain ⟨h1, h2, h3, h4, h5⟩ := h
  cases c with
  | idle =>
    have hflag : flag = false := by
      cases flag
      · rfl
      · exact absurd ⟨rfl, rfl⟩ hp
    refine ⟨h1, h2, h3, ?_, h5⟩
    intro dst done hc
    have hc' : ControlPc.copying O 0 = ControlPc.copying dst done := hc
    injection hc' with e1 _
    exact ⟨hflag, e1.symm⟩
  | copying dst done =>
    have h := h4 dst done rfl
    by_cases hd : done < n
    · refine ⟨?_, ?_, ?_, ?_, ?_⟩
      · simpa [stepControl, hd] using h1
      · simpa [stepControl, hd] using h2
      · simpa [stepControl, hd] using h3
      · intro dst1 done1 hc
        have hc' : ControlPc.copying dst (done + 1) = ControlPc.copying dst1 done1 := by
          simpa [stepControl, hd] using hc
        injection hc' with e1 _
        subst e1
        simpa [stepControl, hd] using h
      · simpa [stepControl, hd] using h5
    · refine ⟨?_, ?_, ?_, ?_, ?_⟩
      · simpa [stepControl, hd] using h1
      · simpa [stepControl, hd] using h2
      · simpa [stepControl, hd] using h3
      · intro dst1 done1 hc
        simp [stepControl, hd] at hc
      · simp [stepControl, hd]

/-- Every state of an interleaving with a patient control thread is safe. -/
theorem runPatient_safe (n : ℕ) (sched : List Thread) :
    ∀ s : Handoff, s.Safe → (runPatient n sched s).Safe := by
  induction sched with
  | nil => exact fun s h => h
  | cons th sched ih =>
    intro s h
    refine ih _ ?_
    cases th with
    | control =>
      show (if s.control = ControlPc.idle ∧ s._has_changed = true then s
        else stepControl n s).Safe
      split_ifs with hp
      · exact h
      · exact stepControl_safe n s h hp
    | audio => exact stepAudio_safe s h

/-- In a safe state the control thread is not copying into the block the audio thread is
reading. -/
theorem Safe.not_racing {s : Handoff} (h : s.Safe) : s.racing = false := by
  rcases s with ⟨A, O, B, flag, c, a⟩
  obtain ⟨_, h2, _, h4, h5⟩ := h
  cases c with
  | idle => rfl
  | copying dst done =>
    have h := h4 dst done rfl
    have hflag : flag = false := h.1
    have hdst : dst = O := h.2
    subst hflag hdst
    cases a
    case conv1 =>
      have ne : A ≠ dst := h2 (by simp)
      simp [racing, reading, Ne.symm ne]
    case conv2 =>
      have := h5 (Or.inr (Or.inr (Or.inr (Or.inl rfl))))
      simp at this
    all_goals simp [racing, reading]

end Handoff

section HandoffClaims

/-- C21 fails: with partition sets of two bins, after one complete
`set_partitions` call the control thread starts a second one and copies its first bin; the
audio thread then runs `process` up to its second `_fast_conv()`, which reads the block of
which one of two bins has been overwritten. -/
theorem Handoff.second_call_torn :
    Handoff.torn 2
      (Handoff.run 2
        [Thread.control, Thread.control, Thread.control, Thread.control,
          Thread.control, Thread.control,
          Thread.audio, Thread.audio, Thread.audio, Thread.audio, Thread.audio, Thread.audio]
        (Handoff.init Block.first)) = true := by
  decide

/-- In every interleaving of a control thread calling `set_partitions` and
an audio thread calling `process` in which no `set_partitions` call starts while the flag
is set, the control thread never copies into the block the audio thread is reading, so the
audio thread never reads a partly written partition set; and the flag is only ever set by
the control thread after it has copied all `n` bins. -/
theorem Handoff.patient_never_racing (n : ℕ) (pointer_backup : Block)
    (sched : List Thread) (s : Handoff) :
    Handoff.racing (Handoff.runPatient n sched (Handoff.init pointer_backup)) = false
      ∧ Handoff.torn n (Handoff.runPatient n sched (Handoff.init pointer_backup)) = false
      ∧ ((Handoff.stepControl n s)._has_changed = true →
        s._has_changed = true ∨ ∃ dst done, s.control = ControlPc.copying dst done ∧ n ≤ done) := by
  have hsafe := Handoff.runPatient_safe n sched _ (Handoff.init_safe pointer_backup)
  have hr := hsafe.not_racing
  refine ⟨hr, ?_, ?_⟩
  · revert hr
    unfold Handoff.racing Handoff.torn
    cases (Handoff.runPatient n sched (Handoff.init pointer_backup)).control with
    | idle => exact fun _ => rfl
    | copying dst done =>
      intro hr
      have hr' : ((Handoff.runPatient n sched (Handoff.init pointer_backup)).reading
          && decide (dst
            = (Handoff.runPatient n sched (Handoff.init pointer_backup))._freq_resp_parts))
          = false := hr
      show ((Handoff.runPatient n sched (Handoff.init pointer_backup)).reading
          && decide (dst
            = (Handoff.runPatient n sched (Handoff.init pointer_backup))._freq_resp_parts)
          && decide (0 < done) && decide (done < n)) = false
      rw [hr', Bool.false_and, Bool.false_and]
  · rcases s with ⟨A, O, B, flag, c, a⟩
    cases c with
    | idle =>
      intro h
      exact Or.inl h
    | copying dst done =>
      intro h
      by_cases hd : done < n
      · left
        simpa [Handoff.stepControl, hd] using h
      · exact Or.inr ⟨dst, done, rfl, by omega⟩

end HandoffClaims

section HistoryClaims

theorem exNew_one_lt_ceil : 1 < ⌈((2 : ℕ) : ℚ) / ((1 : ℕ) : ℚ)⌉₊ := by
  rw [Nat.lt_ceil]
  norm_num

theorem exNew_one_lt_n_parts :
    1 < (Convolver.new kernel2 exFresh (fun _ => 1) 2 1).get_n_parts := by
  show 1 < Convolver.partCount 2 1
  rw [Convolver.partCount_two_one]
  decide

/-- For every impulse response `h` of length `N <= 2^24`, every block size
`1 <= B <= 2^24` and every `k < P = ceil(N / B)`, partition `k` of the constructed engine is
the unnormalised forward transform (the exact DFT of size `2 B`) of the block of `2 B`
samples whose first `B` samples are `h[k B .. k B + B)`, with `h[j] = 0` for `j >= N`, and
whose last `B` samples are zero; its bins are stored at `[k (B + 1), (k + 1) (B + 1))`. -/
theorem Convolver.partition_is_block_transform {R : Type} [Field R] (w : Cpx R)
    (mem : Fresh R) (h : ℕ → R) (N B k : ℕ) (hN24 : N ≤ 2 ^ 24) (hB : 1 ≤ B)
    (hB24 : B ≤ 2 ^ 24)
    (hk : k < ⌈(N : ℚ) / (B : ℚ)⌉₊) (bin : ℕ) (hbin : bin < B + 1) :
    (Convolver.new w mem h N B).get_n_parts = ⌈(N : ℚ) / (B : ℚ)⌉₊
      ∧ (Convolver.new w mem h N B)._freq_resp_parts (k * (B + 1) + bin)
        = dft w (B * 2)
            (fun j => if j < B then (if k * B + j < N then h (k * B + j) else 0) else 0) bin := by
  have hP := Convolver.partCount_eq_ceil N B hN24 hB hB24
  refine ⟨hP, ?_⟩
  exact Convolver.new_freq_resp_parts w mem h N B
    (Convolver.partCount_spec N B hN24 hB hB24).2 k (by rw [hP]; exact hk) bin hbin

/-- C32 fails for 16777217 samples and block size 4096: `k = 4096` is below
`P = ceil(N / B) = 4097`, but the constructor counts 4096 partitions; the partition buffer
ends at bin `4096 * 4097`, where partition 4096 would start, and the constructor writes
none of the bins from there on (they are as the allocator left them), while the partitions
below 4096 are the transforms of their blocks. -/
theorem Convolver.last_partition_missing {R : Type} [Field R] (w : Cpx R) (mem : Fresh R)
    (h : ℕ → R) :
    4096 < ⌈((16777217 : ℕ) : ℚ) / ((4096 : ℕ) : ℚ)⌉₊
      ∧ (Convolver.new w mem h 16777217 4096)._spectra_size = (4096 + 1) * 4096
      ∧ (∀ bin, (Convolver.new w mem h 16777217 4096)._freq_resp_parts (4096 * (4096 + 1) + bin)
          = mem.freq_resp_parts (4096 * (4096 + 1) + bin))
      ∧ ∀ k, k < 4096 → ∀ bin, bin < 4096 + 1 →
        (Convolver.new w mem h 16777217 4096)._freq_resp_parts (k * (4096 + 1) + bin)
          = dft w (4096 * 2)
              (fun j => if j < 4096 then
                (if k * 4096 + j < 16777217 then h (k * 4096 + j) else 0) else 0) bin := by
  have hP : Convolver.partCount 16777217 4096 = 4096 := Convolver.partCount_big.1
  refine ⟨?_, ?_, ?_, ?_⟩
  · rw [Convolver.partCount_big.2]
    norm_num
  · rw [(Convolver.new_dimsOk w mem h 16777217 4096).spectra_size,
      Convolver.new_spectrum_size, Convolver.new_n_parts, hP]
  · intro bin
    exact Convolver.new_freq_resp_parts_rest w mem h 16777217 4096 _ (by rw [hP]; omega)
  · intro k hk bin hbin
    exact Convolver.new_freq_resp_parts w mem h 16777217 4096 (by rw [hP]; norm_num) k
      (by rw [hP]; exact hk) bin hbin

/-- Example: impulse response `[1, 1]`, block size 1, second partition. -/
theorem Convolver.partition_is_block_transform_witness :
    1 < ⌈((2 : ℕ) : ℚ) / ((1 : ℕ) : ℚ)⌉₊ ∧ 0 < 1 + 1
      ∧ (Convolver.new kernel2 exFresh (fun _ => 1) 2 1).get_n_parts
          = ⌈((2 : ℕ) : ℚ) / ((1 : ℕ) : ℚ)⌉₊
      ∧ (Convolver.new kernel2 exFresh (fun _ => 1) 2 1)._freq_resp_parts (1 * (1 + 1) + 0)
        = dft kernel2 (1 * 2)
            (fun j => if j < 1 then (if 1 * 1 + j < 2 then (1 : ℚ) else 0) else 0) 0 :=
  ⟨exNew_one_lt_ceil, by decide,
    Convolver.partition_is_block_transform kernel2 exFresh (fun _ => 1) 2 1 1 (by norm_num)
      (by norm_num) (by norm_num) exNew_one_lt_ceil 0 (by decide)⟩

/-- C34: for every engine with at least one partition and every `process` call, at the
accumulate step the spectrum
at index 0 of the history is the normalised transform of the current window; at the
accumulate step of the next call the spectrum at every index `k` with `1 <= k < P` is the
one index `k - 1` held at the accumulate step of this call; and after the call the `P`
slots hold the spectra that indices `0, 0, 1, .., P - 2` held at the accumulate step, so
the one at index `P - 1` is gone. -/
theorem Convolver.history_shifts_by_one {R : Type} [Field R] (c : Convolver R)
    (hd : c.DimsOk) (hP : 0 < c._n_parts) (x x' o : ℕ → R) :
    (∀ bin, bin < c._block_size + 1 →
        (c.load x)._fast_conv._input_spectra bin
          = Cpx.ofReal c._fft._norm_fact
              * dft c._fft.w (c._block_size * 2) (c.load x)._input bin)
      ∧ (∀ k, 1 ≤ k → k < c._n_parts → ∀ bin, bin < c._block_size + 1 →
        ((c.process x o).1.load x')._fast_conv._input_spectra (k * (c._block_size + 1) + bin)
          = (c.load x)._fast_conv._input_spectra ((k - 1) * (c._block_size + 1) + bin))
      ∧ (∀ k, k < c._n_parts → ∀ bin, bin < c._block_size + 1 →
        (c.process x o).1._input_spectra (k * (c._block_size + 1) + bin)
          = (c.load x)._fast_conv._input_spectra ((k - 1) * (c._block_size + 1) + bin)) := by
  have hshift : ∀ k, k < c._n_parts → ∀ bin, bin < c._block_size + 1 →
      (c.process x o).1._input_spectra (k * (c._block_size + 1) + bin)
        = (c.load x)._fast_conv._input_spectra ((k - 1) * (c._block_size + 1) + bin) := by
    intro k hk bin hbin
    rw [Convolver.process_input_spectra,
      Convolver.shiftLength_eq c (Convolver.spectrum_le_spectra c hd.spectra_size hP),
      hd.spectra_size, hd.spectrum_size]
    rcases Nat.eq_zero_or_pos k with h0 | h0
    · subst h0
      rw [if_neg (by omega)]
    · obtain ⟨m, rfl⟩ : ∃ m, k = m + 1 := ⟨k - 1, by omega⟩
      have e1 : (m + 1) * (c._block_size + 1) = m * (c._block_size + 1) + (c._block_size + 1) := by
        ring
      have e4 : (m + 1 + 1) * (c._block_size + 1)
          = m * (c._block_size + 1) + (c._block_size + 1) + (c._block_size + 1) := by
        ring
      have e2 : (m + 1 + 1) * (c._block_size + 1) ≤ c._n_parts * (c._block_size + 1) :=
        Nat.mul_le_mul_right _ hk
      have e3 : (c._block_size + 1) * c._n_parts = c._n_parts * (c._block_size + 1) :=
        Nat.mul_comm _ _
      rw [if_pos ⟨by omega, by omega⟩]
      congr 1
      rw [Nat.add_sub_cancel]
      omega
  refine ⟨fun bin hbin => ?_, fun k hk1 hk bin hbin => ?_, hshift⟩
  · have := Convolver.load_fast_conv_input_spectra c hd x 0 bin hbin
    simpa using this
  · have h1 := Convolver.load_fast_conv_input_spectra (c.process x o).1
      (Convolver.process_dimsOk c hd x o) x' k bin (by simpa using hbin)
    rw [Convolver.process_spectrum_size, hd.spectrum_size, if_neg (by omega)] at h1
    rw [h1]
    exact hshift k hk bin hbin

/-- Witness of C34: the two-partition engine `exNew`. -/
theorem Convolver.history_shifts_by_one_witness :
    exNew.DimsOk ∧ 0 < exNew._n_parts
      ∧ (∀ bin, bin < exNew._block_size + 1 →
        (exNew.load exOne)._fast_conv._input_spectra bin
          = Cpx.ofReal exNew._fft._norm_fact
              * dft exNew._fft.w (exNew._block_size * 2) (exNew.load exOne)._input bin)
      ∧ (∀ k, 1 ≤ k → k < exNew._n_parts → ∀ bin, bin < exNew._block_size + 1 →
        ((exNew.process exOne exZero).1.load exStream)._fast_conv._input_spectra
            (k * (exNew._block_size + 1) + bin)
          = (exNew.load exOne)._fast_conv._input_spectra
              ((k - 1) * (exNew._block_size + 1) + bin))
      ∧ (∀ k, k < exNew._n_parts → ∀ bin, bin < exNew._block_size + 1 →
        (exNew.process exOne exZero).1._input_spectra (k * (exNew._block_size + 1) + bin)
          = (exNew.load exOne)._fast_conv._input_spectra
              ((k - 1) * (exNew._block_size + 1) + bin)) :=
  ⟨Convolver.new_dimsOk _ _ _ _ _, exNew_n_parts_pos,
    Convolver.history_shifts_by_one exNew (Convolver.new_dimsOk _ _ _ _ _) exNew_n_parts_pos
      exOne exStream exZero⟩

end HistoryClaims

section HistoryNotCleared

/-- First output sample of a two-partition engine (impulse response `[1, 1]`, block size 1)
on the block `[1]`, when the allocator left `2`, `3` in the bins of the second spectrum of
the history and the engine was not reset. -/
theorem exRamp_first_out (o : ℕ → ℚ) :
    ((Convolver.new kernel2 exFreshRamp (fun _ => 1) 2 1).process exOne o).2 0 = 0 := by
  obtain ⟨c, hc⟩ : ∃ c, c = Convolver.new kernel2 exFreshRamp (fun _ => (1 : ℚ)) 2 1 :=
    ⟨_, rfl⟩
  rw [← hc]
  have hd : c.DimsOk := hc ▸ Convolver.new_dimsOk _ _ _ _ _
  have hB : c._block_size = 1 := by rw [hc]; rfl
  have hS : c._spectrum_size = 2 := by rw [hc]; rfl
  have hP : c._n_parts = 2 := by rw [hc]; exact Convolver.partCount_two_one
  have hw : c._fft.w = kernel2 := by rw [hc]; exact Convolver.new_fft_w _ _ _ _ _
  have hnf : c._fft._norm_fact = 1 / 2 := by
    rw [hc, Convolver.new_fft_norm_fact]
    norm_num
  have hfr : ∀ p, p < 2 → ∀ bin, bin < 2 → c._freq_resp_parts (p * 2 + bin) = 1 := by
    intro p hp bin hbin
    have := Convolver.new_freq_resp_parts kernel2 exFreshRamp (fun _ => (1 : ℚ)) 2 1
      (by rw [Convolver.partCount_two_one]; norm_num) p
      (by rw [Convolver.partCount_two_one]; exact hp) bin hbin
    rw [hc, this]
    have hp2 : p * 1 + 0 < 2 := by omega
    simp [dft, Convolver.zeroPaddedBlock, Finset.sum_range_succ, hp, Cpx.ofReal]
    rfl
  have his : ∀ i, c._input_spectra i = ⟨(i : ℚ), 0⟩ := by
    intro i
    rw [hc]
    rfl
  have hin0 : (c.load exOne)._input 0 = 0 := by
    show memcpy c._input c._block_size exOne 0 c._block_size 0 = _
    rw [hB, memcpy_apply, if_neg (by omega), hc]
    exact Convolver.new_input _ _ _ _ _ 0 (by decide)
  have hin1 : (c.load exOne)._input 1 = 1 := by
    show memcpy c._input c._block_size exOne 0 c._block_size 1 = _
    rw [hB, memcpy_apply, if_pos ⟨by omega, by omega⟩]
    rfl
  have hisp : ∀ p bin, bin < 2 →
      (c.load exOne)._fast_conv._input_spectra (p * 2 + bin)
        = if p = 0 then
            Cpx.ofReal (1 / 2) * dft kernel2 (1 * 2) (c.load exOne)._input bin
          else ⟨((p * 2 + bin : ℕ) : ℚ), 0⟩ := by
    intro p bin hbin
    have := Convolver.load_fast_conv_input_spectra c hd exOne p bin (by rw [hB]; exact hbin)
    rw [hS, hnf, hw, hB] at this
    rw [this]
    split_ifs
    · rfl
    · exact his _
  have hos : ∀ bin, bin < 2 →
      (c.load exOne)._fast_conv._output_spectr bin
        = Cpx.ofReal (1 / 2) * dft kernel2 (1 * 2) (c.load exOne)._input bin
          + ⟨((1 * 2 + bin : ℕ) : ℚ), 0⟩ := by
    intro bin hbin
    rw [Convolver.fast_conv_output_spectr _ _ (by show bin < c._spectrum_size; rw [hS]; exact hbin)]
    show ∑ p ∈ Finset.range c._n_parts,
      (c.load exOne)._fast_conv._input_spectra (p * c._spectrum_size + bin)
        * c._freq_resp_parts (p * c._spectrum_size + bin) = _
    rw [hP, hS, Finset.sum_range_succ, Finset.sum_range_one, hisp 0 bin hbin, hisp 1 bin hbin,
      hfr 0 (by decide) bin hbin, hfr 1 (by decide) bin hbin, if_pos rfl, if_neg (by decide),
      mul_one, mul_one]
  rw [Convolver.process_out, if_pos (by rw [hB]; decide),
    Convolver.fast_conv_result _ (Convolver.load_dimsOk _ hd _) _ (by
      show c._block_size + 0 < c._block_size * 2
      rw [hB]
      decide)]
  show ∑ k ∈ Finset.range (c._block_size * 2),
    (hermitian (c._block_size * 2) (c.load exOne)._fast_conv._output_spectr k
      * Cpx.conj c._fft.w ^ ((c._block_size + 0) * k)).re = 0
  rw [hB, hw, Finset.sum_range_succ, Finset.sum_range_one]
  unfold hermitian
  rw [if_pos (by decide), if_pos (by decide), hos 0 (by decide), hos 1 (by decide)]
  unfold dft
  rw [Finset.sum_range_succ, Finset.sum_range_one, Finset.sum_range_succ, Finset.sum_range_one,
    hin0, hin1]
  simp [kernel2, Cpx.ofReal, Cpx.conj]
  norm_num

/-- C33, where the code departs from it: the constructor clears the `2 B` samples of the
time window but leaves the spectrum history as the allocator handed it out, so the history
is not zero after construction; with a history block holding `2, 3` in the bins of its
second spectrum, the first `process` call of a two-partition engine (impulse response
`[1, 1]`, block size 1) on the block `[1]` returns `0`, while the engine that was reset
first returns `1`. -/
theorem Convolver.new_history_not_cleared :
    (∀ (w : Cpx ℚ) (mem : Fresh ℚ) (h : ℕ → ℚ) (N B i : ℕ),
        (Convolver.new w mem h N B)._input_spectra i = mem.input_spectra i)
      ∧ (∀ (w : Cpx ℚ) (mem : Fresh ℚ) (h : ℕ → ℚ) (N B j : ℕ), j < B * 2 →
        (Convolver.new w mem h N B)._input j = 0)
      ∧ (Convolver.new kernel2 exFreshRamp (fun _ => 1) 2 1)._input_spectra 3 ≠ 0
      ∧ ((Convolver.new kernel2 exFreshRamp (fun _ => 1) 2 1).process exOne exZero).2 0 = 0
      ∧ ((Convolver.new kernel2 exFreshRamp (fun _ => 1) 2 1).reset_input_buffer.process
          exOne exZero).2 0 = 1 := by
  refine ⟨fun w mem h N B i => rfl, fun w mem h N B j hj => Convolver.new_input w mem h N B j hj,
    ?_, exRamp_first_out exZero, ?_⟩
  · show (⟨((3 : ℕ) : ℚ), 0⟩ : Cpx ℚ) ≠ 0
    intro h
    have := congrArg Cpx.re h
    norm_num at this
  · have inv0 := streamInv_new_reset kernel2 exFreshRamp (fun _ => 1) (fun _ => (1 : ℚ)) 2 1
      (by rw [Convolver.partCount_two_one]; norm_num)
    rw [Convolver.partCount_two_one] at inv0
    have e1 := inv0.out_eq isDFTKernel_kernel2 (by norm_num) exZero 0 (by norm_num)
    have hb0 : exOne = blockOf 1 (fun _ => (1 : ℚ)) 0 := by
      funext i
      simp [blockOf, exOne]
    rw [hb0, e1]
    simp [linearConvolution, Finset.sum_range_succ]

end HistoryNotCleared

section ComplexPhaseClaims

variable {R : Type} [LinearOrderedField R]

/-- The loop of `unwrap_phase` never writes to the spectrum, and after each pass the
difference of the two angles it has computed is zero. -/
theorem unwrap_phaseLoop_spec (atan2f : R → R → R) (floorf : R → R) (M_PI : R) (n : ℕ)
    (init : (ℕ → Cpx R) × UnwrapLocals R) :
    (unwrap_phaseLoop atan2f floorf M_PI n init).1 = init.1
      ∧ (0 < n → (unwrap_phaseLoop atan2f floorf M_PI n init).2.angle_diff = 0
        ∧ (unwrap_phaseLoop atan2f floorf M_PI n init).2.last_angle
          = complex_angle atan2f (init.1 n)
        ∧ (0 ≤ M_PI → (unwrap_phaseLoop atan2f floorf M_PI n init).2.current_angle
          = complex_angle atan2f (init.1 n))) := by
  induction n with
  | zero => exact ⟨rfl, fun h => absurd h (lt_irrefl 0)⟩
  | succ n ih =>
    unfold unwrap_phaseLoop at ih ⊢
    rw [List.range_succ, List.foldl_append]
    simp only [List.foldl_cons, List.foldl_nil]
    refine ⟨ih.1, fun _ => ⟨?_, ?_, fun hpi => ?_⟩⟩
    · simp
    · rw [ih.1]
    · rw [ih.1]
      simp only [sub_self, abs_zero]
      rw [if_neg (not_lt.mpr hpi)]

/-- C36: `unwrap_phase` leaves every bin of the spectrum unchanged and returns nothing: in
each pass of its loop the "last" and the "current" angle are both the angle of the same
bin, so their difference is 0, and no result is written back. -/
theorem unwrap_phase_identity {R : Type} [LinearOrderedField R] (atan2f : R → R → R)
    (floorf : R → R) (M_PI : R) (locals : UnwrapLocals R) (spectrum : ℕ → Cpx R)
    (n_bins : ℕ) :
    unwrap_phase atan2f floorf M_PI locals spectrum n_bins = spectrum
      ∧ ∀ idx, 1 ≤ idx → idx < n_bins →
        (unwrap_phaseLoop atan2f floorf M_PI idx (spectrum, locals)).1 = spectrum
          ∧ (unwrap_phaseLoop atan2f floorf M_PI idx (spectrum, locals)).2.last_angle
            = complex_angle atan2f (spectrum idx)
          ∧ (0 ≤ M_PI → (unwrap_phaseLoop atan2f floorf M_PI idx (spectrum, locals)).2.current_angle
            = complex_angle atan2f (spectrum idx))
          ∧ (unwrap_phaseLoop atan2f floorf M_PI idx (spectrum, locals)).2.angle_diff = 0 := by
  refine ⟨(unwrap_phaseLoop_spec atan2f floorf M_PI (n_bins - 1) (spectrum, locals)).1,
    fun idx h1 _ => ?_⟩
  have h := unwrap_phaseLoop_spec atan2f floorf M_PI idx (spectrum, locals)
  exact ⟨h.1, (h.2 (by omega)).2.1, (h.2 (by omega)).2.2, (h.2 (by omega)).1⟩

end ComplexPhaseClaims

namespace Filter

variable {R : Type} [Field R]

end Filter

section FilterRefinement

end FilterRefinement

section MultiDelayTaps

/-- C38: `MultiDelay::add_delay(d, w)` appends a tap (the tap count grows by one, the new
tap has delay `d` and weight `w`, the existing taps are untouched) exactly when
`0 < d < max_delay` (`_buffer_size` holds `max_delay`) and no existing tap already has
delay `d`; in every other case the state, and with it the tap list, the readers and the
weights, is unchanged. -/
theorem MultiDelay.add_delay_appends_iff {R : Type} [Field R] (s : MultiDelay R) (d : ℤ)
    (w : R) :
    ((0 < d ∧ d < s._buffer_size ∧ d ∉ s._n_samples_delay) →
        (s.add_delay d w)._n_delays = s._n_delays + 1
          ∧ (s.add_delay d w)._n_samples_delay = s._n_samples_delay ++ [d]
          ∧ (s.add_delay d w)._weights = s._weights ++ [w]
          ∧ (s.add_delay d w)._readers
            = s._readers
              ++ [if s._writer - d < 0 then s._writer - d + s._buffer_size
                  else s._writer - d]
          ∧ (s.add_delay d w)._buffer = s._buffer
          ∧ (s.add_delay d w)._writer = s._writer)
      ∧ (¬ (0 < d ∧ d < s._buffer_size ∧ d ∉ s._n_samples_delay) → s.add_delay d w = s)
      ∧ ((s.add_delay d w)._n_samples_delay ≠ s._n_samples_delay ↔
        (0 < d ∧ d < s._buffer_size ∧ d ∉ s._n_samples_delay)) := by
  have hpos : (0 < d ∧ d < s._buffer_size ∧ d ∉ s._n_samples_delay) →
      s.add_delay d w
        = { s with
            _readers := s._readers
              ++ [if s._writer - d < 0 then s._writer - d + s._buffer_size
                  else s._writer - d]
            _n_samples_delay := s._n_samples_delay ++ [d]
            _weights := s._weights ++ [w]
            _n_delays := s._n_delays + 1 } := by
    intro h
    unfold MultiDelay.add_delay
    rw [if_neg h.2.2, if_pos ⟨h.2.1, h.1⟩]
  have hneg : ¬ (0 < d ∧ d < s._buffer_size ∧ d ∉ s._n_samples_delay) →
      s.add_delay d w = s := by
    intro h
    unfold MultiDelay.add_delay
    by_cases hm : d ∈ s._n_samples_delay
    · rw [if_pos hm]
    · rw [if_neg hm, if_neg (fun hc => h ⟨hc.2, hc.1, hm⟩)]
  refine ⟨fun h => ?_, hneg, ⟨fun h => ?_, fun h => ?_⟩⟩
  · rw [hpos h]
    exact ⟨rfl, rfl, rfl, rfl, rfl, rfl⟩
  · by_contra hc
    exact h (by rw [hneg hc])
  · rw [hpos h]
    show s._n_samples_delay ++ [d] ≠ s._n_samples_delay
    intro hc
    have := congrArg List.length hc
    simp at this

end MultiDelayTaps

namespace CrossFader

variable {R : Type} [Field R]

theorem length_resize (l : List R) (n : ℕ) : (resize l n).length = n := by
  unfold resize
  rw [List.length_append, List.length_take, List.length_replicate]
  omega

/-- The loop of `_compute_fade_function` after `n` passes: the phase has advanced `n`
times, the vector keeps its length, and element `idx < n` holds the squared cosine of
`idx` phase increments. -/
theorem fadeFunctionLoop_spec (cosf : R → R) (inc : R) (l : List R) (n : ℕ)
    (hn : n ≤ l.length) :
    (fadeFunctionLoop cosf inc n ((0 : R), l)).1 = (n : R) * inc
      ∧ (fadeFunctionLoop cosf inc n ((0 : R), l)).2.length = l.length
      ∧ ∀ idx, idx < n →
        (fadeFunctionLoop cosf inc n ((0 : R), l)).2.getD idx 0
          = cosf ((idx : R) * inc) * cosf ((idx : R) * inc) := by
  induction n with
  | zero =>
    refine ⟨?_, rfl, fun idx h => absurd h (Nat.not_lt_zero _)⟩
    simp [fadeFunctionLoop]
  | succ n ih =>
    obtain ⟨ih1, ih2, ih3⟩ := ih (by omega)
    unfold fadeFunctionLoop at ih1 ih2 ih3 ⊢
    rw [List.range_succ, List.foldl_append]
    simp only [List.foldl_cons, List.foldl_nil]
    refine ⟨?_, ?_, fun idx hidx => ?_⟩
    · rw [ih1]
      push_cast
      ring
    · rw [List.length_set, List.length_set, ih2]
    · have hlen : n < ((List.range n).foldl
          (fun (st : R × List R) idx =>
            ((st.1 + inc), ((st.2.set idx (cosf st.1)).set idx
              ((st.2.set idx (cosf st.1)).getD idx 0
                * (st.2.set idx (cosf st.1)).getD idx 0))))
          ((0 : R), l)).2.length := by
        rw [ih2]
        omega
      rcases Nat.lt_succ_iff_lt_or_eq.mp hidx with h | h
      · rw [List.getD_eq_getElem?_getD, List.getElem?_set_ne (by omega),
          List.getElem?_set_ne (by omega), ← List.getD_eq_getElem?_getD, ih3 idx h]
      · subst h
        rw [List.getD_eq_getElem?_getD, List.getElem?_set_self (by
          rw [List.length_set]
          exact hlen)]
        simp only [Option.getD_some]
        rw [List.getD_eq_getElem?_getD, List.getElem?_set_self hlen, ih1]
        simp only [Option.getD_some]

/-- The state built by the constructor for a fade length of at least 1. -/
theorem new_spec (cosf : R → R) (M_PI : R) (L : ℕ) (hL : 1 ≤ L) :
    ∃ s, CrossFader.new cosf M_PI L = some s ∧ s._fade_length = L - 1
      ∧ s._sin_fade.length = L
      ∧ ∀ idx, idx < L →
        s._sin_fade.getD idx 0
          = cosf ((idx : R) * (M_PI * (1 / 2) / ((L - 1 : ℕ) : R)))
            * cosf ((idx : R) * (M_PI * (1 / 2) / ((L - 1 : ℕ) : R))) := by
  have hlen : (resize ([] : List R) L).length = L := length_resize _ _
  have h := fadeFunctionLoop_spec cosf (M_PI * (1 / 2) / ((L - 1 : ℕ) : R))
    (resize ([] : List R) L) (L - 1 + 1) (by rw [hlen]; omega)
  refine ⟨{ _fade_length := L - 1
            _sin_fade := (fadeFunctionLoop cosf (M_PI * (1 / 2) / ((L - 1 : ℕ) : R))
              (L - 1 + 1) ((0 : R), resize [] L)).2 }, ?_, rfl, ?_, ?_⟩
  · unfold CrossFader.new _compute_fade_function
    rw [if_neg (by omega)]
    simp only
    rw [if_neg (by rw [hlen]; omega)]
  · show (fadeFunctionLoop cosf _ (L - 1 + 1) ((0 : R), resize [] L)).2.length = L
    rw [h.2.1, hlen]
  · intro idx hidx
    exact h.2.2 idx (by omega)

end CrossFader

section CrossFaderClaims

/-- C39: with the cosine and `pi` of the reals, for every `CrossFader` of fade length
`L >= 2` and every `i < L`, `process` writes
`output[i] = fadeout[i] cos^2(i pi / (2 (L - 1))) + fadein[i] cos^2((L - 1 - i) pi / (2 (L - 1)))`;
the two weights sum to 1, so `process(s, s)` returns `s`; and `output[0] = fadeout[0]`,
`output[L - 1] = fadein[L - 1]`. -/
theorem CrossFader.weights_sum_to_one (L : ℕ) (hL : 2 ≤ L) (fadeout fadein sig output : ℕ → ℝ)
    (i : ℕ) (hi : i < L) :
    ∃ cf out out2, CrossFader.new Real.cos Real.pi L = some cf
      ∧ cf.get_fade_length = L
      ∧ cf.process fadeout fadein output = some out
      ∧ out i
        = fadeout i * Real.cos ((i : ℝ) * Real.pi / (2 * ((L : ℝ) - 1))) ^ 2
          + fadein i * Real.cos (((L : ℝ) - 1 - i) * Real.pi / (2 * ((L : ℝ) - 1))) ^ 2
      ∧ Real.cos ((i : ℝ) * Real.pi / (2 * ((L : ℝ) - 1))) ^ 2
          + Real.cos (((L : ℝ) - 1 - i) * Real.pi / (2 * ((L : ℝ) - 1))) ^ 2 = 1
      ∧ cf.process sig sig output = some out2
      ∧ out2 i = sig i
      ∧ out 0 = fadeout 0
      ∧ out (L - 1) = fadein (L - 1) := by
  obtain ⟨cf, hnew, hfl, hlen, hval⟩ := CrossFader.new_spec Real.cos Real.pi L (by omega)
  have hL1 : ((L - 1 : ℕ) : ℝ) = (L : ℝ) - 1 := by
    rw [Nat.cast_sub (by omega)]
    simp
  have hpos : (0 : ℝ) < (L : ℝ) - 1 := by
    have : (2 : ℝ) ≤ (L : ℝ) := by exact_mod_cast hL
    linarith
  have harg : ∀ k : ℕ, (k : ℝ) * (Real.pi * (1 / 2) / ((L - 1 : ℕ) : ℝ))
      = (k : ℝ) * Real.pi / (2 * ((L : ℝ) - 1)) := by
    intro k
    rw [hL1]
    field_simp
  have hw : ∀ k, k < L → cf._sin_fade.getD k 0
      = Real.cos ((k : ℝ) * Real.pi / (2 * ((L : ℝ) - 1))) ^ 2 := by
    intro k hk
    rw [hval k hk, harg k]
    ring
  have hproc : ∀ a b : ℕ → ℝ, cf.process a b output
      = some (fun idx =>
        if idx ≤ cf._fade_length then
          a idx * cf._sin_fade.getD idx 0 + b idx * cf._sin_fade.getD (cf._fade_length - idx) 0
        else output idx) := by
    intro a b
    unfold CrossFader.process
    rw [if_neg (by rw [hlen, hfl]; omega)]
  have hcomp : ∀ k, k < L →
      Real.cos ((((L - 1 - k : ℕ)) : ℝ) * Real.pi / (2 * ((L : ℝ) - 1)))
        = Real.sin ((k : ℝ) * Real.pi / (2 * ((L : ℝ) - 1))) := by
    intro k hk
    rw [← Real.cos_pi_div_two_sub]
    congr 1
    rw [Nat.cast_sub (by omega), hL1]
    field_simp
    ring
  have hcast : ∀ k, k < L → (((L - 1 - k : ℕ)) : ℝ) = (L : ℝ) - 1 - k := by
    intro k hk
    rw [Nat.cast_sub (by omega), hL1]
  have hout : ∀ a b : ℕ → ℝ, ∀ k, k < L →
      (if k ≤ cf._fade_length then
          a k * cf._sin_fade.getD k 0 + b k * cf._sin_fade.getD (cf._fade_length - k) 0
        else output k)
      = a k * Real.cos ((k : ℝ) * Real.pi / (2 * ((L : ℝ) - 1))) ^ 2
        + b k * Real.sin ((k : ℝ) * Real.pi / (2 * ((L : ℝ) - 1))) ^ 2 := by
    intro a b k hk
    rw [if_pos (by rw [hfl]; omega), hw k hk, hfl, hw (L - 1 - k) (by omega), hcomp k hk]
  have hsc := Real.sin_sq_add_cos_sq ((i : ℝ) * Real.pi / (2 * ((L : ℝ) - 1)))
  refine ⟨cf, _, _, hnew, ?_, hproc fadeout fadein, ?_, ?_, hproc sig sig, ?_, ?_, ?_⟩
  · show cf._fade_length + 1 = L
    rw [hfl]
    omega
  · rw [hout fadeout fadein i hi, ← hcast i hi, hcomp i hi]
  · rw [← hcast i hi, hcomp i hi]
    linarith
  · rw [hout sig sig i hi]
    linear_combination sig i * hsc
  · rw [hout fadeout fadein 0 (by omega)]
    simp
  · rw [hout fadeout fadein (L - 1) (by omega), ← hcomp (L - 1) (by omega)]
    have : L - 1 - (L - 1) = 0 := by omega
    rw [this]
    have h2 : Real.cos (((L - 1 : ℕ) : ℝ) * Real.pi / (2 * ((L : ℝ) - 1))) = 0 := by
      rw [hL1]
      have : ((L : ℝ) - 1) * Real.pi / (2 * ((L : ℝ) - 1)) = Real.pi / 2 := by
        field_simp
        ring
      rw [this, Real.cos_pi_div_two]
    rw [h2]
    simp

/-- Witness of C39: fade length 3, sample 1. -/
theorem CrossFader.weights_sum_to_one_witness :
    2 ≤ 3 ∧ 1 < 3
      ∧ ∃ cf out out2, CrossFader.new Real.cos Real.pi 3 = some cf
        ∧ cf.get_fade_length = 3
        ∧ cf.process (fun _ => 1) (fun _ => 2) (fun _ => 0) = some out
        ∧ out 1
          = (fun _ => (1 : ℝ)) 1
              * Real.cos (((1 : ℕ) : ℝ) * Real.pi / (2 * (((3 : ℕ) : ℝ) - 1))) ^ 2
            + (fun _ => (2 : ℝ)) 1
              * Real.cos ((((3 : ℕ) : ℝ) - 1 - ((1 : ℕ) : ℝ)) * Real.pi
                / (2 * (((3 : ℕ) : ℝ) - 1))) ^ 2
        ∧ Real.cos (((1 : ℕ) : ℝ) * Real.pi / (2 * (((3 : ℕ) : ℝ) - 1))) ^ 2
            + Real.cos ((((3 : ℕ) : ℝ) - 1 - ((1 : ℕ) : ℝ)) * Real.pi
              / (2 * (((3 : ℕ) : ℝ) - 1))) ^ 2
            = 1
        ∧ cf.process (fun _ => 5) (fun _ => 5) (fun _ => 0) = some out2
        ∧ out2 1 = (fun _ => (5 : ℝ)) 1
        ∧ out 0 = (fun _ => (1 : ℝ)) 0
        ∧ out (3 - 1) = (fun _ => (2 : ℝ)) (3 - 1) :=
  ⟨by decide, by decide,
    CrossFader.weights_sum_to_one 3 (by decide) (fun _ => 1) (fun _ => 2) (fun _ => 5)
      (fun _ => 0) 1 (by decide)⟩

end CrossFaderClaims

namespace FadingMultiDelay

variable {R : Type} [Field R]

open FadeBehavior

/-- One pass of a fade loop moves the readers only. -/
theorem core_fadeStep_fields (fade_in fade_out : ℕ → R) (n_alloc : ℕ) (buffer : ℕ → R)
    (c : _DelayCore R) (idx : ℕ) (r : _DelayCore R × R)
    (h : _DelayCore.fadeStep fade_in fade_out n_alloc buffer c idx = some r) :
    r.1._to_fade = c._to_fade ∧ r.1._status = c._status ∧ r.1._buf = c._buf
      ∧ r.1._buf_end = c._buf_end := by
  unfold _DelayCore.fadeStep at h
  split at h
  · split at h
    · injection h with h
      subst h
      exact ⟨rfl, rfl, rfl, rfl⟩
    · exact absurd h (by simp)
  · split at h
    · injection h with h
      subst h
      exact ⟨rfl, rfl, rfl, rfl⟩
    · exact absurd h (by simp)
  · split at h
    · injection h with h
      subst h
      exact ⟨rfl, rfl, rfl, rfl⟩
    · exact absurd h (by simp)
  · injection h with h
    subst h
    exact ⟨rfl, rfl, rfl, rfl⟩

/-- A fade loop moves the readers only. -/
theorem core_fadeLoop_fields (fade_in fade_out : ℕ → R) (n_alloc : ℕ) (buffer : ℕ → R)
    (k : ℕ) : ∀ (idx pos : ℕ) (c : _DelayCore R) (output : ℕ → R)
      (r : _DelayCore R × (ℕ → R)),
      _DelayCore.fadeLoop fade_in fade_out n_alloc buffer k idx pos c output = some r →
      r.1._to_fade = c._to_fade ∧ r.1._status = c._status ∧ r.1._buf = c._buf
        ∧ r.1._buf_end = c._buf_end := by
  induction k with
  | zero =>
    intro idx pos c output r h
    simp only [_DelayCore.fadeLoop] at h
    injection h with h
    subst h
    exact ⟨rfl, rfl, rfl, rfl⟩
  | succ k ih =>
    intro idx pos c output r h
    simp only [_DelayCore.fadeLoop] at h
    cases hs : _DelayCore.fadeStep fade_in fade_out n_alloc buffer c idx with
    | none =>
      rw [hs] at h
      exact absurd h (by simp)
    | some r1 =>
      rw [hs] at h
      obtain ⟨h1, h2, h3, h4⟩ := ih _ _ _ _ _ h
      obtain ⟨g1, g2, g3, g4⟩ := core_fadeStep_fields _ _ _ _ _ _ _ hs
      exact ⟨h1.trans g1, h2.trans g2, h3.trans g3, h4.trans g4⟩

/-- The switch of `process` moves the readers only. -/
theorem core_fade_fields (fade_in fade_out : ℕ → R) (n_alloc : ℕ) (buffer : ℕ → R)
    (c : _DelayCore R) (output : ℕ → R) (fade_start fade_now : ℕ)
    (r : _DelayCore R × (ℕ → R) × ℕ)
    (h : c.fade fade_in fade_out n_alloc buffer output fade_start fade_now = some r) :
    r.1._to_fade = c._to_fade ∧ r.1._status = c._status ∧ r.1._buf = c._buf
      ∧ r.1._buf_end = c._buf_end := by
  unfold _DelayCore.fade at h
  split_ifs at h with hs
  · cases hl : _DelayCore.fadeLoop fade_in fade_out n_alloc buffer fade_now fade_start 0 c
        output with
    | none =>
      rw [hl] at h
      exact absurd h (by simp)
    | some r1 =>
      rw [hl] at h
      injection h with h
      subst h
      exact core_fadeLoop_fields _ _ _ _ _ _ _ _ _ _ hl
  · injection h with h
    subst h
    exact ⟨rfl, rfl, rfl, rfl⟩

/-- The last loop of `process` moves the reader only. -/
theorem core_tailLoop_fields (n_alloc : ℕ) (buffer : ℕ → R) (fuel : ℕ) :
    ∀ (n_rem pos : ℕ) (c : _DelayCore R) (output : ℕ → R) (r : _DelayCore R × (ℕ → R)),
      _DelayCore.tailLoop n_alloc buffer fuel n_rem pos c output = some r →
      r.1._to_fade = c._to_fade ∧ r.1._status = c._status ∧ r.1._buf = c._buf
        ∧ r.1._buf_end = c._buf_end := by
  induction fuel with
  | zero =>
    intro n_rem pos c output r h
    simp only [_DelayCore.tailLoop] at h
    split_ifs at h
    injection h with h
    subst h
    exact ⟨rfl, rfl, rfl, rfl⟩
  | succ fuel ih =>
    intro n_rem pos c output r h
    simp only [_DelayCore.tailLoop] at h
    by_cases h0 : n_rem = 0
    · rw [if_pos h0] at h
      injection h with h
      subst h
      exact ⟨rfl, rfl, rfl, rfl⟩
    · rw [if_neg h0] at h
      by_cases hg : 0 ≤ c._rdr
          ∧ c._rdr + ((min n_rem ((c._buf_end - c._rdr) % 2 ^ 64).toNat : ℕ) : ℤ)
            ≤ (n_alloc : ℤ)
      · rw [if_pos hg] at h
        have := ih _ _ _ _ _ h
        exact this
      · rw [if_neg hg] at h
        exact absurd h (by simp)

/-- The part of `process` after the fade block keeps the fade count and the status. -/
theorem core_finish_fields (n_alloc : ℕ) (buffer : ℕ → R) (c : _DelayCore R)
    (output : ℕ → R) (pos n_rem : ℕ) (r : _DelayCore R × (ℕ → R))
    (h : c.finish n_alloc buffer output pos n_rem = some r) :
    r.1._to_fade = c._to_fade ∧ r.1._status = c._status ∧ r.1._buf = c._buf
      ∧ r.1._buf_end = c._buf_end := by
  unfold _DelayCore.finish at h
  split_ifs at h
  · injection h with h
    subst h
    exact ⟨rfl, rfl, rfl, rfl⟩
  · exact core_tailLoop_fields _ _ _ _ _ _ _ _ h

/-- The bookkeeping at the end of the fade block. -/
theorem core_faded_fields (c : _DelayCore R) (fade_now : ℕ) :
    (c.faded fade_now)._to_fade = c._to_fade - fade_now
      ∧ (c.faded fade_now)._status
        = (if c._to_fade - fade_now = 0 then _DelayCore.fadedStatus c._status else c._status)
      ∧ (c.faded fade_now)._buf = c._buf ∧ (c.faded fade_now)._buf_end = c._buf_end := by
  unfold _DelayCore.faded _DelayCore.fadedStatus
  by_cases h : c._to_fade - fade_now = 0
  · rw [if_pos h, if_pos h]
    refine ⟨rfl, ?_, rfl, rfl⟩
    cases hs : c._status <;> simp
  · rw [if_neg h, if_neg h]
    exact ⟨rfl, rfl, rfl, rfl⟩

/-- The bookkeeping of one `process` call that returns. -/
theorem core_process_fields (fade_in fade_out : ℕ → R) (n_alloc : ℕ) (buffer : ℕ → R)
    (c : _DelayCore R) (output : ℕ → R) (n_frames : ℕ) (r : _DelayCore R × (ℕ → R))
    (h : c.process fade_in fade_out n_alloc buffer output n_frames = some r) :
    r.1._to_fade = c._to_fade - min c._to_fade n_frames
      ∧ r.1._status
        = (if c._to_fade ≠ 0 ∧ c._to_fade ≤ n_frames then _DelayCore.fadedStatus c._status
          else c._status)
      ∧ (c._to_fade ≠ 0 → c._to_fade ≤ N_FADE)
      ∧ r.1._buf = c._buf ∧ r.1._buf_end = c._buf_end := by
  unfold _DelayCore.process at h
  split_ifs at h with h0 h1
  · obtain ⟨g1, g2, g3, g4⟩ := core_finish_fields _ _ _ _ _ _ _ h
    rw [g1, g2, h0]
    refine ⟨by simp, ?_, fun hc => absurd rfl hc, g3, g4⟩
    rw [if_neg (fun hc => hc.1 rfl)]
  · cases hf : c.fade fade_in fade_out n_alloc buffer output (N_FADE - c._to_fade)
        (min c._to_fade n_frames) with
    | none =>
      rw [hf] at h
      exact absurd h (by simp)
    | some r1 =>
      rw [hf] at h
      obtain ⟨g1, g2, g3, g4⟩ := core_finish_fields _ _ _ _ _ _ _ h
      obtain ⟨f1, f2, f3, f4⟩ := core_fade_fields _ _ _ _ _ _ _ _ _ hf
      obtain ⟨e1, e2, e3, e4⟩ := core_faded_fields r1.1 (min c._to_fade n_frames)
      refine ⟨by rw [g1, e1, f1], ?_, fun _ => by omega, by rw [g3, e3, f3],
        by rw [g4, e4, f4]⟩
      rw [g2, e2, f1, f2]
      by_cases hle : c._to_fade ≤ n_frames
      · rw [if_pos (by rw [min_eq_left hle]; omega), if_pos ⟨h0, hle⟩]
      · rw [if_neg (by rw [min_eq_right (by omega)]; omega), if_neg (fun hc => hle hc.2)]

/-- The bookkeeping of a sequence of `process` calls that all return. -/
theorem core_processAll_fields (fade_in fade_out : ℕ → R) (n_alloc : ℕ)
    (calls : List ((ℕ → R) × (ℕ → R) × ℕ)) :
    ∀ (c c' : _DelayCore R), c._to_fade ≤ N_FADE →
      _DelayCore.processAll fade_in fade_out n_alloc calls c = some c' →
      c'._to_fade = c._to_fade - min c._to_fade (_DelayCore.totalFrames calls)
        ∧ c'._status
          = (if c._to_fade ≠ 0 ∧ c._to_fade ≤ _DelayCore.totalFrames calls then
              _DelayCore.fadedStatus c._status
            else c._status) := by
  induction calls with
  | nil =>
    intro c c' _ h
    simp only [_DelayCore.processAll] at h
    injection h with h
    subst h
    simp [_DelayCore.totalFrames]
  | cons call rest ih =>
    intro c c' h128 h
    simp only [_DelayCore.processAll] at h
    cases hp : c.process fade_in fade_out n_alloc call.1 call.2.1 call.2.2 with
    | none =>
      rw [hp] at h
      exact absurd h (by simp)
    | some r =>
      rw [hp] at h
      obtain ⟨p1, p2, _, _, _⟩ := core_process_fields _ _ _ _ _ _ _ _ hp
      obtain ⟨q1, q2⟩ := ih r.1 c' (by rw [p1]; omega) h
      have ht : _DelayCore.totalFrames (call :: rest)
          = call.2.2 + _DelayCore.totalFrames rest := by
        simp [_DelayCore.totalFrames]
      rw [ht]
      refine ⟨by rw [q1, p1]; omega, ?_⟩
      rw [q2, p1, p2]
      split_ifs <;> first | rfl | (exfalso; omega)

end FadingMultiDelay

namespace FadingMultiDelay

variable {R : Type} [Field R]

open FadeBehavior

/-- A read through a pointer inside the allocated block returns the sample there. -/
theorem core_readAt_of_mem (n_alloc : ℕ) (buffer : ℕ → R) (p : ℤ) (h0 : 0 ≤ p)
    (h1 : p < (n_alloc : ℤ)) : _DelayCore.readAt n_alloc buffer p = some (buffer p.toNat) := by
  unfold _DelayCore.readAt
  rw [if_pos ⟨h0, h1⟩]

/-- A reader inside the ring stays inside it when it is advanced. -/
theorem core_advance_mem (c : _DelayCore R) (p : ℤ) (hb : c._buf < c._buf_end)
    (hp : c._buf ≤ p ∧ p < c._buf_end) :
    c._buf ≤ c.advance p ∧ c.advance p < c._buf_end := by
  unfold _DelayCore.advance
  split_ifs <;> omega

/-- A pass of a fade loop on a core whose ring is allocated returns and keeps the readers
in the ring. -/
theorem core_fadeStep_ringed (fade_in fade_out : ℕ → R) (n_alloc : ℕ) (buffer : ℕ → R)
    (c : _DelayCore R) (idx : ℕ) (hc : c.Ringed n_alloc)
    (hr : c._buf ≤ c._rdr ∧ c._rdr < c._buf_end) :
    ∃ r, _DelayCore.fadeStep fade_in fade_out n_alloc buffer c idx = some r
      ∧ r.1.Ringed n_alloc ∧ (r.1._buf ≤ r.1._rdr ∧ r.1._rdr < r.1._buf_end) := by
  have hread := core_readAt_of_mem n_alloc buffer c._rdr (le_trans hc.buf_nonneg hr.1)
    (lt_of_lt_of_le hr.2 hc.end_le)
  have hadv := core_advance_mem c c._rdr hc.buf_lt hr
  unfold _DelayCore.fadeStep
  cases hs : c._status with
  | BORN =>
    simp only [hread]
    exact ⟨_, rfl, ⟨hc.buf_nonneg, hc.buf_lt, hc.end_le, hc.size_lt, Or.inr hadv,
      fun h => by cases h⟩, hadv⟩
  | DYING =>
    simp only [hread]
    exact ⟨_, rfl, ⟨hc.buf_nonneg, hc.buf_lt, hc.end_le, hc.size_lt, Or.inr hadv,
      fun h => by cases h⟩, hadv⟩
  | CHANGE =>
    have ho := hc.old_rdr hs
    have hreado := core_readAt_of_mem n_alloc buffer c._old_rdr (le_trans hc.buf_nonneg ho.1)
      (lt_of_lt_of_le ho.2 hc.end_le)
    have hadvo := core_advance_mem c c._old_rdr hc.buf_lt ho
    simp only [hread, hreado]
    exact ⟨_, rfl, ⟨hc.buf_nonneg, hc.buf_lt, hc.end_le, hc.size_lt, Or.inr hadv,
      fun _ => hadvo⟩, hadv⟩
  | ALIVE =>
    exact ⟨_, rfl, ⟨hc.buf_nonneg, hc.buf_lt, hc.end_le, hc.size_lt, Or.inr hr,
      fun h => absurd (hs.symm.trans h) (by decide)⟩, hr⟩
  | DEAD =>
    exact ⟨_, rfl, ⟨hc.buf_nonneg, hc.buf_lt, hc.end_le, hc.size_lt, Or.inr hr,
      fun h => absurd (hs.symm.trans h) (by decide)⟩, hr⟩

/-- A fade loop on a core whose ring is allocated returns and keeps the readers in the
ring. -/
theorem core_fadeLoop_ringed (fade_in fade_out : ℕ → R) (n_alloc : ℕ) (buffer : ℕ → R)
    (k : ℕ) : ∀ (idx pos : ℕ) (c : _DelayCore R) (output : ℕ → R), c.Ringed n_alloc →
      (c._buf ≤ c._rdr ∧ c._rdr < c._buf_end) →
      ∃ r, _DelayCore.fadeLoop fade_in fade_out n_alloc buffer k idx pos c output = some r
        ∧ r.1.Ringed n_alloc ∧ (r.1._buf ≤ r.1._rdr ∧ r.1._rdr < r.1._buf_end) := by
  induction k with
  | zero =>
    intro idx pos c output hc hr
    exact ⟨_, rfl, hc, hr⟩
  | succ k ih =>
    intro idx pos c output hc hr
    obtain ⟨r1, h1, hc1, hr1⟩ := core_fadeStep_ringed fade_in fade_out n_alloc buffer c idx hc hr
    simp only [_DelayCore.fadeLoop, h1]
    exact ih _ _ _ _ hc1 hr1

/-- The switch of `process` on a core whose ring is allocated returns and keeps the readers
in the ring. -/
theorem core_fade_ringed (fade_in fade_out : ℕ → R) (n_alloc : ℕ) (buffer : ℕ → R)
    (c : _DelayCore R) (output : ℕ → R) (fade_start fade_now : ℕ) (hc : c.Ringed n_alloc)
    (hr : c._buf ≤ c._rdr ∧ c._rdr < c._buf_end) :
    ∃ r, c.fade fade_in fade_out n_alloc buffer output fade_start fade_now = some r
      ∧ r.1.Ringed n_alloc ∧ (r.1._buf ≤ r.1._rdr ∧ r.1._rdr < r.1._buf_end) := by
  unfold _DelayCore.fade
  split_ifs with hs
  · obtain ⟨r1, h1, hc1, hr1⟩ := core_fadeLoop_ringed fade_in fade_out n_alloc buffer fade_now
      fade_start 0 c output hc hr
    simp only [h1]
    exact ⟨_, rfl, hc1, hr1⟩
  · exact ⟨_, rfl, hc, hr⟩

/-- The bookkeeping at the end of the fade block keeps the readers. -/
theorem core_faded_ringed (n_alloc : ℕ) (c : _DelayCore R) (fade_now : ℕ)
    (hc : c.Ringed n_alloc) (hr : c._buf ≤ c._rdr ∧ c._rdr < c._buf_end) :
    (c.faded fade_now).Ringed n_alloc
      ∧ ((c.faded fade_now)._buf ≤ (c.faded fade_now)._rdr
        ∧ (c.faded fade_now)._rdr < (c.faded fade_now)._buf_end) := by
  obtain ⟨e1, e2, e3, e4⟩ := core_faded_fields c fade_now
  have e5 : (c.faded fade_now)._rdr = c._rdr := by
    unfold _DelayCore.faded
    split_ifs <;> rfl
  have e6 : (c.faded fade_now)._old_rdr = c._old_rdr := by
    unfold _DelayCore.faded
    split_ifs <;> rfl
  have hr' : (c.faded fade_now)._buf ≤ (c.faded fade_now)._rdr
      ∧ (c.faded fade_now)._rdr < (c.faded fade_now)._buf_end := by
    rw [e3, e4, e5]
    exact hr
  refine ⟨⟨by rw [e3]; exact hc.buf_nonneg, by rw [e3, e4]; exact hc.buf_lt,
    by rw [e4]; exact hc.end_le, by rw [e3, e4]; exact hc.size_lt, Or.inr hr', ?_⟩, hr'⟩
  intro hs
  rw [e3, e4, e6]
  apply hc.old_rdr
  rw [e2] at hs
  split_ifs at hs with h0
  · unfold _DelayCore.fadedStatus at hs
    split_ifs at hs
  · exact hs

/-- The last loop of `process` on a core whose ring is allocated returns, given fuel for
every sample, and keeps the reader in the ring. -/
theorem core_tailLoop_ringed (n_alloc : ℕ) (buffer : ℕ → R) (fuel : ℕ) :
    ∀ (n_rem pos : ℕ) (c : _DelayCore R) (output : ℕ → R), n_rem ≤ fuel →
      0 ≤ c._buf → c._buf < c._buf_end → c._buf_end ≤ (n_alloc : ℤ) →
      c._buf_end - c._buf < 2 ^ 64 → (c._buf ≤ c._rdr ∧ c._rdr < c._buf_end) →
      ∃ r, _DelayCore.tailLoop n_alloc buffer fuel n_rem pos c output = some r
        ∧ (r.1._buf ≤ r.1._rdr ∧ r.1._rdr < r.1._buf_end)
        ∧ r.1._old_rdr = c._old_rdr := by
  induction fuel with
  | zero =>
    intro n_rem pos c output hn _ _ _ _ hr
    have : n_rem = 0 := by omega
    subst this
    exact ⟨_, rfl, hr, rfl⟩
  | succ fuel ih =>
    intro n_rem pos c output hn h0 hlt hend hsize hr
    simp only [_DelayCore.tailLoop]
    by_cases hz : n_rem = 0
    · rw [if_pos hz]
      exact ⟨_, rfl, hr, rfl⟩
    · rw [if_neg hz]
      have hmod : ((c._buf_end - c._rdr) % 2 ^ 64).toNat = (c._buf_end - c._rdr).toNat := by
        rw [Int.emod_eq_of_lt (by omega) (by omega)]
      rw [hmod]
      have hm1 : 1 ≤ min n_rem (c._buf_end - c._rdr).toNat := by omega
      have hm2 : ((min n_rem (c._buf_end - c._rdr).toNat : ℕ) : ℤ) ≤ c._buf_end - c._rdr := by
        omega
      have hm3 : min n_rem (c._buf_end - c._rdr).toNat ≤ n_rem := by omega
      generalize min n_rem (c._buf_end - c._rdr).toNat = m at hm1 hm2 hm3 ⊢
      rw [if_pos ⟨by omega, by omega⟩]
      have := ih (n_rem - m) (pos + m)
        { c with
          _rdr := if c._rdr + (m : ℤ) = c._buf_end then c._buf else c._rdr + (m : ℤ) }
        (fun i =>
          if pos ≤ i ∧ i < pos + m then buffer (c._rdr.toNat + (i - pos)) * c._wgt
          else output i)
        (by omega) h0 hlt hend hsize (by
          show c._buf ≤ (if c._rdr + (m : ℤ) = c._buf_end then c._buf else c._rdr + (m : ℤ))
            ∧ (if c._rdr + (m : ℤ) = c._buf_end then c._buf else c._rdr + (m : ℤ))
              < c._buf_end
          split_ifs <;> omega)
      exact this

/-- The part of `process` after the fade block returns on a core whose ring is
allocated. -/
theorem core_finish_ringed (n_alloc : ℕ) (buffer : ℕ → R) (c : _DelayCore R)
    (output : ℕ → R) (pos n_rem : ℕ) (hc : c.Ringed n_alloc)
    (hd : c._status = DEAD → c._to_fade = 0 ∨ n_rem = 0) :
    ∃ r, c.finish n_alloc buffer output pos n_rem = some r ∧ r.1.Ringed n_alloc := by
  unfold _DelayCore.finish
  by_cases hs : c._status = DEAD
  · rw [if_pos hs]
    refine ⟨_, rfl, ⟨hc.buf_nonneg, hc.buf_lt, hc.end_le, hc.size_lt, ?_,
      fun h => absurd (hs.symm.trans h) (by decide)⟩⟩
    rcases hd hs with h | h
    · exact Or.inl ⟨hs, h⟩
    · rcases hc.rdr with h2 | h2
      · exact Or.inl h2
      · right
        show c._buf ≤ c._rdr + (n_rem : ℤ) ∧ c._rdr + (n_rem : ℤ) < c._buf_end
        rw [h]
        simpa using h2
  · rw [if_neg hs]
    have hr : c._buf ≤ c._rdr ∧ c._rdr < c._buf_end := by
      rcases hc.rdr with h2 | h2
      · exact absurd h2.1 hs
      · exact h2
    obtain ⟨r, h1, h2, h3⟩ := core_tailLoop_ringed n_alloc buffer n_rem n_rem pos c output
      (le_refl _) hc.buf_nonneg hc.buf_lt hc.end_le hc.size_lt hr
    obtain ⟨g1, g2, g3, g4⟩ := core_tailLoop_fields _ _ _ _ _ _ _ _ h1
    refine ⟨r, h1, ⟨by rw [g3]; exact hc.buf_nonneg, by rw [g3, g4]; exact hc.buf_lt,
      by rw [g4]; exact hc.end_le, by rw [g3, g4]; exact hc.size_lt, Or.inr h2, ?_⟩⟩
    intro h
    rw [g3, g4, h3]
    exact hc.old_rdr (g2 ▸ h)

/-- A `process` call on a core whose ring is allocated returns and leaves such a core. -/
theorem core_process_ringed (fade_in fade_out : ℕ → R) (n_alloc : ℕ) (buffer : ℕ → R)
    (c : _DelayCore R) (output : ℕ → R) (n_frames : ℕ) (hc : c.Ringed n_alloc)
    (h128 : c._to_fade ≤ N_FADE) :
    ∃ r, c.process fade_in fade_out n_alloc buffer output n_frames = some r
      ∧ r.1.Ringed n_alloc := by
  unfold _DelayCore.process
  by_cases h0 : c._to_fade = 0
  · rw [if_pos h0]
    exact core_finish_ringed n_alloc buffer c output 0 n_frames hc (fun _ => Or.inl h0)
  · rw [if_neg h0, if_neg (by omega)]
    have hr : c._buf ≤ c._rdr ∧ c._rdr < c._buf_end := by
      rcases hc.rdr with h2 | h2
      · exact absurd h2.2 h0
      · exact h2
    obtain ⟨r1, h1, hc1, hr1⟩ := core_fade_ringed fade_in fade_out n_alloc buffer c output
      (N_FADE - c._to_fade) (min c._to_fade n_frames) hc hr
    obtain ⟨f1, f2, f3, f4⟩ := core_fade_fields _ _ _ _ _ _ _ _ _ h1
    simp only [h1]
    obtain ⟨hc2, hr2⟩ := core_faded_ringed n_alloc r1.1 (min c._to_fade n_frames) hc1 hr1
    obtain ⟨e1, e2, e3, e4⟩ := core_faded_fields r1.1 (min c._to_fade n_frames)
    refine core_finish_ringed n_alloc buffer _ r1.2.1 r1.2.2 _ hc2 (fun _ => ?_)
    rw [e1, f1]
    omega

/-- Successive `process` calls on a core whose ring is allocated all return. -/
theorem core_processAll_ringed (fade_in fade_out : ℕ → R) (n_alloc : ℕ)
    (calls : List ((ℕ → R) × (ℕ → R) × ℕ)) :
    ∀ (c : _DelayCore R), c.Ringed n_alloc → c._to_fade ≤ N_FADE →
      ∃ c', _DelayCore.processAll fade_in fade_out n_alloc calls c = some c' := by
  induction calls with
  | nil => exact fun c _ _ => ⟨c, rfl⟩
  | cons call rest ih =>
    intro c hc h128
    obtain ⟨r, h1, hc1⟩ := core_process_ringed fade_in fade_out n_alloc call.1 c call.2.1
      call.2.2 hc h128
    obtain ⟨p1, _, _, _, _⟩ := core_process_fields _ _ _ _ _ _ _ _ h1
    simp only [_DelayCore.processAll, h1]
    exact ih r.1 hc1 (by rw [p1]; omega)

end FadingMultiDelay

namespace FadingMultiDelay

variable {R : Type} [Field R]

open FadeBehavior

/-- `_update` leaves the requested tap count and the ring as they are. -/
theorem fmd_update_fields (s s' : FadingMultiDelay R) (h : s._update = some s') :
    s'._new_n_delays = s._new_n_delays ∧ s'._n_delays = max s._new_n_delays s._n_delays := by
  unfold _update at h
  by_cases hg : N_DELAYS_MAX < max s._new_n_delays s._n_delays
  · rw [if_pos hg] at h
    exact absurd h (by simp)
  · rw [if_neg hg] at h
    simp only at h
    injection h with h
    subst h
    exact ⟨rfl, rfl⟩

/-- The chunk loop of `process` changes neither tap count nor the flag. -/
theorem fmd_processLoop_fields (fade_in fade_out : ℕ → R) (input : ℕ → R) (fuel : ℕ) :
    ∀ (s : FadingMultiDelay R) (output : ℕ → R) (done : ℕ)
      (r : FadingMultiDelay R × (ℕ → R)),
      processLoop fade_in fade_out input fuel s output done = some r →
      r.1._new_n_delays = s._new_n_delays ∧ r.1._n_delays = s._n_delays
        ∧ r.1._has_changed = s._has_changed := by
  induction fuel with
  | zero =>
    intro s output done r h
    simp only [processLoop] at h
    split_ifs at h
    injection h with h
    subst h
    exact ⟨rfl, rfl, rfl⟩
  | succ fuel ih =>
    intro s output done r h
    simp only [processLoop] at h
    by_cases h0 : s._n_remaining = 0
    · rw [if_pos h0] at h
      injection h with h
      subst h
      exact ⟨rfl, rfl, rfl⟩
    · rw [if_neg h0] at h
      by_cases h1 : N_DELAYS_MAX < s._n_delays
      · rw [if_pos h1] at h
        exact absurd h (by simp)
      · rw [if_neg h1] at h
        cases hc : coresLoop fade_in fade_out s._buffer_size.toNat s._buffer
            (min (min s._min_delay s._n_remaining)
              ((s._buffer_end - s._writer) % 2 ^ 64).toNat)
            done (List.range s._n_delays) s._delays s._core_buffer output with
        | none =>
          rw [hc] at h
          exact absurd h (by simp)
        | some r1 =>
          rw [hc] at h
          simp only at h
          by_cases hg : 0 ≤ s._writer
              ∧ s._writer + ((min (min s._min_delay s._n_remaining)
                ((s._buffer_end - s._writer) % 2 ^ 64).toNat : ℕ) : ℤ) ≤ s._buffer_size
          · rw [if_pos hg] at h
            have := ih _ _ _ _ h
            exact this
          · rw [if_neg hg] at h
            exact absurd h (by simp)

/-- With no tap in the list the chunk loop of `process` leaves the output buffer as it
is. -/
theorem fmd_processLoop_silent (fade_in fade_out : ℕ → R) (input : ℕ → R) (fuel : ℕ) :
    ∀ (s : FadingMultiDelay R) (output : ℕ → R) (done : ℕ)
      (r : FadingMultiDelay R × (ℕ → R)), s._n_delays = 0 →
      processLoop fade_in fade_out input fuel s output done = some r → r.2 = output := by
  induction fuel with
  | zero =>
    intro s output done r _ h
    simp only [processLoop] at h
    split_ifs at h
    injection h with h
    subst h
    rfl
  | succ fuel ih =>
    intro s output done r hn h
    simp only [processLoop] at h
    by_cases h0 : s._n_remaining = 0
    · rw [if_pos h0] at h
      injection h with h
      subst h
      rfl
    · rw [if_neg h0, if_neg (by rw [hn]; decide), hn] at h
      simp only [List.range_zero, coresLoop] at h
      by_cases hg : 0 ≤ s._writer
          ∧ s._writer + ((min (min s._min_delay s._n_remaining)
            ((s._buffer_end - s._writer) % 2 ^ 64).toNat : ℕ) : ℤ) ≤ s._buffer_size
      · rw [if_pos hg] at h
        have := ih _ _ _ _ rfl h
        exact this
      · rw [if_neg hg] at h
        exact absurd h (by simp)

/-- Every `process` call that returns sets the tap count to `_new_n_delays`, which it does
not change, and clears the flag. -/
theorem fmd_process_fields (fade_in fade_out : ℕ → R) (s : FadingMultiDelay R)
    (input output : ℕ → R) (n_frames : ℕ) (r : FadingMultiDelay R × (ℕ → R))
    (h : s.process fade_in fade_out input output n_frames = some r) :
    r.1.get_n_delays = s._new_n_delays ∧ r.1._new_n_delays = s._new_n_delays
      ∧ r.1._has_changed = false := by
  unfold process at h
  cases hu : (if s._has_changed then s._update else some s) with
  | none =>
    rw [hu] at h
    exact absurd h (by simp)
  | some s1 =>
    rw [hu] at h
    simp only at h
    have hs1 : s1._new_n_delays = s._new_n_delays := by
      split_ifs at hu
      · exact (fmd_update_fields s s1 hu).1
      · injection hu with hu
        subst hu
        rfl
    cases hl : processLoop fade_in fade_out input n_frames
        { s1 with _n_remaining := n_frames }
        (fun idx => if idx < n_frames then 0 else output idx) 0 with
    | none =>
      rw [hl] at h
      exact absurd h (by simp)
    | some r1 =>
      rw [hl] at h
      simp only at h
      obtain ⟨l1, _, _⟩ := fmd_processLoop_fields _ _ _ _ _ _ _ _ hl
      unfold _update_min_delay at h
      split_ifs at h
      simp only at h
      injection h with h
      subst h
      exact ⟨l1.trans hs1, l1.trans hs1, rfl⟩

/-- A `process` call on a state with no tap in the list and no change pending writes
zeros. -/
theorem fmd_process_silent (fade_in fade_out : ℕ → R) (s : FadingMultiDelay R)
    (input output : ℕ → R) (n_frames : ℕ) (r : FadingMultiDelay R × (ℕ → R))
    (hn : s._n_delays = 0) (hf : s._has_changed = false)
    (h : s.process fade_in fade_out input output n_frames = some r) (i : ℕ)
    (hi : i < n_frames) : r.2 i = 0 := by
  unfold process at h
  rw [hf] at h
  simp only [Bool.false_eq_true, if_false] at h
  cases hl : processLoop fade_in fade_out input n_frames
      { s with _n_remaining := n_frames }
      (fun idx => if idx < n_frames then 0 else output idx) 0 with
  | none =>
    rw [hl] at h
    exact absurd h (by simp)
  | some r1 =>
    rw [hl] at h
    simp only at h
    have hout := fmd_processLoop_silent fade_in fade_out input n_frames
      { s with _n_remaining := n_frames } _ _ _ hn hl
    unfold _update_min_delay at h
    split_ifs at h
    simp only at h
    injection h with h
    subst h
    show r1.2 i = 0
    rw [hout]
    exact if_pos hi

/-- A valid `add_delay` call adds one to the tap count and leaves `_new_n_delays` and the
flag as they are. -/
theorem fmd_add_delay_fields (s : FadingMultiDelay R) (d : ℕ) (w : R) (h0 : 0 < d)
    (hd : (d : ℤ) < s._buffer_size) (hn : s._n_delays < N_DELAYS_MAX) :
    ∃ s1, s.add_delay d w = some s1 ∧ s1.get_n_delays = s.get_n_delays + 1
      ∧ s1._new_n_delays = s._new_n_delays ∧ s1._has_changed = s._has_changed := by
  unfold add_delay
  rw [if_pos ⟨hd, h0⟩, if_pos hn]
  exact ⟨_, rfl, rfl, rfl, rfl⟩

end FadingMultiDelay

section FadingClaims

open FadingMultiDelay FadingMultiDelay.FadeBehavior

/-- The ring of the core `exCore` is allocated and its reader is inside it. -/
theorem exCore_ringed : exCore.Ringed 5 :=
  ⟨by decide, by decide, by decide, by decide, Or.inr ⟨by decide, by decide⟩,
    fun h => absurd h (by decide)⟩

/-- C40: for every `_DelayCore` whose remaining fade count is at most `N_FADE = 128`
(`set_delay` and `set_status` set it to `N_FADE`) and every sequence of `process` calls,
whatever the ring holds at each call: the calls all return when the ring of the core is
allocated memory; and whenever they return, the count is still at most `N_FADE` and has
decreased by exactly the minimum of the count and the number of frames processed, and the
status is the one before the calls unless the count was positive and has reached 0, in
which case `DYING` has become `DEAD` and every other status `ALIVE`. So a core set to
`BORN` or `CHANGE` is `ALIVE`, and one set to `DYING` is `DEAD`, exactly from the call on
in which the frames processed since the status was set reach 128; and a core with no fade
remaining keeps its status. -/
theorem FadingMultiDelay.core_fade_count_and_status {R : Type} [Field R]
    (fade_in fade_out : ℕ → R) (n_alloc : ℕ) (c : _DelayCore R) (h128 : c._to_fade ≤ N_FADE)
    (calls : List ((ℕ → R) × (ℕ → R) × ℕ)) :
    (∀ (wtr : ℤ) (delay : ℕ) (weight : R) (status : FadeBehavior),
        (c.set_delay wtr delay weight)._to_fade = N_FADE
          ∧ (c.set_status status)._to_fade = N_FADE
          ∧ (c.set_status status)._status = status)
      ∧ (c.Ringed n_alloc →
        ∃ c', _DelayCore.processAll fade_in fade_out n_alloc calls c = some c')
      ∧ ∀ c', _DelayCore.processAll fade_in fade_out n_alloc calls c = some c' →
        c'._to_fade ≤ N_FADE
          ∧ c'._to_fade = c._to_fade - min c._to_fade (_DelayCore.totalFrames calls)
          ∧ c'._status
            = (if c._to_fade ≠ 0 ∧ c._to_fade ≤ _DelayCore.totalFrames calls then
                (if c._status = DYING then DEAD else ALIVE)
              else c._status)
          ∧ (c._to_fade = N_FADE → (c._status = BORN ∨ c._status = CHANGE) →
            c'._status = if N_FADE ≤ _DelayCore.totalFrames calls then ALIVE else c._status)
          ∧ (c._to_fade = N_FADE → c._status = DYING →
            c'._status = if N_FADE ≤ _DelayCore.totalFrames calls then DEAD else DYING)
          ∧ (c._to_fade = 0 → c'._status = c._status) := by
  refine ⟨fun _ _ _ _ => ⟨rfl, rfl, rfl⟩,
    fun hc => core_processAll_ringed fade_in fade_out n_alloc calls c hc h128,
    fun c' h => ?_⟩
  obtain ⟨h1, h2⟩ := core_processAll_fields fade_in fade_out n_alloc calls c c' h128 h
  refine ⟨by rw [h1]; omega, h1, h2, fun ht hs => ?_, fun ht hs => ?_, fun ht => ?_⟩
  · rw [h2, ht]
    have hN : N_FADE ≠ 0 := by decide
    by_cases hle : N_FADE ≤ _DelayCore.totalFrames calls
    · rw [if_pos ⟨hN, hle⟩, if_pos hle]
      rcases hs with hs | hs <;> rw [hs] <;> rfl
    · rw [if_neg (fun hc => hle hc.2), if_neg hle]
  · rw [h2, ht, hs]
    have hN : N_FADE ≠ 0 := by decide
    by_cases hle : N_FADE ≤ _DelayCore.totalFrames calls
    · rw [if_pos ⟨hN, hle⟩, if_pos hle]
      rfl
    · rw [if_neg (fun hc => hle hc.2), if_neg hle]
  · rw [h2, if_neg (fun hc => hc.1 ht)]

/-- Witness of C40: the core `exCore`, which is `BORN` with 128 samples to fade, and two
calls of 100 and 28 frames. -/
theorem FadingMultiDelay.core_fade_count_and_status_witness :
    exCore._to_fade ≤ N_FADE
      ∧ (∀ (wtr : ℤ) (delay : ℕ) (weight : ℚ) (status : FadeBehavior),
        (exCore.set_delay wtr delay weight)._to_fade = N_FADE
          ∧ (exCore.set_status status)._to_fade = N_FADE
          ∧ (exCore.set_status status)._status = status)
      ∧ (exCore.Ringed 5 →
        ∃ c', _DelayCore.processAll exFadeIn exFadeOut 5
          [(exOne, exZero, 100), (exOne, exZero, 28)] exCore = some c')
      ∧ ∀ c', _DelayCore.processAll exFadeIn exFadeOut 5
          [(exOne, exZero, 100), (exOne, exZero, 28)] exCore = some c' →
        c'._to_fade ≤ N_FADE
          ∧ c'._to_fade = exCore._to_fade
            - min exCore._to_fade
              (_DelayCore.totalFrames [(exOne, exZero, 100), (exOne, exZero, 28)])
          ∧ c'._status
            = (if exCore._to_fade ≠ 0
                ∧ exCore._to_fade
                  ≤ _DelayCore.totalFrames [(exOne, exZero, 100), (exOne, exZero, 28)] then
                (if exCore._status = DYING then DEAD else ALIVE)
              else exCore._status)
          ∧ (exCore._to_fade = N_FADE → (exCore._status = BORN ∨ exCore._status = CHANGE) →
            c'._status
              = if N_FADE
                  ≤ _DelayCore.totalFrames [(exOne, exZero, 100), (exOne, exZero, 28)] then
                ALIVE
              else exCore._status)
          ∧ (exCore._to_fade = N_FADE → exCore._status = DYING →
            c'._status
              = if N_FADE
                  ≤ _DelayCore.totalFrames [(exOne, exZero, 100), (exOne, exZero, 28)] then
                DEAD
              else DYING)
          ∧ (exCore._to_fade = 0 → c'._status = exCore._status) :=
  ⟨by decide,
    FadingMultiDelay.core_fade_count_and_status exFadeIn exFadeOut 5 exCore (by decide)
      [(exOne, exZero, 100), (exOne, exZero, 28)]⟩

/-- The state after `add_delay(2, 1)` on a `FadingMultiDelay` constructed with
`max_delay = 4`. -/
theorem exFading_add_delay :
    (FadingMultiDelay.new exFreshFading 4).add_delay 2 1
      = some { FadingMultiDelay.new exFreshFading 4 with
          _delays := Function.update (FadingMultiDelay.new exFreshFading 4)._delays 0
            (((FadingMultiDelay.new exFreshFading 4)._delays 0).set_delay 0 2 1)
          _min_delay := 2
          _n_delays := 1 } := by
  rfl

/-- The `process` call on one frame that follows returns. -/
theorem exFading_process_isSome :
    (({ FadingMultiDelay.new exFreshFading 4 with
          _delays := Function.update (FadingMultiDelay.new exFreshFading 4)._delays 0
            (((FadingMultiDelay.new exFreshFading 4)._delays 0).set_delay 0 2 1)
          _min_delay := 2
          _n_delays := 1 } : FadingMultiDelay ℚ).process exFadeIn exFadeOut exOne exZero
        1).isSome = true := by
  rfl

/-- C31, where the code departs from it: `add_delay(d, w)` with `0 < d < max_delay`
increases `get_n_delays()` by one, but the tap does not stay. Every `process` call ends
with `_n_delays = _new_n_delays`, and `add_delay` does not touch `_new_n_delays`; so after
the first `process` call that follows, `get_n_delays()` is what `_new_n_delays` was, and
on a constructed instance that is 0. From then on, with no tap in the list, every
`process` call writes zeros whatever the input. Instance with `max_delay = 4`:
`add_delay(2, 1)` gives `get_n_delays() = 1`, the `process` call on one frame returns and
leaves `get_n_delays() = 0`. -/
theorem FadingMultiDelay.add_delay_tap_dropped :
    (∀ (s : FadingMultiDelay ℚ) (d : ℕ) (w : ℚ), 0 < d → (d : ℤ) < s._buffer_size →
        s._n_delays < N_DELAYS_MAX →
        ∃ s1, s.add_delay d w = some s1 ∧ s1.get_n_delays = s.get_n_delays + 1
          ∧ s1._new_n_delays = s._new_n_delays)
      ∧ (∀ (fade_in fade_out : ℕ → ℚ) (s : FadingMultiDelay ℚ) (input output : ℕ → ℚ)
          (n_frames : ℕ) (r : FadingMultiDelay ℚ × (ℕ → ℚ)),
        s.process fade_in fade_out input output n_frames = some r →
        r.1.get_n_delays = s._new_n_delays ∧ r.1._new_n_delays = s._new_n_delays
          ∧ r.1._has_changed = false)
      ∧ (∀ (fade_in fade_out : ℕ → ℚ) (s : FadingMultiDelay ℚ) (input output : ℕ → ℚ)
          (n_frames : ℕ) (r : FadingMultiDelay ℚ × (ℕ → ℚ)),
        s._n_delays = 0 → s._has_changed = false →
        s.process fade_in fade_out input output n_frames = some r →
        ∀ i, i < n_frames → r.2 i = 0)
      ∧ ∃ s1 r, (FadingMultiDelay.new exFreshFading 4).add_delay 2 1 = some s1
        ∧ s1.get_n_delays = 1
        ∧ s1.process exFadeIn exFadeOut exOne exZero 1 = some r
        ∧ r.1.get_n_delays = 0
        ∧ r.1._new_n_delays = 0
        ∧ r.1._has_changed = false := by
  refine ⟨fun s d w h0 hd hn => ?_, fun fi fo s input output n r h =>
    fmd_process_fields fi fo s input output n r h,
    fun fi fo s input output n r hn hf h i hi =>
      fmd_process_silent fi fo s input output n r hn hf h i hi, ?_⟩
  · obtain ⟨s1, h1, h2, h3, _⟩ := fmd_add_delay_fields s d w h0 hd hn
    exact ⟨s1, h1, h2, h3⟩
  · obtain ⟨r, hr⟩ := Option.isSome_iff_exists.mp exFading_process_isSome
    obtain ⟨h1, h2, h3⟩ := fmd_process_fields _ _ _ _ _ _ _ hr
    exact ⟨_, r, exFading_add_delay, rfl, hr, h1, h2, h3⟩

end FadingClaims

end laproque
